import Mathlib

/-!
# vln: a line editor with a history ring (Egahp/vln, `vln.c`)

Shallow embedding of `vln.c` in its default configuration
(`CFG_VLN_DEBUG = 0`, `CFG_VLN_HISTORY = 1`, `CFG_VLN_XTERM = 0`).

* Memory regions (the caller's line buffer, the history ring, the 16 byte
  sequence buffer) are functions from a byte offset to a byte value.
* `uint16_t` fields are natural numbers; every C assignment to such a field is
  wrapped with `u16`, the C expression being evaluated over the integers as the
  integer promotions do.
* The line buffer starts with the header `size` (bytes 0 and 1) and `mask`
  (bytes 2 and 3), stored little endian, as `vln_history_load` itself assumes
  when it reads the size through a 32 bit load; `pbuf[i]` is byte `4 + i`.
* The transport is the list `tx` of the bytes handed to `sput`, in order; the
  bytes delivered by `sget` are an input list, and an empty input list means
  that `vln_waitkey` never returns.
-/

namespace Vln

/-- Byte addressed memory region. -/
abbrev Mem := Nat → Nat

/-- Conversion of a C integer expression to `uint16_t`. -/
def u16 (x : Int) : Nat := (x % 65536).toNat

/-- Store of one byte. -/
def wr (m : Mem) (i v : Nat) : Mem := fun j => if j = i then v else m j

/-- Field `size` of the line buffer header. -/
def getSize (m : Mem) : Nat := m 0 + 256 * m 1

/-- Field `mask` of the line buffer header. -/
def getMask (m : Mem) : Nat := m 2 + 256 * m 3

/-- Assignment to the field `size` of the line buffer header. -/
def setSize (m : Mem) (v : Nat) : Mem := wr (wr m 0 (v % 256)) 1 (v / 256 % 256)

/-- Assignment to the field `mask` of the line buffer header. -/
def setMask (m : Mem) (v : Nat) : Mem := wr (wr m 2 (v % 256)) 3 (v / 256 % 256)

/-- The `n` bytes of a region starting at offset `off`. -/
def bytesAt (m : Mem) (off n : Nat) : List Nat := (List.range n).map (fun i => m (off + i))

/-- The library `memmove` inside one region: `n` bytes from `src` to `dst`. -/
def memmove (m : Mem) (dst src n : Nat) : Mem :=
  fun j => if dst ≤ j ∧ j < dst + n then m (src + (j - dst)) else m j

/-- The session object `vln_t` together with the bytes written to the transport. -/
structure vln_t where
  /-- Bytes of the prompt string in front of its terminating NUL. -/
  prompt : List Nat
  /-- Region `ln.buff` points to. -/
  lnbuf : Mem
  /-- Whether `ln.buff` is bound (non null). -/
  bound : Bool
  pptoff : Nat
  pptlen : Nat
  lnmax : Nat
  curoff : Nat
  lnmask : Nat
  nsupt : Nat
  alt : Nat
  row : Nat
  col : Nat
  /-- Region `hist.pbuf` points to. -/
  hpbuf : Mem
  hin : Nat
  hout : Nat
  hmask : Nat
  hsize : Nat
  hcache : Nat
  hindex : Nat
  /-- Bytes handed to `sput` so far. -/
  tx : List Nat

/-- Payload of a line buffer: the first `size` bytes of `pbuf`. -/
def payloadOf (m : Mem) : List Nat := bytesAt m 4 (getSize m)

/-- Payload of the line being edited. -/
def payload (s : vln_t) : List Nat := payloadOf s.lnbuf

/-- The macro `vln_put`: the transport takes all the bytes. -/
def vln_put (s : vln_t) (bytes : List Nat) : vln_t := { s with tx := s.tx ++ bytes }

/-! ## Sequence emitter -/

/-- First loop of `vln_print_integer`: the digits pushed to `intbuf`, least
significant first. The fuel is the length of `intbuf`. -/
def vln_print_digits : Nat → Nat → List Nat
  | 0, _ => []
  | fuel + 1, value =>
    (48 + value % 10) % 256 :: (if value / 10 ≠ 0 then vln_print_digits fuel (value / 10) else [])

/-- Stores a list of bytes at consecutive offsets. -/
def wrList (buf : Mem) (idx : Nat) : List Nat → Mem
  | [] => buf
  | b :: bs => wrList (wr buf idx b) (idx + 1) bs

/-- The function `vln_print_integer`: the second loop pops `intbuf` into `buf` at `idx`. -/
def vln_print_integer (buf : Mem) (idx : Nat) (value : Nat) : Mem × Nat :=
  let ds := (vln_print_digits 5 (value % 65536)).reverse
  (wrList buf idx ds, idx + ds.length)

/-- The function `vln_seqgen_csi`. -/
def vln_seqgen_csi (buf : Mem) (idx : Nat) : Mem × Nat :=
  (wr (wr buf idx 27) (idx + 1) 91, idx + 2)

/-- The function `vln_seqgen_csi1`. -/
def vln_seqgen_csi1 (buf : Mem) (idx : Nat) (c : Nat) (pn : Nat) : Mem × Nat :=
  let r1 := vln_seqgen_csi buf idx
  let r2 := vln_print_integer r1.1 r1.2 pn
  (wr r2.1 r2.2 c, r2.2 + 1)

/-- The function `vln_seqgen_cursor_absolute` (final byte `G`). -/
def vln_seqgen_cursor_absolute (buf : Mem) (idx : Nat) (pn : Nat) : Mem × Nat :=
  vln_seqgen_csi1 buf idx 71 pn

/-- The function `vln_seqgen_erase_display` (final byte `J`). -/
def vln_seqgen_erase_display (buf : Mem) (idx : Nat) (pn : Nat) : Mem × Nat :=
  vln_seqgen_csi1 buf idx 74 pn

/-! ## Line editor -/

/-- The function `vln_edit_refresh` (with `ln.buff` bound). -/
def vln_edit_refresh (s : vln_t) : vln_t :=
  let linesize := getSize s.lnbuf
  let curoff := s.curoff
  let pptoff := s.pptoff
  let scroll := decide (pptoff + curoff ≥ s.col)
  let diff := u16 ((pptoff : Int) + curoff - s.col + 1)
  let view := if scroll then diff else 0
  let linesize := if scroll then u16 ((linesize : Int) - diff) else linesize
  let curoff := if scroll then u16 ((curoff : Int) - diff) else curoff
  let linesize :=
    if pptoff + linesize > s.col then u16 ((linesize : Int) - (((pptoff : Int) + linesize) - s.col))
    else linesize
  let r1 := vln_seqgen_cursor_absolute (fun _ => 0) 0 (u16 ((pptoff : Int) + 1))
  let s1 := vln_put s (bytesAt r1.1 0 r1.2)
  let s2 := if getMask s.lnbuf = 0 then vln_put s1 (bytesAt s.lnbuf (4 + view) linesize) else s1
  let r2 := vln_seqgen_erase_display r1.1 0 0
  let r3 := vln_seqgen_cursor_absolute r2.1 r2.2 (u16 ((pptoff : Int) + curoff + 1))
  vln_put s2 (bytesAt r3.1 0 r3.2)

/-- The function `vln_edit_clear`. -/
def vln_edit_clear (s : vln_t) : vln_t :=
  let s1 := vln_put s [27, 91, 50, 74, 27, 91, 49, 59, 49, 72]
  let s2 := vln_put s1 (s.prompt.take s.pptlen)
  vln_edit_refresh s2

/-- The function `vln_edit_insert`. The `memmove` count `size - curoff` is a
natural number: the embedding covers the states with `curoff ≤ size`. -/
def vln_edit_insert (s : vln_t) (c : Nat) : vln_t :=
  let size := getSize s.lnbuf
  if size < s.lnmax then
    let m1 :=
      if size ≠ s.curoff then memmove s.lnbuf (4 + s.curoff + 1) (4 + s.curoff) (size - s.curoff)
      else s.lnbuf
    let m2 := wr m1 (4 + s.curoff) c
    let curoff := u16 ((s.curoff : Int) + 1)
    let m3 := setSize m2 (u16 ((size : Int) + 1))
    let s1 := { s with lnbuf := m3, curoff := curoff }
    if getSize m3 ≠ curoff then vln_edit_refresh s1
    else vln_put s1 [if getMask m3 ≠ 0 then 32 else c]
  else s

/-- The function `vln_edit_backspace`. -/
def vln_edit_backspace (s : vln_t) : vln_t :=
  let size := getSize s.lnbuf
  if s.curoff > 0 ∧ size > 0 then
    let m1 := memmove s.lnbuf (4 + s.curoff - 1) (4 + s.curoff) (size - s.curoff)
    let m2 := setSize m1 (u16 ((size : Int) - 1))
    vln_edit_refresh { s with lnbuf := m2, curoff := u16 ((s.curoff : Int) - 1) }
  else s

/-- The function `vln_edit_delete`. -/
def vln_edit_delete (s : vln_t) : vln_t :=
  let size := getSize s.lnbuf
  if s.curoff < size ∧ size > 0 then
    let m1 := memmove s.lnbuf (4 + s.curoff) (4 + s.curoff + 1) (size - s.curoff - 1)
    let m2 := setSize m1 (u16 ((size : Int) - 1))
    vln_edit_refresh { s with lnbuf := m2 }
  else s

/-- The function `vln_edit_moveleft`. -/
def vln_edit_moveleft (s : vln_t) : vln_t :=
  if s.curoff > 0 then vln_edit_refresh { s with curoff := u16 ((s.curoff : Int) - 1) } else s

/-- The function `vln_edit_moveright`. -/
def vln_edit_moveright (s : vln_t) : vln_t :=
  if s.curoff < getSize s.lnbuf then vln_edit_refresh { s with curoff := u16 ((s.curoff : Int) + 1) }
  else s

/-- The function `vln_edit_movehome`. -/
def vln_edit_movehome (s : vln_t) : vln_t :=
  vln_edit_refresh { s with curoff := 0 }

/-- The function `vln_edit_moveend`. -/
def vln_edit_moveend (s : vln_t) : vln_t :=
  vln_edit_refresh { s with curoff := getSize s.lnbuf }

/-- The function `vln_edit_delline`. -/
def vln_edit_delline (s : vln_t) : vln_t :=
  vln_edit_refresh { s with lnbuf := setSize s.lnbuf 0, curoff := 0 }

/-- The function `vln_edit_delend`. -/
def vln_edit_delend (s : vln_t) : vln_t :=
  vln_edit_refresh { s with lnbuf := setSize s.lnbuf s.curoff }

/-- First loop of `vln_edit_delword`: `while (curoff > 0 && pbuf[curoff] == ' ') curoff--`. -/
def delword_spaces (m : Mem) : Nat → Nat
  | 0 => 0
  | c + 1 => if m (4 + (c + 1)) = 32 then delword_spaces m c else c + 1

/-- Second loop of `vln_edit_delword`: `while (curoff > 0 && pbuf[curoff] != ' ') curoff--`. -/
def delword_word (m : Mem) : Nat → Nat
  | 0 => 0
  | c + 1 => if m (4 + (c + 1)) ≠ 32 then delword_word m c else c + 1

/-- The function `vln_edit_delword`. -/
def vln_edit_delword (s : vln_t) : vln_t :=
  let size := getSize s.lnbuf
  let curoff := delword_word s.lnbuf (delword_spaces s.lnbuf s.curoff)
  let m1 := memmove s.lnbuf (4 + curoff) (4 + s.curoff) (size - s.curoff + 1)
  let m2 := setSize m1 (u16 ((size : Int) - ((s.curoff : Int) - curoff)))
  vln_edit_refresh { s with lnbuf := m2, curoff := curoff }

/-- The function `vln_help`: the text `CFG_VLN_HELP` of `vln.h`. -/
def CFG_VLN_HELP : List Nat :=
  ("\r\n" ++
   "\t+-------------------------------------+\r\n" ++
   "\t|           \x1b[1;34mVector Read Line\x1b[m          |\r\n" ++
   "\t|                                     |\r\n" ++
   "\t| -> CTRL + ^  return normal screen   |\r\n" ++
   "\t| -> CTRL + L  clear screen           |\r\n" ++
   "\t| -> ENTER     end of line            |\r\n" ++
   "\t| -> TAB       auto complete          |\r\n" ++
   "\t| -> UP        fetch prev history     |\r\n" ++
   "\t| -> DOWN      fetch next history     |\r\n" ++
   "\t+-------------------------------------+\r\n").toList.map Char.toNat

/-- The function `vln_help`. -/
def vln_help (s : vln_t) : vln_t :=
  if CFG_VLN_HELP.length ≠ 0 then vln_put s CFG_VLN_HELP else s

/-! ## History ring -/

/-- Copies the 32 bit word at offset `pin` of `src` to offset `pout` of `dst`. -/
def copyWord (dst : Mem) (pout : Nat) (src : Mem) (pin : Nat) : Mem :=
  fun j => if pout ≤ j ∧ j < pout + 4 then src (pin + (j - pout)) else dst j

/-- The loop of `vln_rvsememcpy4`, `for (; n > 0; n -= 4) *pout++ = *pin--`, with
`n` a 32 bit `size_t`; `none` when the fuel runs out. -/
def vln_rvsememcpy4_loop : Nat → Mem → Nat → Mem → Nat → Nat → Option Mem
  | 0, _, _, _, _, _ => none
  | fuel + 1, dst, pout, src, pin, n =>
    if n > 0 then
      vln_rvsememcpy4_loop fuel (copyWord dst pout src pin) (pout + 4) src (pin - 4)
        ((n + 4294967296 - 4) % 4294967296)
    else some dst

/-- The function `vln_rvsememcpy4(dst + d, src + s, n)`. The fuel `n / 4 + 1` is
enough for every count that is a multiple of 4; for any other count the counter
never reaches 0 and the result is `none`. -/
def vln_rvsememcpy4 (dst : Mem) (d : Nat) (src : Mem) (s : Nat) (n : Nat) : Option Mem :=
  vln_rvsememcpy4_loop (n / 4 + 1) dst d src (s - 4) n

/-- The function `vln_align4` on `uint32_t`. -/
def vln_align4 (size : Nat) : Nat :=
  if size % 4 ≠ 0 then (size / 4 * 4 + 4) % 4294967296 else size

/-- Little endian 32 bit load `((uint32_t *)(m + off))[0]`. -/
def rd32 (m : Mem) (off : Nat) : Nat :=
  m off + 256 * m (off + 1) + 65536 * m (off + 2) + 16777216 * m (off + 3)

/-- The function `vln_history_cache`; `none` when a copy does not terminate. -/
def vln_history_cache (s : vln_t) : Option vln_t :=
  let unused := u16 ((s.hsize : Int) - ((s.hcache : Int) - s.hout))
  let lnsize := vln_align4 (getSize s.lnbuf + 4) % 65536
  let out := if lnsize > unused then u16 ((s.hout : Int) + ((lnsize : Int) - unused)) else s.hout
  let offset := s.hcache &&& s.hmask
  let remain := u16 ((s.hsize : Int) - offset)
  let remain := if remain > lnsize then lnsize else remain
  let dst := lnsize
  match vln_rvsememcpy4 s.hpbuf offset s.lnbuf dst remain with
  | none => none
  | some ring1 =>
    match vln_rvsememcpy4 ring1 0 s.lnbuf (dst - remain) (lnsize - remain) with
    | none => none
    | some ring2 =>
      some { s with hout := out, hpbuf := ring2, hin := u16 ((s.hcache : Int) + lnsize) }

/-- The function `vln_history_store`. -/
def vln_history_store (s : vln_t) : Option vln_t :=
  if getSize s.lnbuf > 0 then
    match vln_history_cache s with
    | none => none
    | some s1 => some { s1 with hcache := s1.hin }
  else some s

/-- The `do ... while (count--)` loop of `vln_history_load`. The result is the
pair `(histin, lnsize)` on leaving the loop, or `none` when the loop body
executes `return 0`. -/
def vln_history_walk (s : vln_t) : Nat → Nat → Nat → Nat → Option (Nat × Nat)
  | count, histin, lnsize, prevused =>
    let histin := u16 ((histin : Int) - lnsize)
    let used := u16 ((histin : Int) - s.hout)
    if used = 0 ∨ used > prevused then none
    else
      let offset := u16 ((histin : Int) - 4) &&& s.hmask
      let lnsize := vln_align4 ((rd32 s.hpbuf offset + 4) % 4294967296) % 65536
      if lnsize > used then none
      else
        match count with
        | 0 => some (histin, lnsize)
        | c + 1 => vln_history_walk s c histin lnsize used

/-- The part of `vln_history_load` after the optional caching of the live line. -/
def vln_history_fetch (s : vln_t) (index : Nat) : Option vln_t :=
  match vln_history_walk s index s.hin 0 (u16 ((s.hin : Int) - s.hout)) with
  | none => some s
  | some (histin, lnsize) =>
    let offset := u16 ((histin : Int) - lnsize) &&& s.hmask
    let remain := u16 ((s.hsize : Int) - offset)
    let remain := if remain > lnsize then lnsize else remain
    let lnsize := lnsize - remain
    match vln_rvsememcpy4 s.lnbuf lnsize s.hpbuf (offset + remain) remain with
    | none => none
    | some buf1 =>
      match vln_rvsememcpy4 buf1 0 s.hpbuf lnsize lnsize with
      | none => none
      | some buf2 =>
        some (vln_edit_refresh { s with lnbuf := buf2, curoff := getSize buf2, hindex := index })

/-- The function `vln_history_load`; `none` when a copy does not terminate. -/
def vln_history_load (s : vln_t) (index : Nat) : Option vln_t :=
  match (if s.hindex = 0 then vln_history_cache s else some s) with
  | none => none
  | some s1 => vln_history_fetch s1 index

/-- The function `vln_history_loadprev`. -/
def vln_history_loadprev (s : vln_t) : Option vln_t :=
  vln_history_load s (u16 ((s.hindex : Int) + 1))

/-- The function `vln_history_loadnext`. -/
def vln_history_loadnext (s : vln_t) : Option vln_t :=
  vln_history_load s (if s.hindex > 0 then s.hindex - 1 else 0)

/-! ## Input dispatcher -/

abbrev VLN_EXEC_NUL : Nat := 0
abbrev VLN_EXEC_CLR : Nat := 1
abbrev VLN_EXEC_NLN : Nat := 2
abbrev VLN_EXEC_ALN : Nat := 3
abbrev VLN_EXEC_DEL : Nat := 4
abbrev VLN_EXEC_BS : Nat := 5
abbrev VLN_EXEC_MVRT : Nat := 6
abbrev VLN_EXEC_MVLT : Nat := 7
abbrev VLN_EXEC_MVED : Nat := 8
abbrev VLN_EXEC_MVHM : Nat := 9
abbrev VLN_EXEC_NXTH : Nat := 10
abbrev VLN_EXEC_PRVH : Nat := 11
abbrev VLN_EXEC_DLWD : Nat := 12
abbrev VLN_EXEC_DHLN : Nat := 13
abbrev VLN_EXEC_DELN : Nat := 14
abbrev VLN_EXEC_SCPT : Nat := 15
abbrev VLN_EXEC_ACPT : Nat := 16
abbrev VLN_EXEC_SWNM : Nat := 17
abbrev VLN_EXEC_HELP : Nat := 18
abbrev VLN_EXEC_F1 : Nat := 19
abbrev VLN_EXEC_F2 : Nat := 20
abbrev VLN_EXEC_F3 : Nat := 21
abbrev VLN_EXEC_F4 : Nat := 22
abbrev VLN_EXEC_F5 : Nat := 23
abbrev VLN_EXEC_F6 : Nat := 24
abbrev VLN_EXEC_F7 : Nat := 25
abbrev VLN_EXEC_F8 : Nat := 26
abbrev VLN_EXEC_F9 : Nat := 27
abbrev VLN_EXEC_F10 : Nat := 28
abbrev VLN_EXEC_F11 : Nat := 29
abbrev VLN_EXEC_F12 : Nat := 30

/-- The table `vtmap`. -/
def vtmap : List Nat :=
  [VLN_EXEC_NUL, VLN_EXEC_MVHM, VLN_EXEC_NUL, VLN_EXEC_DEL, VLN_EXEC_MVED, VLN_EXEC_NUL,
   VLN_EXEC_NUL, VLN_EXEC_MVHM, VLN_EXEC_MVED, VLN_EXEC_NUL, VLN_EXEC_NUL, VLN_EXEC_F1,
   VLN_EXEC_F2, VLN_EXEC_F3, VLN_EXEC_F4, VLN_EXEC_F5, VLN_EXEC_NUL, VLN_EXEC_F6, VLN_EXEC_F7,
   VLN_EXEC_F8, VLN_EXEC_F9, VLN_EXEC_F10, VLN_EXEC_NUL, VLN_EXEC_F11, VLN_EXEC_F12]

/-- The table `xmap`. -/
def xmap : List Nat :=
  [VLN_EXEC_NUL, VLN_EXEC_PRVH, VLN_EXEC_NXTH, VLN_EXEC_MVRT, VLN_EXEC_MVLT, VLN_EXEC_NUL,
   VLN_EXEC_MVED, VLN_EXEC_NUL, VLN_EXEC_MVHM, VLN_EXEC_NUL, VLN_EXEC_NUL, VLN_EXEC_NUL,
   VLN_EXEC_NUL, VLN_EXEC_NUL, VLN_EXEC_NUL, VLN_EXEC_NUL, VLN_EXEC_F1, VLN_EXEC_F2,
   VLN_EXEC_F3, VLN_EXEC_F4]

/-- The table `c0map`. -/
def c0map : List Nat :=
  [VLN_EXEC_NUL, VLN_EXEC_MVHM, VLN_EXEC_MVLT, VLN_EXEC_ALN, VLN_EXEC_DEL, VLN_EXEC_MVED,
   VLN_EXEC_MVRT, VLN_EXEC_ALN, VLN_EXEC_BS, VLN_EXEC_NUL, VLN_EXEC_NLN, VLN_EXEC_DELN,
   VLN_EXEC_CLR, VLN_EXEC_NLN, VLN_EXEC_NXTH, VLN_EXEC_NLN, VLN_EXEC_PRVH, VLN_EXEC_NUL,
   VLN_EXEC_NUL, VLN_EXEC_NUL, VLN_EXEC_NUL, VLN_EXEC_DHLN, VLN_EXEC_NUL, VLN_EXEC_DLWD,
   VLN_EXEC_NUL, VLN_EXEC_NUL, VLN_EXEC_ALN, VLN_EXEC_NUL, VLN_EXEC_NUL, VLN_EXEC_NUL,
   VLN_EXEC_SWNM, VLN_EXEC_HELP]

/-- The function `vln_dispatch_csi`: the new state, the action left in `*c` and
the parameter vector. -/
def vln_dispatch_csi (s : vln_t) (c : Nat) (pns : Mem) : vln_t × Nat × Mem :=
  if c = 126 then
    let pns := if pns 0 ≥ 25 then wr pns 0 0 else pns
    (s, vtmap.getD (pns 0) 0, pns)
  else if c = 116 then
    if pns 0 = 8 then
      let s1 := { s with nsupt := 0, row := pns 1, col := pns 2 }
      let s2 := vln_put s1 [27, 91, 63, 52, 55, 104, 27, 91, 50, 74, 27, 91, 49, 59, 49, 72]
      let s3 := vln_help s2
      (vln_put s3 [27, 91, 63, 52, 55, 108], VLN_EXEC_NUL, pns)
    else (s, VLN_EXEC_NUL, pns)
  else
    let idx := ((c : Int) - 64) % 256
    let idx := if idx ≥ 20 then 0 else idx.toNat
    (s, xmap.getD idx 0, pns)

/-- The function `vln_dispatch_ctrl`, called with a byte below `0x20`. -/
def vln_dispatch_ctrl (c : Nat) : Nat := c0map.getD c 0

/-! ## Sequence parser -/

/-- The loop of `vln_parse_integer`, reading `buf` from offset `pos`. The fuel
bounds the number of digits read. -/
def vln_parse_integer_loop (buf : Mem) : Nat → Nat → Nat → Nat
  | 0, _, value => value
  | fuel + 1, pos, value =>
    if 48 ≤ buf pos ∧ buf pos ≤ 57 then
      vln_parse_integer_loop buf fuel (pos + 1)
        (u16 ((u16 ((value : Int) * 10) : Int) + ((buf pos : Int) - 48)))
    else value

/-- The function `vln_parse_integer(csibuf, ..)` called when `csibuf[pb]` holds the
byte just read, which is not a digit: at most `pb` digits are read. -/
def vln_parse_integer (csibuf : Mem) (pb : Nat) : Nat :=
  vln_parse_integer_loop csibuf (pb + 1) 0 0

/-- Result of the sequence parser. -/
inductive PcsiResult where
  /-- Return value 0: final byte, prefix byte, parameter vector, number of
  parameters stored, unread input. -/
  | ok (csiend expre : Nat) (pns : Mem) (np : Nat) (rest : List Nat)
  /-- Return value -1 and the unread input. -/
  | err (rest : List Nat)
  /-- The input ended: `vln_waitkey` does not return. -/
  | blocked

/-- The `for (;;)` loop of `vln_seqexec_pcsi`: `pb` is the offset of `pbuf` in
`csibuf`, `np` the number of parameters stored through `pns++`. -/
def vln_seqexec_pcsi_loop (csibuf : Mem) (pb : Nat) (expre : Nat) (pns : Mem) (np : Nat) :
    List Nat → PcsiResult
  | [] => .blocked
  | c :: rest =>
    let csibuf := wr csibuf pb c
    if 48 ≤ c ∧ c ≤ 57 then vln_seqexec_pcsi_loop csibuf (pb + 1) expre pns np rest
    else if c = 59 then
      vln_seqexec_pcsi_loop csibuf 0 expre (wr pns np (vln_parse_integer csibuf pb)) (np + 1) rest
    else if c = 126 ∨ (97 ≤ c ∧ c ≤ 122) ∨ (65 ≤ c ∧ c ≤ 90) then
      .ok c expre (wr pns np (vln_parse_integer csibuf pb)) (np + 1) rest
    else .err rest

/-- The function `vln_seqexec_pcsi`. -/
def vln_seqexec_pcsi (pns : Mem) : List Nat → PcsiResult
  | [] => .blocked
  | c :: rest =>
    let csibuf : Mem := wr (fun _ => 0) 0 c
    if 48 ≤ c ∧ c ≤ 57 then vln_seqexec_pcsi_loop csibuf 1 0 pns 0 rest
    else if c = 63 then vln_seqexec_pcsi_loop csibuf 0 c pns 0 rest
    else if (97 ≤ c ∧ c ≤ 122) ∨ (65 ≤ c ∧ c ≤ 90) then .ok c 0 pns 0 rest
    else vln_seqexec_pcsi_loop csibuf 0 0 pns 0 rest

/-- Result of `vln_seqexec`. -/
inductive SeqResult where
  /-- Return value 0: state, action left in `*c`, parameter vector, unread input. -/
  | ok (s : vln_t) (c : Nat) (pns : Mem) (rest : List Nat)
  /-- Return value -1. -/
  | err (s : vln_t) (rest : List Nat)
  /-- The input ended: `vln_waitkey` does not return. -/
  | blocked (s : vln_t)

/-- The function `vln_seqexec_csi`. -/
def vln_seqexec_csi (s : vln_t) (pns : Mem) (input : List Nat) : SeqResult :=
  match vln_seqexec_pcsi pns input with
  | .blocked => .blocked s
  | .err rest => .err s rest
  | .ok csiend expre pns _ rest =>
    let c := if expre ≠ 0 then 0 else csiend
    let r := vln_dispatch_csi s c pns
    .ok r.1 r.2.1 r.2.2 rest

/-- The function `vln_seqexec`, covering `vln_seqexec_o` and `vln_seqexec_alt`. -/
def vln_seqexec (s : vln_t) (pns : Mem) : List Nat → SeqResult
  | [] => .blocked s
  | c :: rest =>
    if c = 79 then
      match rest with
      | [] => .blocked s
      | _ :: rest1 => .ok s VLN_EXEC_NUL pns rest1
    else if c = 91 then vln_seqexec_csi s pns rest
    else .ok s VLN_EXEC_NUL pns rest

/-! ## Session driver -/

/-- The loop of `vln_calculate_prompt`: every turn reads `prompt[pptlen]` with the
`uint16_t` index `pptlen`; the byte behind the list is the terminating NUL. One
unit of fuel per turn, `none` when the fuel runs out. -/
def vln_calculate_prompt_loop (prompt : List Nat) : Nat → Nat → Nat → Nat → Option (Nat × Nat)
  | 0, _, _, _ => none
  | fuel + 1, flag, pptlen, pptoff =>
    if prompt.getD pptlen 0 = 0 then some (pptlen, pptoff)
    else if prompt.getD pptlen 0 = 27 then
      vln_calculate_prompt_loop prompt fuel 1 (u16 ((pptlen : Int) + 1)) pptoff
    else if flag = 0 then
      vln_calculate_prompt_loop prompt fuel flag (u16 ((pptlen : Int) + 1))
        (u16 ((pptoff : Int) + 1))
    else if flag = 1 ∧ prompt.getD pptlen 0 = 109 then
      vln_calculate_prompt_loop prompt fuel 0 (u16 ((pptlen : Int) + 1)) pptoff
    else vln_calculate_prompt_loop prompt fuel flag (u16 ((pptlen : Int) + 1)) pptoff

/-- The function `vln_calculate_prompt`; `none` when its loop does not return.
The fuel 65536 is enough for every run that returns: after 65536 turns without
a NUL the index `pptlen` has taken every value and is 0 again, so the same bytes
are read for ever. -/
def vln_calculate_prompt (s : vln_t) : Option vln_t :=
  match vln_calculate_prompt_loop s.prompt 65536 0 0 0 with
  | none => none
  | some r => some { s with pptlen := r.1, pptoff := r.2 }

/-- What one turn of the `while (1)` loop of `vln_inernal` does after the key is decoded. -/
inductive ExecResult where
  /-- The `switch` ends with `break`: the loop goes on. -/
  | next (s : vln_t)
  /-- The statement `return vln->ln.buff->pbuf`. -/
  | done (s : vln_t)
  /-- A history copy does not terminate. -/
  | hang

/-- Wraps the result of a history operation that `break`s out of the `switch`. -/
def ExecResult.ofOption : Option vln_t → ExecResult
  | none => .hang
  | some s => .next s

/-- The `switch (c)` of `vln_inernal`. -/
def vln_exec (s : vln_t) (c : Nat) : ExecResult :=
  if c = VLN_EXEC_CLR then .next (vln_edit_clear s)
  else if c = VLN_EXEC_NLN then
    match vln_history_store s with
    | none => .hang
    | some s1 => .done s1
  else if c = VLN_EXEC_ALN then .done { s with lnbuf := setSize s.lnbuf 0 }
  else if c = VLN_EXEC_DEL then .next (vln_edit_delete s)
  else if c = VLN_EXEC_BS then .next (vln_edit_backspace s)
  else if c = VLN_EXEC_MVRT then .next (vln_edit_moveright s)
  else if c = VLN_EXEC_MVLT then .next (vln_edit_moveleft s)
  else if c = VLN_EXEC_MVED then .next (vln_edit_moveend s)
  else if c = VLN_EXEC_MVHM then .next (vln_edit_movehome s)
  else if c = VLN_EXEC_NXTH then ExecResult.ofOption (vln_history_loadnext s)
  else if c = VLN_EXEC_PRVH then ExecResult.ofOption (vln_history_loadprev s)
  else if c = VLN_EXEC_DLWD then .next (vln_edit_delword s)
  else if c = VLN_EXEC_DHLN then .next (vln_edit_delline s)
  else if c = VLN_EXEC_DELN then .next (vln_edit_delend s)
  else if c = VLN_EXEC_HELP then
    let s1 := vln_help s
    .done { s1 with lnbuf := setSize s1.lnbuf 0 }
  else .next s

/-- How a call of `vln_inernal` or `vln` ends. -/
inductive Outcome where
  /-- The call returns: final state, whether the returned pointer is non null,
  unread input. -/
  | ret (s : vln_t) (ok : Bool) (rest : List Nat)
  /-- The input ended: the call waits in `vln_waitkey`, in this state. -/
  | blocked (s : vln_t)
  /-- A history copy does not terminate. -/
  | hang
  /-- The loop of `vln_calculate_prompt` does not terminate. -/
  | noprompt
  /-- The fuel of the embedding ran out. -/
  | nofuel

/-- The `while (1)` loop of `vln_inernal`; `pn` is the array `pn[4]`, which is not
initialised by the code. One unit of fuel per key. -/
def vln_inernal_loop : Nat → vln_t → Mem → List Nat → Outcome
  | 0, _, _, _ => .nofuel
  | _ + 1, s, _, [] => .blocked s
  | fuel + 1, s, pn, c :: rest =>
    if c &&& 128 ≠ 0 then vln_inernal_loop fuel s pn rest
    else if 32 ≤ c ∧ c ≤ 126 then vln_inernal_loop fuel (vln_edit_insert s c) pn rest
    else if 32 ≤ c then
      match vln_exec s VLN_EXEC_BS with
      | .next s1 => vln_inernal_loop fuel s1 pn rest
      | .done s1 => .ret s1 true rest
      | .hang => .hang
    else if c = 27 then
      match vln_seqexec s pn rest with
      | .blocked s1 => .blocked s1
      | .err s1 rest1 => .ret s1 false rest1
      | .ok s1 c1 pn1 rest1 =>
        match vln_exec s1 c1 with
        | .next s2 => vln_inernal_loop fuel s2 pn1 rest1
        | .done s2 => .ret s2 true rest1
        | .hang => .hang
    else
      match vln_exec s (vln_dispatch_ctrl c) with
      | .next s1 => vln_inernal_loop fuel s1 pn rest
      | .done s1 => .ret s1 true rest
      | .hang => .hang

/-- The function `vln_inernal`. Every turn of the loop reads at least one byte,
so the fuel is enough for the whole input. -/
def vln_inernal (s : vln_t) (pn : Mem) (input : List Nat) : Outcome :=
  vln_inernal_loop (input.length + 1) (vln_put s (s.prompt.take s.pptlen)) pn input

/-- The first statements of `vln`: they bind the caller's buffer `linebuff` of
`buffsize` bytes and start a fresh, empty line. -/
def vln_begin (s : vln_t) (linebuff : Mem) (buffsize : Nat) : vln_t :=
  { s with
    lnbuf := setMask (setSize linebuff 0) s.lnmask
    bound := true
    lnmax := u16 ((buffsize : Int) - 5)
    curoff := 0
    hindex := 0 }

/-- The function `vln`: `linebuff` is the content of the caller's buffer of
`buffsize` bytes, `pn` the content of the stack slot of `pn[4]`. The value stored
to `*linesize` is the `size` field of the final line buffer. -/
def vln (s : vln_t) (linebuff : Mem) (buffsize : Nat) (pn : Mem) (input : List Nat) : Outcome :=
  match vln_calculate_prompt (vln_begin s linebuff buffsize) with
  | none => .noprompt
  | some s2 =>
    match vln_inernal s2 pn input with
    | .ret s3 ok rest =>
      let s4 := vln_put s3 [13, 10]
      let linesize := getSize s4.lnbuf
      .ret { s4 with lnbuf := wr s4.lnbuf (4 + linesize) 0, bound := false } ok rest
    | r => r

/-- The structure `vln_init_t` with non null pointers. -/
structure vln_init_t where
  prompt : List Nat
  history : Mem
  histsize : Nat

/-- The function `vln_init` called with non null pointers (the parameter checks
are compiled out in the default configuration). `histsize` is a `uint32_t`. -/
def vln_init (s : vln_t) (init : vln_init_t) : vln_t :=
  { s with
    prompt := init.prompt
    hpbuf := init.history
    hin := 0
    hout := 0
    hmask := u16 ((init.histsize : Int) - 1)
    hsize := u16 (init.histsize : Int)
    hcache := 0
    nsupt := 1
    alt := 0
    row := 20
    col := 80
    bound := false }

/-- The function `vln_mask`. -/
def vln_mask (s : vln_t) (mask : Nat) : vln_t :=
  let s1 := { s with lnmask := if mask ≠ 0 then 1 else 0 }
  if s1.bound then vln_edit_refresh { s1 with lnbuf := setMask s1.lnbuf s1.lnmask } else s1

/-- The window arithmetic of `vln_edit_refresh`, on its own: the offset of the
view in the payload (`linebuff - pbuf`), the number of bytes shown (`linesize`)
and the cursor inside the view (`curoff`), as they are when the output starts. -/
def refresh_window (s : vln_t) : Nat × Nat × Nat :=
  let linesize := getSize s.lnbuf
  let curoff := s.curoff
  let pptoff := s.pptoff
  let scroll := decide (pptoff + curoff ≥ s.col)
  let diff := u16 ((pptoff : Int) + curoff - s.col + 1)
  let view := if scroll then diff else 0
  let linesize := if scroll then u16 ((linesize : Int) - diff) else linesize
  let curoff := if scroll then u16 ((curoff : Int) - diff) else curoff
  let linesize :=
    if pptoff + linesize > s.col then u16 ((linesize : Int) - (((pptoff : Int) + linesize) - s.col))
    else linesize
  (view, linesize, curoff)

/-! ## Sequence emitters with several parameters, SGR composer, checked `vln_init` -/

/-- The function `vln_seqgen_csi2`: the source prints `pn` twice and never reads
`pn2`. -/
def vln_seqgen_csi2 (buf : Mem) (idx : Nat) (c : Nat) (pn _pn2 : Nat) : Mem × Nat :=
  let r1 := vln_seqgen_csi buf idx
  let r2 := vln_print_integer r1.1 r1.2 pn
  let r3 := vln_print_integer (wr r2.1 r2.2 59) (r2.2 + 1) pn
  (wr r3.1 r3.2 c, r3.2 + 1)

/-- The function `vln_seqgen_csi3`: the source prints `pn` three times and never
reads `pn2` and `pn3`. -/
def vln_seqgen_csi3 (buf : Mem) (idx : Nat) (c : Nat) (pn _pn2 _pn3 : Nat) : Mem × Nat :=
  let r1 := vln_seqgen_csi buf idx
  let r2 := vln_print_integer r1.1 r1.2 pn
  let r3 := vln_print_integer (wr r2.1 r2.2 59) (r2.2 + 1) pn
  let r4 := vln_print_integer (wr r3.1 r3.2 59) (r3.2 + 1) pn
  (wr r4.1 r4.2 c, r4.2 + 1)

/-- The function `vln_seqgen_cursor_position` (final byte `H`). -/
def vln_seqgen_cursor_position (buf : Mem) (idx : Nat) (pn1 pn2 : Nat) : Mem × Nat :=
  vln_seqgen_csi2 buf idx 72 pn1 pn2

/-- The bit fields of `vln_sgr_t`. -/
structure vln_sgr_t where
  foreground : Nat
  bold : Nat
  underline : Nat
  background : Nat
  blink : Nat
  inverse : Nat

/-- The initialiser `{ .raw = sgrraw }` read through the bit fields, which are
allocated from the least significant bit of `raw` on (6 + 1 + 1 + 6 + 1 + 1 bits). -/
def vln_sgr_t.ofRaw (raw : Nat) : vln_sgr_t :=
  { foreground := raw % 64
    bold := raw / 64 % 2
    underline := raw / 128 % 2
    background := raw / 256 % 64
    blink := raw / 16384 % 2
    inverse := raw / 32768 % 2 }

/-- The function `vln_sgrset`: the buffer and `*idx` after the call. -/
def vln_sgrset (buf : Mem) (idx : Nat) (sgrraw : Nat) : Mem × Nat :=
  let sgr := vln_sgr_t.ofRaw (sgrraw % 65536)
  let r0 := vln_seqgen_csi buf idx
  if sgrraw % 65536 = 0 then
    (wr (wr r0.1 r0.2 109) (r0.2 + 1) 0, r0.2 + 1)
  else
    let r1 := if sgr.bold ≠ 0 then (wr (wr r0.1 r0.2 49) (r0.2 + 1) 59, r0.2 + 2) else r0
    let r2 := if sgr.underline ≠ 0 then (wr (wr r1.1 r1.2 52) (r1.2 + 1) 59, r1.2 + 2) else r1
    let r3 := if sgr.blink ≠ 0 then (wr (wr r2.1 r2.2 53) (r2.2 + 1) 59, r2.2 + 2) else r2
    let r4 := if sgr.inverse ≠ 0 then (wr (wr r3.1 r3.2 56) (r3.2 + 1) 59, r3.2 + 2) else r3
    let r5 := if sgr.foreground ≠ 0 then
        (wr (wr (wr r4.1 r4.2 51) (r4.2 + 1) ((48 + (sgr.foreground - 1)) % 256)) (r4.2 + 2) 59,
          r4.2 + 3)
      else r4
    let r6 := if sgr.background ≠ 0 then
        (wr (wr (wr r5.1 r5.2 52) (r5.2 + 1) ((48 + (sgr.background - 1)) % 256)) (r5.2 + 2) 59,
          r5.2 + 3)
      else r5
    (wr (wr r6.1 (r6.2 - 1) 109) r6.2 0, r6.2)

/-- The structure `vln_init_t` as a caller may fill it: each pointer may be null. -/
structure vln_init_args where
  /-- Whether `sget` is non null. -/
  sget : Bool
  /-- Whether `sput` is non null. -/
  sput : Bool
  prompt : Option (List Nat)
  history : Option Mem
  histsize : Nat

/-- The function `vln_init` under either setting of the build option
`CFG_VLN_DEBUG` (`vln.h` defines it as 0): with the option on, every
`VLN_PARAM_CHECK` that fails returns -1; with the option off the macro expands
to `((void)0)`. The pointers `vln` and `init` are non null, `histsize` is a
`uint32_t`, and a null pointer is installed as the empty region. The result is
the return value and the session object. -/
def vln_init_checked (debug : Bool) (s : vln_t) (a : vln_init_args) : Int × vln_t :=
  if debug = true ∧ a.sget = false then (-1, s)
  else if debug = true ∧ a.sput = false then (-1, s)
  else if debug = true ∧ a.prompt.isNone = true then (-1, s)
  else if debug = true ∧ a.history.isNone = true then (-1, s)
  else if debug = true ∧
      (a.histsize < 2 ∨ a.histsize &&& ((a.histsize + 4294967295) % 4294967296) ≠ 0) then (-1, s)
  else (0, vln_init s
    { prompt := a.prompt.getD [], history := a.history.getD (fun _ => 0), histsize := a.histsize })

/-- The offsets of `csibuf` that the loop of `vln_seqexec_pcsi` stores a byte to,
in order: each `vln_waitkey(vln, pbuf)` stores the byte read at `pbuf`, a digit
advances `pbuf`, a `;` resets it to `csibuf`. -/
def vln_seqexec_pcsi_stores_loop (pb : Nat) : List Nat → List Nat
  | [] => []
  | c :: rest =>
    pb :: (if 48 ≤ c ∧ c ≤ 57 then vln_seqexec_pcsi_stores_loop (pb + 1) rest
      else if c = 59 then vln_seqexec_pcsi_stores_loop 0 rest
      else [])

/-- The offsets of `csibuf` that `vln_seqexec_pcsi` stores a byte to, in order. -/
def vln_seqexec_pcsi_stores : List Nat → List Nat
  | [] => []
  | c :: rest =>
    0 :: (if 48 ≤ c ∧ c ≤ 57 then vln_seqexec_pcsi_stores_loop 1 rest
      else if c = 63 then vln_seqexec_pcsi_stores_loop 0 rest
      else if (97 ≤ c ∧ c ≤ 122) ∨ (65 ≤ c ∧ c ≤ 90) then []
      else vln_seqexec_pcsi_stores_loop 0 rest)

/-! ## Byte counts of the history copies -/

/-- The byte counts of the two calls of `vln_rvsememcpy4` in `vln_history_cache`:
`remain` and `lnsize - remain`. -/
def vln_history_cache_counts (s : vln_t) : Nat × Nat :=
  let lnsize := vln_align4 (getSize s.lnbuf + 4) % 65536
  let offset := s.hcache &&& s.hmask
  let remain := u16 ((s.hsize : Int) - offset)
  let remain := if remain > lnsize then lnsize else remain
  (remain, lnsize - remain)

/-- The byte counts of the two calls of `vln_rvsememcpy4` in `vln_history_load`
behind the loop: `remain` and `lnsize - remain`; `none` when the loop returns
before them. -/
def vln_history_fetch_counts (s : vln_t) (index : Nat) : Option (Nat × Nat) :=
  match vln_history_walk s index s.hin 0 (u16 ((s.hin : Int) - s.hout)) with
  | none => none
  | some (histin, lnsize) =>
    let offset := u16 ((histin : Int) - lnsize) &&& s.hmask
    let remain := u16 ((s.hsize : Int) - offset)
    let remain := if remain > lnsize then lnsize else remain
    some (remain, lnsize - remain)

/-! ## Definitions used by the statements and proofs -/

/-- Result of a terminating reverse copy of `n` bytes ending at offset `s` of `src`. -/
def rvseResult (dst : Mem) (d : Nat) (src : Mem) (s n : Nat) : Mem :=
  fun j => if d ≤ j ∧ j < d + n then src (s - 4 - 4 * ((j - d) / 4) + (j - d) % 4) else dst j

/-- Slot of a line buffer, `align4(size + 4)`. -/
def slot (m : Mem) : Nat := vln_align4 (getSize m + 4)

/-- Sum of the slots of a list of line buffers. -/
def slots : List Mem → Nat
  | [] => 0
  | m :: rest => slot m + slots rest

/-- The slot size that `vln_history_load` computes from the four bytes in front
of position `e`. -/
def lnsizeAt (ring : Mem) (cap e : Nat) : Nat :=
  vln_align4 ((rd32 ring ((e - 4) % cap) + 4) % 4294967296) % 65536

/-- The slot ending at position `e` of the ring holds the first `slot m` bytes of
the line buffer `m`, 32 bit words in reverse order. -/
def RecAt (ring : Mem) (cap e : Nat) (m : Mem) : Prop :=
  ∀ j, j < slot m → ring ((e - 4 - 4 * (j / 4) + j % 4) % cap) = m j

/-- Walking back from position `e` down to the tail `O`, the ring holds exactly
the records of the list, newest first, and no loadable record follows them. -/
def Chain (ring : Mem) (cap O : Nat) : Nat → List Mem → Prop
  | e, [] => e = O ∨ (O < e ∧ e - O < lnsizeAt ring cap e)
  | e, m :: rest =>
    getSize m + 4 ≤ cap ∧ O + slot m ≤ e ∧ RecAt ring cap e m ∧ Chain ring cap O (e - slot m) rest

/-- Longest prefix of the records whose slots fit in `b` bytes. -/
def fit : Nat → List Mem → List Mem
  | _, [] => []
  | b, m :: rest => if slot m ≤ b then m :: fit (b - slot m) rest else []

/-- Facts about the ring that hold from `vln_init` on, for a capacity that is a
power of two between 4 and 32768. -/
structure RingOK (s : vln_t) (cap : Nat) : Prop where
  c4 : cap % 4 = 0
  cge : 4 ≤ cap
  cle : cap ≤ 32768
  cdvd : cap ∣ 65536
  size : s.hsize = cap
  mask : ∀ x, x &&& s.hmask = x % cap

/-- History invariant. `C` and `O` are the numbers of bytes ever committed and
ever evicted (the fields `cache` and `out` without the 16 bit wrap), `lv` is the
cached live line (at most one record, between `cache` and `in`) and `recs` the
committed records still whole in the ring, newest first. -/
structure HistInv (s : vln_t) (cap C O : Nat) (lv recs : List Mem) : Prop where
  ring : RingOK s cap
  cache : s.hcache = C % 65536
  out : s.hout = O % 65536
  hin : s.hin = (C + slots lv) % 65536
  c4 : C % 4 = 0
  o4 : O % 4 = 0
  le : O ≤ C
  fits : C + slots lv ≤ O + cap
  chain : Chain s.hpbuf cap O (C + slots lv) (lv ++ recs)
  l4 : slots lv % 4 = 0

/-- Ring content after `vln_history_cache` stored the line buffer `m` at position `C`. -/
def cacheRing (ring : Mem) (cap C : Nat) (m : Mem) : Mem :=
  let a := C % cap
  let remain := if cap - a > slot m then slot m else cap - a
  rvseResult (rvseResult ring a m (slot m) remain) 0 m (slot m - remain) (slot m - remain)

/-- Tail position after `vln_history_cache` stored a slot of `L` bytes at position `C`. -/
def evictTo (cap C O L : Nat) : Nat := if C + L > O + cap then C + L - cap else O

/-- State after `vln_history_cache` in a state that satisfies the invariant. -/
def cacheState (s : vln_t) (cap C O : Nat) : vln_t :=
  { s with
    hout := evictTo cap C O (slot s.lnbuf) % 65536
    hpbuf := cacheRing s.hpbuf cap C s.lnbuf
    hin := (C + slot s.lnbuf) % 65536 }

/-- State after `vln_history_store` of a non empty line in a state that satisfies
the invariant. -/
def storeState (s : vln_t) (cap C O : Nat) : vln_t :=
  { cacheState s cap C O with hcache := (C + slot s.lnbuf) % 65536 }

/-- Position and content of the `i`-th record of a chain that ends at position `e`. -/
def locate : Nat → List Mem → Nat → Option (Nat × Mem)
  | _, [], _ => none
  | e, m :: _, 0 => some (e, m)
  | e, m :: rest, i + 1 => locate (e - slot m) rest i

/-- The first `n` bytes are those of `m`, the other bytes those of `old`. -/
def overlay (m : Mem) (n : Nat) (old : Mem) : Mem := fun j => if j < n then m j else old j

/-- Line state after a successful `vln_history_load` of the record `m`. -/
def loaded (s : vln_t) (m : Mem) (i : Nat) : vln_t :=
  vln_edit_refresh { s with lnbuf := overlay m (slot m) s.lnbuf, curoff := getSize m, hindex := i }

/-- Two states with the same history fields. -/
def SameHist (s1 s2 : vln_t) : Prop :=
  s2.hpbuf = s1.hpbuf ∧ s2.hin = s1.hin ∧ s2.hout = s1.hout ∧ s2.hmask = s1.hmask ∧
    s2.hsize = s1.hsize ∧ s2.hcache = s1.hcache

/-- A history operation as `vln_inernal` performs it, with the content of the
line buffer at that moment. -/
inductive HistOp where
  /-- Newline: `vln_history_store`. -/
  | store (m : Mem)
  /-- The call `vln_history_cache`. -/
  | cache (m : Mem)
  /-- The call `vln_history_load(index)` with `hist.index = hindex`. -/
  | load (m : Mem) (hindex index : Nat)

/-- Line buffer of an operation. -/
def HistOp.buf : HistOp → Mem
  | .store m => m
  | .cache m => m
  | .load m _ _ => m

/-- Runs one history operation. -/
def runOp (s : vln_t) : HistOp → Option vln_t
  | .store m => vln_history_store { s with lnbuf := m }
  | .cache m => vln_history_cache { s with lnbuf := m }
  | .load m hindex index => vln_history_load { s with lnbuf := m, hindex := hindex } index

/-- Runs a sequence of history operations. -/
def runOps (s : vln_t) : List HistOp → Option vln_t
  | [] => some s
  | op :: rest =>
    match runOp s op with
    | none => none
    | some s1 => runOps s1 rest

/-- The lines committed so far, newest first: `com` before the operation, the
result after it. -/
def commitStep (com : List Mem) : HistOp → List Mem
  | .store m => if 0 < getSize m then m :: com else com
  | _ => com

/-- The lines committed by a sequence of operations, newest first. -/
def committed (com : List Mem) : List HistOp → List Mem
  | [] => com
  | op :: rest => committed (commitStep com op) rest

/-- The live line cached between `cache` and `in` (at most one). -/
def liveStep (lv : List Mem) : HistOp → List Mem
  | .store m => if 0 < getSize m then [] else lv
  | .cache m => [m]
  | .load m hindex _ => if hindex = 0 then [m] else lv

/-- The cached live line after a sequence of operations. -/
def cachedLive (lv : List Mem) : List HistOp → List Mem
  | [] => lv
  | op :: rest => cachedLive (liveStep lv op) rest

/-- The invariant together with the bookkeeping of the committed lines `com`:
the whole records are the newest committed lines, and what is left in front of
them is a part of the next older line. -/
def Tracked (s : vln_t) (cap : Nat) (lv com : List Mem) : Prop :=
  ∃ C O recs, HistInv s cap C O lv recs ∧ recs <+: com ∧ C = slots com ∧
    ∀ r, com[recs.length]? = some r → C - O - slots recs < slot r

/-- Presses `HistoryPrev` `n` times. -/
def pressPrev : Nat → vln_t → Option vln_t
  | 0, s => some s
  | n + 1, s =>
    match vln_history_loadprev s with
    | none => none
    | some s1 => pressPrev n s1

/-- Line buffer holding the size and the payload of the record `m`, cursor at the end. -/
def Holds (s : vln_t) (m : Mem) : Prop :=
  getSize s.lnbuf = getSize m ∧ payload s = payloadOf m ∧ s.curoff = getSize s.lnbuf

/-- Sum of the slot sizes of the records resident in the ring: the records with
index `0 .. n - 1` that the walk of `vln_history_load` finds from `in` down to
`out`. Every record takes at least 4 bytes, so `n = hist.size` covers the ring. -/
def residentSlots (s : vln_t) : Nat → Nat
  | 0 => 0
  | n + 1 => residentSlots s n +
      (match vln_history_walk s n s.hin 0 (u16 ((s.hin : Int) - s.hout)) with
        | none => 0
        | some r => r.2)

/-- Line buffer that holds the text `l` with `mask = 0`, and zero bytes after it. -/
def lineOf (l : List Nat) : Mem :=
  fun j => if j = 0 then l.length % 256 else if j = 1 then l.length / 256 % 256
    else if j < 4 then 0 else l.getD (j - 4) 0

/-- Session object before `vln_init`. -/
def blank : vln_t :=
  { prompt := [], lnbuf := fun _ => 0, bound := false, pptoff := 0, pptlen := 0, lnmax := 0,
    curoff := 0, lnmask := 0, nsupt := 0, alt := 0, row := 0, col := 0, hpbuf := fun _ => 0,
    hin := 0, hout := 0, hmask := 0, hsize := 0, hcache := 0, hindex := 0, tx := [] }

/-- The editor actions of `vln_inernal`. -/
inductive EditAction where
  | insert (c : Nat)
  | backspace
  | delete
  | moveleft
  | moveright
  | movehome
  | moveend
  | delend
  | delline
  | delword

/-- Runs one editor action. -/
def applyEdit (s : vln_t) : EditAction → vln_t
  | .insert c => vln_edit_insert s c
  | .backspace => vln_edit_backspace s
  | .delete => vln_edit_delete s
  | .moveleft => vln_edit_moveleft s
  | .moveright => vln_edit_moveright s
  | .movehome => vln_edit_movehome s
  | .moveend => vln_edit_moveend s
  | .delend => vln_edit_delend s
  | .delline => vln_edit_delline s
  | .delword => vln_edit_delword s

/-- What a returned call hands to its caller when the pointer is not null: the
payload and the value of `*linesize`. -/
def Outcome.line : Outcome → Option (List Nat × Nat)
  | .ret s true _ => some (payload s, getSize s.lnbuf)
  | _ => none

/-- The payload held in the line buffer while the call waits for the next key. -/
def Outcome.held : Outcome → Option (List Nat)
  | .blocked s => some (payload s)
  | _ => none

/-- The next call of `vln`, on the same line buffer, after a call that returned. -/
def Outcome.next (o : Outcome) (buffsize : Nat) (pn : Mem) (input : List Nat) : Outcome :=
  match o with
  | .ret s _ _ => vln s s.lnbuf buffsize pn input
  | r => r

/-- Memory filled with zero bytes. -/
def zeros : Mem := fun _ => 0

/-- Arguments of `vln_init` for the scenarios: prompt `"> "`, history ring of 64 bytes. -/
def init64 : vln_init_t := { prompt := [62, 32], history := zeros, histsize := 64 }

/-- Typing printable bytes: one `vln_edit_insert` per byte. -/
def typeAll (s : vln_t) (w : List Nat) : vln_t := w.foldl vln_edit_insert s

/-- Arguments of `vln_init` for a history ring of 16 bytes and the prompt `"> "`. -/
def init16 : vln_init_t := { prompt := [62, 32], history := zeros, histsize := 16 }

/-- The first three calls of scenario S3: `one` CR, `two` CR, Up CR. -/
def s3calls : Outcome :=
  ((vln (vln_init blank init64) zeros 32 zeros [111, 110, 101, 13]).next 32 zeros
    [116, 119, 111, 13]).next 32 zeros [27, 91, 65, 13]

/-- The cursor of the line when the call returned. -/
def Outcome.retCursor : Outcome → Option Nat
  | .ret s _ _ => some s.curoff
  | _ => none

/-- Line state for the witnesses: the text `abc` with the cursor at 1, room for 27 bytes. -/
def lineAbc : vln_t := { blank with lnbuf := lineOf [97, 98, 99], lnmax := 27, curoff := 1 }

/-- The session state when the call returned, or in which it waits for a key. -/
def Outcome.state : Outcome → vln_t
  | .ret s _ _ => s
  | .blocked s => s
  | _ => blank

/-- A key that edits the line and keeps the call going: a byte with the high
bit set (ignored), a printable byte, DEL, or a control byte other than ESC that
`c0map` binds to an editor action or to nothing (not to newline, abort, help or
a history move). -/
def editKey (c : Nat) : Bool :=
  decide (c &&& 128 ≠ 0) || decide (32 ≤ c) ||
    (decide (c ≠ 27) &&
      decide (vln_dispatch_ctrl c ∉
        [VLN_EXEC_NLN, VLN_EXEC_ALN, VLN_EXEC_HELP, VLN_EXEC_NXTH, VLN_EXEC_PRVH]))

/-- The call that commits 16 bytes `a` on a ring of 16 bytes. -/
def commitWide : Outcome :=
  vln (vln_init blank init16) zeros 32 zeros (List.replicate 16 97 ++ [13])

/-- The call that reads `a` CR into a line buffer of 65541 bytes, for which
`lnmax = (uint16_t)(65541 - 5) = 0`. -/
def commitNoRoom : Outcome := vln (vln_init blank init64) zeros 65541 zeros [97, 13]

/-- Scenario S1: `hello` CR. -/
def commitHello : Outcome :=
  vln (vln_init blank init64) zeros 32 zeros [104, 101, 108, 108, 111, 13]

/-- The state of a session with the prompt `"> "` on 80 columns after 79 bytes
`a` were typed into a line buffer of 200 bytes: the cursor is at the tail. -/
def wideLine : vln_t := (vln (vln_init blank init64) zeros 200 zeros (List.replicate 79 97)).state

/-- The same line with the cursor at offset 40. -/
def midLine : vln_t := { wideLine with curoff := 40 }

/-- Two line states that agree on everything the screen output depends on when
the line is masked: size, mask, cursor, capacity, prompt width, terminal width
and the bytes written so far. The payload bytes may differ. -/
def Alike (s t : vln_t) : Prop :=
  getSize s.lnbuf = getSize t.lnbuf ∧ getMask s.lnbuf = getMask t.lnbuf ∧ s.curoff = t.curoff ∧
    s.lnmax = t.lnmax ∧ s.pptoff = t.pptoff ∧ s.col = t.col ∧ s.tx = t.tx

/-- Two editor actions that are the same key, up to the byte inserted. The
action delete-word is left out: where it stops depends on the payload. -/
def sameKey : EditAction → EditAction → Bool
  | .insert _, .insert _ => true
  | .backspace, .backspace => true
  | .delete, .delete => true
  | .moveleft, .moveleft => true
  | .moveright, .moveright => true
  | .movehome, .movehome => true
  | .moveend, .moveend => true
  | .delend, .delend => true
  | .delline, .delline => true
  | _, _ => false

/-- Two runs of editor actions with the same keys, up to the bytes inserted. -/
def sameKeys : List EditAction → List EditAction → Bool
  | [], [] => true
  | a :: as, b :: bs => sameKey a b && sameKeys as bs
  | _, _ => false

/-- Runs a list of editor actions. -/
def runEdits (s : vln_t) (as : List EditAction) : vln_t := as.foldl applyEdit s

/-- Two masked lines of three bytes with different payloads, `abc` and `xyz`. -/
def maskedAbc : vln_t :=
  { blank with lnbuf := setMask (lineOf [97, 98, 99]) 1, lnmax := 27, curoff := 3, col := 80 }

/-- The masked line `xyz`. -/
def maskedXyz : vln_t :=
  { blank with lnbuf := setMask (lineOf [120, 121, 122]) 1, lnmax := 27, curoff := 3, col := 80 }

/-- A piece of a prompt: one visible byte, or one SGR run `ESC [ params m`. -/
inductive PromptPiece where
  | visible (c : Nat)
  | sgr (params : List Nat)

/-- The bytes of a piece. -/
def PromptPiece.bytes : PromptPiece → List Nat
  | .visible c => [c]
  | .sgr params => 27 :: 91 :: (params ++ [109])

/-- Minimal decimal representation of `v` in ASCII, most significant digit first. -/
def dec (v : Nat) : List Nat :=
  if v = 0 then [48] else ((Nat.digits 10 v).map (fun d => 48 + d)).reverse

/-- The window of the refresh algorithm in the words of the specification,
over the natural numbers: scroll right by `d = prompt_w + cursor - cols + 1`
when `prompt_w + cursor ≥ cols`, then clamp the length to `cols - prompt_w`.
The result is the offset of the view, `view_len` and `view_cur`. -/
def specWindow (prompt_w size cursor cols : Nat) : Nat × Nat × Nat :=
  let d := if prompt_w + cursor ≥ cols then prompt_w + cursor - cols + 1 else 0
  let view_len := size - d
  let view_cur := cursor - d
  let view_len := if prompt_w + view_len > cols then cols - prompt_w else view_len
  (d, view_len, view_cur)

/-- Value of a decimal numeral given by its ASCII digits, most significant first. -/
def numeralValue (ds : List Nat) : Nat := ds.foldl (fun v d => v * 10 + (d - 48)) 0

/-- The bytes `p1 ; p2 ; ... ; pn` of a list of numerals. -/
def csiParams : List (List Nat) → List Nat
  | [] => []
  | [p] => p
  | p :: q :: rest => p ++ 59 :: csiParams (q :: rest)

/-- A final byte of a CSI sequence: `~` or an ASCII letter. -/
def csiFinal (c : Nat) : Prop := c = 126 ∨ (97 ≤ c ∧ c ≤ 122) ∨ (65 ≤ c ∧ c ≤ 90)

/-- The number of parameters a returned `vln_seqexec_pcsi` stored through `pns++`
and the entries it left in the first `np` places of the parameter vector. -/
def PcsiResult.stored : PcsiResult → Option (Nat × List Nat)
  | .ok _ _ pns np _ => some (np, bytesAt pns 0 np)
  | _ => none

/-- The number of bytes a call of `vln_seqexec_pcsi` reads. -/
def PcsiResult.consumed (input : List Nat) : PcsiResult → Nat
  | .ok _ _ _ _ rest => input.length - rest.length
  | .err rest => input.length - rest.length
  | .blocked => input.length

/-- The call of scenario form `ESC [ 8 ; 24 ; 132 t` followed by `a`. -/
def geometryCall : Outcome :=
  vln (vln_init blank init64) zeros 32 zeros [27, 91, 56, 59, 50, 52, 59, 49, 51, 50, 116, 97]

/-- The bytes a sequence generator stored from offset 0 of an empty buffer. -/
def emitted (r : Mem × Nat) : List Nat := bytesAt r.1 0 r.2

/-- The SGR codes of the attributes set in a word, in the order bold, underline,
blink, inverse, foreground, background. -/
def sgrCodes (raw : Nat) : List (List Nat) :=
  (if raw / 64 % 2 ≠ 0 then [[49]] else []) ++
  (if raw / 128 % 2 ≠ 0 then [[52]] else []) ++
  (if raw / 16384 % 2 ≠ 0 then [[53]] else []) ++
  (if raw / 32768 % 2 ≠ 0 then [[56]] else []) ++
  (if raw % 64 ≠ 0 then [[51, 48 + (raw % 64 - 1)]] else []) ++
  (if raw / 256 % 64 ≠ 0 then [[52, 48 + (raw / 256 % 64 - 1)]] else [])

/-- Every code of a list followed by `;`. -/
def semis : List (List Nat) → List Nat
  | [] => []
  | c :: rest => c ++ 59 :: semis rest

/-- Writer state: the buffer holds the list `X` from `idx` on and the index is behind it. -/
def wrote (buf : Mem) (idx : Nat) (X : List Nat) : Mem × Nat := (wrList buf idx X, idx + X.length)

/-- Arguments the specification calls valid: no null pointer, and `histsize` a
power of two that is at least 2. -/
def validArgs (a : vln_init_args) : Prop :=
  a.sget = true ∧ a.sput = true ∧ a.prompt.isSome = true ∧ a.history.isSome = true ∧
    ∃ k, 1 ≤ k ∧ a.histsize = 2 ^ k

/-- Arguments with non null pointers and the history size 3. -/
def argsSize3 : vln_init_args :=
  { sget := true, sput := true, prompt := some [62, 32], history := some zeros,
    histsize := 3 }

/-- Arguments with non null pointers and the history size `2 ^ 17`. -/
def argsSize131072 : vln_init_args :=
  { sget := true, sput := true, prompt := some [62, 32], history := some zeros,
    histsize := 131072 }

/-- Arguments with non null pointers and the history size 64. -/
def argsSize64 : vln_init_args :=
  { sget := true, sput := true, prompt := some [62, 32], history := some zeros,
    histsize := 64 }

/-- The session at the moment CR arrives after `ESC [ A a b` on a new session:
the first `HistoryPrev` cached the empty live line, then `ab` was typed. -/
def liveCached : vln_t :=
  (vln (vln_init blank init64) zeros 32 zeros [27, 91, 65, 97, 98]).state

/-- The line buffer with `size = 2`, the payload `a ` and the byte `x` at index 2
of `pbuf`, just behind the payload. -/
def lineSpaceThen (x : Nat) : Mem := wr (lineOf [97, 32]) 6 x

/-- Editing state on a line buffer of two bytes with the cursor at the end. -/
def atEndOf (m : Mem) : vln_t :=
  { blank with lnbuf := m, bound := true, lnmax := 27, curoff := 2, col := 80 }

/-- A full line `abcde` in a line buffer of 10 bytes (`lnmax = 5`), with the bytes
`x` and `y` at the offsets 10 and 11, which lie behind the buffer. -/
def fullLine10 (x y : Nat) : Mem := wrList (lineOf [97, 98, 99, 100, 101]) 10 [x, y]

/-- Arguments with non null pointers and the history size `2 ^ 16`. -/
def argsSize65536 : vln_init_args :=
  { sget := true, sput := true, prompt := some [62, 32], history := some zeros,
    histsize := 65536 }

/-- A masked call that recalls a line committed without mask: `ab` CR with
`mask = 0`, then `vln_mask(1)`, then a call that reads the Up key. -/
def maskedRecall : Outcome :=
  vln (vln_mask (vln (vln_init blank init64) zeros 32 zeros [97, 98, 13]).state 1) zeros 32 zeros
    [27, 91, 65]

/-- The history fields that take part in the copy arithmetic are multiples of 4,
and masking keeps a multiple of 4. -/
structure Aligned (s : vln_t) : Prop where
  hin : s.hin % 4 = 0
  hout : s.hout % 4 = 0
  hcache : s.hcache % 4 = 0
  hsize : s.hsize % 4 = 0
  mask : ∀ x, x % 4 = 0 → (x &&& s.hmask) % 4 = 0

/-- Whether a call ended in a history copy that does not terminate. -/
def Outcome.hangs : Outcome → Bool
  | .hang => true
  | _ => false

/-- Arguments of `vln_init` for a history ring of 2 bytes and the prompt `"> "`. -/
def init2 : vln_init_t := { prompt := [62, 32], history := zeros, histsize := 2 }

/-- Arguments with non null pointers and the history size 2. -/
def argsSize2 : vln_init_args :=
  { sget := true, sput := true, prompt := some [62, 32], history := some zeros, histsize := 2 }

/-- Arguments of `vln_init` with a prompt of 65536 bytes `>` before its NUL byte. -/
def initLongPrompt : vln_init_t :=
  { prompt := List.replicate 65536 62, history := zeros, histsize := 64 }

/-- Scenario S5 on a ring of 16 bytes with a word of 29 bytes `x`, whose slot of
36 bytes is more than twice the ring. -/
def commitOverRing : Outcome :=
  vln (vln_init blank init16) zeros 64 zeros ([97, 98, 99, 21] ++ List.replicate 29 120 ++ [13])

/-- The effect of one byte of the three classes of the driver loop on the
session state, in the words of the specification: a byte with the high bit set
changes nothing, a byte from 0x20 to 0x7E is inserted, the bytes 0x7F and 0x08
are backspace. -/
def byteClass (s : vln_t) (c : Nat) : vln_t :=
  if 128 ≤ c then s
  else if 32 ≤ c ∧ c ≤ 126 then vln_edit_insert s c
  else vln_edit_backspace s

/-- A session whose ring of 64 bytes holds at offset 4 the header word of a
record of size 3 with mask 1, the record ending at position 8. -/
def headerRing : vln_t := { blank with hpbuf := wrList zeros 4 [3, 0, 1, 0], hmask := 63, hsize := 64 }

/-- List form of the loop of `vln_calculate_prompt`, for the proofs: the bytes
still to read are the list, and the end of the list is the terminating NUL. It
agrees with the loop for a prompt shorter than 65536 bytes. -/
def promptScan : List Nat → Nat → Nat → Nat → Nat × Nat
  | [], _, pptlen, pptoff => (pptlen, pptoff)
  | c :: rest, flag, pptlen, pptoff =>
    if c = 0 then (pptlen, pptoff)
    else if c = 27 then promptScan rest 1 (u16 ((pptlen : Int) + 1)) pptoff
    else if flag = 0 then
      promptScan rest flag (u16 ((pptlen : Int) + 1)) (u16 ((pptoff : Int) + 1))
    else if flag = 1 ∧ c = 109 then
      promptScan rest 0 (u16 ((pptlen : Int) + 1)) pptoff
    else promptScan rest flag (u16 ((pptlen : Int) + 1)) pptoff

/-! # Theorems -/

/-! ## Lemmas -/

theorem u16_of_lt (x : Nat) (h : x < 65536) : u16 (x : Int) = x := by
  unfold u16; omega

theorem rvsememcpy4_loop_eq (src : Mem) :
    ∀ (k : Nat) (dst : Mem) (pout pin n : Nat), n = 4 * k → n ≤ pin + 4 → n < 4294967296 →
      vln_rvsememcpy4_loop (k + 1) dst pout src pin n =
        some (fun j => if pout ≤ j ∧ j < pout + n
          then src (pin - 4 * ((j - pout) / 4) + (j - pout) % 4) else dst j) := by
  intro k
  induction k with
  | zero =>
    intro dst pout pin n hn _ _
    have hpos : ¬ n > 0 := by omega
    unfold vln_rvsememcpy4_loop
    rw [if_neg hpos]
    congr 1
    funext j
    have : ¬ (pout ≤ j ∧ j < pout + n) := by omega
    rw [if_neg this]
  | succ k ih =>
    intro dst pout pin n hn h1 h2
    have hpos : n > 0 := by omega
    unfold vln_rvsememcpy4_loop
    rw [if_pos hpos, ih _ _ _ _ (by omega) (by omega) (by omega)]
    congr 1
    funext j
    by_cases hj1 : pout + 4 ≤ j ∧ j < pout + 4 + (n + 4294967296 - 4) % 4294967296
    · have hj2 : pout ≤ j ∧ j < pout + n := by omega
      rw [if_pos hj1, if_pos hj2]
      congr 1
      omega
    · rw [if_neg hj1]
      by_cases hj3 : pout ≤ j ∧ j < pout + 4
      · have hj2 : pout ≤ j ∧ j < pout + n := by omega
        rw [if_pos hj2]
        simp only [copyWord, if_pos hj3]
        congr 1
        omega
      · have hj2 : ¬ (pout ≤ j ∧ j < pout + n) := by omega
        rw [if_neg hj2]
        simp only [copyWord, if_neg hj3]

theorem rvsememcpy4_eq (dst : Mem) (d : Nat) (src : Mem) (s n : Nat)
    (h4 : n % 4 = 0) (hs : n ≤ s) (hn : n < 4294967296) :
    vln_rvsememcpy4 dst d src s n = some (rvseResult dst d src s n) := by
  unfold vln_rvsememcpy4
  rw [rvsememcpy4_loop_eq src (n / 4) dst d (s - 4) n (by omega) (by omega) hn]
  rfl

theorem mod_add_lt (cap p y : Nat) (h : p % cap + y < cap) : (p + y) % cap = p % cap + y := by
  rw [Nat.add_mod, Nat.mod_eq_of_lt (a := p % cap + y % cap)]
  · rw [Nat.mod_eq_of_lt (a := y)]; omega
  · have : y % cap ≤ y := Nat.mod_le _ _
    omega

theorem mod_add_ge (cap p y : Nat) (h1 : cap ≤ p % cap + y) (h2 : p % cap + y < 2 * cap) :
    (p + y) % cap = p % cap + y - cap := by
  have hq := Nat.div_add_mod p cap
  have e1 : p + y = cap * (p / cap) + (p % cap + y) := by omega
  rw [e1, Nat.mul_add_mod, Nat.mod_eq_sub_mod h1, Nat.mod_eq_of_lt (by omega)]

theorem mod_mod4 (cap p : Nat) (hc : cap % 4 = 0) (hp : p % 4 = 0) : p % cap % 4 = 0 := by
  rw [Nat.mod_mod_of_dvd p (Nat.dvd_of_mod_eq_zero hc)]; exact hp

theorem mod16_mod (cap p : Nat) (hd : cap ∣ 65536) : p % 65536 % cap = p % cap :=
  Nat.mod_mod_of_dvd p hd

theorem pow_facts (k : Nat) (h1 : 2 ≤ k) (h2 : k ≤ 15) :
    2 ^ k % 4 = 0 ∧ 4 ≤ 2 ^ k ∧ 2 ^ k ≤ 32768 ∧ 2 ^ k ∣ 65536 := by
  interval_cases k <;> refine ⟨by norm_num, by norm_num, by norm_num, by norm_num⟩

theorem slot_facts (m : Mem) (cap : Nat) (hc4 : cap % 4 = 0) (hcle : cap ≤ 32768)
    (h : getSize m + 4 ≤ cap) :
    slot m % 4 = 0 ∧ 4 ≤ slot m ∧ getSize m + 4 ≤ slot m ∧ slot m ≤ cap ∧ slot m < getSize m + 8 := by
  unfold slot vln_align4
  split_ifs <;> omega

theorem lnsizeAt_of_recAt (ring : Mem) (cap e : Nat) (m : Mem)
    (hc4 : cap % 4 = 0) (hcge : 4 ≤ cap) (hcle : cap ≤ 32768)
    (hm : getSize m + 4 ≤ cap) (he4 : e % 4 = 0) (hes : slot m ≤ e) (h : RecAt ring cap e m) :
    lnsizeAt ring cap e = slot m := by
  obtain ⟨s4, sge, _, _, _⟩ := slot_facts m cap hc4 hcle hm
  have hp4 : (e - 4) % cap % 4 = 0 := mod_mod4 cap (e - 4) hc4 (by omega)
  have hplt : (e - 4) % cap < cap := Nat.mod_lt _ (by omega)
  have h0 := h 0 (by omega)
  have h1 := h 1 (by omega)
  have h2 := h 2 (by omega)
  have h3 := h 3 (by omega)
  have e0 : e - 4 - 4 * (0 / 4) + 0 % 4 = e - 4 := by omega
  have e1 : e - 4 - 4 * (1 / 4) + 1 % 4 = e - 4 + 1 := by omega
  have e2 : e - 4 - 4 * (2 / 4) + 2 % 4 = e - 4 + 2 := by omega
  have e3 : e - 4 - 4 * (3 / 4) + 3 % 4 = e - 4 + 3 := by omega
  rw [e0] at h0
  rw [e1, mod_add_lt cap (e - 4) 1 (by omega)] at h1
  rw [e2, mod_add_lt cap (e - 4) 2 (by omega)] at h2
  rw [e3, mod_add_lt cap (e - 4) 3 (by omega)] at h3
  unfold lnsizeAt rd32
  rw [h0, h1, h2, h3]
  have hsz : getSize m = m 0 + 256 * m 1 := rfl
  unfold slot
  rw [hsz] at hm ⊢
  unfold vln_align4
  split_ifs <;> omega

theorem lnsizeAt_congr (ring ring2 : Mem) (cap e O : Nat)
    (hc4 : cap % 4 = 0) (hcge : 4 ≤ cap) (he4 : e % 4 = 0) (hO4 : O % 4 = 0) (hlt : O < e)
    (hfr : ∀ p, O ≤ p → p < e → ring2 (p % cap) = ring (p % cap)) :
    lnsizeAt ring2 cap e = lnsizeAt ring cap e := by
  have hp4 : (e - 4) % cap % 4 = 0 := mod_mod4 cap (e - 4) hc4 (by omega)
  have hplt : (e - 4) % cap < cap := Nat.mod_lt _ (by omega)
  have h0 := hfr (e - 4) (by omega) (by omega)
  have h1 := hfr (e - 4 + 1) (by omega) (by omega)
  have h2 := hfr (e - 4 + 2) (by omega) (by omega)
  have h3 := hfr (e - 4 + 3) (by omega) (by omega)
  rw [mod_add_lt cap (e - 4) 1 (by omega)] at h1
  rw [mod_add_lt cap (e - 4) 2 (by omega)] at h2
  rw [mod_add_lt cap (e - 4) 3 (by omega)] at h3
  unfold lnsizeAt rd32
  rw [h0, h1, h2, h3]

theorem chain_evict (ring ring2 : Mem) (cap O O2 : Nat)
    (hc4 : cap % 4 = 0) (hcge : 4 ≤ cap) (hcle : cap ≤ 32768) (hO4 : O2 % 4 = 0) (hOO : O ≤ O2) :
    ∀ (recs : List Mem) (e : Nat), e % 4 = 0 → O2 ≤ e →
      (∀ p, O2 ≤ p → p < e → ring2 (p % cap) = ring (p % cap)) →
      Chain ring cap O e recs → Chain ring2 cap O2 e (fit (e - O2) recs) := by
  intro recs
  induction recs with
  | nil =>
    intro e he4 hle hfr hch
    simp only [fit, Chain] at hch ⊢
    by_cases heq : e = O2
    · exact Or.inl heq
    · right
      have hlt : O2 < e := by omega
      rw [lnsizeAt_congr ring ring2 cap e O2 hc4 hcge he4 hO4 hlt hfr]
      rcases hch with h | h
      · omega
      · omega
  | cons m rest ih =>
    intro e he4 hle hfr hch
    simp only [Chain] at hch
    obtain ⟨hm, hOs, hrec, hrest⟩ := hch
    obtain ⟨s4, sge, _, _, _⟩ := slot_facts m cap hc4 hcle hm
    by_cases hfit : slot m ≤ e - O2
    · simp only [fit, if_pos hfit, Chain]
      refine ⟨hm, by omega, ?_, ?_⟩
      · intro j hj
        rw [hfr _ (by omega) (by omega)]
        exact hrec j hj
      · have e1 : e - O2 - slot m = e - slot m - O2 := by omega
        rw [e1]
        exact ih (e - slot m) (by omega) (by omega)
          (fun p hp1 hp2 => hfr p hp1 (by omega)) hrest
    · simp only [fit, if_neg hfit, Chain]
      by_cases heq : e = O2
      · exact Or.inl heq
      · right
        have hlt : O2 < e := by omega
        rw [lnsizeAt_congr ring ring2 cap e O2 hc4 hcge he4 hO4 hlt hfr,
          lnsizeAt_of_recAt ring cap e m hc4 hcge hcle hm he4 (by omega) hrec]
        omega

theorem chain_slots_le (ring : Mem) (cap O : Nat) :
    ∀ (recs : List Mem) (e : Nat), Chain ring cap O e recs → O + slots recs ≤ e := by
  intro recs
  induction recs with
  | nil => intro e h; simp only [Chain] at h; simp only [slots]; omega
  | cons m rest ih =>
    intro e h
    simp only [Chain] at h
    have := ih _ h.2.2.2
    simp only [slots]
    omega

theorem fit_of_slots_le : ∀ (recs : List Mem) (b : Nat), slots recs ≤ b → fit b recs = recs := by
  intro recs
  induction recs with
  | nil => intro b _; rfl
  | cons m rest ih =>
    intro b h
    simp only [slots] at h
    have h1 : slot m ≤ b := by omega
    simp only [fit, if_pos h1]
    rw [ih (b - slot m) (by omega)]

theorem fit_append (pre : List Mem) : ∀ (recs : List Mem) (b : Nat), slots recs ≤ b →
    fit b (recs ++ pre) = recs ++ fit (b - slots recs) pre := by
  intro recs
  induction recs with
  | nil => intro b _; simp [slots]
  | cons m rest ih =>
    intro b h
    simp only [slots] at h
    have h1 : slot m ≤ b := by omega
    rw [List.cons_append, fit, if_pos h1, ih (b - slot m) (by omega), List.cons_append]
    simp only [slots]
    congr 3
    omega

theorem fit_initial : ∀ (recs : List Mem) (b : Nat), fit b recs <+: recs := by
  intro recs
  induction recs with
  | nil => intro b; exact List.prefix_refl _
  | cons m rest ih =>
    intro b
    simp only [fit]
    split_ifs
    · exact (List.prefix_cons_inj m).mpr (ih _)
    · exact List.nil_prefix

theorem cacheRing_new (ring : Mem) (cap C : Nat) (m : Mem)
    (hc4 : cap % 4 = 0) (hcge : 4 ≤ cap) (hcle : cap ≤ 32768) (hC4 : C % 4 = 0)
    (hm : getSize m + 4 ≤ cap) :
    RecAt (cacheRing ring cap C m) cap (C + slot m) m := by
  obtain ⟨s4, sge, _, scap, _⟩ := slot_facts m cap hc4 hcle hm
  intro j hj
  have ha4 : C % cap % 4 = 0 := mod_mod4 cap C hc4 hC4
  have halt : C % cap < cap := Nat.mod_lt _ (by omega)
  have e1 : C + slot m - 4 - 4 * (j / 4) + j % 4 = C + (slot m - 4 - 4 * (j / 4) + j % 4) := by
    omega
  rw [e1]
  generalize hy : slot m - 4 - 4 * (j / 4) + j % 4 = y
  have hyL : y < slot m := by omega
  have hyj : slot m - 4 - 4 * (y / 4) + y % 4 = j := by omega
  simp only [cacheRing, rvseResult]
  by_cases hrem : cap - C % cap > slot m
  · -- no wrap: the whole slot is in front of the end of the ring
    rw [if_pos hrem]
    rw [mod_add_lt cap C y (by omega)]
    have h1 : ¬ (0 ≤ C % cap + y ∧ C % cap + y < 0 + (slot m - slot m)) := by omega
    have h2 : C % cap ≤ C % cap + y ∧ C % cap + y < C % cap + slot m := by omega
    rw [if_neg h1, if_pos h2]
    congr 1
    omega
  · rw [if_neg hrem]
    by_cases hy1 : y < cap - C % cap
    · rw [mod_add_lt cap C y (by omega)]
      have h1 : ¬ (0 ≤ C % cap + y ∧ C % cap + y < 0 + (slot m - (cap - C % cap))) := by omega
      have h2 : C % cap ≤ C % cap + y ∧ C % cap + y < C % cap + (cap - C % cap) := by omega
      rw [if_neg h1, if_pos h2]
      congr 1
      omega
    · rw [mod_add_ge cap C y (by omega) (by omega)]
      have h1 : 0 ≤ C % cap + y - cap ∧ C % cap + y - cap < 0 + (slot m - (cap - C % cap)) := by
        omega
      rw [if_pos h1]
      congr 1
      omega

theorem cacheRing_old (ring : Mem) (cap C O2 : Nat) (m : Mem)
    (hc4 : cap % 4 = 0) (hcge : 4 ≤ cap) (hcle : cap ≤ 32768)
    (hm : getSize m + 4 ≤ cap) (hfit : C + slot m ≤ O2 + cap)
    (p : Nat) (hp1 : O2 ≤ p) (hp2 : p < C) :
    cacheRing ring cap C m (p % cap) = ring (p % cap) := by
  obtain ⟨s4, sge, _, scap, _⟩ := slot_facts m cap hc4 hcle hm
  have halt : C % cap < cap := Nat.mod_lt _ (by omega)
  have hplt : p % cap < cap := Nat.mod_lt _ (by omega)
  have hC : (p + (C - p)) % cap = C % cap := by congr 1; omega
  have hr : (p % cap + (C - p) < cap ∧ C % cap = p % cap + (C - p)) ∨
      (cap ≤ p % cap + (C - p) ∧ C % cap = p % cap + (C - p) - cap) := by
    by_cases h : p % cap + (C - p) < cap
    · left; rw [mod_add_lt cap p (C - p) h] at hC; exact ⟨h, hC.symm⟩
    · right; rw [mod_add_ge cap p (C - p) (by omega) (by omega)] at hC; exact ⟨by omega, hC.symm⟩
  simp only [cacheRing, rvseResult]
  by_cases hrem : cap - C % cap > slot m
  · rw [if_pos hrem]
    have h1 : ¬ (0 ≤ p % cap ∧ p % cap < 0 + (slot m - slot m)) := by omega
    have h2 : ¬ (C % cap ≤ p % cap ∧ p % cap < C % cap + slot m) := by omega
    rw [if_neg h1, if_neg h2]
  · rw [if_neg hrem]
    have h1 : ¬ (0 ≤ p % cap ∧ p % cap < 0 + (slot m - (cap - C % cap))) := by omega
    have h2 : ¬ (C % cap ≤ p % cap ∧ p % cap < C % cap + (cap - C % cap)) := by omega
    rw [if_neg h1, if_neg h2]

theorem u16_rem (cap a : Nat) (h : a < cap) (hc : cap ≤ 32768) :
    u16 ((cap : Int) - (a : Int)) = cap - a := by
  unfold u16; omega

theorem u16_unused (cap C O : Nat) (h1 : O ≤ C) (h2 : C ≤ O + cap) (hc : cap ≤ 32768) :
    u16 ((cap : Int) - (((C % 65536 : Nat) : Int) - ((O % 65536 : Nat) : Int))) = cap - (C - O) := by
  unfold u16; omega

theorem u16_add_mod (C L : Nat) :
    u16 (((C % 65536 : Nat) : Int) + (L : Int)) = (C + L) % 65536 := by
  unfold u16; omega

theorem u16_evict (cap C O L : Nat) (h1 : O ≤ C) (h2 : C ≤ O + cap) (h3 : cap ≤ 32768)
    (h4 : L ≤ cap) :
    (if L > cap - (C - O) then
      u16 (((O % 65536 : Nat) : Int) + ((L : Int) - ((cap - (C - O) : Nat) : Int)))
      else O % 65536) = evictTo cap C O L % 65536 := by
  unfold evictTo u16
  by_cases h : L > cap - (C - O)
  · have h' : C + L > O + cap := by omega
    rw [if_pos h, if_pos h']
    omega
  · have h' : ¬ C + L > O + cap := by omega
    rw [if_neg h, if_neg h']

theorem remain_facts (cap a L : Nat) (hc4 : cap % 4 = 0) (ha4 : a % 4 = 0) (hL4 : L % 4 = 0)
    (ha : a < cap) :
    (if cap - a > L then L else cap - a) % 4 = 0 ∧ (if cap - a > L then L else cap - a) ≤ L := by
  split_ifs <;> omega

theorem cache_eq (s : vln_t) (cap C O : Nat) (lv recs : List Mem)
    (h : HistInv s cap C O lv recs) (hm : getSize s.lnbuf + 4 ≤ cap) :
    vln_history_cache s = some { s with
      hout := evictTo cap C O (slot s.lnbuf) % 65536
      hpbuf := cacheRing s.hpbuf cap C s.lnbuf
      hin := (C + slot s.lnbuf) % 65536 } := by
  obtain ⟨s4, sge, _, scap, _⟩ := slot_facts s.lnbuf cap h.ring.c4 h.ring.cle hm
  have hr := h.ring
  have hcle := hr.cle
  have halt : C % cap < cap := Nat.mod_lt _ (by have := hr.cge; omega)
  have ha4 : C % cap % 4 = 0 := mod_mod4 cap C hr.c4 h.c4
  have hsl : vln_align4 (getSize s.lnbuf + 4) = slot s.lnbuf := rfl
  have hL16 : slot s.lnbuf < 65536 := by omega
  have hL32 : slot s.lnbuf < 4294967296 := by omega
  have hCO : C ≤ O + cap := by have := h.fits; omega
  have hs16 : slot s.lnbuf % 65536 = slot s.lnbuf := Nat.mod_eq_of_lt hL16
  obtain ⟨hn1, hn2⟩ := remain_facts cap (C % cap) (slot s.lnbuf) hr.c4 ha4 s4 halt
  have hn3 : (slot s.lnbuf - if cap - C % cap > slot s.lnbuf then slot s.lnbuf
      else cap - C % cap) % 4 = 0 := by omega
  have hn4 : (if cap - C % cap > slot s.lnbuf then slot s.lnbuf else cap - C % cap) <
      4294967296 := by omega
  have hn5 : (slot s.lnbuf - if cap - C % cap > slot s.lnbuf then slot s.lnbuf
      else cap - C % cap) < 4294967296 := by omega
  simp only [vln_history_cache, h.cache, h.out, hr.size, hr.mask, mod16_mod cap C hr.cdvd, hsl]
  rw [hs16, u16_rem cap (C % cap) halt hcle, u16_unused cap C O h.le hCO hcle,
    u16_add_mod C (slot s.lnbuf), u16_evict cap C O (slot s.lnbuf) h.le hCO hcle scap]
  rw [rvsememcpy4_eq _ _ _ _ _ hn1 hn2 hn4]
  simp only []
  rw [rvsememcpy4_eq _ _ _ _ _ hn3 (le_refl _) hn5]
  rfl

theorem chain_drop (ring : Mem) (cap O : Nat) (recs : List Mem) :
    ∀ (lv : List Mem) (e : Nat), Chain ring cap O e (lv ++ recs) →
      slots lv ≤ e ∧ Chain ring cap O (e - slots lv) recs := by
  intro lv
  induction lv with
  | nil => intro e h; exact ⟨Nat.zero_le _, h⟩
  | cons m rest ih =>
    intro e h
    simp only [List.cons_append, Chain] at h
    obtain ⟨h1, h2⟩ := ih _ h.2.2.2
    have e1 : e - slots (m :: rest) = e - slot m - slots rest := by
      simp only [slots]; omega
    rw [e1]
    refine ⟨?_, h2⟩
    simp only [slots]
    have := h.2.1
    omega

theorem slots_single (m : Mem) : slots [m] = slot m := by
  simp only [slots]; omega

theorem evictTo_facts (cap C O L : Nat) (hc4 : cap % 4 = 0) (hC4 : C % 4 = 0) (hO4 : O % 4 = 0)
    (hL4 : L % 4 = 0) (hle : O ≤ C) (hL : L ≤ cap) :
    evictTo cap C O L % 4 = 0 ∧ O ≤ evictTo cap C O L ∧ evictTo cap C O L ≤ C ∧
      C + L ≤ evictTo cap C O L + cap ∧ (C + L ≤ O + cap → evictTo cap C O L = O) := by
  unfold evictTo
  split_ifs <;> omega

theorem cache_inv (s : vln_t) (cap C O : Nat) (lv recs : List Mem)
    (h : HistInv s cap C O lv recs) (hm : getSize s.lnbuf + 4 ≤ cap) :
    HistInv (cacheState s cap C O) cap C (evictTo cap C O (slot s.lnbuf)) [s.lnbuf]
      (fit (C - evictTo cap C O (slot s.lnbuf)) recs) := by
  obtain ⟨s4, sge, _, scap, _⟩ := slot_facts s.lnbuf cap h.ring.c4 h.ring.cle hm
  have hr := h.ring
  obtain ⟨e4, eO, eC, efit, _⟩ :=
    evictTo_facts cap C O (slot s.lnbuf) hr.c4 h.c4 h.o4 s4 h.le scap
  have hold := (chain_drop s.hpbuf cap O recs lv _ h.chain).2
  have e1 : C + slots lv - slots lv = C := by omega
  rw [e1] at hold
  refine ⟨⟨hr.c4, hr.cge, hr.cle, hr.cdvd, hr.size, hr.mask⟩, h.cache, rfl, ?_, h.c4, e4, eC, ?_, ?_,
    ?_⟩
  rotate_right
  · rw [slots_single]; exact s4
  · rw [slots_single]; rfl
  · rw [slots_single]; exact efit
  · rw [slots_single]
    show Chain (cacheRing s.hpbuf cap C s.lnbuf) cap _ _ (s.lnbuf :: _)
    simp only [Chain]
    refine ⟨hm, by omega, cacheRing_new s.hpbuf cap C s.lnbuf hr.c4 hr.cge hr.cle h.c4 hm, ?_⟩
    have e2 : C + slot s.lnbuf - slot s.lnbuf = C := by omega
    rw [e2]
    exact chain_evict s.hpbuf _ cap O _ hr.c4 hr.cge hr.cle e4 eO recs C h.c4 eC
      (fun p hp1 hp2 => cacheRing_old s.hpbuf cap C _ s.lnbuf hr.c4 hr.cge hr.cle hm efit p hp1 hp2)
      hold

theorem store_eq (s : vln_t) (cap C O : Nat) (lv recs : List Mem)
    (h : HistInv s cap C O lv recs) (hm : getSize s.lnbuf + 4 ≤ cap) (hpos : 0 < getSize s.lnbuf) :
    vln_history_store s = some (storeState s cap C O) := by
  unfold vln_history_store
  rw [if_pos hpos, cache_eq s cap C O lv recs h hm]
  rfl

theorem store_inv (s : vln_t) (cap C O : Nat) (lv recs : List Mem)
    (h : HistInv s cap C O lv recs) (hm : getSize s.lnbuf + 4 ≤ cap) :
    HistInv (storeState s cap C O) cap (C + slot s.lnbuf) (evictTo cap C O (slot s.lnbuf)) []
      (s.lnbuf :: fit (C - evictTo cap C O (slot s.lnbuf)) recs) := by
  obtain ⟨s4, sge, _, scap, _⟩ := slot_facts s.lnbuf cap h.ring.c4 h.ring.cle hm
  have hc := cache_inv s cap C O lv recs h hm
  have hr := hc.ring
  have hch := hc.chain
  have hfits := hc.fits
  have hle := hc.le
  rw [slots_single] at hch hfits
  refine ⟨⟨hr.c4, hr.cge, hr.cle, hr.cdvd, hr.size, hr.mask⟩, rfl, rfl, ?_, ?_, hc.o4, ?_, ?_, ?_,
    rfl⟩
  · show (C + slot s.lnbuf) % 65536 = (C + slot s.lnbuf + slots []) % 65536
    simp only [slots, Nat.add_zero]
  · have := h.c4; omega
  · omega
  · simp only [slots]; omega
  · simp only [slots, Nat.add_zero, List.nil_append]
    exact hch

theorem u16_sub_mod (E L : Nat) (h1 : L ≤ E) :
    u16 (((E % 65536 : Nat) : Int) - (L : Int)) = (E - L) % 65536 := by
  unfold u16; omega

theorem u16_used (e O cap : Nat) (h1 : O ≤ e) (h2 : e ≤ O + cap) (hc : cap ≤ 32768) :
    u16 (((e % 65536 : Nat) : Int) - ((O % 65536 : Nat) : Int)) = e - O := by
  unfold u16; omega

theorem u16_sub4 (e : Nat) (h1 : 4 ≤ e) :
    u16 (((e % 65536 : Nat) : Int) - 4) = (e - 4) % 65536 := by
  unfold u16; omega

theorem walk_step (s : vln_t) (count histin lnsize prevused : Nat) :
    vln_history_walk s count histin lnsize prevused =
      if u16 ((u16 ((histin : Int) - lnsize) : Int) - s.hout) = 0 ∨
          u16 ((u16 ((histin : Int) - lnsize) : Int) - s.hout) > prevused then none
      else if vln_align4 ((rd32 s.hpbuf (u16 ((u16 ((histin : Int) - lnsize) : Int) - 4) &&& s.hmask)
          + 4) % 4294967296) % 65536 > u16 ((u16 ((histin : Int) - lnsize) : Int) - s.hout) then none
      else match count with
        | 0 => some (u16 ((histin : Int) - lnsize),
            vln_align4 ((rd32 s.hpbuf (u16 ((u16 ((histin : Int) - lnsize) : Int) - 4) &&& s.hmask)
              + 4) % 4294967296) % 65536)
        | c + 1 => vln_history_walk s c (u16 ((histin : Int) - lnsize))
            (vln_align4 ((rd32 s.hpbuf (u16 ((u16 ((histin : Int) - lnsize) : Int) - 4) &&& s.hmask)
              + 4) % 4294967296) % 65536)
            (u16 ((u16 ((histin : Int) - lnsize) : Int) - s.hout)) := by
  cases count <;> rfl

theorem walk_chain (s : vln_t) (cap O : Nat) (hr : RingOK s cap) (hout : s.hout = O % 65536)
    (hO4 : O % 4 = 0) :
    ∀ (chain : List Mem) (i E L prevused : Nat), L ≤ E → L < 65536 → (E - L) % 4 = 0 →
      O ≤ E - L → E - L ≤ O + cap → E - L - O ≤ prevused →
      Chain s.hpbuf cap O (E - L) chain →
      vln_history_walk s i (E % 65536) L prevused =
        (locate (E - L) chain i).map (fun r => (r.1 % 65536, slot r.2)) := by
  have hcle := hr.cle
  have hcge := hr.cge
  have hc4 := hr.c4
  intro chain
  induction chain with
  | nil =>
    intro i E L prevused h1 h2 h3 h4 h5 h6 hch
    rw [walk_step, u16_sub_mod E L h1, hout, u16_used (E - L) O cap h4 h5 hcle]
    simp only [Chain] at hch
    simp only [locate, Option.map_none']
    rcases hch with heq | ⟨hlt, hsz⟩
    · rw [if_pos (Or.inl (by omega))]
    · have hne : ¬ (E - L - O = 0 ∨ E - L - O > prevused) := by omega
      rw [if_neg hne, u16_sub4 (E - L) (by omega), hr.mask, mod16_mod cap _ hr.cdvd]
      have hsz2 : vln_align4 ((rd32 s.hpbuf ((E - L - 4) % cap) + 4) % 4294967296) % 65536 >
          E - L - O := hsz
      rw [if_pos hsz2]
  | cons m rest ih =>
    intro i E L prevused h1 h2 h3 h4 h5 h6 hch
    simp only [Chain] at hch
    obtain ⟨hm, hOs, hrec, hrest⟩ := hch
    obtain ⟨s4, sge, _, scap, _⟩ := slot_facts m cap hc4 hcle hm
    have hsz := lnsizeAt_of_recAt s.hpbuf cap (E - L) m hc4 hcge hcle hm h3 (by omega) hrec
    have hsz2 : vln_align4 ((rd32 s.hpbuf ((E - L - 4) % cap) + 4) % 4294967296) % 65536 =
        slot m := hsz
    rw [walk_step, u16_sub_mod E L h1, hout, u16_used (E - L) O cap h4 h5 hcle]
    have hne : ¬ (E - L - O = 0 ∨ E - L - O > prevused) := by omega
    rw [if_neg hne, u16_sub4 (E - L) (by omega), hr.mask, mod16_mod cap _ hr.cdvd, hsz2]
    have hne2 : ¬ (slot m > E - L - O) := by omega
    rw [if_neg hne2]
    cases i with
    | zero => simp only [locate, Option.map_some']
    | succ c =>
      simp only [locate]
      exact ih c (E - L) (slot m) (E - L - O) (by omega) (by omega) (by omega) (by omega)
        (by omega) (by omega) hrest

theorem locate_spec (ring : Mem) (cap O : Nat) (hc4 : cap % 4 = 0) (hcle : cap ≤ 32768) :
    ∀ (chain : List Mem) (e i : Nat), e % 4 = 0 → Chain ring cap O e chain →
      ∀ ei m, locate e chain i = some (ei, m) →
        chain[i]? = some m ∧ RecAt ring cap ei m ∧ O + slot m ≤ ei ∧ ei ≤ e ∧ ei % 4 = 0 ∧
          getSize m + 4 ≤ cap := by
  intro chain
  induction chain with
  | nil => intro e i _ _ ei m h; simp only [locate] at h; exact absurd h (by simp)
  | cons m0 rest ih =>
    intro e i he4 hch ei m h
    simp only [Chain] at hch
    obtain ⟨hm, hOs, hrec, hrest⟩ := hch
    obtain ⟨s4, sge, _, scap, _⟩ := slot_facts m0 cap hc4 hcle hm
    cases i with
    | zero =>
      simp only [locate, Option.some.injEq, Prod.mk.injEq] at h
      obtain ⟨rfl, rfl⟩ := h
      exact ⟨by simp, hrec, hOs, le_refl _, he4, hm⟩
    | succ c =>
      simp only [locate] at h
      obtain ⟨a1, a2, a3, a4, a5, a6⟩ := ih (e - slot m0) c (by omega) hrest ei m h
      exact ⟨by simpa using a1, a2, a3, by omega, a5, a6⟩

theorem locate_some : ∀ (chain : List Mem) (e i : Nat), i < chain.length →
    ∃ ei m, locate e chain i = some (ei, m) := by
  intro chain
  induction chain with
  | nil => intro e i h; simp at h
  | cons m rest ih =>
    intro e i h
    cases i with
    | zero => exact ⟨e, m, rfl⟩
    | succ c => simp only [locate]; exact ih _ c (by simpa using h)

theorem fetch_copy (ring old m : Mem) (cap ei : Nat)
    (hc4 : cap % 4 = 0) (hcge : 4 ≤ cap) (hcle : cap ≤ 32768)
    (hm : getSize m + 4 ≤ cap) (he4 : ei % 4 = 0) (hes : slot m ≤ ei) (hrec : RecAt ring cap ei m) :
    rvseResult
      (rvseResult old
        (slot m - if cap - (ei - slot m) % cap > slot m then slot m else cap - (ei - slot m) % cap)
        ring
        ((ei - slot m) % cap +
          if cap - (ei - slot m) % cap > slot m then slot m else cap - (ei - slot m) % cap)
        (if cap - (ei - slot m) % cap > slot m then slot m else cap - (ei - slot m) % cap))
      0 ring
      (slot m - if cap - (ei - slot m) % cap > slot m then slot m else cap - (ei - slot m) % cap)
      (slot m - if cap - (ei - slot m) % cap > slot m then slot m else cap - (ei - slot m) % cap)
      = overlay m (slot m) old := by
  obtain ⟨s4, sge, _, scap, _⟩ := slot_facts m cap hc4 hcle hm
  have ha4 : (ei - slot m) % cap % 4 = 0 := mod_mod4 cap (ei - slot m) hc4 (by omega)
  have halt : (ei - slot m) % cap < cap := Nat.mod_lt _ (by omega)
  generalize ha : (ei - slot m) % cap = a at ha4 halt
  funext j
  simp only [rvseResult, overlay]
  by_cases hjL : j < slot m
  · rw [if_pos hjL, ← hrec j hjL]
    have e1 : ei - 4 - 4 * (j / 4) + j % 4 = (ei - slot m) + (slot m - 4 - 4 * (j / 4) + j % 4) := by
      omega
    rw [e1]
    by_cases hrem : cap - a > slot m
    · rw [if_pos hrem]
      have h1 : ¬ (0 ≤ j ∧ j < 0 + (slot m - slot m)) := by omega
      have h2 : slot m - slot m ≤ j ∧ j < slot m - slot m + slot m := by omega
      rw [if_neg h1, if_pos h2, mod_add_lt cap (ei - slot m) _ (by rw [ha]; omega), ha]
      congr 1
      omega
    · rw [if_neg hrem]
      by_cases hj1 : j < slot m - (cap - a)
      · have h1 : 0 ≤ j ∧ j < 0 + (slot m - (cap - a)) := by omega
        rw [if_pos h1, mod_add_ge cap (ei - slot m) _ (by rw [ha]; omega) (by rw [ha]; omega), ha]
        congr 1
        omega
      · have h1 : ¬ (0 ≤ j ∧ j < 0 + (slot m - (cap - a))) := by omega
        have h2 : slot m - (cap - a) ≤ j ∧ j < slot m - (cap - a) + (cap - a) := by omega
        rw [if_neg h1, if_pos h2, mod_add_lt cap (ei - slot m) _ (by rw [ha]; omega), ha]
        congr 1
        omega
  · rw [if_neg hjL]
    have h1 : ¬ (0 ≤ j ∧ j < 0 + (slot m - if cap - a > slot m then slot m else cap - a)) := by
      split_ifs <;> omega
    have h2 : ¬ ((slot m - if cap - a > slot m then slot m else cap - a) ≤ j ∧
        j < (slot m - if cap - a > slot m then slot m else cap - a) +
          if cap - a > slot m then slot m else cap - a) := by
      split_ifs <;> omega
    rw [if_neg h1, if_neg h2]

theorem getSize_overlay (m old : Mem) (n : Nat) (h : 2 ≤ n) : getSize (overlay m n old) = getSize m := by
  simp only [getSize, overlay]
  rw [if_pos (by omega), if_pos (by omega)]

theorem bytesAt_congr (m1 m2 : Mem) (off n : Nat) (h : ∀ i, i < n → m1 (off + i) = m2 (off + i)) :
    bytesAt m1 off n = bytesAt m2 off n := by
  unfold bytesAt
  apply List.map_congr_left
  intro i hi
  exact h i (List.mem_range.mp hi)

theorem bytesAt_overlay (m old : Mem) (n : Nat) (h : getSize m + 4 ≤ n) :
    bytesAt (overlay m n old) 4 (getSize m) = bytesAt m 4 (getSize m) := by
  apply bytesAt_congr
  intro i hi
  simp only [overlay]
  rw [if_pos (by omega)]

theorem fetch_eq (s : vln_t) (cap C O : Nat) (lv recs : List Mem)
    (h : HistInv s cap C O lv recs) (i : Nat) :
    vln_history_fetch s i = some (match locate (C + slots lv) (lv ++ recs) i with
      | none => s
      | some r => loaded s r.2 i) := by
  have hr := h.ring
  have hcle := hr.cle
  have hcge := hr.cge
  have hc4 := hr.c4
  have hE4 : (C + slots lv) % 4 = 0 := by have := h.c4; have := h.l4; omega
  have hle : O ≤ C + slots lv := by have := h.le; omega
  have hw := walk_chain s cap O hr h.out h.o4 (lv ++ recs) i (C + slots lv) 0
    (u16 ((s.hin : Int) - s.hout)) (Nat.zero_le _) (by omega) (by simpa using hE4)
    (by simpa using hle) (by simpa using h.fits)
    (by rw [h.hin, h.out, u16_used _ O cap hle h.fits hcle]; simp)
    (by simpa using h.chain)
  rw [Nat.sub_zero, ← h.hin] at hw
  unfold vln_history_fetch
  rw [hw]
  cases hloc : locate (C + slots lv) (lv ++ recs) i with
  | none => rfl
  | some r =>
    obtain ⟨ei, m⟩ := r
    obtain ⟨_, hrec, hOs, hei, hei4, hm⟩ :=
      locate_spec s.hpbuf cap O hc4 hcle (lv ++ recs) _ i hE4 h.chain ei m hloc
    obtain ⟨s4, sge, _, scap, _⟩ := slot_facts m cap hc4 hcle hm
    have ha4 : (ei - slot m) % cap % 4 = 0 := mod_mod4 cap (ei - slot m) hc4 (by omega)
    have halt : (ei - slot m) % cap < cap := Nat.mod_lt _ (by omega)
    obtain ⟨hn1, hn2⟩ := remain_facts cap ((ei - slot m) % cap) (slot m) hc4 ha4 s4 halt
    have hn3 : (slot m - if cap - (ei - slot m) % cap > slot m then slot m
        else cap - (ei - slot m) % cap) % 4 = 0 := by omega
    have hn4 : (if cap - (ei - slot m) % cap > slot m then slot m
        else cap - (ei - slot m) % cap) < 4294967296 := by omega
    have hn5 : (slot m - if cap - (ei - slot m) % cap > slot m then slot m
        else cap - (ei - slot m) % cap) < 4294967296 := by omega
    have hn6 : (if cap - (ei - slot m) % cap > slot m then slot m
        else cap - (ei - slot m) % cap) ≤ (ei - slot m) % cap +
          if cap - (ei - slot m) % cap > slot m then slot m else cap - (ei - slot m) % cap := by
      omega
    simp only [Option.map_some', hr.size, hr.mask]
    rw [u16_sub_mod ei (slot m) (by omega), mod16_mod cap _ hr.cdvd,
      u16_rem cap _ halt hcle]
    rw [rvsememcpy4_eq _ _ _ _ _ hn1 hn6 hn4]
    simp only []
    rw [rvsememcpy4_eq _ _ _ _ _ hn3 (le_refl _) hn5]
    simp only []
    rw [fetch_copy s.hpbuf s.lnbuf m cap ei hc4 hcge hcle hm hei4 (by omega) hrec,
      getSize_overlay m s.lnbuf (slot m) (by omega)]
    simp only [loaded, hr.size]

theorem refresh_frame (s : vln_t) :
    (vln_edit_refresh s).lnbuf = s.lnbuf ∧ (vln_edit_refresh s).curoff = s.curoff ∧
    (vln_edit_refresh s).hindex = s.hindex ∧ (vln_edit_refresh s).hpbuf = s.hpbuf ∧
    (vln_edit_refresh s).hin = s.hin ∧ (vln_edit_refresh s).hout = s.hout ∧
    (vln_edit_refresh s).hmask = s.hmask ∧ (vln_edit_refresh s).hsize = s.hsize ∧
    (vln_edit_refresh s).hcache = s.hcache ∧ (vln_edit_refresh s).lnmax = s.lnmax := by
  simp only [vln_edit_refresh, vln_put]
  split_ifs <;> simp

theorem HistInv.of_same {s1 s2 : vln_t} {cap C O : Nat} {lv recs : List Mem}
    (h : HistInv s1 cap C O lv recs) (e : SameHist s1 s2) : HistInv s2 cap C O lv recs := by
  obtain ⟨e1, e2, e3, e4, e5, e6⟩ := e
  have hr := h.ring
  exact ⟨⟨hr.c4, hr.cge, hr.cle, hr.cdvd, by rw [e5]; exact hr.size, by rw [e4]; exact hr.mask⟩,
    by rw [e6]; exact h.cache, by rw [e3]; exact h.out, by rw [e2]; exact h.hin, h.c4, h.o4, h.le,
    h.fits, by rw [e1]; exact h.chain, h.l4⟩

theorem sameHist_loaded (s : vln_t) (m : Mem) (i : Nat) : SameHist s (loaded s m i) := by
  obtain ⟨_, _, _, h4, h5, h6, h7, h8, h9, _⟩ :=
    refresh_frame { s with lnbuf := overlay m (slot m) s.lnbuf, curoff := getSize m, hindex := i }
  exact ⟨h4, h5, h6, h7, h8, h9⟩

theorem loaded_fields (s : vln_t) (m : Mem) (i : Nat) :
    (loaded s m i).lnbuf = overlay m (slot m) s.lnbuf ∧ (loaded s m i).curoff = getSize m ∧
      (loaded s m i).hindex = i := by
  obtain ⟨h1, h2, h3, _⟩ :=
    refresh_frame { s with lnbuf := overlay m (slot m) s.lnbuf, curoff := getSize m, hindex := i }
  exact ⟨h1, h2, h3⟩

theorem fit_slots_le : ∀ (recs : List Mem) (b : Nat), slots (fit b recs) ≤ b := by
  intro recs
  induction recs with
  | nil => intro b; simp [fit, slots]
  | cons m rest ih =>
    intro b
    simp only [fit]
    split_ifs with h
    · simp only [slots]; have := ih (b - slot m); omega
    · simp [slots]

theorem fit_cut : ∀ (recs : List Mem) (b : Nat),
    fit b recs = recs ∨ ∃ r, recs[(fit b recs).length]? = some r ∧ b - slots (fit b recs) < slot r := by
  intro recs
  induction recs with
  | nil => intro b; left; rfl
  | cons m rest ih =>
    intro b
    simp only [fit]
    split_ifs with h
    · rcases ih (b - slot m) with h1 | ⟨r, h1, h2⟩
      · left; rw [h1]
      · right
        refine ⟨r, by simpa using h1, ?_⟩
        simp only [slots]; omega
    · right
      exact ⟨m, by simp, by simp only [slots]; omega⟩

theorem slots_append (a b : List Mem) : slots (a ++ b) = slots a + slots b := by
  induction a with
  | nil => simp [slots]
  | cons m rest ih => rw [List.cons_append]; simp only [slots]; rw [ih]; omega

theorem tracked_evict (C O O2 : Nat) (recs com : List Mem) (hpre : recs <+: com)
    (hO : O ≤ O2) (hsl : O + slots recs ≤ C)
    (hleft : ∀ r, com[recs.length]? = some r → C - O - slots recs < slot r) :
    fit (C - O2) recs <+: com ∧
      ∀ r, com[(fit (C - O2) recs).length]? = some r → C - O2 - slots (fit (C - O2) recs) < slot r := by
  refine ⟨(fit_initial recs _).trans hpre, ?_⟩
  intro r hr
  rcases fit_cut recs (C - O2) with h1 | ⟨r2, h1, h2⟩
  · rw [h1] at hr ⊢
    have := hleft r hr
    omega
  · have hlt : (fit (C - O2) recs).length < recs.length := by
      by_contra hcon
      rw [List.getElem?_eq_none (by omega)] at h1
      exact absurd h1 (by simp)
    have e1 : com[(fit (C - O2) recs).length]? = recs[(fit (C - O2) recs).length]? := by
      obtain ⟨t, rfl⟩ := hpre
      rw [List.getElem?_append_left hlt]
    rw [e1, h1] at hr
    cases hr
    exact h2

theorem sameHist_refl (s : vln_t) : SameHist s s := ⟨rfl, rfl, rfl, rfl, rfl, rfl⟩

theorem fetch_same (s : vln_t) (cap C O : Nat) (lv recs : List Mem)
    (h : HistInv s cap C O lv recs) (i : Nat) :
    ∃ s2, vln_history_fetch s i = some s2 ∧ SameHist s s2 := by
  rw [fetch_eq s cap C O lv recs h i]
  cases locate (C + slots lv) (lv ++ recs) i with
  | none => exact ⟨s, rfl, sameHist_refl s⟩
  | some r => exact ⟨_, rfl, sameHist_loaded s r.2 i⟩

theorem histInv_slots_le {s : vln_t} {cap C O : Nat} {lv recs : List Mem}
    (h : HistInv s cap C O lv recs) : O + slots recs ≤ C := by
  have h1 := chain_drop s.hpbuf cap O recs lv _ h.chain
  have h2 := chain_slots_le s.hpbuf cap O recs _ h1.2
  omega

theorem tracked_cache (s : vln_t) (cap : Nat) (lv com : List Mem) (h : Tracked s cap lv com)
    (hm : getSize s.lnbuf + 4 ≤ cap) :
    ∃ s2, vln_history_cache s = some s2 ∧ Tracked s2 cap [s.lnbuf] com ∧
      s2.lnbuf = s.lnbuf ∧ s2.hindex = s.hindex ∧ s2.curoff = s.curoff := by
  obtain ⟨C, O, recs, hinv, hpre, hC, hleft⟩ := h
  obtain ⟨s4, sge, _, scap, _⟩ := slot_facts s.lnbuf cap hinv.ring.c4 hinv.ring.cle hm
  obtain ⟨e4, eO, eC, efit, _⟩ :=
    evictTo_facts cap C O (slot s.lnbuf) hinv.ring.c4 hinv.c4 hinv.o4 s4 hinv.le scap
  obtain ⟨t1, t2⟩ := tracked_evict C O _ recs com hpre eO (histInv_slots_le hinv) hleft
  exact ⟨_, cache_eq s cap C O lv recs hinv hm,
    ⟨C, _, _, cache_inv s cap C O lv recs hinv hm, t1, hC, t2⟩, rfl, rfl, rfl⟩

theorem tracked_store (s : vln_t) (cap : Nat) (lv com : List Mem) (h : Tracked s cap lv com)
    (hm : getSize s.lnbuf + 4 ≤ cap) (hpos : 0 < getSize s.lnbuf) :
    ∃ s2, vln_history_store s = some s2 ∧ Tracked s2 cap [] (s.lnbuf :: com) := by
  obtain ⟨C, O, recs, hinv, hpre, hC, hleft⟩ := h
  obtain ⟨s4, sge, _, scap, _⟩ := slot_facts s.lnbuf cap hinv.ring.c4 hinv.ring.cle hm
  obtain ⟨e4, eO, eC, efit, _⟩ :=
    evictTo_facts cap C O (slot s.lnbuf) hinv.ring.c4 hinv.c4 hinv.o4 s4 hinv.le scap
  obtain ⟨t1, t2⟩ := tracked_evict C O _ recs com hpre eO (histInv_slots_le hinv) hleft
  have hfs := fit_slots_le recs (C - evictTo cap C O (slot s.lnbuf))
  refine ⟨_, store_eq s cap C O lv recs hinv hm hpos,
    ⟨C + slot s.lnbuf, _, _, store_inv s cap C O lv recs hinv hm, ?_, ?_, ?_⟩⟩
  · exact (List.prefix_cons_inj _).mpr t1
  · simp only [slots]; omega
  · intro r hr
    have hr2 : com[(fit (C - evictTo cap C O (slot s.lnbuf)) recs).length]? = some r := by
      simpa using hr
    have := t2 r hr2
    simp only [slots]
    omega

theorem tracked_same {s1 s2 : vln_t} {cap : Nat} {lv com : List Mem} (h : Tracked s1 cap lv com)
    (e : SameHist s1 s2) : Tracked s2 cap lv com := by
  obtain ⟨C, O, recs, hinv, hrest⟩ := h
  exact ⟨C, O, recs, hinv.of_same e, hrest⟩

theorem tracked_fetch (s : vln_t) (cap : Nat) (lv com : List Mem) (h : Tracked s cap lv com)
    (i : Nat) : ∃ s2, vln_history_fetch s i = some s2 ∧ Tracked s2 cap lv com := by
  obtain ⟨C, O, recs, hinv, hrest⟩ := h
  obtain ⟨s2, h1, h2⟩ := fetch_same s cap C O lv recs hinv i
  exact ⟨s2, h1, ⟨C, O, recs, hinv.of_same h2, hrest⟩⟩

theorem runOp_tracked (s : vln_t) (cap : Nat) (lv com : List Mem) (h : Tracked s cap lv com)
    (op : HistOp) (hop : getSize op.buf + 4 ≤ cap) :
    ∃ s2, runOp s op = some s2 ∧ Tracked s2 cap (liveStep lv op) (commitStep com op) := by
  cases op with
  | store m =>
    have h1 : Tracked { s with lnbuf := m } cap lv com := tracked_same h ⟨rfl, rfl, rfl, rfl, rfl, rfl⟩
    by_cases hpos : 0 < getSize m
    · simp only [runOp, liveStep, commitStep, if_pos hpos]
      exact tracked_store _ cap lv com h1 hop hpos
    · simp only [runOp, liveStep, commitStep, if_neg hpos, vln_history_store]
      exact ⟨_, rfl, h1⟩
  | cache m =>
    have h1 : Tracked { s with lnbuf := m } cap lv com := tracked_same h ⟨rfl, rfl, rfl, rfl, rfl, rfl⟩
    obtain ⟨s2, e1, e2, _⟩ := tracked_cache _ cap lv com h1 hop
    exact ⟨s2, e1, e2⟩
  | load m hindex index =>
    have h1 : Tracked { s with lnbuf := m, hindex := hindex } cap lv com :=
      tracked_same h ⟨rfl, rfl, rfl, rfl, rfl, rfl⟩
    by_cases h0 : hindex = 0
    · obtain ⟨s2, e1, e2, _⟩ := tracked_cache _ cap lv com h1 hop
      obtain ⟨s3, e3, e4⟩ := tracked_fetch s2 cap _ com e2 index
      refine ⟨s3, ?_, ?_⟩
      · simp only [runOp, vln_history_load, if_pos h0]
        rw [e1]
        exact e3
      · simp only [liveStep, if_pos h0, commitStep]
        exact e4
    · obtain ⟨s3, e3, e4⟩ := tracked_fetch _ cap lv com h1 index
      refine ⟨s3, ?_, ?_⟩
      · simp only [runOp, vln_history_load, if_neg h0]
        exact e3
      · simp only [liveStep, if_neg h0, commitStep]
        exact e4

theorem runOps_tracked (cap : Nat) :
    ∀ (ops : List HistOp) (s : vln_t) (lv com : List Mem), Tracked s cap lv com →
      (∀ op ∈ ops, getSize op.buf + 4 ≤ cap) →
      ∃ s2, runOps s ops = some s2 ∧ Tracked s2 cap (cachedLive lv ops) (committed com ops) := by
  intro ops
  induction ops with
  | nil => intro s lv com h _; exact ⟨s, rfl, h⟩
  | cons op rest ih =>
    intro s lv com h hops
    obtain ⟨s1, e1, h1⟩ := runOp_tracked s cap lv com h op (hops op (List.mem_cons_self _ _))
    obtain ⟨s2, e2, h2⟩ := ih s1 _ _ h1 (fun o ho => hops o (List.mem_cons_of_mem _ ho))
    refine ⟨s2, ?_, h2⟩
    simp only [runOps, e1]
    exact e2

theorem ringOK_init (s : vln_t) (init : vln_init_t) (k : Nat) (h1 : 2 ≤ k) (h2 : k ≤ 15)
    (hs : init.histsize = 2 ^ k) : RingOK (vln_init s init) (2 ^ k) := by
  obtain ⟨p1, p2, p3, p4⟩ := pow_facts k h1 h2
  refine ⟨p1, p2, p3, p4, ?_, ?_⟩
  · show u16 (init.histsize : Int) = 2 ^ k
    rw [hs]
    exact u16_of_lt _ (by omega)
  · intro x
    show x &&& u16 ((init.histsize : Int) - 1) = x % 2 ^ k
    have e : u16 ((init.histsize : Int) - 1) = 2 ^ k - 1 := by
      rw [hs]
      generalize 2 ^ k = c at p2 p3
      unfold u16; omega
    rw [e, Nat.and_pow_two_sub_one_eq_mod]

theorem tracked_init (s : vln_t) (init : vln_init_t) (k : Nat) (h1 : 2 ≤ k) (h2 : k ≤ 15)
    (hs : init.histsize = 2 ^ k) : Tracked (vln_init s init) (2 ^ k) [] [] := by
  refine ⟨0, 0, [], ⟨ringOK_init s init k h1 h2 hs, rfl, rfl, rfl, rfl, rfl, le_refl _, ?_, ?_, rfl⟩,
    List.prefix_refl _, rfl, ?_⟩
  · simp [slots]
  · simp [slots, Chain]
  · intro r hr; simp at hr

theorem committed_stores : ∀ (lines : List Mem) (com : List Mem), (∀ m ∈ lines, 0 < getSize m) →
    committed com (lines.map HistOp.store) = lines.reverse ++ com := by
  intro lines
  induction lines with
  | nil => intro com _; rfl
  | cons m rest ih =>
    intro com h
    have hm : 0 < getSize m := h m (List.mem_cons_self _ _)
    simp only [List.map_cons, committed, commitStep, if_pos hm]
    rw [ih (m :: com) (fun x hx => h x (List.mem_cons_of_mem _ hx))]
    simp

/-- General form of the eviction property: after any sequence of history
operations, a load on a line with `hist.index = 0` leaves the line buffer as
it is or delivers the committed line asked for. -/
theorem load_tracked (s : vln_t) (cap : Nat) (lv com : List Mem) (h : Tracked s cap lv com)
    (hidx : s.hindex = 0) (hm : getSize s.lnbuf + 4 ≤ cap) (n : Nat) (hn : 1 ≤ n) :
    ∃ s2, vln_history_load s n = some s2 ∧
      (s2.lnbuf = s.lnbuf ∨ ∃ m, com[n - 1]? = some m ∧ getSize s2.lnbuf = getSize m ∧
        payloadOf s2.lnbuf = payloadOf m) := by
  obtain ⟨cs, e1, ⟨C, O, recs, hinv, hpre, _, _⟩, hlb, _, _⟩ := tracked_cache s cap lv com h hm
  have hf := fetch_eq cs cap C O [s.lnbuf] recs hinv n
  unfold vln_history_load
  rw [if_pos hidx, e1]
  simp only []
  rw [hf]
  cases hloc : locate (C + slots [s.lnbuf]) ([s.lnbuf] ++ recs) n with
  | none => exact ⟨cs, rfl, Or.inl hlb⟩
  | some r =>
    obtain ⟨ei, m⟩ := r
    have hE4 : (C + slots [s.lnbuf]) % 4 = 0 := by have := hinv.c4; have := hinv.l4; omega
    obtain ⟨hget, _, _, _, _, hmm⟩ :=
      locate_spec cs.hpbuf cap O hinv.ring.c4 hinv.ring.cle _ _ n hE4 hinv.chain ei m hloc
    obtain ⟨s4, sge, sz, scap, _⟩ := slot_facts m cap hinv.ring.c4 hinv.ring.cle hmm
    obtain ⟨f1, f2, f3⟩ := loaded_fields cs m n
    refine ⟨_, rfl, Or.inr ⟨m, ?_, ?_, ?_⟩⟩
    · obtain ⟨n', rfl⟩ : ∃ n', n = n' + 1 := ⟨n - 1, by omega⟩
      have h1 : recs[n']? = some m := by simpa using hget
      obtain ⟨t, rfl⟩ := hpre
      have hlt : n' < recs.length := by
        by_contra hcon
        rw [List.getElem?_eq_none (by omega)] at h1
        exact absurd h1 (by simp)
      simp only [Nat.add_sub_cancel]
      rw [List.getElem?_append_left hlt]
      exact h1
    · simp only []
      rw [f1]
      exact getSize_overlay m _ _ (by omega)
    · simp only [payloadOf]
      rw [f1, getSize_overlay m _ _ (by omega)]
      exact bytesAt_overlay m _ _ sz

theorem size_le_of_slot (m : Mem) (cap : Nat) (h1 : getSize m < 65536) (h2 : slot m ≤ cap) :
    getSize m + 4 ≤ cap := by
  unfold slot vln_align4 at h2
  split_ifs at h2 <;> omega

theorem getSize_setSize (m : Mem) (v : Nat) : getSize (setSize m v) = v % 65536 := by
  simp only [getSize, setSize, wr]
  simp
  omega

theorem getSize_setMask (m : Mem) (v : Nat) : getSize (setMask m v) = getSize m := by
  simp [getSize, setMask, wr]

theorem getSize_begin (s : vln_t) (linebuff : Mem) (buffsize : Nat) :
    getSize (vln_begin s linebuff buffsize).lnbuf = 0 := by
  show getSize (setMask (setSize linebuff 0) s.lnmask) = 0
  rw [getSize_setMask, getSize_setSize]

theorem sameHist_begin (s : vln_t) (linebuff : Mem) (buffsize : Nat) :
    SameHist s (vln_begin s linebuff buffsize) := ⟨rfl, rfl, rfl, rfl, rfl, rfl⟩

theorem runOps_append (s : vln_t) (a b : List HistOp) :
    runOps s (a ++ b) = match runOps s a with
      | none => none
      | some s1 => runOps s1 b := by
  induction a generalizing s with
  | nil => rfl
  | cons op rest ih =>
    simp only [List.cons_append, runOps]
    cases runOp s op with
    | none => rfl
    | some s1 => exact ih s1

theorem slot_le_slots : ∀ (l : List Mem) (m : Mem), m ∈ l → slot m ≤ slots l := by
  intro l
  induction l with
  | nil => intro m h; simp at h
  | cons x rest ih =>
    intro m h
    simp only [slots]
    rcases List.mem_cons.mp h with rfl | h2
    · omega
    · have := ih m h2; omega

theorem slots_reverse (l : List Mem) : slots l.reverse = slots l := by
  induction l with
  | nil => rfl
  | cons x rest ih =>
    rw [List.reverse_cons, slots_append, ih]
    simp only [slots]; omega

/-- Storing lines that fit together with the protected records `A` keeps `A` whole. -/
theorem stores_keep (cap : Nat) :
    ∀ (lines : List Mem) (s : vln_t) (C O : Nat) (lv A R : List Mem),
      HistInv s cap C O lv (A ++ R) →
      (∀ m ∈ lines, 0 < getSize m ∧ getSize m + 4 ≤ cap) →
      slots A + slots lines ≤ cap →
      ∃ s2 C2 O2 lv2 R2, runOps s (lines.map HistOp.store) = some s2 ∧
        HistInv s2 cap C2 O2 lv2 (lines.reverse ++ A ++ R2) := by
  intro lines
  induction lines with
  | nil =>
    intro s C O lv A R h _ _
    exact ⟨s, C, O, lv, R, rfl, by simpa using h⟩
  | cons m rest ih =>
    intro s C O lv A R h hl hsum
    obtain ⟨hpos, hm⟩ := hl m (List.mem_cons_self _ _)
    simp only [slots] at hsum
    have h1 : HistInv { s with lnbuf := m } cap C O lv (A ++ R) := h.of_same ⟨rfl, rfl, rfl, rfl, rfl, rfl⟩
    obtain ⟨s4, sge, _, scap, _⟩ := slot_facts m cap h.ring.c4 h.ring.cle hm
    obtain ⟨e4, eO, eC, efit, enoev⟩ :=
      evictTo_facts cap C O (slot m) h.ring.c4 h.c4 h.o4 s4 h.le scap
    have hsl := histInv_slots_le h
    rw [slots_append] at hsl
    have hA : slots A ≤ C - evictTo cap C O (slot m) := by
      unfold evictTo at *
      split_ifs <;> omega
    have hst := store_inv _ cap C O lv (A ++ R) h1 hm
    rw [fit_append R A _ hA] at hst
    have hst2 : HistInv (storeState { s with lnbuf := m } cap C O) cap (C + slot m)
        (evictTo cap C O (slot m)) [] ((m :: A) ++ fit (C - evictTo cap C O (slot m) - slots A) R) := by
      simpa using hst
    obtain ⟨s2, C2, O2, lv2, R2, e2, h2⟩ := ih _ _ _ _ (m :: A) _ hst2
      (fun x hx => hl x (List.mem_cons_of_mem _ hx)) (by simp only [slots]; omega)
    refine ⟨s2, C2, O2, lv2, R2, ?_, ?_⟩
    · simp only [List.map_cons, runOps, runOp]
      rw [store_eq _ cap C O lv (A ++ R) h1 hm hpos]
      exact e2
    · simpa using h2

theorem chain_length (ring : Mem) (cap O : Nat) (hc4 : cap % 4 = 0) (hcle : cap ≤ 32768) :
    ∀ (recs : List Mem) (e : Nat), Chain ring cap O e recs → O + 4 * recs.length ≤ e := by
  intro recs
  induction recs with
  | nil => intro e h; simp only [Chain] at h; simp; omega
  | cons m rest ih =>
    intro e h
    simp only [Chain] at h
    obtain ⟨s4, sge, _, scap, _⟩ := slot_facts m cap hc4 hcle h.1
    have := ih _ h.2.2.2
    simp only [List.length_cons]
    omega

theorem holds_loaded (s : vln_t) (m : Mem) (i cap : Nat) (hc4 : cap % 4 = 0) (hcle : cap ≤ 32768)
    (hm : getSize m + 4 ≤ cap) : Holds (loaded s m i) m := by
  obtain ⟨s4, sge, sz, scap, _⟩ := slot_facts m cap hc4 hcle hm
  obtain ⟨f1, f2, f3⟩ := loaded_fields s m i
  have hsz : getSize (loaded s m i).lnbuf = getSize m := by
    rw [f1]; exact getSize_overlay m _ _ (by omega)
  refine ⟨hsz, ?_, by rw [f2, hsz]⟩
  simp only [payload, payloadOf]
  rw [f1, getSize_overlay m _ _ (by omega)]
  exact bytesAt_overlay m _ _ sz

/-- Further presses of `HistoryPrev` once a record is loaded walk down the chain. -/
theorem pressPrev_loaded (cap C O : Nat) (lb : Mem) (recs : List Mem) :
    ∀ (n : Nat) (s : vln_t) (j : Nat) (m : Mem), HistInv s cap C O [lb] recs → s.hindex = j → 1 ≤ j →
      j + n ≤ recs.length → Holds s m → recs[j - 1]? = some m →
      ∃ s2 m2, pressPrev n s = some s2 ∧ recs[j + n - 1]? = some m2 ∧ Holds s2 m2 ∧
        s2.hindex = j + n := by
  intro n
  induction n with
  | zero =>
    intro s j m _ hj _ _ hh hget
    exact ⟨s, m, rfl, by simpa using hget, hh, by simpa using hj⟩
  | succ n ih =>
    intro s j m hinv hj hj1 hlen _ _
    have hcl := chain_length s.hpbuf cap O hinv.ring.c4 hinv.ring.cle _ _
      (chain_drop s.hpbuf cap O recs [lb] _ hinv.chain).2
    have hfits := hinv.fits
    have hcle := hinv.ring.cle
    have hjlt : j + 1 < 65536 := by omega
    have hu : u16 ((j : Int) + 1) = j + 1 := by unfold u16; omega
    have hjne : ¬ (j = 0) := by omega
    have hf := fetch_eq s cap C O [lb] recs hinv (j + 1)
    obtain ⟨ei, m1, hloc⟩ := locate_some ([lb] ++ recs) (C + slots [lb]) (j + 1)
      (by simp; omega)
    have hE4 : (C + slots [lb]) % 4 = 0 := by have := hinv.c4; have := hinv.l4; omega
    obtain ⟨hget1, _, _, _, _, hmm⟩ :=
      locate_spec s.hpbuf cap O hinv.ring.c4 hinv.ring.cle _ _ (j + 1) hE4 hinv.chain ei m1 hloc
    rw [hloc] at hf
    simp only [] at hf
    obtain ⟨f1, f2, f3⟩ := loaded_fields s m1 (j + 1)
    have hget2 : recs[j + 1 - 1]? = some m1 := by simpa using hget1
    obtain ⟨s2, m2, e2, g2, h2, i2⟩ := ih (loaded s m1 (j + 1)) (j + 1) m1
      (hinv.of_same (sameHist_loaded s m1 (j + 1))) f3 (by omega) (by omega)
      (holds_loaded s m1 (j + 1) cap hinv.ring.c4 hinv.ring.cle hmm) hget2
    refine ⟨s2, m2, ?_, ?_, h2, ?_⟩
    · simp only [pressPrev, vln_history_loadprev, vln_history_load, hj, if_neg hjne, hu]
      rw [hf]
      exact e2
    · have e : j + (n + 1) - 1 = j + 1 + n - 1 := by omega
      rw [e]; exact g2
    · rw [i2]; omega

theorem locate_slot : ∀ (chain : List Mem) (e i : Nat),
    (locate e chain i).map (fun r => slot r.2) = (chain[i]?).map slot := by
  intro chain
  induction chain with
  | nil => intro e i; simp [locate]
  | cons m rest ih =>
    intro e i
    cases i with
    | zero => simp [locate]
    | succ c => simp only [locate, List.getElem?_cons_succ]; exact ih _ c

theorem slots_take_succ : ∀ (chain : List Mem) (n : Nat),
    slots (chain.take (n + 1)) = slots (chain.take n) +
      (match chain[n]? with
        | none => 0
        | some m => slot m) := by
  intro chain
  induction chain with
  | nil => intro n; simp [slots]
  | cons m rest ih =>
    intro n
    cases n with
    | zero => simp [slots]
    | succ c =>
      simp only [List.take_succ_cons, slots, List.getElem?_cons_succ]
      rw [ih c]
      omega

theorem residentSlots_eq (s : vln_t) (cap C O : Nat) (lv recs : List Mem)
    (h : HistInv s cap C O lv recs) :
    ∀ n, residentSlots s n = slots ((lv ++ recs).take n) := by
  have hr := h.ring
  have hcle := hr.cle
  have hE4 : (C + slots lv) % 4 = 0 := by have := h.c4; have := h.l4; omega
  have hle : O ≤ C + slots lv := by have := h.le; omega
  have hw : ∀ i, vln_history_walk s i s.hin 0 (u16 ((s.hin : Int) - s.hout)) =
      (locate (C + slots lv) (lv ++ recs) i).map (fun r => (r.1 % 65536, slot r.2)) := by
    intro i
    have := walk_chain s cap O hr h.out h.o4 (lv ++ recs) i (C + slots lv) 0
      (u16 ((s.hin : Int) - s.hout)) (Nat.zero_le _) (by omega) (by simpa using hE4)
      (by simpa using hle) (by simpa using h.fits)
      (by rw [h.hin, h.out, u16_used _ O cap hle h.fits hcle]; simp)
      (by simpa using h.chain)
    rw [Nat.sub_zero, ← h.hin] at this
    exact this
  intro n
  induction n with
  | zero => simp [residentSlots, slots]
  | succ n ih =>
    rw [residentSlots, ih, slots_take_succ, hw n]
    congr 1
    have := locate_slot (lv ++ recs) (C + slots lv) n
    cases hloc : locate (C + slots lv) (lv ++ recs) n with
    | none =>
      rw [hloc] at this
      cases hget : (lv ++ recs)[n]? with
      | none => rfl
      | some m => rw [hget] at this; simp at this
    | some r =>
      rw [hloc] at this
      cases hget : (lv ++ recs)[n]? with
      | none => rw [hget] at this; simp at this
      | some m =>
        rw [hget] at this
        simp only [Option.map_some', Option.some.injEq] at this
        simp only [Option.map_some']
        exact this

theorem getSize_wr (m : Mem) (i v : Nat) (h : 2 ≤ i) : getSize (wr m i v) = getSize m := by
  simp only [getSize, wr]
  rw [if_neg (by omega), if_neg (by omega)]

theorem getSize_memmove (m : Mem) (dst src n : Nat) (h : 2 ≤ dst) :
    getSize (memmove m dst src n) = getSize m := by
  simp only [getSize, memmove]
  rw [if_neg (by omega), if_neg (by omega)]

theorem setSize_get (m : Mem) (v j : Nat) (h : 2 ≤ j) : setSize m v j = m j := by
  simp only [setSize, wr]
  rw [if_neg (by omega), if_neg (by omega)]

theorem delword_spaces_le (m : Mem) : ∀ c, delword_spaces m c ≤ c := by
  intro c
  induction c with
  | zero => simp [delword_spaces]
  | succ c ih =>
    simp only [delword_spaces]
    split_ifs <;> omega

theorem delword_word_le (m : Mem) : ∀ c, delword_word m c ≤ c := by
  intro c
  induction c with
  | zero => simp [delword_word]
  | succ c ih =>
    simp only [delword_word]
    split_ifs <;> omega

/-- Size, cursor and capacity after an editor function, given its line buffer
and cursor before the final refresh. -/
theorem refresh_bounds (s : vln_t) :
    getSize (vln_edit_refresh s).lnbuf = getSize s.lnbuf ∧
      (vln_edit_refresh s).curoff = s.curoff ∧ (vln_edit_refresh s).lnmax = s.lnmax := by
  obtain ⟨h1, h2, _, _, _, _, _, _, _, h10⟩ := refresh_frame s
  exact ⟨by rw [h1], h2, h10⟩

theorem bytesAt_length (m : Mem) (off n : Nat) : (bytesAt m off n).length = n := by
  simp [bytesAt]

theorem bytesAt_split (m : Mem) (off a b : Nat) :
    bytesAt m off (a + b) = bytesAt m off a ++ bytesAt m (off + a) b := by
  unfold bytesAt
  rw [List.range_add, List.map_append, List.map_map]
  congr 1
  apply List.map_congr_left
  intro i _
  simp only [Function.comp]
  congr 1
  omega

theorem bytesAt_take (m : Mem) (off n k : Nat) (h : k ≤ n) :
    (bytesAt m off n).take k = bytesAt m off k := by
  have e : n = k + (n - k) := by omega
  rw [e, bytesAt_split, List.take_left' (bytesAt_length m off k)]

theorem bytesAt_drop (m : Mem) (off n k : Nat) (h : k ≤ n) :
    (bytesAt m off n).drop k = bytesAt m (off + k) (n - k) := by
  have e : n = k + (n - k) := by omega
  conv_lhs => rw [e, bytesAt_split]
  rw [List.drop_left' (bytesAt_length m off k)]

theorem bytesAt_one (m : Mem) (off : Nat) : bytesAt m off 1 = [m off] := by
  simp [bytesAt, List.range_succ]

theorem bytesAt_shift (m1 m2 : Mem) (off1 off2 n : Nat)
    (h : ∀ i, i < n → m1 (off1 + i) = m2 (off2 + i)) : bytesAt m1 off1 n = bytesAt m2 off2 n := by
  unfold bytesAt
  apply List.map_congr_left
  intro i hi
  exact h i (List.mem_range.mp hi)

/-- Line buffer after a successful `vln_edit_insert`. -/
theorem insert_lnbuf (s : vln_t) (c : Nat) (hlt : getSize s.lnbuf < s.lnmax) :
    (vln_edit_insert s c).lnbuf =
      setSize (wr (if getSize s.lnbuf ≠ s.curoff
        then memmove s.lnbuf (4 + s.curoff + 1) (4 + s.curoff) (getSize s.lnbuf - s.curoff)
        else s.lnbuf) (4 + s.curoff) c) (u16 ((getSize s.lnbuf : Int) + 1)) ∧
    (vln_edit_insert s c).curoff = u16 ((s.curoff : Int) + 1) ∧
    (vln_edit_insert s c).lnmax = s.lnmax := by
  simp only [vln_edit_insert, if_pos hlt]
  split_ifs
  all_goals first
    | exact ⟨rfl, rfl, rfl⟩
    | (obtain ⟨r1, r2, _, _, _, _, _, _, _, r10⟩ := refresh_frame
        { s with
          lnbuf := setSize (wr (memmove s.lnbuf (4 + s.curoff + 1) (4 + s.curoff)
            (getSize s.lnbuf - s.curoff)) (4 + s.curoff) c) (u16 ((getSize s.lnbuf : Int) + 1))
          curoff := u16 ((s.curoff : Int) + 1) }
       exact ⟨r1, r2, r10⟩)
    | (obtain ⟨r1, r2, _, _, _, _, _, _, _, r10⟩ := refresh_frame
        { s with
          lnbuf := setSize (wr s.lnbuf (4 + s.curoff) c) (u16 ((getSize s.lnbuf : Int) + 1))
          curoff := u16 ((s.curoff : Int) + 1) }
       exact ⟨r1, r2, r10⟩)

theorem insert_spec (s : vln_t) (c : Nat) (h1 : s.curoff ≤ getSize s.lnbuf)
    (hlt : getSize s.lnbuf < s.lnmax) (h3 : s.lnmax < 65536) :
    payload (vln_edit_insert s c) =
        (payload s).take s.curoff ++ [c] ++ (payload s).drop s.curoff ∧
      (vln_edit_insert s c).curoff = s.curoff + 1 ∧
      getSize (vln_edit_insert s c).lnbuf = getSize s.lnbuf + 1 := by
  obtain ⟨e1, e2, _⟩ := insert_lnbuf s c hlt
  have hu1 : u16 ((s.curoff : Int) + 1) = s.curoff + 1 := by unfold u16; omega
  have hu2 : u16 ((getSize s.lnbuf : Int) + 1) = getSize s.lnbuf + 1 := by unfold u16; omega
  rw [hu2] at e1
  rw [hu1] at e2
  have hsz : getSize (vln_edit_insert s c).lnbuf = getSize s.lnbuf + 1 := by
    rw [e1, getSize_setSize]; omega
  refine ⟨?_, e2, hsz⟩
  simp only [payload, payloadOf]
  rw [hsz, bytesAt_take _ _ _ _ h1, bytesAt_drop _ _ _ _ h1]
  have e : getSize s.lnbuf + 1 = s.curoff + (1 + (getSize s.lnbuf - s.curoff)) := by omega
  rw [e, bytesAt_split, bytesAt_split, bytesAt_one, List.append_assoc]
  congr 1
  · apply bytesAt_congr
    intro i hi
    rw [e1, setSize_get _ _ _ (by omega)]
    simp only [wr]
    rw [if_neg (by omega)]
    split_ifs
    · simp only [memmove]; rw [if_neg (by omega)]
    · rfl
  · congr 1
    · rw [e1, setSize_get _ _ _ (by omega)]
      simp only [wr]
      simp
    · apply bytesAt_shift
      intro i hi
      rw [e1, setSize_get _ _ _ (by omega)]
      simp only [wr]
      rw [if_neg (by omega)]
      have hne : getSize s.lnbuf ≠ s.curoff := by omega
      rw [if_pos hne]
      simp only [memmove]
      rw [if_pos (by omega)]
      congr 1
      omega

theorem insert_full (s : vln_t) (c : Nat) (h : ¬ getSize s.lnbuf < s.lnmax) :
    vln_edit_insert s c = s := by
  simp only [vln_edit_insert, if_neg h]

theorem backspace_spec (s : vln_t) (h1 : s.curoff ≤ getSize s.lnbuf) (h2 : getSize s.lnbuf < 65536)
    (hpos : 0 < s.curoff) :
    payload (vln_edit_backspace s) =
        (payload s).take (s.curoff - 1) ++ (payload s).drop s.curoff ∧
      (vln_edit_backspace s).curoff = s.curoff - 1 ∧
      getSize (vln_edit_backspace s).lnbuf = getSize s.lnbuf - 1 := by
  have hc : s.curoff > 0 ∧ getSize s.lnbuf > 0 := ⟨hpos, by omega⟩
  have hu1 : u16 ((s.curoff : Int) - 1) = s.curoff - 1 := by unfold u16; omega
  have hu2 : u16 ((getSize s.lnbuf : Int) - 1) = getSize s.lnbuf - 1 := by unfold u16; omega
  obtain ⟨r1, r2, _⟩ := refresh_frame
    { s with
      lnbuf := setSize (memmove s.lnbuf (4 + s.curoff - 1) (4 + s.curoff)
        (getSize s.lnbuf - s.curoff)) (u16 ((getSize s.lnbuf : Int) - 1))
      curoff := u16 ((s.curoff : Int) - 1) }
  have e1 : (vln_edit_backspace s).lnbuf = setSize (memmove s.lnbuf (4 + s.curoff - 1)
      (4 + s.curoff) (getSize s.lnbuf - s.curoff)) (getSize s.lnbuf - 1) := by
    simp only [vln_edit_backspace, if_pos hc]
    rw [r1, hu2]
  have e2 : (vln_edit_backspace s).curoff = s.curoff - 1 := by
    simp only [vln_edit_backspace, if_pos hc]
    rw [r2, hu1]
  have hsz : getSize (vln_edit_backspace s).lnbuf = getSize s.lnbuf - 1 := by
    rw [e1, getSize_setSize]; omega
  refine ⟨?_, e2, hsz⟩
  simp only [payload, payloadOf]
  rw [hsz, bytesAt_take _ _ _ _ (by omega), bytesAt_drop _ _ _ _ h1]
  have e : getSize s.lnbuf - 1 = (s.curoff - 1) + (getSize s.lnbuf - s.curoff) := by omega
  rw [e, bytesAt_split]
  congr 1
  · apply bytesAt_congr
    intro i hi
    rw [e1, setSize_get _ _ _ (by omega)]
    simp only [memmove]
    rw [if_neg (by omega)]
  · apply bytesAt_shift
    intro i hi
    rw [e1, setSize_get _ _ _ (by omega)]
    simp only [memmove]
    rw [if_pos (by omega)]
    congr 1
    omega

theorem delete_spec (s : vln_t) (h2 : getSize s.lnbuf < 65536) (hlt : s.curoff < getSize s.lnbuf) :
    payload (vln_edit_delete s) =
        (payload s).take s.curoff ++ (payload s).drop (s.curoff + 1) ∧
      (vln_edit_delete s).curoff = s.curoff ∧
      getSize (vln_edit_delete s).lnbuf = getSize s.lnbuf - 1 := by
  have hc : s.curoff < getSize s.lnbuf ∧ getSize s.lnbuf > 0 := ⟨hlt, by omega⟩
  have hu2 : u16 ((getSize s.lnbuf : Int) - 1) = getSize s.lnbuf - 1 := by unfold u16; omega
  obtain ⟨r1, r2, _⟩ := refresh_frame
    { s with
      lnbuf := setSize (memmove s.lnbuf (4 + s.curoff) (4 + s.curoff + 1)
        (getSize s.lnbuf - s.curoff - 1)) (u16 ((getSize s.lnbuf : Int) - 1)) }
  have e1 : (vln_edit_delete s).lnbuf = setSize (memmove s.lnbuf (4 + s.curoff)
      (4 + s.curoff + 1) (getSize s.lnbuf - s.curoff - 1)) (getSize s.lnbuf - 1) := by
    simp only [vln_edit_delete, if_pos hc]
    rw [r1, hu2]
  have e2 : (vln_edit_delete s).curoff = s.curoff := by
    simp only [vln_edit_delete, if_pos hc]
    rw [r2]
  have hsz : getSize (vln_edit_delete s).lnbuf = getSize s.lnbuf - 1 := by
    rw [e1, getSize_setSize]; omega
  refine ⟨?_, e2, hsz⟩
  simp only [payload, payloadOf]
  rw [hsz, bytesAt_take _ _ _ _ (by omega), bytesAt_drop _ _ _ _ (by omega)]
  have e : getSize s.lnbuf - 1 = s.curoff + (getSize s.lnbuf - (s.curoff + 1)) := by omega
  rw [e, bytesAt_split]
  congr 1
  · apply bytesAt_congr
    intro i hi
    rw [e1, setSize_get _ _ _ (by omega)]
    simp only [memmove]
    rw [if_neg (by omega)]
  · apply bytesAt_shift
    intro i hi
    rw [e1, setSize_get _ _ _ (by omega)]
    simp only [memmove]
    rw [if_pos (by omega)]
    congr 1
    omega

theorem printable_high (c : Nat) (h1 : 32 ≤ c) (h2 : c ≤ 126) : c &&& 128 = 0 := by
  interval_cases c <;> rfl

theorem loop_insert (fuel : Nat) (s : vln_t) (pn : Mem) (c : Nat) (rest : List Nat)
    (h1 : 32 ≤ c) (h2 : c ≤ 126) :
    vln_inernal_loop (fuel + 1) s pn (c :: rest) =
      vln_inernal_loop fuel (vln_edit_insert s c) pn rest := by
  have h0 : ¬ (c &&& 128 ≠ 0) := by rw [printable_high c h1 h2]; simp
  simp only [vln_inernal_loop]
  rw [if_neg h0, if_pos ⟨h1, h2⟩]

theorem loop_type (pn : Mem) : ∀ (w : List Nat) (s : vln_t) (fuel : Nat) (rest : List Nat),
    (∀ c ∈ w, 32 ≤ c ∧ c ≤ 126) →
    vln_inernal_loop (fuel + w.length) s pn (w ++ rest) =
      vln_inernal_loop fuel (typeAll s w) pn rest := by
  intro w
  induction w with
  | nil => intro s fuel rest _; rfl
  | cons c w ih =>
    intro s fuel rest h
    obtain ⟨h1, h2⟩ := h c (List.mem_cons_self _ _)
    have e : fuel + (c :: w).length = (fuel + w.length) + 1 := by simp; omega
    rw [e, List.cons_append, loop_insert _ _ _ _ _ h1 h2,
      ih _ _ _ (fun x hx => h x (List.mem_cons_of_mem _ hx))]
    rfl

theorem loop_ctrl_u (fuel : Nat) (s : vln_t) (pn : Mem) (rest : List Nat) :
    vln_inernal_loop (fuel + 1) s pn (21 :: rest) =
      vln_inernal_loop fuel (vln_edit_delline s) pn rest := rfl

theorem loop_cr (fuel : Nat) (s : vln_t) (pn : Mem) (rest : List Nat) :
    vln_inernal_loop (fuel + 1) s pn (13 :: rest) =
      match vln_history_store s with
      | none => .hang
      | some s1 => .ret s1 true rest := by
  simp only [vln_inernal_loop]
  have h0 : ¬ ((13 : Nat) &&& 128 ≠ 0) := by decide
  rw [if_neg h0, if_neg (by omega), if_neg (by omega), if_neg (by omega)]
  have hd : vln_dispatch_ctrl 13 = VLN_EXEC_NLN := rfl
  rw [hd]
  simp only [vln_exec]
  cases vln_history_store s <;> rfl

theorem refresh_same (s : vln_t) : SameHist s (vln_edit_refresh s) := by
  obtain ⟨_, _, _, h4, h5, h6, h7, h8, h9, _⟩ := refresh_frame s
  exact ⟨h4, h5, h6, h7, h8, h9⟩

theorem sameHist_trans {a b c : vln_t} (h1 : SameHist a b) (h2 : SameHist b c) : SameHist a c :=
  ⟨h2.1.trans h1.1, h2.2.1.trans h1.2.1, h2.2.2.1.trans h1.2.2.1, h2.2.2.2.1.trans h1.2.2.2.1,
    h2.2.2.2.2.1.trans h1.2.2.2.2.1, h2.2.2.2.2.2.trans h1.2.2.2.2.2⟩

theorem edit_same (s : vln_t) (m : Mem) (c : Nat) :
    SameHist s (vln_edit_refresh { s with lnbuf := m, curoff := c }) :=
  sameHist_trans (b := { s with lnbuf := m, curoff := c }) ⟨rfl, rfl, rfl, rfl, rfl, rfl⟩
    (refresh_same _)

theorem insert_same (s : vln_t) (c : Nat) : SameHist s (vln_edit_insert s c) := by
  simp only [vln_edit_insert]
  split_ifs
  all_goals first
    | exact edit_same s _ _
    | exact ⟨rfl, rfl, rfl, rfl, rfl, rfl⟩

theorem typeAll_same : ∀ (w : List Nat) (s : vln_t), SameHist s (typeAll s w) := by
  intro w
  induction w with
  | nil => intro s; exact sameHist_refl s
  | cons c w ih => intro s; exact sameHist_trans (insert_same s c) (ih _)

theorem typeAll_lnmax : ∀ (w : List Nat) (s : vln_t), (typeAll s w).lnmax = s.lnmax := by
  intro w
  induction w with
  | nil => intro s; rfl
  | cons c w ih =>
    intro s
    show (typeAll (vln_edit_insert s c) w).lnmax = s.lnmax
    rw [ih]
    by_cases hlt : getSize s.lnbuf < s.lnmax
    · exact (insert_lnbuf s c hlt).2.2
    · rw [insert_full s c hlt]

/-- Typing at the tail appends to the payload while the line has room. -/
theorem typeAll_tail : ∀ (w : List Nat) (s : vln_t), s.curoff = getSize s.lnbuf →
    getSize s.lnbuf + w.length ≤ s.lnmax → s.lnmax < 65536 →
    payload (typeAll s w) = payload s ++ w ∧
      getSize (typeAll s w).lnbuf = getSize s.lnbuf + w.length ∧
      (typeAll s w).curoff = getSize s.lnbuf + w.length := by
  intro w
  induction w with
  | nil => intro s h1 _ _; exact ⟨by simp [typeAll], by simp [typeAll], by simpa [typeAll] using h1⟩
  | cons c w ih =>
    intro s h1 h2 h3
    simp only [List.length_cons] at h2
    obtain ⟨a1, a2, a3⟩ := insert_spec s c (by omega) (by omega) h3
    have hmax : (vln_edit_insert s c).lnmax = s.lnmax := (insert_lnbuf s c (by omega)).2.2
    obtain ⟨b1, b2, b3⟩ := ih (vln_edit_insert s c) (by rw [a2, a3, h1]) (by rw [a3, hmax]; omega)
      (by rw [hmax]; exact h3)
    have hp : payload (vln_edit_insert s c) = payload s ++ [c] := by
      rw [a1, h1]
      have hl : (payload s).length = getSize s.lnbuf := bytesAt_length _ _ _
      rw [List.take_of_length_le (by omega), List.drop_of_length_le (by omega)]
      simp
    refine ⟨?_, ?_, ?_⟩
    · show payload (typeAll (vln_edit_insert s c) w) = _
      rw [b1, hp]; simp
    · show getSize (typeAll (vln_edit_insert s c) w).lnbuf = _
      rw [b2, a3, List.length_cons]; omega
    · show (typeAll (vln_edit_insert s c) w).curoff = _
      rw [b3, a3, List.length_cons]; omega

theorem delline_spec (s : vln_t) :
    getSize (vln_edit_delline s).lnbuf = 0 ∧ (vln_edit_delline s).curoff = 0 ∧
      (vln_edit_delline s).lnmax = s.lnmax ∧ SameHist s (vln_edit_delline s) := by
  obtain ⟨r1, r2, r3⟩ := refresh_bounds { s with lnbuf := setSize s.lnbuf 0, curoff := 0 }
  refine ⟨?_, ?_, ?_, ?_⟩
  · simp only [vln_edit_delline]; rw [r1]; exact getSize_setSize _ _
  · simp only [vln_edit_delline]; rw [r2]
  · simp only [vln_edit_delline]; rw [r3]
  · exact edit_same s _ _

/-- The copies of `vln_history_cache` terminate whenever the ring is well formed
and `cache` is a multiple of 4, whatever the size of the line. -/
theorem cache_returns (s : vln_t) (cap : Nat) (hr : RingOK s cap) (hc : s.hcache % 4 = 0) :
    ∃ s1, vln_history_cache s = some s1 ∧ s1.lnbuf = s.lnbuf := by
  have hcle := hr.cle
  have hcge := hr.cge
  have hl4 : vln_align4 (getSize s.lnbuf + 4) % 65536 % 4 = 0 := by
    unfold vln_align4
    split_ifs <;> omega
  have hl16 : vln_align4 (getSize s.lnbuf + 4) % 65536 < 65536 := Nat.mod_lt _ (by omega)
  have halt : s.hcache % cap < cap := Nat.mod_lt _ (by omega)
  have ha4 : s.hcache % cap % 4 = 0 := mod_mod4 cap s.hcache hr.c4 hc
  simp only [vln_history_cache, hr.size, hr.mask]
  generalize vln_align4 (getSize s.lnbuf + 4) % 65536 = L at hl4 hl16
  obtain ⟨hn1, hn2⟩ := remain_facts cap (s.hcache % cap) L hr.c4 ha4 hl4 halt
  have hn3 : (L - if cap - s.hcache % cap > L then L else cap - s.hcache % cap) % 4 = 0 := by
    omega
  have hn4 : (if cap - s.hcache % cap > L then L else cap - s.hcache % cap) < 4294967296 := by
    omega
  have hn5 : (L - if cap - s.hcache % cap > L then L else cap - s.hcache % cap) < 4294967296 := by
    omega
  rw [u16_rem cap (s.hcache % cap) halt hcle, rvsememcpy4_eq _ _ _ _ _ hn1 hn2 hn4]
  simp only []
  rw [rvsememcpy4_eq _ _ _ _ _ hn3 (le_refl _) hn5]
  exact ⟨_, rfl, rfl⟩

theorem store_returns (s : vln_t) (cap : Nat) (lv com : List Mem) (h : Tracked s cap lv com) :
    ∃ s1, vln_history_store s = some s1 ∧ s1.lnbuf = s.lnbuf := by
  obtain ⟨C, O, recs, hinv, _⟩ := h
  have hc : s.hcache % 4 = 0 := by
    have h1 := hinv.cache
    have h2 := hinv.c4
    omega
  obtain ⟨s1, e1, e2⟩ := cache_returns s cap hinv.ring hc
  by_cases hpos : getSize s.lnbuf > 0
  · refine ⟨{ s1 with hcache := s1.hin }, ?_, e2⟩
    simp only [vln_history_store, if_pos hpos, e1]
  · exact ⟨s, by simp only [vln_history_store, if_neg hpos], rfl⟩

theorem u16_lt (x : Int) : u16 x < 65536 := by
  unfold u16; omega

theorem payloadOf_wr_end (m : Mem) (v : Nat) :
    payloadOf (wr m (4 + getSize m) v) = payloadOf m ∧
      getSize (wr m (4 + getSize m) v) = getSize m := by
  have hs : getSize (wr m (4 + getSize m) v) = getSize m := getSize_wr _ _ _ (by omega)
  refine ⟨?_, hs⟩
  simp only [payloadOf]
  rw [hs]
  apply bytesAt_congr
  intro i hi
  simp only [wr]
  rw [if_neg (by omega)]

theorem dispatch_csi_other (s : vln_t) (pns : Mem) (f : Nat) (h1 : f ≠ 126) (h2 : f ≠ 116) :
    vln_dispatch_csi s f pns =
      (s, xmap.getD (if ((f : Int) - 64) % 256 ≥ 20 then 0 else (((f : Int) - 64) % 256).toNat) 0,
        pns) := by
  simp only [vln_dispatch_csi, if_neg h1, if_neg h2]

theorem xmap_index (f : Nat) (hf : f < 256) :
    (if ((f : Int) - 64) % 256 ≥ 20 then 0 else (((f : Int) - 64) % 256).toNat) =
      if 64 ≤ f ∧ f < 84 then f - 64 else 0 := by
  split_ifs <;> omega

theorem u16_succ (n : Nat) (h : n + 1 < 65536) : u16 ((n : Int) + 1) = n + 1 := by
  unfold u16; omega

theorem print_digits_eq : ∀ (fuel v : Nat), 0 < v → v < 10 ^ fuel → v < 2560 * 100 →
    vln_print_digits fuel v = (Nat.digits 10 v).map (fun d => 48 + d) := by
  intro fuel
  induction fuel with
  | zero => intro v h0 h1 _; simp at h1; omega
  | succ fuel ih =>
    intro v h0 h1 h2
    rw [vln_print_digits, Nat.digits_def' (by decide) h0, List.map_cons]
    have hm : (48 + v % 10) % 256 = 48 + v % 10 := by omega
    rw [hm]
    congr 1
    by_cases hz : v / 10 = 0
    · rw [if_neg (by simpa using hz), hz]; simp
    · rw [if_pos hz]
      apply ih
      · omega
      · rw [pow_succ] at h1; omega
      · omega

theorem print_digits_dec (v : Nat) (h : v < 65536) :
    (vln_print_digits 5 v).reverse = dec v := by
  unfold dec
  by_cases hz : v = 0
  · subst hz; rfl
  · rw [if_neg hz, print_digits_eq 5 v (by omega) (by norm_num; omega) (by omega)]

theorem wrList_below : ∀ (l : List Nat) (buf : Mem) (idx j : Nat), j < idx →
    wrList buf idx l j = buf j := by
  intro l
  induction l with
  | nil => intro buf idx j _; rfl
  | cons b bs ih =>
    intro buf idx j h
    rw [wrList, ih _ _ _ (by omega)]
    simp only [wr]
    rw [if_neg (by omega)]

theorem bytesAt_succ (m : Mem) (off n : Nat) :
    bytesAt m off (n + 1) = m off :: bytesAt m (off + 1) n := by
  have e : n + 1 = 1 + n := by omega
  rw [e, bytesAt_split, bytesAt_one]
  rfl

theorem bytesAt_wrList : ∀ (l : List Nat) (buf : Mem) (idx : Nat),
    bytesAt (wrList buf idx l) idx l.length = l := by
  intro l
  induction l with
  | nil => intro buf idx; rfl
  | cons b bs ih =>
    intro buf idx
    rw [List.length_cons, bytesAt_succ, wrList, ih, wrList_below _ _ _ _ (by omega)]
    simp [wr]

theorem wrList_append : ∀ (a b : List Nat) (buf : Mem) (idx : Nat),
    wrList buf idx (a ++ b) = wrList (wrList buf idx a) (idx + a.length) b := by
  intro a
  induction a with
  | nil => intro b buf idx; rfl
  | cons x xs ih =>
    intro b buf idx
    have e : idx + (x :: xs).length = idx + 1 + xs.length := by
      rw [List.length_cons]; omega
    rw [List.cons_append, wrList, ih, wrList, e]

/-- What `vln_seqgen_csi1` stores: `ESC [ dec(pn) c` from `idx` on. -/
theorem seqgen_csi1_eq (buf : Mem) (idx c pn : Nat) (h : pn < 65536) :
    vln_seqgen_csi1 buf idx c pn =
      (wrList buf idx ([27, 91] ++ dec pn ++ [c]), idx + ([27, 91] ++ dec pn ++ [c]).length) := by
  have hd := print_digits_dec pn h
  have e1 : wrList buf idx ([27, 91] ++ dec pn ++ [c]) =
      wr (wrList (wr (wr buf idx 27) (idx + 1) 91) (idx + 2) (dec pn)) (idx + 2 + (dec pn).length) c := by
    have e0 : wrList buf idx ([27, 91] ++ dec pn ++ [c]) =
        wrList (wr (wr buf idx 27) (idx + 1) 91) (idx + 2) (dec pn ++ [c]) := rfl
    rw [e0, wrList_append]
    rfl
  have e2 : idx + ([27, 91] ++ dec pn ++ [c]).length = idx + 2 + (dec pn).length + 1 := by
    simp only [List.length_append, List.length_cons, List.length_nil]
    omega
  rw [e1, e2]
  simp only [vln_seqgen_csi1, vln_seqgen_csi, vln_print_integer, Nat.mod_eq_of_lt h, hd]

/-- Output of `vln_edit_refresh` in terms of the window it computes. -/
theorem refresh_tx (s : vln_t) :
    (vln_edit_refresh s).tx =
      s.tx ++ ([27, 91] ++ dec (u16 ((s.pptoff : Int) + 1)) ++ [71]) ++
        (if getMask s.lnbuf = 0
          then bytesAt s.lnbuf (4 + (refresh_window s).1) (refresh_window s).2.1 else []) ++
        ([27, 91] ++ dec 0 ++ [74] ++
          ([27, 91] ++ dec (u16 ((s.pptoff : Int) + (refresh_window s).2.2 + 1)) ++ [71])) := by
  simp only [vln_edit_refresh, refresh_window, vln_seqgen_cursor_absolute, vln_seqgen_erase_display]
  rw [seqgen_csi1_eq _ _ _ _ (u16_lt _), seqgen_csi1_eq _ _ _ 0 (by decide),
    seqgen_csi1_eq _ _ _ _ (u16_lt _)]
  simp only [Nat.zero_add]
  rw [bytesAt_wrList]
  have e2 : ∀ (b : Mem) (A B : List Nat),
      bytesAt (wrList (wrList b 0 A) A.length B) 0 (A.length + B.length) = A ++ B := by
    intro b A B
    have := bytesAt_wrList (A ++ B) b 0
    rw [wrList_append, List.length_append, Nat.zero_add] at this
    exact this
  rw [e2]
  split_ifs <;> simp [vln_put]

/-- Under the line invariant the 16 bit window arithmetic of `vln_edit_refresh`
does not wrap: it computes the window of the specification. -/
theorem refresh_window_eq (s : vln_t) (h1 : s.curoff ≤ getSize s.lnbuf) (h2 : s.pptoff < s.col)
    (h3 : s.col < 65536) (h4 : getSize s.lnbuf < 65536) :
    refresh_window s = specWindow s.pptoff (getSize s.lnbuf) s.curoff s.col := by
  simp only [refresh_window, specWindow, u16, decide_eq_true_eq, ge_iff_le, gt_iff_lt]
  by_cases hs : s.col ≤ s.pptoff + s.curoff
  · rw [if_pos hs, if_pos hs, if_pos hs, if_pos hs]
    have e1 : (((s.pptoff : Int) + s.curoff - s.col + 1) % 65536).toNat =
        s.pptoff + s.curoff - s.col + 1 := by omega
    rw [e1]
    have e2 : (((getSize s.lnbuf : Int) - ((s.pptoff + s.curoff - s.col + 1 : Nat) : Int)) % 65536).toNat
        = getSize s.lnbuf - (s.pptoff + s.curoff - s.col + 1) := by omega
    have e3 : (((s.curoff : Int) - ((s.pptoff + s.curoff - s.col + 1 : Nat) : Int)) % 65536).toNat
        = s.curoff - (s.pptoff + s.curoff - s.col + 1) := by omega
    rw [e2, e3]
    split_ifs
    all_goals simp only [Prod.mk.injEq, true_and, and_true]
    all_goals omega
  · rw [if_neg hs, if_neg hs, if_neg hs, if_neg hs]
    split_ifs
    all_goals simp only [Prod.mk.injEq, true_and, and_true, Nat.sub_zero]
    all_goals omega

/-- Bounds on the window of the specification. -/
theorem specWindow_bounds (p size cursor cols : Nat) (h1 : cursor ≤ size) (h2 : p < cols) :
    (specWindow p size cursor cols).1 ≤ cursor ∧
    (specWindow p size cursor cols).2.2 + (specWindow p size cursor cols).1 = cursor ∧
    (specWindow p size cursor cols).1 + (specWindow p size cursor cols).2.1 ≤ size ∧
    (specWindow p size cursor cols).2.2 ≤ (specWindow p size cursor cols).2.1 ∧
    (specWindow p size cursor cols).2.1 ≤ cols - p ∧
    p + (specWindow p size cursor cols).2.2 + 1 ≤ cols := by
  simp only [specWindow]
  split_ifs <;> omega

theorem bytesAt_window (m : Mem) (v l : Nat) (h : v + l ≤ getSize m) :
    bytesAt m (4 + v) l = ((payloadOf m).drop v).take l := by
  unfold payloadOf
  rw [bytesAt_drop _ _ _ _ (by omega), bytesAt_take _ _ _ _ (by omega)]

theorem dec_zero : dec 0 = [48] := by simp [dec]

theorem refresh_geometry (s : vln_t) :
    (vln_edit_refresh s).pptoff = s.pptoff ∧ (vln_edit_refresh s).col = s.col := by
  simp only [vln_edit_refresh, vln_put]
  split_ifs <;> simp

theorem refresh_window_congr (s t : vln_t) (h1 : getSize s.lnbuf = getSize t.lnbuf)
    (h2 : s.curoff = t.curoff) (h3 : s.pptoff = t.pptoff) (h4 : s.col = t.col) :
    refresh_window s = refresh_window t := by
  simp only [refresh_window, h1, h2, h3, h4]

theorem refresh_alike (s t : vln_t) (h : Alike s t) (hm : getMask s.lnbuf ≠ 0) :
    Alike (vln_edit_refresh s) (vln_edit_refresh t) := by
  obtain ⟨a1, a2, a3, a4, a5, a6, a7⟩ := h
  obtain ⟨r1, r2, _, _, _, _, _, _, _, r10⟩ := refresh_frame s
  obtain ⟨q1, q2, _, _, _, _, _, _, _, q10⟩ := refresh_frame t
  obtain ⟨g1, g2⟩ := refresh_geometry s
  obtain ⟨k1, k2⟩ := refresh_geometry t
  have hmt : getMask t.lnbuf ≠ 0 := by rw [← a2]; exact hm
  refine ⟨by rw [r1, q1, a1], by rw [r1, q1, a2], by rw [r2, q2, a3], by rw [r10, q10, a4],
    by rw [g1, k1, a5], by rw [g2, k2, a6], ?_⟩
  rw [refresh_tx, refresh_tx, if_neg hm, if_neg hmt, refresh_window_congr s t a1 a3 a5 a6, a5, a7]

theorem getMask_wr (m : Mem) (i v : Nat) (h : 4 ≤ i) : getMask (wr m i v) = getMask m := by
  simp only [getMask, wr]
  rw [if_neg (by omega), if_neg (by omega)]

theorem getMask_setSize (m : Mem) (v : Nat) : getMask (setSize m v) = getMask m := by
  simp [getMask, setSize, wr]

theorem getMask_memmove (m : Mem) (dst src n : Nat) (h : 4 ≤ dst) :
    getMask (memmove m dst src n) = getMask m := by
  simp only [getMask, memmove]
  rw [if_neg (by omega), if_neg (by omega)]

theorem getMask_insert_buf (m : Mem) (cur n c v : Nat) (b : Prop) [Decidable b] :
    getMask (setSize (wr (if b then memmove m (4 + cur + 1) (4 + cur) n else m) (4 + cur) c) v) =
      getMask m := by
  rw [getMask_setSize, getMask_wr _ _ _ (by omega)]
  split_ifs
  · exact getMask_memmove _ _ _ _ (by omega)
  · rfl

theorem getSize_insert_buf (m : Mem) (cur n c v : Nat) (b : Prop) [Decidable b] :
    getSize (setSize (wr (if b then memmove m (4 + cur + 1) (4 + cur) n else m) (4 + cur) c) v) =
      v % 65536 := by
  rw [getSize_setSize]

theorem insert_alike (s t : vln_t) (c d : Nat) (h : Alike s t) (hm : getMask s.lnbuf ≠ 0) :
    Alike (vln_edit_insert s c) (vln_edit_insert t d) := by
  obtain ⟨a1, a2, a3, a4, a5, a6, a7⟩ := h
  by_cases hlt : getSize s.lnbuf < s.lnmax
  · have hlt2 : getSize t.lnbuf < t.lnmax := by rw [← a1, ← a4]; exact hlt
    simp only [vln_edit_insert, if_pos hlt, if_pos hlt2]
    rw [getSize_insert_buf, getSize_insert_buf, getMask_insert_buf, getMask_insert_buf]
    have hmt : getMask t.lnbuf ≠ 0 := by rw [← a2]; exact hm
    rw [if_pos hm, if_pos hmt, ← a1, ← a3]
    by_cases hc : u16 ((getSize s.lnbuf : Int) + 1) % 65536 ≠ u16 ((s.curoff : Int) + 1)
    · rw [if_pos hc, if_pos hc]
      apply refresh_alike
      · exact ⟨by rw [getSize_insert_buf, getSize_insert_buf],
          by rw [getMask_insert_buf, getMask_insert_buf]; exact a2, rfl, a4, a5, a6, a7⟩
      · show getMask (setSize _ _) ≠ 0
        rw [getMask_insert_buf]; exact hm
    · rw [if_neg hc, if_neg hc]
      exact ⟨by simp only [vln_put]; rw [getSize_insert_buf, getSize_insert_buf],
          by simp only [vln_put]; rw [getMask_insert_buf, getMask_insert_buf]; exact a2,
          rfl, a4, a5, a6, by simp only [vln_put]; rw [a7]⟩
  · have hlt2 : ¬ getSize t.lnbuf < t.lnmax := by rw [← a1, ← a4]; exact hlt
    rw [insert_full s c hlt, insert_full t d hlt2]
    exact ⟨a1, a2, a3, a4, a5, a6, a7⟩

theorem insert_mask (s : vln_t) (c : Nat) :
    getMask (vln_edit_insert s c).lnbuf = getMask s.lnbuf := by
  by_cases hlt : getSize s.lnbuf < s.lnmax
  · rw [(insert_lnbuf s c hlt).1]
    exact getMask_insert_buf _ _ _ _ _ _
  · rw [insert_full s c hlt]

theorem getMask_refresh (s : vln_t) : getMask (vln_edit_refresh s).lnbuf = getMask s.lnbuf := by
  rw [(refresh_frame s).1]

theorem edit_alike (s t : vln_t) (a b : EditAction) (hk : sameKey a b = true) (h : Alike s t)
    (hm : getMask s.lnbuf ≠ 0) :
    Alike (applyEdit s a) (applyEdit t b) ∧ getMask (applyEdit s a).lnbuf = getMask s.lnbuf := by
  obtain ⟨a1, a2, a3, a4, a5, a6, a7⟩ := h
  cases a <;> cases b <;> simp only [sameKey, Bool.false_eq_true] at hk
  case insert.insert c d =>
    exact ⟨insert_alike s t c d ⟨a1, a2, a3, a4, a5, a6, a7⟩ hm, insert_mask s c⟩
  case backspace.backspace =>
    simp only [applyEdit, vln_edit_backspace, ← a1, ← a3]
    by_cases hc : s.curoff > 0 ∧ getSize s.lnbuf > 0
    · rw [if_pos hc, if_pos hc]
      have hg : ∀ (m : Mem) (n v : Nat), getMask (setSize (memmove m (4 + s.curoff - 1)
          (4 + s.curoff) n) v) = getMask m := by
        intro m n v
        rw [getMask_setSize, getMask_memmove _ _ _ _ (by omega)]
      refine ⟨refresh_alike _ _ ⟨?_, ?_, rfl, a4, a5, a6, a7⟩ ?_, ?_⟩
      · show getSize (setSize _ _) = getSize (setSize _ _)
        rw [getSize_setSize, getSize_setSize]
      · show getMask (setSize _ _) = getMask (setSize _ _)
        rw [hg, hg]; exact a2
      · show getMask (setSize _ _) ≠ 0
        rw [hg]; exact hm
      · rw [getMask_refresh]; exact hg _ _ _
    · rw [if_neg hc, if_neg hc]
      exact ⟨⟨a1, a2, a3, a4, a5, a6, a7⟩, rfl⟩
  case delete.delete =>
    simp only [applyEdit, vln_edit_delete, ← a1, ← a3]
    by_cases hc : s.curoff < getSize s.lnbuf ∧ getSize s.lnbuf > 0
    · rw [if_pos hc, if_pos hc]
      have hg : ∀ (m : Mem) (n v : Nat), getMask (setSize (memmove m (4 + s.curoff)
          (4 + s.curoff + 1) n) v) = getMask m := by
        intro m n v
        rw [getMask_setSize, getMask_memmove _ _ _ _ (by omega)]
      refine ⟨refresh_alike _ _ ⟨?_, ?_, rfl, a4, a5, a6, a7⟩ ?_, ?_⟩
      · show getSize (setSize _ _) = getSize (setSize _ _)
        rw [getSize_setSize, getSize_setSize]
      · show getMask (setSize _ _) = getMask (setSize _ _)
        rw [hg, hg]; exact a2
      · show getMask (setSize _ _) ≠ 0
        rw [hg]; exact hm
      · rw [getMask_refresh]; exact hg _ _ _
    · rw [if_neg hc, if_neg hc]
      exact ⟨⟨a1, a2, a3, a4, a5, a6, a7⟩, rfl⟩
  case moveleft.moveleft =>
    simp only [applyEdit, vln_edit_moveleft, ← a3]
    by_cases hc : s.curoff > 0
    · rw [if_pos hc, if_pos hc]
      exact ⟨refresh_alike _ _ ⟨a1, a2, rfl, a4, a5, a6, a7⟩ hm, getMask_refresh _⟩
    · rw [if_neg hc, if_neg hc]
      exact ⟨⟨a1, a2, a3, a4, a5, a6, a7⟩, rfl⟩
  case moveright.moveright =>
    simp only [applyEdit, vln_edit_moveright, ← a1, ← a3]
    by_cases hc : s.curoff < getSize s.lnbuf
    · rw [if_pos hc, if_pos hc]
      exact ⟨refresh_alike _ _ ⟨a1, a2, rfl, a4, a5, a6, a7⟩ hm, getMask_refresh _⟩
    · rw [if_neg hc, if_neg hc]
      exact ⟨⟨a1, a2, a3, a4, a5, a6, a7⟩, rfl⟩
  case movehome.movehome =>
    exact ⟨refresh_alike _ _ ⟨a1, a2, rfl, a4, a5, a6, a7⟩ hm, getMask_refresh _⟩
  case moveend.moveend =>
    exact ⟨refresh_alike _ _ ⟨a1, a2, a1, a4, a5, a6, a7⟩ hm, getMask_refresh _⟩
  case delend.delend =>
    simp only [applyEdit, vln_edit_delend, ← a3]
    refine ⟨refresh_alike _ _ ⟨?_, ?_, rfl, a4, a5, a6, a7⟩ ?_, ?_⟩
    · show getSize (setSize _ _) = getSize (setSize _ _)
      rw [getSize_setSize, getSize_setSize]
    · show getMask (setSize _ _) = getMask (setSize _ _)
      rw [getMask_setSize, getMask_setSize]; exact a2
    · show getMask (setSize _ _) ≠ 0
      rw [getMask_setSize]; exact hm
    · rw [getMask_refresh]; exact getMask_setSize _ _
  case delline.delline =>
    simp only [applyEdit, vln_edit_delline]
    refine ⟨refresh_alike _ _ ⟨?_, ?_, rfl, a4, a5, a6, a7⟩ ?_, ?_⟩
    · show getSize (setSize _ _) = getSize (setSize _ _)
      rw [getSize_setSize, getSize_setSize]
    · show getMask (setSize _ _) = getMask (setSize _ _)
      rw [getMask_setSize, getMask_setSize]; exact a2
    · show getMask (setSize _ _) ≠ 0
      rw [getMask_setSize]; exact hm
    · rw [getMask_refresh]; exact getMask_setSize _ _

theorem runEdits_alike : ∀ (as bs : List EditAction) (s t : vln_t), sameKeys as bs = true →
    Alike s t → getMask s.lnbuf ≠ 0 → Alike (runEdits s as) (runEdits t bs) := by
  intro as
  induction as with
  | nil =>
    intro bs s t hk h _
    cases bs with
    | nil => exact h
    | cons b bs => simp [sameKeys] at hk
  | cons a as ih =>
    intro bs s t hk h hm
    cases bs with
    | nil => simp [sameKeys] at hk
    | cons b bs =>
      simp only [sameKeys, Bool.and_eq_true] at hk
      obtain ⟨e1, e2⟩ := edit_alike s t a b hk.1 h hm
      exact ih bs _ _ hk.2 e1 (by rw [e2]; exact hm)

/-- An insert at the tail of a line with room writes one byte: the byte itself,
or a space when the line is masked. -/
theorem insert_tail_tx (s : vln_t) (c : Nat) (h1 : s.curoff = getSize s.lnbuf)
    (hlt : getSize s.lnbuf < s.lnmax) (h3 : s.lnmax < 65536) :
    (vln_edit_insert s c).tx = s.tx ++ [if getMask s.lnbuf ≠ 0 then 32 else c] := by
  have hu : u16 ((getSize s.lnbuf : Int) + 1) % 65536 = u16 ((s.curoff : Int) + 1) := by
    rw [h1]; unfold u16; omega
  simp only [vln_edit_insert, if_pos hlt]
  rw [getSize_insert_buf, getMask_insert_buf, if_neg (by simpa using hu)]
  rfl

theorem typeAll_tail_tx : ∀ (w : List Nat) (s : vln_t), s.curoff = getSize s.lnbuf →
    getSize s.lnbuf + w.length ≤ s.lnmax → s.lnmax < 65536 → getMask s.lnbuf = 0 →
    (typeAll s w).tx = s.tx ++ w := by
  intro w
  induction w with
  | nil => intro s _ _ _ _; simp [typeAll]
  | cons c w ih =>
    intro s h1 h2 h3 h4
    simp only [List.length_cons] at h2
    obtain ⟨_, a2, a3⟩ := insert_spec s c (by omega) (by omega) h3
    have hmax : (vln_edit_insert s c).lnmax = s.lnmax := (insert_lnbuf s c (by omega)).2.2
    have ht := insert_tail_tx s c h1 (by omega) h3
    rw [if_neg (by simpa using h4)] at ht
    show (typeAll (vln_edit_insert s c) w).tx = _
    rw [ih (vln_edit_insert s c) (by rw [a2, a3, h1]) (by rw [a3, hmax]; omega)
      (by rw [hmax]; exact h3) (by rw [insert_mask]; exact h4), ht]
    simp

theorem refresh_same_of {s t : vln_t} (h : SameHist s t) : SameHist s (vln_edit_refresh t) :=
  sameHist_trans h (refresh_same t)

theorem applyEdit_same (s : vln_t) (a : EditAction) : SameHist s (applyEdit s a) := by
  cases a with
  | insert c => exact insert_same s c
  | backspace =>
    simp only [applyEdit, vln_edit_backspace]
    split_ifs
    · exact refresh_same_of ⟨rfl, rfl, rfl, rfl, rfl, rfl⟩
    · exact sameHist_refl s
  | delete =>
    simp only [applyEdit, vln_edit_delete]
    split_ifs
    · exact refresh_same_of ⟨rfl, rfl, rfl, rfl, rfl, rfl⟩
    · exact sameHist_refl s
  | moveleft =>
    simp only [applyEdit, vln_edit_moveleft]
    split_ifs
    · exact refresh_same_of ⟨rfl, rfl, rfl, rfl, rfl, rfl⟩
    · exact sameHist_refl s
  | moveright =>
    simp only [applyEdit, vln_edit_moveright]
    split_ifs
    · exact refresh_same_of ⟨rfl, rfl, rfl, rfl, rfl, rfl⟩
    · exact sameHist_refl s
  | movehome => exact refresh_same_of ⟨rfl, rfl, rfl, rfl, rfl, rfl⟩
  | moveend => exact refresh_same_of ⟨rfl, rfl, rfl, rfl, rfl, rfl⟩
  | delend => exact refresh_same_of ⟨rfl, rfl, rfl, rfl, rfl, rfl⟩
  | delline => exact refresh_same_of ⟨rfl, rfl, rfl, rfl, rfl, rfl⟩
  | delword => exact refresh_same_of ⟨rfl, rfl, rfl, rfl, rfl, rfl⟩

theorem clear_same (s : vln_t) : SameHist s (vln_edit_clear s) :=
  refresh_same_of ⟨rfl, rfl, rfl, rfl, rfl, rfl⟩

theorem typeAll_trunc : ∀ (w : List Nat) (s : vln_t), s.curoff = getSize s.lnbuf →
    getSize s.lnbuf ≤ s.lnmax → s.lnmax < 65536 →
    payload (typeAll s w) = payload s ++ w.take (s.lnmax - getSize s.lnbuf) ∧
      getSize (typeAll s w).lnbuf = getSize s.lnbuf + min w.length (s.lnmax - getSize s.lnbuf) ∧
      (typeAll s w).lnmax = s.lnmax := by
  intro w
  induction w with
  | nil => intro s _ _ _; exact ⟨by simp [typeAll], by simp [typeAll], rfl⟩
  | cons c w ih =>
    intro s h1 h2 h3
    by_cases hlt : getSize s.lnbuf < s.lnmax
    · obtain ⟨a1, a2, a3⟩ := insert_spec s c (by omega) hlt h3
      have hmax : (vln_edit_insert s c).lnmax = s.lnmax := (insert_lnbuf s c hlt).2.2
      obtain ⟨b1, b2, b3⟩ := ih (vln_edit_insert s c) (by rw [a2, a3, h1]) (by rw [a3, hmax]; omega)
        (by rw [hmax]; exact h3)
      have hp : payload (vln_edit_insert s c) = payload s ++ [c] := by
        rw [a1, h1]
        have hl : (payload s).length = getSize s.lnbuf := bytesAt_length _ _ _
        rw [List.take_of_length_le (by omega), List.drop_of_length_le (by omega)]
        simp
      have hk : s.lnmax - getSize s.lnbuf = (s.lnmax - (getSize s.lnbuf + 1)) + 1 := by omega
      refine ⟨?_, ?_, ?_⟩
      · show payload (typeAll (vln_edit_insert s c) w) = _
        rw [b1, hp, a3, hmax, hk, List.take_succ_cons]
        simp
      · show getSize (typeAll (vln_edit_insert s c) w).lnbuf = _
        rw [b2, a3, hmax, List.length_cons]
        omega
      · show (typeAll (vln_edit_insert s c) w).lnmax = _
        rw [b3, hmax]
    · have e : typeAll s (c :: w) = typeAll s w := by
        show typeAll (vln_edit_insert s c) w = _
        rw [insert_full s c hlt]
      obtain ⟨b1, b2, b3⟩ := ih s h1 h2 h3
      have hz : s.lnmax - getSize s.lnbuf = 0 := by omega
      rw [e]
      refine ⟨?_, ?_, b3⟩
      · rw [b1, hz]; simp
      · rw [b2, hz]; simp

/-- What a returning `vln_history_cache` leaves in `in` and `cache`. -/
theorem cache_heads (s s1 : vln_t) (h : vln_history_cache s = some s1) :
    s1.hin = u16 ((s.hcache : Int) + (vln_align4 (getSize s.lnbuf + 4) % 65536 : Nat)) ∧
      s1.hcache = s.hcache := by
  unfold vln_history_cache at h
  simp only [] at h
  split at h
  · exact absurd h (by simp)
  · split at h
    · exact absurd h (by simp)
    · simp only [Option.some.injEq] at h
      subst h
      exact ⟨rfl, rfl⟩

/-- What `vln_history_store` does to `in` and `cache` when it stores a line. -/
theorem store_heads (s s1 : vln_t) (h : vln_history_store s = some s1) (hpos : 0 < getSize s.lnbuf) :
    s1.hin = u16 ((s.hcache : Int) + (vln_align4 (getSize s.lnbuf + 4) % 65536 : Nat)) ∧
      s1.hcache = s1.hin := by
  simp only [vln_history_store, if_pos hpos] at h
  cases hc : vln_history_cache s with
  | none => rw [hc] at h; exact absurd h (by simp)
  | some s0 =>
    rw [hc] at h
    simp only [Option.some.injEq] at h
    subst h
    exact ⟨(cache_heads s s0 hc).1, rfl⟩

/-- On a fresh empty line, the first press of prev loads the newest record when
its slot and the 4 bytes of the cached live line fit in the ring together. -/
theorem loadprev_newest (s : vln_t) (cap C O : Nat) (m : Mem) (R : List Mem)
    (hinv : HistInv s cap C O [] (m :: R)) (hidx : s.hindex = 0) (hsz : getSize s.lnbuf = 0)
    (hfit : slot m + 4 ≤ cap) :
    ∃ s2, vln_history_loadprev s = some s2 ∧ Holds s2 m ∧ s2.hindex = 1 := by
  have hr := hinv.ring
  have hcge := hr.cge
  have hslot : slot s.lnbuf = 4 := by
    unfold slot; rw [hsz]; decide
  have hm0 : getSize s.lnbuf + 4 ≤ cap := by omega
  obtain ⟨e4, eO, eC, efit, _⟩ :=
    evictTo_facts cap C O (slot s.lnbuf) hr.c4 hinv.c4 hinv.o4 (by omega) hinv.le (by omega)
  have hsl := histInv_slots_le hinv
  simp only [slots] at hsl
  have hch : Chain s.hpbuf cap O C (m :: R) := by
    have := hinv.chain
    simpa [slots] using this
  have hm : getSize m + 4 ≤ cap := by
    simp only [Chain] at hch
    exact hch.1
  have hcinv := cache_inv s cap C O [] _ hinv hm0
  have hA : slot m ≤ C - evictTo cap C O (slot s.lnbuf) := by
    rw [hslot]
    unfold evictTo
    split_ifs <;> omega
  have hfm : fit (C - evictTo cap C O (slot s.lnbuf)) (m :: R) =
      m :: fit (C - evictTo cap C O (slot s.lnbuf) - slot m) R := by
    simp only [fit, if_pos hA]
  rw [hfm] at hcinv
  generalize fit (C - evictTo cap C O (slot s.lnbuf) - slot m) R = R3 at hcinv
  have hone : u16 ((0 : Int) + 1) = 1 := by unfold u16; omega
  have hf := fetch_eq _ cap C _ [s.lnbuf] _ hcinv 1
  have hloc : locate (C + slots [s.lnbuf]) ([s.lnbuf] ++ m :: R3) 1 =
      some (C + slots [s.lnbuf] - slot s.lnbuf, m) := rfl
  rw [hloc] at hf
  simp only [] at hf
  refine ⟨loaded (cacheState s cap C O) m 1, ?_, holds_loaded _ m 1 cap hr.c4 hr.cle hm,
    (loaded_fields _ m 1).2.2⟩
  simp only [vln_history_loadprev, vln_history_load, hidx, if_true]
  rw [cache_eq s cap C O [] _ hinv hm0]
  simp only [Int.ofNat_zero, Nat.cast_zero, hone]
  rw [show cacheState s cap C O = { s with
      hout := evictTo cap C O (slot s.lnbuf) % 65536
      hpbuf := cacheRing s.hpbuf cap C s.lnbuf
      hin := (C + slot s.lnbuf) % 65536 } from rfl] at hf
  rw [hf]
  rfl

theorem foldl_digits_ge : ∀ (ds : List Nat) (v : Nat),
    v ≤ ds.foldl (fun v d => v * 10 + (d - 48)) v := by
  intro ds
  induction ds with
  | nil => intro v; exact le_refl _
  | cons d ds ih =>
    intro v
    have := ih (v * 10 + (d - 48))
    simp only [List.foldl_cons]
    omega

/-- The loop of `vln_parse_integer` over a buffer that holds the digits `ds` from
`pos` on, followed by a byte that is not a digit. -/
theorem parse_loop_digits : ∀ (ds : List Nat) (buf : Mem) (fuel pos value : Nat),
    bytesAt buf pos ds.length = ds → ¬ (48 ≤ buf (pos + ds.length) ∧ buf (pos + ds.length) ≤ 57) →
    ds.length < fuel → (∀ d ∈ ds, 48 ≤ d ∧ d ≤ 57) →
    ds.foldl (fun v d => v * 10 + (d - 48)) value ≤ 65535 →
    vln_parse_integer_loop buf fuel pos value = ds.foldl (fun v d => v * 10 + (d - 48)) value := by
  intro ds
  induction ds with
  | nil =>
    intro buf fuel pos value _ hend hfuel _ _
    obtain ⟨f, rfl⟩ : ∃ f, fuel = f + 1 := ⟨fuel - 1, by simp at hfuel; omega⟩
    simp only [List.length_nil, Nat.add_zero] at hend
    rw [vln_parse_integer_loop, if_neg hend]
    rfl
  | cons d ds ih =>
    intro buf fuel pos value hb hend hfuel hd hle
    obtain ⟨f, rfl⟩ : ∃ f, fuel = f + 1 := ⟨fuel - 1, by simp at hfuel; omega⟩
    rw [List.length_cons, bytesAt_succ] at hb
    have h0 : buf pos = d := (List.cons.inj hb).1
    have h1 : bytesAt buf (pos + 1) ds.length = ds := (List.cons.inj hb).2
    obtain ⟨d1, d2⟩ := hd d (List.mem_cons_self _ _)
    simp only [List.foldl_cons] at hle ⊢
    have hge := foldl_digits_ge ds (value * 10 + (d - 48))
    have hu : u16 ((u16 ((value : Int) * 10) : Int) + ((buf pos : Int) - 48)) =
        value * 10 + (d - 48) := by
      rw [h0]; unfold u16; omega
    rw [vln_parse_integer_loop, if_pos (by rw [h0]; exact ⟨d1, d2⟩), hu]
    apply ih
    · exact h1
    · have e : pos + 1 + ds.length = pos + (d :: ds).length := by simp; omega
      rw [e]; exact hend
    · simp at hfuel; omega
    · exact fun x hx => hd x (List.mem_cons_of_mem _ hx)
    · exact hle

/-- The value `vln_parse_integer` reads from `csibuf` when it holds the digits of
a numeral followed by the byte `t` just read, which is not a digit. -/
theorem parse_numeral (cb : Mem) (ds : List Nat) (t : Nat) (ht : ¬ (48 ≤ t ∧ t ≤ 57))
    (hd : ∀ d ∈ ds, 48 ≤ d ∧ d ≤ 57) (hv : numeralValue ds ≤ 65535) :
    vln_parse_integer (wr (wrList cb 0 ds) ds.length t) ds.length = numeralValue ds := by
  unfold vln_parse_integer numeralValue
  apply parse_loop_digits ds _ _ 0 0
  · have h2 : bytesAt (wr (wrList cb 0 ds) ds.length t) 0 ds.length =
        bytesAt (wrList cb 0 ds) 0 ds.length := by
      apply bytesAt_congr
      intro i hi
      simp only [wr]
      rw [if_neg (by omega)]
    exact h2.trans (bytesAt_wrList ds cb 0)
  · simp only [Nat.zero_add, wr, if_true]
    exact ht
  · omega
  · exact hd
  · exact hv

theorem pcsi_loop_digit (cb : Mem) (pb e : Nat) (pns : Mem) (np c : Nat) (rest : List Nat)
    (h : 48 ≤ c ∧ c ≤ 57) :
    vln_seqexec_pcsi_loop cb pb e pns np (c :: rest) =
      vln_seqexec_pcsi_loop (wr cb pb c) (pb + 1) e pns np rest := by
  rw [vln_seqexec_pcsi_loop, if_pos h]

theorem pcsi_loop_digits : ∀ (ds : List Nat) (cb : Mem) (pb e : Nat) (pns : Mem) (np : Nat)
    (rest : List Nat), (∀ d ∈ ds, 48 ≤ d ∧ d ≤ 57) →
    vln_seqexec_pcsi_loop cb pb e pns np (ds ++ rest) =
      vln_seqexec_pcsi_loop (wrList cb pb ds) (pb + ds.length) e pns np rest := by
  intro ds
  induction ds with
  | nil => intro cb pb e pns np rest _; rfl
  | cons d ds ih =>
    intro cb pb e pns np rest h
    rw [List.cons_append, pcsi_loop_digit _ _ _ _ _ _ _ (h d (List.mem_cons_self _ _)),
      ih _ _ _ _ _ _ (fun x hx => h x (List.mem_cons_of_mem _ hx)), wrList, List.length_cons]
    congr 1
    omega

theorem pcsi_loop_semicolon (cb : Mem) (pb e : Nat) (pns : Mem) (np : Nat) (rest : List Nat) :
    vln_seqexec_pcsi_loop cb pb e pns np (59 :: rest) =
      vln_seqexec_pcsi_loop (wr cb pb 59) 0 e
        (wr pns np (vln_parse_integer (wr cb pb 59) pb)) (np + 1) rest := by
  simp [vln_seqexec_pcsi_loop]

theorem pcsi_loop_final (cb : Mem) (pb e : Nat) (pns : Mem) (np c : Nat) (rest : List Nat)
    (h : csiFinal c) :
    vln_seqexec_pcsi_loop cb pb e pns np (c :: rest) =
      .ok c e (wr pns np (vln_parse_integer (wr cb pb c) pb)) (np + 1) rest := by
  have h1 : ¬ (48 ≤ c ∧ c ≤ 57) := by unfold csiFinal at h; omega
  have h2 : ¬ c = 59 := by unfold csiFinal at h; omega
  rw [vln_seqexec_pcsi_loop, if_neg h1, if_neg h2]
  exact if_pos h

/-- The loop of `vln_seqexec_pcsi`, started at the head of `csibuf`, over the
numerals `p1 ; ... ; pn` and a final byte. -/
theorem pcsi_loop_params : ∀ (ps : List (List Nat)) (cb : Mem) (e : Nat) (pns : Mem) (np F : Nat)
    (rest : List Nat), ps ≠ [] →
    (∀ p ∈ ps, (∀ d ∈ p, 48 ≤ d ∧ d ≤ 57) ∧ numeralValue p ≤ 65535) → csiFinal F →
    vln_seqexec_pcsi_loop cb 0 e pns np (csiParams ps ++ F :: rest) =
      .ok F e (wrList pns np (ps.map numeralValue)) (np + ps.length) rest := by
  intro ps
  induction ps with
  | nil => intro cb e pns np F rest h; exact absurd rfl h
  | cons p ps ih =>
    intro cb e pns np F rest _ hp hF
    obtain ⟨hd, hv⟩ := hp p (List.mem_cons_self _ _)
    have hF1 : ¬ (48 ≤ F ∧ F ≤ 57) := by unfold csiFinal at hF; omega
    cases ps with
    | nil =>
      simp only [csiParams, List.map_cons, List.map_nil, wrList, List.length_cons, List.length_nil]
      rw [pcsi_loop_digits p _ _ _ _ _ _ hd, Nat.zero_add, pcsi_loop_final _ _ _ _ _ _ _ hF,
        parse_numeral cb p F hF1 hd hv]
    | cons q qs =>
      have e1 : csiParams (p :: q :: qs) ++ F :: rest =
          p ++ 59 :: (csiParams (q :: qs) ++ F :: rest) := by
        simp [csiParams]
      rw [e1, pcsi_loop_digits p _ _ _ _ _ _ hd, Nat.zero_add, pcsi_loop_semicolon,
        parse_numeral cb p 59 (by decide) hd hv,
        ih _ _ _ _ _ _ (by simp) (fun x hx => hp x (List.mem_cons_of_mem _ hx)) hF]
      simp only [List.map_cons, wrList, List.length_cons]
      congr 1
      omega

theorem csiParams_head (ps : List (List Nat)) (h : ps ≠ []) (hp : ∀ p ∈ ps, p ≠ []) :
    ∃ c tl, csiParams ps = c :: tl ∧ c ∈ ps.head h := by
  cases ps with
  | nil => exact absurd rfl h
  | cons p ps =>
    have hne := hp p (List.mem_cons_self _ _)
    cases p with
    | nil => exact absurd rfl hne
    | cons c cs =>
      cases ps with
      | nil => exact ⟨c, cs, rfl, by simp⟩
      | cons q qs => exact ⟨c, cs ++ 59 :: csiParams (q :: qs), rfl, by simp⟩

/-- When the first byte after `ESC [` is a digit, `vln_seqexec_pcsi` is its loop
started at the head of `csibuf`. -/
theorem pcsi_digit_first (pns : Mem) (c : Nat) (rest : List Nat) (h : 48 ≤ c ∧ c ≤ 57) :
    vln_seqexec_pcsi pns (c :: rest) =
      vln_seqexec_pcsi_loop (fun _ => 0) 0 0 pns 0 (c :: rest) := by
  rw [vln_seqexec_pcsi, pcsi_loop_digit _ _ _ _ _ _ _ h, if_pos h]

theorem wrList_at : ∀ (l : List Nat) (buf : Mem) (idx i : Nat) (h : i < l.length),
    wrList buf idx l (idx + i) = l.get ⟨i, h⟩ := by
  intro l
  induction l with
  | nil => intro buf idx i h; simp at h
  | cons b bs ih =>
    intro buf idx i h
    cases i with
    | zero =>
      rw [wrList, Nat.add_zero, wrList_below _ _ _ _ (by omega)]
      simp [wr]
    | succ j =>
      have := ih (wr buf idx b) (idx + 1) j (by simpa using h)
      rw [wrList]
      have e : idx + (j + 1) = idx + 1 + j := by omega
      rw [e, this]
      rfl

theorem wrList_above : ∀ (l : List Nat) (buf : Mem) (idx j : Nat), idx + l.length ≤ j →
    wrList buf idx l j = buf j := by
  intro l
  induction l with
  | nil => intro buf idx j _; rfl
  | cons b bs ih =>
    intro buf idx j h
    simp only [List.length_cons] at h
    rw [wrList, ih _ _ _ (by omega)]
    simp only [wr]
    rw [if_neg (by omega)]

/-- The parser `vln_seqexec_pcsi` on `p1 ; ... ; pn F`: it returns 0 with the final byte `F`, no prefix byte, `n` parameters stored as `pns[i] = value(p(i+1))`, the other entries untouched and the bytes behind `F` unread. -/
theorem pcsi_parameters (pns : Mem) (ps : List (List Nat)) (F : Nat) (rest : List Nat)
    (hn1 : 1 ≤ ps.length) (_hn4 : ps.length ≤ 4)
    (hp : ∀ p ∈ ps, 1 ≤ p.length ∧ p.length ≤ 5 ∧ (∀ d ∈ p, 48 ≤ d ∧ d ≤ 57) ∧
      numeralValue p ≤ 65535)
    (hF : csiFinal F) :
    ∃ pns2, vln_seqexec_pcsi pns (csiParams ps ++ F :: rest) = .ok F 0 pns2 ps.length rest ∧
      (∀ i (h : i < ps.length), pns2 i = numeralValue (ps.get ⟨i, h⟩)) ∧
      (∀ j, ps.length ≤ j → pns2 j = pns j) := by
  have hne : ps ≠ [] := by intro h; rw [h] at hn1; simp at hn1
  obtain ⟨c, tl, e1, hc⟩ := csiParams_head ps hne (by
    intro p hp1 h
    have := (hp p hp1).1
    rw [h] at this
    simp at this)
  have hcd : 48 ≤ c ∧ c ≤ 57 := (hp _ (List.head_mem hne)).2.2.1 c hc
  have hl := pcsi_loop_params ps (fun _ => 0) 0 pns 0 F rest hne
    (fun p h => ⟨(hp p h).2.2.1, (hp p h).2.2.2⟩) hF
  rw [Nat.zero_add] at hl
  refine ⟨wrList pns 0 (ps.map numeralValue), ?_, ?_, ?_⟩
  · rw [e1, List.cons_append, pcsi_digit_first pns c _ hcd, ← List.cons_append, ← e1]
    exact hl
  · intro i h
    have := wrList_at (ps.map numeralValue) pns 0 i (by simpa using h)
    rw [Nat.zero_add] at this
    rw [this]
    simp
  · intro j hj
    exact wrList_above _ _ _ _ (by simpa using hj)

theorem pcsi_stores_loop_length : ∀ (input : List Nat) (cb : Mem) (pb e : Nat) (pns : Mem)
    (np : Nat),
    (vln_seqexec_pcsi_stores_loop pb input).length = input.length -
      (match vln_seqexec_pcsi_loop cb pb e pns np input with
        | .ok _ _ _ _ rest => rest.length
        | .err rest => rest.length
        | .blocked => 0) ∧
    (match vln_seqexec_pcsi_loop cb pb e pns np input with
        | .ok _ _ _ _ rest => rest.length
        | .err rest => rest.length
        | .blocked => 0) ≤ input.length := by
  intro input
  induction input with
  | nil => intro cb pb e pns np; exact ⟨rfl, le_refl _⟩
  | cons c rest ih =>
    intro cb pb e pns np
    rw [vln_seqexec_pcsi_stores_loop, vln_seqexec_pcsi_loop]
    by_cases h1 : 48 ≤ c ∧ c ≤ 57
    · rw [if_pos h1, if_pos h1]
      obtain ⟨a, b⟩ := ih (wr cb pb c) (pb + 1) e pns np
      simp only [List.length_cons]
      omega
    · rw [if_neg h1, if_neg h1]
      by_cases h2 : c = 59
      · rw [if_pos h2, if_pos h2]
        obtain ⟨a, b⟩ := ih (wr cb pb c) 0 e (wr pns np (vln_parse_integer (wr cb pb c) pb)) (np + 1)
        simp only [List.length_cons]
        omega
      · rw [if_neg h2, if_neg h2]
        split_ifs <;> simp

/-- The parser stores one byte to `csibuf` for every byte it reads. -/
theorem pcsi_stores_length (pns : Mem) (input : List Nat) :
    (vln_seqexec_pcsi_stores input).length = (vln_seqexec_pcsi pns input).consumed input := by
  cases input with
  | nil => rfl
  | cons c rest =>
    rw [vln_seqexec_pcsi_stores, vln_seqexec_pcsi]
    have key : ∀ (cb : Mem) (pb e : Nat),
        (0 :: vln_seqexec_pcsi_stores_loop pb rest).length =
          (vln_seqexec_pcsi_loop cb pb e pns 0 rest).consumed (c :: rest) := by
      intro cb pb e
      obtain ⟨a, b⟩ := pcsi_stores_loop_length rest cb pb e pns 0
      rw [List.length_cons]
      generalize vln_seqexec_pcsi_loop cb pb e pns 0 rest = r at a b ⊢
      cases r <;> simp only [PcsiResult.consumed, List.length_cons] at a b ⊢ <;> omega
    split_ifs
    · exact key _ _ _
    · exact key _ _ _
    · simp [PcsiResult.consumed]
    · exact key _ _ _

theorem help_length : CFG_VLN_HELP.length ≠ 0 := by decide!

theorem dispatch_geometry (s : vln_t) (pns : Mem) (h : pns 0 = 8) :
    vln_dispatch_csi s 116 pns =
      ({ s with
          nsupt := 0
          row := pns 1
          col := pns 2
          tx := s.tx ++ [27, 91, 63, 52, 55, 104, 27, 91, 50, 74, 27, 91, 49, 59, 49, 72] ++
            CFG_VLN_HELP ++ [27, 91, 63, 52, 55, 108] }, VLN_EXEC_NUL, pns) := by
  unfold vln_dispatch_csi
  rw [if_neg (by decide), if_pos rfl, if_pos h]
  simp only [vln_help, if_pos help_length, vln_put]

theorem dispatch_t_other (s : vln_t) (pns : Mem) (h : pns 0 ≠ 8) :
    vln_dispatch_csi s 116 pns = (s, VLN_EXEC_NUL, pns) := by
  unfold vln_dispatch_csi
  rw [if_neg (by decide), if_pos rfl, if_neg h]

theorem seqexec_bracket (s : vln_t) (pns : Mem) (body : List Nat) :
    vln_seqexec s pns (91 :: body) = vln_seqexec_csi s pns body := by
  simp [vln_seqexec]

theorem numeralValue_digits : ∀ (L : List Nat),
    numeralValue ((L.map (fun d => 48 + d)).reverse) = Nat.ofDigits 10 L := by
  intro L
  unfold numeralValue
  rw [List.foldl_reverse]
  induction L with
  | nil => rfl
  | cons d L ih =>
    rw [List.map_cons, List.foldr_cons, ih, Nat.ofDigits_cons]
    omega

theorem dec_length (v : Nat) (h : v < 65536) : 1 ≤ (dec v).length ∧ (dec v).length ≤ 5 := by
  unfold dec
  by_cases hz : v = 0
  · rw [if_pos hz]; simp
  · rw [if_neg hz, List.length_reverse, List.length_map]
    have h1 : (Nat.digits 10 v).length ≤ 5 := by
      rw [Nat.digits_len 10 v (by decide) hz]
      have := Nat.log_lt_of_lt_pow hz (show v < 10 ^ 5 by omega)
      omega
    have h2 : Nat.digits 10 v ≠ [] := Nat.digits_ne_nil_iff_ne_zero.mpr hz
    have h3 : 0 < (Nat.digits 10 v).length := List.length_pos.mpr h2
    omega

theorem dec_digits (v : Nat) : ∀ d ∈ dec v, 48 ≤ d ∧ d ≤ 57 := by
  unfold dec
  by_cases hz : v = 0
  · rw [if_pos hz]; simp
  · rw [if_neg hz]
    intro d hd
    simp only [List.mem_reverse, List.mem_map] at hd
    obtain ⟨x, hx, rfl⟩ := hd
    have := Nat.digits_lt_base (by decide : 1 < 10) hx
    omega

theorem dec_value (v : Nat) : numeralValue (dec v) = v := by
  unfold dec
  by_cases hz : v = 0
  · rw [if_pos hz, hz]; rfl
  · rw [if_neg hz, numeralValue_digits, Nat.ofDigits_digits]

theorem dec_leading (v : Nat) (hz : v ≠ 0) : (dec v).head? ≠ some 48 := by
  unfold dec
  rw [if_neg hz, List.head?_reverse, List.getLast?_map,
    List.getLast?_eq_getLast _ (Nat.digits_ne_nil_iff_ne_zero.mpr hz)]
  have := Nat.getLast_digit_ne_zero 10 hz
  simp only [Option.map_some', ne_eq, Option.some.injEq]
  omega

theorem print_integer_eq (buf : Mem) (idx v : Nat) (h : v < 65536) :
    vln_print_integer buf idx v = (wrList buf idx (dec v), idx + (dec v).length) := by
  simp only [vln_print_integer, Nat.mod_eq_of_lt h, print_digits_dec v h]

theorem semis_append (a b : List (List Nat)) : semis (a ++ b) = semis a ++ semis b := by
  induction a with
  | nil => rfl
  | cons c a ih =>
    rw [List.cons_append, semis, semis, ih]
    simp only [List.append_assoc, List.cons_append]

theorem semis_params : ∀ (cs : List (List Nat)), cs ≠ [] → semis cs = csiParams cs ++ [59]
  | [], h => absurd rfl h
  | [c], _ => by simp [semis, csiParams]
  | c :: d :: rest, _ => by
    have ih := semis_params (d :: rest) (by simp)
    rw [semis, ih, csiParams]
    simp only [List.append_assoc, List.cons_append]

theorem wr_wr_same (m : Mem) (i a b : Nat) : wr (wr m i a) i b = wr m i b := by
  funext j
  unfold wr
  split_ifs <;> rfl

theorem wrote_step2 (buf : Mem) (idx : Nat) (X : List Nat) (flag a : Nat) :
    (if flag ≠ 0 then (wr (wr (wrote buf idx X).1 (wrote buf idx X).2 a) ((wrote buf idx X).2 + 1) 59,
        (wrote buf idx X).2 + 2) else wrote buf idx X) =
      wrote buf idx (X ++ semis (if flag ≠ 0 then [[a]] else [])) := by
  by_cases h : flag ≠ 0
  · rw [if_pos h, if_pos h]
    unfold wrote
    rw [wrList_append]
    simp only [semis, List.length_append, List.length_cons, List.length_nil, List.singleton_append,
      wrList, Nat.add_assoc]
  · rw [if_neg h, if_neg h]
    simp only [semis, List.append_nil]

theorem wrote_step3 (buf : Mem) (idx : Nat) (X : List Nat) (flag a b : Nat) :
    (if flag ≠ 0 then
      (wr (wr (wr (wrote buf idx X).1 (wrote buf idx X).2 a) ((wrote buf idx X).2 + 1) b)
        ((wrote buf idx X).2 + 2) 59, (wrote buf idx X).2 + 3) else wrote buf idx X) =
      wrote buf idx (X ++ semis (if flag ≠ 0 then [[a, b]] else [])) := by
  by_cases h : flag ≠ 0
  · rw [if_pos h, if_pos h]
    unfold wrote
    rw [wrList_append]
    simp only [semis, List.length_append, List.length_cons, List.length_nil, List.cons_append,
      List.nil_append, wrList, Nat.add_assoc]
  · rw [if_neg h, if_neg h]
    simp only [semis, List.append_nil]

theorem wrote_finish (buf : Mem) (idx : Nat) (Y : List Nat) :
    (wr (wr (wrote buf idx (Y ++ [59])).1 ((wrote buf idx (Y ++ [59])).2 - 1) 109)
        (wrote buf idx (Y ++ [59])).2 0, (wrote buf idx (Y ++ [59])).2) =
      (wrList buf idx (Y ++ [109, 0]), idx + (Y ++ [109]).length) := by
  unfold wrote
  simp only []
  rw [wrList_append, wrList_append]
  simp only [wrList, List.length_append, List.length_cons, List.length_nil]
  have e4 : idx + (Y.length + (0 + 1)) - 1 = idx + Y.length := by omega
  rw [e4, wr_wr_same]
  rfl

theorem sgrCodes_ne (raw : Nat) (h1 : raw ≠ 0) (h2 : raw < 65536) : sgrCodes raw ≠ [] := by
  unfold sgrCodes
  intro h
  simp only [List.append_eq_nil] at h
  obtain ⟨⟨⟨⟨⟨a, b⟩, c⟩, d⟩, e⟩, f⟩ := h
  split_ifs at a b c d e f
  omega

theorem sgrset_zero (buf : Mem) (idx : Nat) :
    vln_sgrset buf idx 0 = (wrList buf idx [27, 91, 109, 0], idx + 3) := rfl

theorem sgrset_codes (buf : Mem) (idx raw : Nat) (h1 : raw ≠ 0) (h2 : raw < 65536) :
    vln_sgrset buf idx raw =
      (wrList buf idx ([27, 91] ++ csiParams (sgrCodes raw) ++ [109, 0]),
        idx + ([27, 91] ++ csiParams (sgrCodes raw) ++ [109]).length) := by
  have e0 : vln_seqgen_csi buf idx = wrote buf idx [27, 91] := rfl
  unfold vln_sgrset
  simp only [Nat.mod_eq_of_lt h2, vln_sgr_t.ofRaw]
  rw [if_neg h1, e0, wrote_step2, wrote_step2, wrote_step2, wrote_step2]
  have b1 : ∀ v, v < 64 → (48 + (v - 1)) % 256 = 48 + (v - 1) := fun v hv => by omega
  rw [b1 _ (Nat.mod_lt _ (by decide)), b1 _ (Nat.mod_lt _ (by decide)), wrote_step3, wrote_step3]
  simp only [List.append_assoc, ← semis_append]
  have hc : sgrCodes raw = (if raw / 64 % 2 ≠ 0 then [[49]] else []) ++
      ((if raw / 128 % 2 ≠ 0 then [[52]] else []) ++
      ((if raw / 16384 % 2 ≠ 0 then [[53]] else []) ++
      ((if raw / 32768 % 2 ≠ 0 then [[56]] else []) ++
      ((if raw % 64 ≠ 0 then [[51, 48 + (raw % 64 - 1)]] else []) ++
      (if raw / 256 % 64 ≠ 0 then [[52, 48 + (raw / 256 % 64 - 1)]] else []))))) := by
    unfold sgrCodes
    simp only [List.append_assoc]
  rw [← hc, semis_params _ (sgrCodes_ne raw h1 h2)]
  rw [← List.append_assoc]
  exact wrote_finish buf idx ([27, 91] ++ csiParams (sgrCodes raw))

theorem wrList_snoc_at (buf : Mem) (idx : Nat) (Z : List Nat) (x : Nat) :
    wrList buf idx (Z ++ [x]) (idx + Z.length) = x := by
  rw [wrList_append]
  simp [wrList, wr]

theorem colour_code (lead v : Nat) (h1 : 1 ≤ v) (h2 : v ≤ 10) (hl : lead = 3 ∨ lead = 4) :
    [48 + lead, 48 + (v - 1)] = dec (10 * lead + (v - 1)) := by
  rcases hl with h | h
  all_goals subst h
  all_goals interval_cases v
  all_goals simp [dec]

theorem and_pred_pow (k : Nat) : 2 ^ k &&& (2 ^ k - 1) = 0 := by
  rw [Nat.and_pow_two_sub_one_eq_mod]
  exact Nat.mod_self _

theorem pow_of_and_pred : ∀ (n h : Nat), h ≤ n → 2 ≤ h → h &&& (h - 1) = 0 →
    ∃ k, 1 ≤ k ∧ h = 2 ^ k := by
  intro n
  induction n with
  | zero => intro h h1 h2; omega
  | succ n ih =>
    intro h h1 h2 h3
    have hd : h / 2 &&& (h - 1) / 2 = 0 := by
      rw [← Nat.and_div_two, h3]
    by_cases hodd : h % 2 = 1
    · have e : (h - 1) / 2 = h / 2 := by omega
      rw [e, Nat.and_self] at hd
      omega
    · have e : (h - 1) / 2 = h / 2 - 1 := by omega
      rw [e] at hd
      by_cases h4 : h / 2 = 1
      · exact ⟨1, le_refl _, by omega⟩
      · obtain ⟨k, k1, k2⟩ := ih (h / 2) (by omega) (by omega) hd
        refine ⟨k + 1, by omega, ?_⟩
        rw [pow_succ, ← k2]
        omega

theorem valid_iff_check (h : Nat) (hlt : h < 4294967296) :
    (∃ k, 1 ≤ k ∧ h = 2 ^ k) ↔ ¬ (h < 2 ∨ h &&& ((h + 4294967295) % 4294967296) ≠ 0) := by
  constructor
  · rintro ⟨k, k1, rfl⟩
    have h2 : 2 ≤ 2 ^ k := by
      calc 2 = 2 ^ 1 := rfl
        _ ≤ 2 ^ k := Nat.pow_le_pow_right (by decide) k1
    have e : (2 ^ k + 4294967295) % 4294967296 = 2 ^ k - 1 := by omega
    rw [e, and_pred_pow k]
    omega
  · intro hn
    have h2 : 2 ≤ h := by omega
    have e : (h + 4294967295) % 4294967296 = h - 1 := by omega
    rw [e] at hn
    exact pow_of_and_pred h h (le_refl _) h2 (by omega)

theorem rd32_recAt (ring : Mem) (cap e : Nat) (m : Mem)
    (hc4 : cap % 4 = 0) (hcge : 4 ≤ cap) (he4 : e % 4 = 0) (hes : 4 ≤ e) (hs : 4 ≤ slot m)
    (h : RecAt ring cap e m) : rd32 ring ((e - 4) % cap) = rd32 m 0 := by
  have hp4 : (e - 4) % cap % 4 = 0 := mod_mod4 cap (e - 4) hc4 (by omega)
  have hplt : (e - 4) % cap < cap := Nat.mod_lt _ (by omega)
  have h0 := h 0 (by omega)
  have h1 := h 1 (by omega)
  have h2 := h 2 (by omega)
  have h3 := h 3 (by omega)
  have e0 : e - 4 - 4 * (0 / 4) + 0 % 4 = e - 4 := by omega
  have e1 : e - 4 - 4 * (1 / 4) + 1 % 4 = e - 4 + 1 := by omega
  have e2 : e - 4 - 4 * (2 / 4) + 2 % 4 = e - 4 + 2 := by omega
  have e3 : e - 4 - 4 * (3 / 4) + 3 % 4 = e - 4 + 3 := by omega
  rw [e0] at h0
  rw [e1, mod_add_lt cap (e - 4) 1 (by omega)] at h1
  rw [e2, mod_add_lt cap (e - 4) 2 (by omega)] at h2
  rw [e3, mod_add_lt cap (e - 4) 3 (by omega)] at h3
  unfold rd32
  rw [h0, h1, h2, h3]

theorem store_header (s : vln_t) (cap C O : Nat) (lv recs : List Mem)
    (h : HistInv s cap C O lv recs) (hm : getSize s.lnbuf + 4 ≤ cap) :
    rd32 (storeState s cap C O).hpbuf
        (u16 (((storeState s cap C O).hin : Int) - 4) &&& (storeState s cap C O).hmask) =
      rd32 s.lnbuf 0 := by
  obtain ⟨s4, sge, _, scap, _⟩ := slot_facts s.lnbuf cap h.ring.c4 h.ring.cle hm
  have hi := store_inv s cap C O lv recs h hm
  have hch := hi.chain
  simp only [slots, List.nil_append, Nat.add_zero, Chain] at hch
  have hrec := hch.2.2.1
  have hin : (storeState s cap C O).hin = (C + slot s.lnbuf) % 65536 := rfl
  rw [hi.ring.mask, hin, u16_sub4 _ (by omega), mod16_mod cap _ hi.ring.cdvd]
  exact rd32_recAt _ cap _ s.lnbuf hi.ring.c4 hi.ring.cge (by have := h.c4; omega) (by omega) sge
    hrec

theorem init_checked_ok (debug : Bool) (s : vln_t) (a : vln_init_args)
    (hh : a.histsize < 4294967296) (h : validArgs a) :
    vln_init_checked debug s a = (0, vln_init s
      { prompt := a.prompt.getD [], history := a.history.getD (fun _ => 0),
        histsize := a.histsize }) := by
  unfold vln_init_checked
  obtain ⟨v1, v2, v3, v4, v5⟩ := h
  have c5 := (valid_iff_check _ hh).mp v5
  have c3 : ¬ a.prompt.isNone = true := by
    cases hp : a.prompt with
    | none => rw [hp] at v3; exact absurd v3 (by decide)
    | some x => simp
  have c4 : ¬ a.history.isNone = true := by
    cases hp : a.history with
    | none => rw [hp] at v4; exact absurd v4 (by decide)
    | some x => simp
  rw [if_neg (fun h => by rw [v1] at h; exact Bool.noConfusion h.2),
    if_neg (fun h => by rw [v2] at h; exact Bool.noConfusion h.2),
    if_neg (fun h => c3 h.2), if_neg (fun h => c4 h.2), if_neg (fun h => c5 h.2)]

theorem pow_lt_iff_le (k : Nat) : 2 ^ k < 65536 ↔ 2 ^ k ≤ 32768 := by
  by_cases h : k ≤ 15
  · have : 2 ^ k ≤ 2 ^ 15 := Nat.pow_le_pow_right (by decide) h
    omega
  · have : 2 ^ 16 ≤ 2 ^ k := Nat.pow_le_pow_right (by decide) (by omega)
    omega

theorem sgrCodes_fg (v : Nat) (h1 : 1 ≤ v) (h2 : v ≤ 63) :
    sgrCodes v = [[51, 48 + (v - 1)]] := by
  have e1 : v / 64 % 2 = 0 := by omega
  have e2 : v / 128 % 2 = 0 := by omega
  have e3 : v / 16384 % 2 = 0 := by omega
  have e4 : v / 32768 % 2 = 0 := by omega
  have e5 : v % 64 = v := by omega
  have e6 : v / 256 % 64 = 0 := by omega
  have hv : v ≠ 0 := by omega
  unfold sgrCodes
  rw [e1, e2, e3, e4, e5, e6]
  simp [hv]

theorem sgrCodes_bg (v : Nat) (h1 : 1 ≤ v) (h2 : v ≤ 63) :
    sgrCodes (256 * v) = [[52, 48 + (v - 1)]] := by
  have e1 : 256 * v / 64 % 2 = 0 := by omega
  have e2 : 256 * v / 128 % 2 = 0 := by omega
  have e3 : 256 * v / 16384 % 2 = 0 := by omega
  have e4 : 256 * v / 32768 % 2 = 0 := by omega
  have e5 : 256 * v % 64 = 0 := by omega
  have e6 : 256 * v / 256 % 64 = v := by omega
  have hv : v ≠ 0 := by omega
  unfold sgrCodes
  rw [e1, e2, e3, e4, e5, e6]
  simp [hv]

theorem locate_none : ∀ (chain : List Mem) (e i : Nat), chain.length ≤ i →
    locate e chain i = none := by
  intro chain
  induction chain with
  | nil => intro e i _; simp [locate]
  | cons m rest ih =>
    intro e i h
    cases i with
    | zero => simp at h
    | succ c =>
      simp only [locate]
      exact ih _ c (by simpa using h)

theorem fit_length_le : ∀ (recs : List Mem) (b : Nat), (fit b recs).length ≤ recs.length := by
  intro recs
  induction recs with
  | nil => intro b; simp [fit]
  | cons m rest ih =>
    intro b
    simp only [fit]
    split_ifs
    · simp only [List.length_cons]
      have := ih (b - slot m)
      omega
    · simp

theorem histInv_init (s : vln_t) (init : vln_init_t) (k : Nat) (h1 : 2 ≤ k) (h2 : k ≤ 15)
    (hs : init.histsize = 2 ^ k) : HistInv (vln_init s init) (2 ^ k) 0 0 [] [] := by
  refine ⟨ringOK_init s init k h1 h2 hs, rfl, rfl, rfl, rfl, rfl, le_refl _, ?_, ?_, rfl⟩
  · simp [slots]
  · simp [slots, Chain]

theorem fetch_missing (s : vln_t) (cap C O : Nat) (lv recs : List Mem)
    (h : HistInv s cap C O lv recs) (k : Nat) (hk : (lv ++ recs).length ≤ k) :
    vln_history_fetch s k = some s := by
  rw [fetch_eq s cap C O lv recs h k, locate_none _ _ _ hk]

theorem fetch_found (s : vln_t) (cap C O : Nat) (lv recs : List Mem)
    (h : HistInv s cap C O lv recs) (i : Nat) (m : Mem) (hg : (lv ++ recs)[i]? = some m) :
    vln_history_fetch s i = some (loaded s m i) ∧ getSize m + 4 ≤ cap := by
  have hlt : i < (lv ++ recs).length := by
    by_contra hc
    rw [List.getElem?_eq_none (by omega)] at hg
    exact absurd hg (by simp)
  obtain ⟨ei, m2, hloc⟩ := locate_some (lv ++ recs) (C + slots lv) i hlt
  have hE4 : (C + slots lv) % 4 = 0 := by have := h.c4; have := h.l4; omega
  obtain ⟨hget, _, _, _, _, hmm⟩ :=
    locate_spec s.hpbuf cap O h.ring.c4 h.ring.cle _ _ i hE4 h.chain ei m2 hloc
  rw [hg] at hget
  have e : m = m2 := Option.some.inj hget
  subst e
  refine ⟨?_, hmm⟩
  rw [fetch_eq s cap C O lv recs h i, hloc]

theorem loaded_line (s : vln_t) (m : Mem) (i cap : Nat) (hc4 : cap % 4 = 0) (hcle : cap ≤ 32768)
    (hm : getSize m + 4 ≤ cap) :
    getMask (loaded s m i).lnbuf = getMask m ∧ getSize (loaded s m i).lnbuf = getSize m ∧
      payload (loaded s m i) = payloadOf m := by
  obtain ⟨s4, sge, sz, scap, _⟩ := slot_facts m cap hc4 hcle hm
  obtain ⟨f1, f2, f3⟩ := loaded_fields s m i
  obtain ⟨g1, g2, _⟩ := holds_loaded s m i cap hc4 hcle hm
  refine ⟨?_, g1, g2⟩
  rw [f1]
  simp only [getMask, overlay]
  rw [if_pos (by omega), if_pos (by omega)]

theorem rvsememcpy4_loop_returns (src : Mem) :
    ∀ (k : Nat) (dst : Mem) (pout pin n : Nat), n = 4 * k → n < 4294967296 →
      ∃ r, vln_rvsememcpy4_loop (k + 1) dst pout src pin n = some r := by
  intro k
  induction k with
  | zero =>
    intro dst pout pin n hn _
    have hpos : ¬ n > 0 := by omega
    unfold vln_rvsememcpy4_loop
    rw [if_neg hpos]
    exact ⟨dst, rfl⟩
  | succ k ih =>
    intro dst pout pin n hn h2
    have hpos : n > 0 := by omega
    unfold vln_rvsememcpy4_loop
    rw [if_pos hpos]
    exact ih _ _ _ _ (by omega) (by omega)

theorem rvsememcpy4_returns (dst : Mem) (d : Nat) (src : Mem) (s n : Nat)
    (h4 : n % 4 = 0) (hn : n < 4294967296) : ∃ r, vln_rvsememcpy4 dst d src s n = some r := by
  unfold vln_rvsememcpy4
  exact rvsememcpy4_loop_returns src (n / 4) dst d (s - 4) n (by omega) hn

theorem rvsememcpy4_loop_diverges (src : Mem) :
    ∀ (fuel : Nat) (dst : Mem) (pout pin n : Nat), n % 4 ≠ 0 → n < 4294967296 →
      vln_rvsememcpy4_loop fuel dst pout src pin n = none := by
  intro fuel
  induction fuel with
  | zero => intro dst pout pin n _ _; rfl
  | succ fuel ih =>
    intro dst pout pin n h4 hn
    have hpos : n > 0 := by omega
    unfold vln_rvsememcpy4_loop
    rw [if_pos hpos]
    exact ih _ _ _ _ (by omega) (by omega)

theorem align4_mod (x : Nat) : vln_align4 x % 65536 % 4 = 0 := by
  unfold vln_align4
  split_ifs <;> omega

theorem u16_mod4 (x : Int) (h : x % 4 = 0) : u16 x % 4 = 0 := by
  unfold u16; omega

theorem min_mod4 (r L : Nat) (h1 : r % 4 = 0) (h2 : L % 4 = 0) :
    (if r > L then L else r) % 4 = 0 ∧ (L - if r > L then L else r) % 4 = 0 := by
  split_ifs <;> omega

theorem cache_counts_aligned (s : vln_t) (h : Aligned s) :
    (vln_history_cache_counts s).1 % 4 = 0 ∧ (vln_history_cache_counts s).2 % 4 = 0 := by
  have hL := align4_mod (getSize s.lnbuf + 4)
  have ha := h.mask s.hcache h.hcache
  have hr : u16 ((s.hsize : Int) - ((s.hcache &&& s.hmask : Nat) : Int)) % 4 = 0 :=
    u16_mod4 _ (by have := h.hsize; omega)
  exact min_mod4 _ _ hr hL

theorem cache_aligned (s : vln_t) (h : Aligned s) :
    ∃ t, vln_history_cache s = some t ∧ Aligned t := by
  have hL := align4_mod (getSize s.lnbuf + 4)
  have hL16 : vln_align4 (getSize s.lnbuf + 4) % 65536 < 65536 := Nat.mod_lt _ (by omega)
  have ha := h.mask s.hcache h.hcache
  have hr : u16 ((s.hsize : Int) - ((s.hcache &&& s.hmask : Nat) : Int)) % 4 = 0 :=
    u16_mod4 _ (by have := h.hsize; omega)
  have hr16 := u16_lt ((s.hsize : Int) - ((s.hcache &&& s.hmask : Nat) : Int))
  have h1 := h.hin
  have h2 := h.hout
  have h3 := h.hcache
  have h4 := h.hsize
  unfold vln_history_cache
  simp only []
  generalize vln_align4 (getSize s.lnbuf + 4) % 65536 = L at hL hL16
  generalize s.hcache &&& s.hmask = a at ha hr hr16
  generalize u16 ((s.hsize : Int) - (a : Int)) = r0 at hr hr16
  obtain ⟨m1, m2⟩ := min_mod4 r0 L hr hL
  obtain ⟨r1, e1⟩ := rvsememcpy4_returns s.hpbuf a s.lnbuf L (if r0 > L then L else r0) m1
    (by split_ifs <;> omega)
  rw [e1]
  simp only []
  obtain ⟨r2, e2⟩ := rvsememcpy4_returns r1 0 s.lnbuf (L - if r0 > L then L else r0)
    (L - if r0 > L then L else r0) m2 (by split_ifs <;> omega)
  rw [e2]
  refine ⟨_, rfl, ⟨?_, ?_, h3, h4, h.mask⟩⟩
  · show u16 ((s.hcache : Int) + (L : Int)) % 4 = 0
    apply u16_mod4
    omega
  · simp only []
    split_ifs
    · apply u16_mod4
      have := u16_mod4 ((s.hsize : Int) - ((s.hcache : Int) - (s.hout : Int))) (by omega)
      omega
    · exact h2

theorem store_aligned (s : vln_t) (h : Aligned s) :
    ∃ t, vln_history_store s = some t ∧ Aligned t := by
  unfold vln_history_store
  by_cases hpos : getSize s.lnbuf > 0
  · obtain ⟨t, e, ht⟩ := cache_aligned s h
    rw [if_pos hpos, e]
    exact ⟨_, rfl, ⟨ht.hin, ht.hout, ht.hin, ht.hsize, ht.mask⟩⟩
  · rw [if_neg hpos]
    exact ⟨s, rfl, h⟩

theorem walk_aligned (s : vln_t) :
    ∀ (count histin lnsize prevused : Nat) (r : Nat × Nat), histin % 4 = 0 → lnsize % 4 = 0 →
      vln_history_walk s count histin lnsize prevused = some r →
      r.1 % 4 = 0 ∧ r.2 % 4 = 0 ∧ r.2 < 65536 := by
  intro count
  induction count with
  | zero =>
    intro histin lnsize prevused r h1 h2 hw
    rw [walk_step] at hw
    split_ifs at hw
    simp only [Option.some.injEq] at hw
    subst hw
    exact ⟨u16_mod4 _ (by omega), align4_mod _, Nat.mod_lt _ (by omega)⟩
  | succ c ih =>
    intro histin lnsize prevused r h1 h2 hw
    rw [walk_step] at hw
    split_ifs at hw
    exact ih _ _ _ r (u16_mod4 _ (by omega)) (align4_mod _) hw

theorem fetch_counts_aligned (s : vln_t) (h : Aligned s) (i : Nat) (c : Nat × Nat)
    (hc : vln_history_fetch_counts s i = some c) : c.1 % 4 = 0 ∧ c.2 % 4 = 0 := by
  unfold vln_history_fetch_counts at hc
  cases hw : vln_history_walk s i s.hin 0 (u16 ((s.hin : Int) - s.hout)) with
  | none => rw [hw] at hc; exact absurd hc (by simp)
  | some r =>
    obtain ⟨histin, lnsize⟩ := r
    rw [hw] at hc
    simp only [Option.some.injEq] at hc
    obtain ⟨w1, w2, _⟩ := walk_aligned s i s.hin 0 _ _ h.hin rfl hw
    simp only [] at w1 w2
    have ha := h.mask (u16 ((histin : Int) - lnsize)) (u16_mod4 _ (by omega))
    have hr : u16 ((s.hsize : Int) -
        ((u16 ((histin : Int) - lnsize) &&& s.hmask : Nat) : Int)) % 4 = 0 :=
      u16_mod4 _ (by have := h.hsize; omega)
    subst hc
    exact min_mod4 _ _ hr w2

theorem fetch_aligned (s : vln_t) (h : Aligned s) (i : Nat) :
    ∃ t, vln_history_fetch s i = some t ∧ SameHist s t := by
  unfold vln_history_fetch
  cases hw : vln_history_walk s i s.hin 0 (u16 ((s.hin : Int) - s.hout)) with
  | none => exact ⟨s, rfl, sameHist_refl s⟩
  | some r =>
    obtain ⟨histin, lnsize⟩ := r
    obtain ⟨w1, w2, w3⟩ := walk_aligned s i s.hin 0 _ _ h.hin rfl hw
    simp only [] at w1 w2 w3
    have ha := h.mask (u16 ((histin : Int) - lnsize)) (u16_mod4 _ (by omega))
    have hr : u16 ((s.hsize : Int) -
        ((u16 ((histin : Int) - lnsize) &&& s.hmask : Nat) : Int)) % 4 = 0 :=
      u16_mod4 _ (by have := h.hsize; omega)
    have hr16 := u16_lt ((s.hsize : Int) -
      ((u16 ((histin : Int) - lnsize) &&& s.hmask : Nat) : Int))
    simp only []
    generalize u16 ((histin : Int) - lnsize) &&& s.hmask = a at ha hr hr16
    generalize u16 ((s.hsize : Int) - (a : Int)) = r0 at hr hr16
    obtain ⟨m1, m2⟩ := min_mod4 r0 lnsize hr w2
    obtain ⟨r1, e1⟩ := rvsememcpy4_returns s.lnbuf (lnsize - if r0 > lnsize then lnsize else r0)
      s.hpbuf (a + if r0 > lnsize then lnsize else r0) (if r0 > lnsize then lnsize else r0) m1
      (by split_ifs <;> omega)
    rw [e1]
    simp only []
    obtain ⟨r2, e2⟩ := rvsememcpy4_returns r1 0 s.hpbuf
      (lnsize - if r0 > lnsize then lnsize else r0)
      (lnsize - if r0 > lnsize then lnsize else r0) m2 (by split_ifs <;> omega)
    rw [e2]
    exact ⟨_, rfl, refresh_same_of ⟨rfl, rfl, rfl, rfl, rfl, rfl⟩⟩

theorem aligned_of_same {s t : vln_t} (h : Aligned s) (e : SameHist s t) : Aligned t := by
  obtain ⟨_, e2, e3, e4, e5, e6⟩ := e
  exact ⟨by rw [e2]; exact h.hin, by rw [e3]; exact h.hout, by rw [e6]; exact h.hcache,
    by rw [e5]; exact h.hsize, by rw [e4]; exact h.mask⟩

theorem load_aligned (s : vln_t) (h : Aligned s) (i : Nat) :
    ∃ t, vln_history_load s i = some t ∧ Aligned t := by
  unfold vln_history_load
  by_cases h0 : s.hindex = 0
  · obtain ⟨t1, e1, a1⟩ := cache_aligned s h
    rw [if_pos h0, e1]
    obtain ⟨t2, e2, a2⟩ := fetch_aligned t1 a1 i
    exact ⟨t2, e2, aligned_of_same a1 a2⟩
  · rw [if_neg h0]
    obtain ⟨t2, e2, a2⟩ := fetch_aligned s h i
    exact ⟨t2, e2, aligned_of_same h a2⟩

theorem runOp_aligned (s : vln_t) (h : Aligned s) (op : HistOp) :
    ∃ t, runOp s op = some t ∧ Aligned t := by
  cases op with
  | store m => exact store_aligned _ ⟨h.hin, h.hout, h.hcache, h.hsize, h.mask⟩
  | cache m => exact cache_aligned _ ⟨h.hin, h.hout, h.hcache, h.hsize, h.mask⟩
  | load m hindex index =>
    exact load_aligned { s with lnbuf := m, hindex := hindex }
      ⟨h.hin, h.hout, h.hcache, h.hsize, h.mask⟩ index

theorem runOps_aligned : ∀ (ops : List HistOp) (s : vln_t), Aligned s →
    ∃ t, runOps s ops = some t ∧ Aligned t := by
  intro ops
  induction ops with
  | nil => intro s h; exact ⟨s, rfl, h⟩
  | cons op rest ih =>
    intro s h
    obtain ⟨s1, e1, h1⟩ := runOp_aligned s h op
    obtain ⟨s2, e2, h2⟩ := ih s1 h1
    refine ⟨s2, ?_, h2⟩
    simp only [runOps, e1]
    exact e2

theorem and_mask_mod4 (x j : Nat) (hj : 2 ≤ j) (hx : x % 4 = 0) : (x &&& (2 ^ j - 1)) % 4 = 0 := by
  rw [Nat.and_pow_two_sub_one_eq_mod]
  have hd : 4 ∣ 2 ^ j := by
    obtain ⟨i, rfl⟩ : ∃ i, j = 2 + i := ⟨j - 2, by omega⟩
    rw [pow_add]
    exact Dvd.intro _ rfl
  rw [Nat.mod_mod_of_dvd x hd]
  exact hx

theorem aligned_init (s : vln_t) (init : vln_init_t) (k : Nat) (hk : 2 ≤ k)
    (hs : init.histsize = 2 ^ k) : Aligned (vln_init s init) := by
  obtain ⟨i, rfl⟩ : ∃ i, k = 2 + i := ⟨k - 2, by omega⟩
  have e4 : (2 : Nat) ^ (2 + i) = 4 * 2 ^ i := by rw [pow_add]; rfl
  refine ⟨rfl, rfl, rfl, ?_, ?_⟩
  · show u16 (init.histsize : Int) % 4 = 0
    rw [hs, e4]
    apply u16_mod4
    omega
  · intro x hx
    show (x &&& u16 ((init.histsize : Int) - 1)) % 4 = 0
    by_cases h16 : 2 + i ≤ 16
    · have hle : 2 ^ (2 + i) ≤ 2 ^ 16 := Nat.pow_le_pow_right (by decide) h16
      have hpos : 0 < 2 ^ (2 + i) := Nat.two_pow_pos _
      have e : u16 ((init.histsize : Int) - 1) = 2 ^ (2 + i) - 1 := by
        rw [hs]
        generalize 2 ^ (2 + i) = c at hle hpos
        unfold u16; omega
      rw [e]
      exact and_mask_mod4 x (2 + i) (by omega) hx
    · obtain ⟨j, hj⟩ : ∃ j, 2 + i = 16 + j := ⟨2 + i - 16, by omega⟩
      have e16 : (2 : Nat) ^ (2 + i) = 65536 * 2 ^ j := by rw [hj, pow_add]; rfl
      have hpos : 0 < 2 ^ j := Nat.two_pow_pos _
      have e : u16 ((init.histsize : Int) - 1) = 2 ^ 16 - 1 := by
        rw [hs, e16]
        generalize 2 ^ j = c at hpos
        unfold u16
        push_cast
        omega
      rw [e]
      exact and_mask_mod4 x 16 (by decide) hx

theorem cacheRing_frame (ring : Mem) (cap C : Nat) (m : Mem) (hcap : 0 < cap)
    (hm : slot m ≤ cap) (p : Nat) (hp : cap ≤ p) : cacheRing ring cap C m p = ring p := by
  have halt : C % cap < cap := Nat.mod_lt _ hcap
  simp only [cacheRing, rvseResult]
  rw [if_neg (by split_ifs <;> omega), if_neg (by split_ifs <;> omega)]

theorem runOp_ring_frame (s : vln_t) (cap : Nat) (lv com : List Mem) (h : Tracked s cap lv com)
    (op : HistOp) (hop : getSize op.buf + 4 ≤ cap) (s2 : vln_t) (e : runOp s op = some s2)
    (p : Nat) (hp : cap ≤ p) : s2.hpbuf p = s.hpbuf p := by
  obtain ⟨C, O, recs, hinv, _⟩ := h
  have hr := hinv.ring
  have hcap : 0 < cap := by have := hr.cge; omega
  cases op with
  | store m =>
    have h1 : HistInv { s with lnbuf := m } cap C O lv recs := hinv.of_same ⟨rfl, rfl, rfl, rfl, rfl, rfl⟩
    obtain ⟨_, _, _, scap, _⟩ := slot_facts m cap hr.c4 hr.cle hop
    simp only [runOp] at e
    by_cases hpos : 0 < getSize m
    · rw [store_eq _ cap C O lv recs h1 hop hpos] at e
      have e2 := Option.some.inj e
      subst e2
      exact cacheRing_frame s.hpbuf cap C m hcap scap p hp
    · simp only [vln_history_store] at e
      rw [if_neg hpos] at e
      have e2 := Option.some.inj e
      subst e2
      rfl
  | cache m =>
    have h1 : HistInv { s with lnbuf := m } cap C O lv recs := hinv.of_same ⟨rfl, rfl, rfl, rfl, rfl, rfl⟩
    obtain ⟨_, _, _, scap, _⟩ := slot_facts m cap hr.c4 hr.cle hop
    simp only [runOp] at e
    rw [cache_eq _ cap C O lv recs h1 hop] at e
    have e2 := Option.some.inj e
    subst e2
    exact cacheRing_frame s.hpbuf cap C m hcap scap p hp
  | load m hindex index =>
    have h1 : HistInv { s with lnbuf := m, hindex := hindex } cap C O lv recs :=
      hinv.of_same ⟨rfl, rfl, rfl, rfl, rfl, rfl⟩
    obtain ⟨_, _, _, scap, _⟩ := slot_facts m cap hr.c4 hr.cle hop
    simp only [runOp, vln_history_load] at e
    by_cases h0 : hindex = 0
    · rw [if_pos h0, cache_eq _ cap C O lv recs h1 hop] at e
      simp only [] at e
      obtain ⟨t, e3, e4⟩ := fetch_same _ cap C _ _ _ (cache_inv _ cap C O lv recs h1 hop) index
      have e2 : t = s2 := Option.some.inj (e3.symm.trans e)
      subst e2
      rw [e4.1]
      exact cacheRing_frame s.hpbuf cap C m hcap scap p hp
    · rw [if_neg h0] at e
      simp only [] at e
      obtain ⟨t, e3, e4⟩ := fetch_same _ cap C O lv recs h1 index
      have e2 : t = s2 := Option.some.inj (e3.symm.trans e)
      subst e2
      rw [e4.1]

theorem runOps_ring_frame (cap : Nat) :
    ∀ (ops : List HistOp) (s : vln_t) (lv com : List Mem), Tracked s cap lv com →
      (∀ op ∈ ops, getSize op.buf + 4 ≤ cap) →
      ∃ s2, runOps s ops = some s2 ∧ Tracked s2 cap (cachedLive lv ops) (committed com ops) ∧
        ∀ p, cap ≤ p → s2.hpbuf p = s.hpbuf p := by
  intro ops
  induction ops with
  | nil => intro s lv com h _; exact ⟨s, rfl, h, fun _ _ => rfl⟩
  | cons op rest ih =>
    intro s lv com h hops
    have hop := hops op (List.mem_cons_self _ _)
    obtain ⟨s1, e1, h1⟩ := runOp_tracked s cap lv com h op hop
    have f1 := runOp_ring_frame s cap lv com h op hop s1 e1
    obtain ⟨s2, e2, h2, f2⟩ := ih s1 _ _ h1 (fun o ho => hops o (List.mem_cons_of_mem _ ho))
    refine ⟨s2, ?_, h2, fun p hp => (f2 p hp).trans (f1 p hp)⟩
    simp only [runOps, e1]
    exact e2

theorem tracked_occupancy (s : vln_t) (cap : Nat) (lv com : List Mem) (h : Tracked s cap lv com) :
    u16 ((s.hcache : Int) - s.hout) ≤ cap ∧ u16 ((s.hin : Int) - s.hout) ≤ cap ∧
    ∀ m : Mem, getSize m < 65536 → slot m ≤ cap →
      (s.hcache &&& s.hmask) + (vln_history_cache_counts { s with lnbuf := m }).1 ≤ cap ∧
      (s.hcache &&& s.hmask) < cap ∧
      (vln_history_cache_counts { s with lnbuf := m }).2 ≤ cap := by
  obtain ⟨C, O, recs, hinv, _⟩ := h
  have hr := hinv.ring
  have hcle := hr.cle
  have hcge := hr.cge
  have hle := hinv.le
  have hfits := hinv.fits
  refine ⟨?_, ?_, ?_⟩
  · rw [hinv.cache, hinv.out, u16_used C O cap hle (by omega) hcle]
    omega
  · rw [hinv.hin, hinv.out, u16_used (C + slots lv) O cap (by omega) hfits hcle]
    omega
  · intro m hm hslot
    have halt : s.hcache % cap < cap := Nat.mod_lt _ (by omega)
    simp only [vln_history_cache_counts, hr.size, hr.mask]
    rw [u16_rem cap (s.hcache % cap) halt hcle]
    have hL : vln_align4 (getSize m + 4) % 65536 ≤ cap := by
      have : vln_align4 (getSize m + 4) ≤ cap := hslot
      have := Nat.mod_le (vln_align4 (getSize m + 4)) 65536
      omega
    generalize vln_align4 (getSize m + 4) % 65536 = L at hL
    refine ⟨?_, halt, ?_⟩
    · split_ifs <;> omega
    · omega

theorem getD_at_length (pre rest : List Nat) (c : Nat) :
    (pre ++ c :: rest).getD pre.length 0 = c := by
  induction pre with
  | nil => rfl
  | cons a pre ih =>
    simp only [List.cons_append, List.length_cons, List.getD_cons_succ]
    exact ih

theorem getD_behind (l : List Nat) : l.getD l.length 0 = 0 := by
  simp [List.getD_eq_getElem?_getD]

/-- For a prompt shorter than 65536 bytes the loop of `vln_calculate_prompt`
returns what its list form computes. -/
theorem prompt_loop_scan (prompt : List Nat) (hp : prompt.length < 65536) :
    ∀ (rest pre : List Nat) (fuel flag off : Nat), prompt = pre ++ rest → rest.length < fuel →
      vln_calculate_prompt_loop prompt fuel flag pre.length off =
        some (promptScan rest flag pre.length off) := by
  intro rest
  induction rest with
  | nil =>
    intro pre fuel flag off he hf
    obtain ⟨f, rfl⟩ : ∃ f, fuel = f + 1 := ⟨fuel - 1, by simp at hf; omega⟩
    rw [List.append_nil] at he
    rw [vln_calculate_prompt_loop, he, if_pos (getD_behind pre)]
    rfl
  | cons c rest ih =>
    intro pre fuel flag off he hf
    obtain ⟨f, rfl⟩ : ∃ f, fuel = f + 1 := ⟨fuel - 1, by simp at hf; omega⟩
    have hf2 : rest.length < f := by simp only [List.length_cons] at hf; omega
    have hc : prompt.getD pre.length 0 = c := by rw [he]; exact getD_at_length pre rest c
    have hl : pre.length + 1 < 65536 := by
      rw [he] at hp
      simp only [List.length_append, List.length_cons] at hp
      omega
    have hu : u16 ((pre.length : Int) + 1) = (pre ++ [c]).length := by
      rw [u16_succ _ hl]
      simp
    have he2 : prompt = (pre ++ [c]) ++ rest := by rw [he]; simp
    have hu2 : u16 ((pre.length : Int) + 1) = pre.length + 1 := u16_succ _ hl
    rw [vln_calculate_prompt_loop, hc, promptScan]
    by_cases h0 : c = 0
    · rw [if_pos h0, if_pos h0]
    · rw [if_neg h0, if_neg h0]
      by_cases h27 : c = 27
      · rw [if_pos h27, if_pos h27, hu, ih (pre ++ [c]) f 1 off he2 hf2, ← hu]
      · rw [if_neg h27, if_neg h27]
        by_cases hfl : flag = 0
        · rw [if_pos hfl, if_pos hfl, hu, ih (pre ++ [c]) f flag _ he2 hf2, ← hu]
        · rw [if_neg hfl, if_neg hfl]
          by_cases hm : flag = 1 ∧ c = 109
          · rw [if_pos hm, if_pos hm, hu, ih (pre ++ [c]) f 0 off he2 hf2, ← hu]
          · rw [if_neg hm, if_neg hm, hu, ih (pre ++ [c]) f flag off he2 hf2, ← hu]

/-- A prompt with no NUL among its first 65536 bytes: the loop of
`vln_calculate_prompt` does not return, whatever the number of turns. -/
theorem prompt_loop_never (prompt : List Nat) (h : ∀ i, i < 65536 → prompt.getD i 0 ≠ 0) :
    ∀ (fuel flag len off : Nat), len < 65536 →
      vln_calculate_prompt_loop prompt fuel flag len off = none := by
  intro fuel
  induction fuel with
  | zero => intro flag len off _; rfl
  | succ f ih =>
    intro flag len off hl
    rw [vln_calculate_prompt_loop, if_neg (h len hl)]
    split_ifs
    all_goals exact ih _ _ _ (u16_lt _)

theorem calculate_prompt_eq (s : vln_t) (hp : s.prompt.length < 65536) :
    vln_calculate_prompt s = some { s with
      pptlen := (promptScan s.prompt 0 0 0).1
      pptoff := (promptScan s.prompt 0 0 0).2 } := by
  have h := prompt_loop_scan s.prompt hp s.prompt [] 65536 0 0 rfl hp
  simp only [List.length_nil] at h
  unfold vln_calculate_prompt
  rw [h]

/-- A call of `vln` with a prompt shorter than 65536 bytes reaches the loop of
`vln_inernal` on an empty line, with the history as it was. -/
theorem vln_enters (s : vln_t) (linebuff : Mem) (buffsize : Nat)
    (hp : s.prompt.length < 65536) :
    ∃ sa, SameHist s sa ∧ sa.lnmax = u16 ((buffsize : Int) - 5) ∧ getSize sa.lnbuf = 0 ∧
      sa.curoff = 0 ∧ sa.hindex = 0 ∧
      ∀ (pn : Mem) (input : List Nat), vln s linebuff buffsize pn input =
        match vln_inernal_loop (input.length + 1) sa pn input with
        | .ret s3 ok rest => .ret { vln_put s3 [13, 10] with
            lnbuf := wr (vln_put s3 [13, 10]).lnbuf (4 + getSize (vln_put s3 [13, 10]).lnbuf) 0,
            bound := false } ok rest
        | r => r := by
  have hc := calculate_prompt_eq (vln_begin s linebuff buffsize) hp
  generalize hsp : ({ vln_begin s linebuff buffsize with
      pptlen := (promptScan (vln_begin s linebuff buffsize).prompt 0 0 0).1
      pptoff := (promptScan (vln_begin s linebuff buffsize).prompt 0 0 0).2 } : vln_t) = sp at hc
  refine ⟨vln_put sp (sp.prompt.take sp.pptlen), ?_, ?_, ?_, ?_, ?_, ?_⟩
  · rw [← hsp]; exact ⟨rfl, rfl, rfl, rfl, rfl, rfl⟩
  · rw [← hsp]; rfl
  · rw [← hsp]; exact getSize_begin s linebuff buffsize
  · rw [← hsp]; rfl
  · rw [← hsp]; rfl
  · intro pn input
    unfold vln
    rw [hc]
    rfl

theorem refresh_prompt (s : vln_t) : (vln_edit_refresh s).prompt = s.prompt := by
  simp only [vln_edit_refresh, vln_put]
  split_ifs <;> rfl

theorem cache_prompt (s t : vln_t) (h : vln_history_cache s = some t) : t.prompt = s.prompt := by
  unfold vln_history_cache at h
  simp only [] at h
  split at h
  · exact absurd h (by simp)
  · split at h
    · exact absurd h (by simp)
    · simp only [Option.some.injEq] at h
      subst h
      rfl

theorem store_prompt (s t : vln_t) (h : vln_history_store s = some t) : t.prompt = s.prompt := by
  unfold vln_history_store at h
  split_ifs at h
  · cases hc : vln_history_cache s with
    | none => rw [hc] at h; exact absurd h (by simp)
    | some s1 =>
      rw [hc] at h
      simp only [Option.some.injEq] at h
      subst h
      exact cache_prompt s s1 hc
  · simp only [Option.some.injEq] at h
    subst h
    rfl

theorem fetch_prompt (s t : vln_t) (i : Nat) (h : vln_history_fetch s i = some t) :
    t.prompt = s.prompt := by
  unfold vln_history_fetch at h
  split at h
  · simp only [Option.some.injEq] at h
    subst h
    rfl
  · simp only [] at h
    split at h
    · exact absurd h (by simp)
    · split at h
      · exact absurd h (by simp)
      · simp only [Option.some.injEq] at h
        subst h
        exact refresh_prompt _

theorem load_prompt (s t : vln_t) (i : Nat) (h : vln_history_load s i = some t) :
    t.prompt = s.prompt := by
  unfold vln_history_load at h
  split at h
  · exact absurd h (by simp)
  · rename_i s1 hs1
    have e1 : s1.prompt = s.prompt := by
      split_ifs at hs1
      · exact cache_prompt s s1 hs1
      · simp only [Option.some.injEq] at hs1
        subst hs1
        rfl
    rw [fetch_prompt s1 t i h, e1]

theorem runOp_prompt (s t : vln_t) (op : HistOp) (h : runOp s op = some t) :
    t.prompt = s.prompt := by
  cases op with
  | store m => exact store_prompt { s with lnbuf := m } t h
  | cache m => exact cache_prompt { s with lnbuf := m } t h
  | load m hindex index => exact load_prompt { s with lnbuf := m, hindex := hindex } t index h

theorem runOps_prompt : ∀ (ops : List HistOp) (s t : vln_t), runOps s ops = some t →
    t.prompt = s.prompt := by
  intro ops
  induction ops with
  | nil =>
    intro s t h
    simp only [runOps, Option.some.injEq] at h
    subst h
    rfl
  | cons op rest ih =>
    intro s t h
    simp only [runOps] at h
    cases h1 : runOp s op with
    | none => rw [h1] at h; exact absurd h (by simp)
    | some s1 =>
      rw [h1] at h
      rw [ih s1 t h, runOp_prompt s s1 op h1]

theorem getD_replicate_lt (n x i : Nat) (h : i < n) : (List.replicate n x).getD i 0 = x := by
  rw [List.getD_eq_getElem _ _ (by rw [List.length_replicate]; exact h)]
  exact List.getElem_replicate _ _

theorem vln_never_returns (s : vln_t) (linebuff : Mem) (buffsize : Nat) (pn : Mem)
    (input : List Nat) (h : ∀ i, i < 65536 → s.prompt.getD i 0 ≠ 0) :
    vln s linebuff buffsize pn input = .noprompt := by
  have e : vln_calculate_prompt (vln_begin s linebuff buffsize) = none := by
    unfold vln_calculate_prompt
    have e1 : (vln_begin s linebuff buffsize).prompt = s.prompt := rfl
    rw [e1, prompt_loop_never s.prompt h 65536 0 0 0 (by omega)]
  unfold vln
  rw [e]

theorem long_prompt_never_returns (linebuff : Mem) (buffsize : Nat) (pn : Mem) (input : List Nat) :
    vln (vln_init blank initLongPrompt) linebuff buffsize pn input = .noprompt := by
  apply vln_never_returns
  intro i hi
  show (List.replicate 65536 62).getD i 0 ≠ 0
  rw [getD_replicate_lt 65536 62 i hi]
  decide

theorem walk_inv (s : vln_t) (cap C O : Nat) (lv recs : List Mem)
    (h : HistInv s cap C O lv recs) (i : Nat) :
    vln_history_walk s i s.hin 0 (u16 ((s.hin : Int) - s.hout)) =
      (locate (C + slots lv) (lv ++ recs) i).map (fun r => (r.1 % 65536, slot r.2)) := by
  have hr := h.ring
  have hcle := hr.cle
  have hE4 : (C + slots lv) % 4 = 0 := by have := h.c4; have := h.l4; omega
  have hle : O ≤ C + slots lv := by have := h.le; omega
  have hw := walk_chain s cap O hr h.out h.o4 (lv ++ recs) i (C + slots lv) 0
    (u16 ((s.hin : Int) - s.hout)) (Nat.zero_le _) (by omega) (by simpa using hE4)
    (by simpa using hle) (by simpa using h.fits)
    (by rw [h.hin, h.out, u16_used _ O cap hle h.fits hcle]; simp)
    (by simpa using h.chain)
  rw [Nat.sub_zero, ← h.hin] at hw
  exact hw

theorem loop_byteClass (pn : Mem) : ∀ (w : List Nat) (s : vln_t) (fuel : Nat) (rest : List Nat),
    (∀ c ∈ w, (128 ≤ c ∧ c < 256) ∨ (32 ≤ c ∧ c ≤ 127) ∨ c = 8) →
    vln_inernal_loop (fuel + w.length) s pn (w ++ rest) =
      vln_inernal_loop fuel (w.foldl byteClass s) pn rest := by
  intro w
  induction w with
  | nil => intro s fuel rest _; rfl
  | cons c w ih =>
    intro s fuel rest h
    have hc := h c (List.mem_cons_self _ _)
    have hw : ∀ d ∈ w, (128 ≤ d ∧ d < 256) ∨ (32 ≤ d ∧ d ≤ 127) ∨ d = 8 :=
      fun d hd => h d (List.mem_cons_of_mem _ hd)
    have el : fuel + (c :: w).length = (fuel + w.length) + 1 := by simp; omega
    rw [el, List.cons_append, List.foldl_cons, ← ih (byteClass s c) fuel rest hw]
    rcases hc with ⟨h1, h2⟩ | ⟨h1, h2⟩ | h1
    · have h0 : c &&& 128 ≠ 0 := by
        interval_cases c
        all_goals decide
      have eb : byteClass s c = s := by unfold byteClass; rw [if_pos h1]
      rw [eb]
      simp only [vln_inernal_loop]
      rw [if_pos h0]
    · by_cases h3 : c ≤ 126
      · have eb : byteClass s c = vln_edit_insert s c := by
          unfold byteClass; rw [if_neg (by omega), if_pos ⟨h1, h3⟩]
        rw [eb]
        exact loop_insert _ s pn c _ h1 h3
      · have e127 : c = 127 := by omega
        subst e127
        rfl
    · subst h1
      rfl

theorem refresh_max_of {s t : vln_t} (h : t.lnmax = s.lnmax) :
    (vln_edit_refresh t).lnmax = s.lnmax := by
  rw [(refresh_frame t).2.2.2.2.2.2.2.2.2, h]

theorem applyEdit_lnmax (s : vln_t) (a : EditAction) : (applyEdit s a).lnmax = s.lnmax := by
  cases a with
  | insert c => exact typeAll_lnmax [c] s
  | backspace =>
    simp only [applyEdit, vln_edit_backspace]
    split_ifs
    · exact refresh_max_of rfl
    · rfl
  | delete =>
    simp only [applyEdit, vln_edit_delete]
    split_ifs
    · exact refresh_max_of rfl
    · rfl
  | moveleft =>
    simp only [applyEdit, vln_edit_moveleft]
    split_ifs
    · exact refresh_max_of rfl
    · rfl
  | moveright =>
    simp only [applyEdit, vln_edit_moveright]
    split_ifs
    · exact refresh_max_of rfl
    · rfl
  | movehome => exact refresh_max_of rfl
  | moveend => exact refresh_max_of rfl
  | delend => exact refresh_max_of rfl
  | delline => exact refresh_max_of rfl
  | delword => exact refresh_max_of rfl

theorem clear_lnmax (s : vln_t) : (vln_edit_clear s).lnmax = s.lnmax :=
  refresh_max_of rfl

/-- One turn of the loop of `vln_inernal` on a key that edits the line: the loop
goes on, the history and `lnmax` are as they were. -/
theorem loop_editKey_max (fuel : Nat) (s : vln_t) (pn : Mem) (c : Nat) (rest : List Nat)
    (hk : editKey c = true) :
    ∃ s1, vln_inernal_loop (fuel + 1) s pn (c :: rest) = vln_inernal_loop fuel s1 pn rest ∧
      SameHist s s1 ∧ s1.lnmax = s.lnmax := by
  by_cases h0 : c &&& 128 ≠ 0
  · refine ⟨s, ?_, sameHist_refl s, rfl⟩
    simp only [vln_inernal_loop]
    rw [if_pos h0]
  by_cases h1 : 32 ≤ c ∧ c ≤ 126
  · exact ⟨_, loop_insert fuel s pn c rest h1.1 h1.2, insert_same s c,
      applyEdit_lnmax s (.insert c)⟩
  by_cases h2 : 32 ≤ c
  · refine ⟨vln_edit_backspace s, ?_, applyEdit_same s .backspace, applyEdit_lnmax s .backspace⟩
    simp only [vln_inernal_loop]
    rw [if_neg h0, if_neg h1, if_pos h2]
    rfl
  have h3 : c < 32 := by omega
  have h27 : c ≠ 27 := by
    intro h
    subst h
    revert hk
    decide
  simp only [vln_inernal_loop]
  rw [if_neg h0, if_neg h1, if_neg h2, if_neg h27]
  clear h0 h1 h2 h27
  interval_cases c
  all_goals first
    | (exfalso; revert hk; decide)
    | exact ⟨_, rfl, sameHist_refl s, rfl⟩
    | exact ⟨_, rfl, clear_same s, clear_lnmax s⟩
    | exact ⟨_, rfl, applyEdit_same s .backspace, applyEdit_lnmax s .backspace⟩
    | exact ⟨_, rfl, applyEdit_same s .delete, applyEdit_lnmax s .delete⟩
    | exact ⟨_, rfl, applyEdit_same s .moveleft, applyEdit_lnmax s .moveleft⟩
    | exact ⟨_, rfl, applyEdit_same s .moveright, applyEdit_lnmax s .moveright⟩
    | exact ⟨_, rfl, applyEdit_same s .movehome, applyEdit_lnmax s .movehome⟩
    | exact ⟨_, rfl, applyEdit_same s .moveend, applyEdit_lnmax s .moveend⟩
    | exact ⟨_, rfl, applyEdit_same s .delend, applyEdit_lnmax s .delend⟩
    | exact ⟨_, rfl, applyEdit_same s .delline, applyEdit_lnmax s .delline⟩
    | exact ⟨_, rfl, applyEdit_same s .delword, applyEdit_lnmax s .delword⟩

theorem loop_editKeys_max (pn : Mem) :
    ∀ (pre : List Nat) (s : vln_t) (fuel : Nat) (rest : List Nat),
    (∀ c ∈ pre, editKey c = true) →
    ∃ s1, vln_inernal_loop (fuel + pre.length) s pn (pre ++ rest) =
        vln_inernal_loop fuel s1 pn rest ∧ SameHist s s1 ∧ s1.lnmax = s.lnmax := by
  intro pre
  induction pre with
  | nil => intro s fuel rest _; exact ⟨s, rfl, sameHist_refl s, rfl⟩
  | cons c pre ih =>
    intro s fuel rest h
    obtain ⟨s1, e1, h1, m1⟩ := loop_editKey_max (fuel + pre.length) s pn c (pre ++ rest)
      (h c (List.mem_cons_self _ _))
    obtain ⟨s2, e2, h2, m2⟩ := ih s1 fuel rest (fun x hx => h x (List.mem_cons_of_mem _ hx))
    refine ⟨s2, ?_, sameHist_trans h1 h2, m2.trans m1⟩
    have e : fuel + (c :: pre).length = (fuel + pre.length) + 1 := by simp; omega
    rw [e, List.cons_append, e1, e2]

/-- In a state of the loop of `vln_inernal` whose history satisfies the invariant,
Ctrl-U, a printable word that fits the line and the ring, and CR end the loop with
that word in the line buffer, and nothing is written behind the ring. -/
theorem loop_delline_type (t : vln_t) (cap : Nat) (lv com : List Mem) (ht : Tracked t cap lv com)
    (pn : Mem) (w : List Nat) (fuel : Nat) (hw : ∀ c ∈ w, 32 ≤ c ∧ c ≤ 126)
    (hmax : t.lnmax < 65536) (hlen : w.length ≤ t.lnmax) (hfit : w.length + 4 ≤ cap) :
    ∃ t2, vln_inernal_loop (fuel + w.length + 2) t pn (21 :: (w ++ [13])) = .ret t2 true [] ∧
      payloadOf t2.lnbuf = w ∧ getSize t2.lnbuf = w.length ∧
      ∀ p, cap ≤ p → t2.hpbuf p = t.hpbuf p := by
  obtain ⟨d1, d2, d3, d4⟩ := delline_spec t
  generalize hsc : vln_edit_delline t = sc at d1 d2 d3 d4
  obtain ⟨t1, t2, t3⟩ := typeAll_tail w sc (by rw [d1, d2]) (by rw [d1, d3]; omega)
    (by rw [d3]; exact hmax)
  have hsame_d : SameHist sc (typeAll sc w) := typeAll_same w sc
  generalize hsd : typeAll sc w = sd at t1 t2 t3 hsame_d
  have hpay_c : payload sc = [] := by
    simp only [payload, payloadOf, d1, bytesAt]; rfl
  rw [hpay_c, List.nil_append] at t1
  rw [d1, Nat.zero_add] at t2
  have hsame : SameHist t sd := sameHist_trans d4 hsame_d
  have htd : Tracked sd cap _ _ := tracked_same ht hsame
  obtain ⟨se, e5, e6⟩ := store_returns sd cap _ _ htd
  refine ⟨se, ?_, ?_, ?_, ?_⟩
  · have el : fuel + w.length + 2 = (fuel + w.length + 1) + 1 := by omega
    have el2 : fuel + w.length + 1 = (fuel + 1) + w.length := by omega
    rw [el, loop_ctrl_u, hsc, el2, loop_type pn w sc _ _ hw, hsd, loop_cr, e5]
  · rw [e6]
    exact t1
  · rw [e6]
    exact t2
  · intro p hp
    rw [← hsame.1]
    exact runOp_ring_frame sd cap _ _ htd (HistOp.store sd.lnbuf)
      (by show getSize sd.lnbuf + 4 ≤ cap; omega) se e5 p hp

/-! ## The claims -/

/-- C1. History round trip: for a capacity `2 ^ k` with `2 ≤ k ≤ 15`, after any
earlier history operations, commit the non empty lines `lines` whose slots plus
the 4 bytes of the cached empty live line sum to at most the capacity; then on a
fresh empty line `n` presses of prev (`1 ≤ n ≤ lines.length`) return and leave
the line buffer with the size and payload of the `n`-th most recent line, the
cursor at the end and `hist.index = n`. -/
theorem C1_history_round_trip (s : vln_t) (init : vln_init_t) (k : Nat)
    (hk1 : 2 ≤ k) (hk2 : k ≤ 15) (hs : init.histsize = 2 ^ k)
    (ops : List HistOp) (hops : ∀ op ∈ ops, getSize op.buf + 4 ≤ 2 ^ k)
    (lines : List Mem) (hl : ∀ m ∈ lines, 0 < getSize m ∧ getSize m < 65536)
    (hsum : slots lines + 4 ≤ 2 ^ k)
    (linebuff : Mem) (buffsize : Nat) (n : Nat) (hn1 : 1 ≤ n) (hn2 : n ≤ lines.length) :
    ∃ s1 s2 m, runOps (vln_init s init) (ops ++ lines.map HistOp.store) = some s1 ∧
      pressPrev n (vln_begin s1 linebuff buffsize) = some s2 ∧
      lines[lines.length - n]? = some m ∧
      getSize s2.lnbuf = getSize m ∧ payload s2 = payloadOf m ∧
      s2.curoff = getSize s2.lnbuf ∧ s2.hindex = n := by
  obtain ⟨p1, p2, p3, p4⟩ := pow_facts k hk1 hk2
  have hti := tracked_init s init k hk1 hk2 hs
  generalize 2 ^ k = cap at *
  obtain ⟨sa, ea, ⟨C, O, recs, hinva, _, _, _⟩⟩ := runOps_tracked cap ops _ [] [] hti hops
  have hl2 : ∀ m ∈ lines, 0 < getSize m ∧ getSize m + 4 ≤ cap := by
    intro m hm
    have := slot_le_slots lines m hm
    exact ⟨(hl m hm).1, size_le_of_slot m cap (hl m hm).2 (by omega)⟩
  obtain ⟨s1, C2, O2, lv2, R2, e1, hinv1⟩ :=
    stores_keep cap lines sa C O _ [] recs (by simpa using hinva) hl2 (by simp only [slots]; omega)
  rw [List.append_nil] at hinv1
  -- the fresh empty line
  have hinvb := hinv1.of_same (sameHist_begin s1 linebuff buffsize)
  have hsz := getSize_begin s1 linebuff buffsize
  generalize hsb : vln_begin s1 linebuff buffsize = sb at hinvb hsz
  have hidx : sb.hindex = 0 := by rw [← hsb]; rfl
  have hslot : slot sb.lnbuf = 4 := by
    unfold slot; rw [hsz]; decide
  have hm0 : getSize sb.lnbuf + 4 ≤ cap := by omega
  obtain ⟨e4, eO, eC, efit, _⟩ :=
    evictTo_facts cap C2 O2 (slot sb.lnbuf) p1 hinvb.c4 hinvb.o4 (by omega) hinvb.le (by omega)
  have hsl := histInv_slots_le hinvb
  rw [slots_append, slots_reverse] at hsl
  have hcinv := cache_inv sb cap C2 O2 lv2 _ hinvb hm0
  have hA : slots lines.reverse ≤ C2 - evictTo cap C2 O2 (slot sb.lnbuf) := by
    rw [slots_reverse, hslot]
    unfold evictTo
    split_ifs <;> omega
  rw [fit_append R2 lines.reverse _ hA] at hcinv
  generalize hR : fit (C2 - evictTo cap C2 O2 (slot sb.lnbuf) - slots lines.reverse) R2 = R3 at hcinv
  -- first press: cache the live line and load the newest record
  have hone : u16 ((0 : Int) + 1) = 1 := by unfold u16; omega
  have hf := fetch_eq _ cap C2 _ [sb.lnbuf] _ hcinv 1
  have hlen : 0 < lines.reverse.length := by simp; omega
  obtain ⟨ei, m1, hloc⟩ := locate_some ([sb.lnbuf] ++ (lines.reverse ++ R3))
    (C2 + slots [sb.lnbuf]) 1 (by simp; omega)
  have hE4 : (C2 + slots [sb.lnbuf]) % 4 = 0 := by have := hcinv.c4; have := hcinv.l4; omega
  obtain ⟨hget1, _, _, _, _, hmm⟩ :=
    locate_spec _ cap _ p1 p3 _ _ 1 hE4 hcinv.chain ei m1 hloc
  rw [hloc] at hf
  simp only [] at hf
  obtain ⟨f1, f2, f3⟩ := loaded_fields (cacheState sb cap C2 O2) m1 1
  have hget2 : (lines.reverse ++ R3)[1 - 1]? = some m1 := by simpa using hget1
  obtain ⟨s2, m2, e2, g2, ⟨h21, h22, h23⟩, i2⟩ :=
    pressPrev_loaded cap C2 _ sb.lnbuf (lines.reverse ++ R3) (n - 1)
      (loaded (cacheState sb cap C2 O2) m1 1) 1 m1
      (hcinv.of_same (sameHist_loaded _ m1 1)) f3 (le_refl _)
      (by simp; omega) (holds_loaded _ m1 1 cap p1 p3 hmm) hget2
  refine ⟨s1, s2, m2, ?_, ?_, ?_, h21, h22, h23, by rw [i2]; omega⟩
  · rw [runOps_append, ea]
    exact e1
  · obtain ⟨n', rfl⟩ : ∃ n', n = n' + 1 := ⟨n - 1, by omega⟩
    rw [hsb]
    simp only [pressPrev, vln_history_loadprev, vln_history_load, hidx, if_true]
    rw [cache_eq sb cap C2 O2 lv2 _ hinvb hm0]
    simp only [Int.ofNat_zero, Nat.cast_zero, hone]
    rw [show cacheState sb cap C2 O2 = { sb with
        hout := evictTo cap C2 O2 (slot sb.lnbuf) % 65536
        hpbuf := cacheRing sb.hpbuf cap C2 sb.lnbuf
        hin := (C2 + slot sb.lnbuf) % 65536 } from rfl] at hf e2
    rw [hf]
    exact e2
  · have e : 1 + (n - 1) - 1 = n - 1 := by omega
    rw [e, List.getElem?_append_left (by simp; omega),
      List.getElem?_reverse (by omega)] at g2
    have e3 : lines.length - 1 - (n - 1) = lines.length - n := by omega
    rw [e3] at g2
    exact g2

/-- C1 at a concrete input: ring of 64 bytes, the lines `one` and `two` committed,
two presses of prev on a fresh line. -/
theorem C1_history_round_trip_witness :
    ∃ s1 s2 m,
      runOps (vln_init blank init64)
        ([] ++ [lineOf [111, 110, 101], lineOf [116, 119, 111]].map HistOp.store) = some s1 ∧
      pressPrev 2 (vln_begin s1 zeros 32) = some s2 ∧
      [lineOf [111, 110, 101], lineOf [116, 119, 111]][
        [lineOf [111, 110, 101], lineOf [116, 119, 111]].length - 2]? = some m ∧
      getSize s2.lnbuf = getSize m ∧ payload s2 = payloadOf m ∧
      s2.curoff = getSize s2.lnbuf ∧ s2.hindex = 2 :=
  C1_history_round_trip blank init64 6 (by decide) (by decide) rfl [] (by simp)
    [lineOf [111, 110, 101], lineOf [116, 119, 111]] (by decide) (by decide) zeros 32 2
    (by decide) (by decide)

/-- C2 (counterexample). After the three calls of S3, Up Up on the next line
leaves the line buffer holding `two`, not `one`. -/
theorem C2_up_up_holds_two :
    (s3calls.next 32 zeros [27, 91, 65, 27, 91, 65]).held = some [116, 119, 111] ∧
      (s3calls.next 32 zeros [27, 91, 65, 27, 91, 65]).held ≠ some [111, 110, 101] := by
  decide!

/-- C2 (amended). Scenario S3: the third call returns the payload `two` of length
3, and commits it again; on the next line Up Up holds `two`, Up Up Up holds
`one`, and Up Up Down holds `two`. -/
theorem C2_scenario_s3 :
    s3calls.line = some ([116, 119, 111], 3) ∧
      (s3calls.next 32 zeros [27, 91, 65, 27, 91, 65]).held = some [116, 119, 111] ∧
      (s3calls.next 32 zeros [27, 91, 65, 27, 91, 65, 27, 91, 65]).held = some [111, 110, 101] ∧
      (s3calls.next 32 zeros [27, 91, 65, 27, 91, 65, 27, 91, 66]).held = some [116, 119, 111] := by
  decide!

/-- C3. Live line restore: after any sequence of history operations, on a line
with `hist.index = 0` whose slot fits in the ring, `vln_history_loadprev`
followed by `vln_history_loadnext` returns and leaves the line buffer with the
size and the payload it had, the cursor at the end and `hist.index = 0`. -/
theorem C3_live_line_restore (s : vln_t) (init : vln_init_t) (k : Nat)
    (hk1 : 2 ≤ k) (hk2 : k ≤ 15) (hs : init.histsize = 2 ^ k)
    (ops : List HistOp) (hops : ∀ op ∈ ops, getSize op.buf + 4 ≤ 2 ^ k)
    (T : Mem) (hT : getSize T < 65536 ∧ slot T ≤ 2 ^ k) (c : Nat) :
    ∃ s1 s2 s3, runOps (vln_init s init) ops = some s1 ∧
      vln_history_loadprev { s1 with lnbuf := T, curoff := c, hindex := 0 } = some s2 ∧
      vln_history_loadnext s2 = some s3 ∧
      getSize s3.lnbuf = getSize T ∧ payload s3 = payloadOf T ∧ s3.curoff = getSize T ∧
      s3.hindex = 0 := by
  obtain ⟨p1, p2, p3, p4⟩ := pow_facts k hk1 hk2
  have hTc := size_le_of_slot T _ hT.1 hT.2
  obtain ⟨sz4, sge, sz, scap, _⟩ := slot_facts T (2 ^ k) p1 p3 hTc
  obtain ⟨s1, e1, ht⟩ := runOps_tracked (2 ^ k) _ _ [] [] (tracked_init s init k hk1 hk2 hs) hops
  have ht0 : Tracked { s1 with lnbuf := T, curoff := c, hindex := 0 } (2 ^ k) _ _ :=
    tracked_same ht ⟨rfl, rfl, rfl, rfl, rfl, rfl⟩
  obtain ⟨cs, ec, ⟨C, O, recs, hinv, _, _, _⟩, hlb, hix, _⟩ := tracked_cache _ (2 ^ k) _ _ ht0 hTc
  have hlb' : cs.lnbuf = T := hlb
  have hix' : cs.hindex = 0 := hix
  have hone : u16 (((0 : Nat) : Int) + 1) = 1 := by unfold u16; omega
  -- the record of the live line is the first of the chain
  have hloc0 : locate (C + slots [T]) ([T] ++ recs) 0 = some (C + slots [T], T) := rfl
  have hprev : vln_history_loadprev { s1 with lnbuf := T, curoff := c, hindex := 0 } =
      vln_history_fetch cs 1 := by
    simp only [vln_history_loadprev, vln_history_load, if_true, hone, ec]
  have hf1 := fetch_eq cs (2 ^ k) C O [T] recs hinv 1
  cases hloc : locate (C + slots [T]) ([T] ++ recs) 1 with
  | none =>
    -- no record: the line stays, and next caches and reloads it
    rw [hloc] at hf1
    simp only [] at hf1
    have htc : Tracked cs (2 ^ k) [T] _ := ⟨C, O, recs, hinv, by assumption, by assumption, by assumption⟩
    obtain ⟨cs2, ec2, ⟨C2, O2, recs2, hinv2, _, _, _⟩, hlb2, _, _⟩ :=
      tracked_cache cs (2 ^ k) _ _ htc (by rw [hlb']; exact hTc)
    have hf2 := fetch_eq cs2 (2 ^ k) C2 O2 [cs.lnbuf] recs2 hinv2 0
    have hloc2 : locate (C2 + slots [cs.lnbuf]) ([cs.lnbuf] ++ recs2) 0 =
        some (C2 + slots [cs.lnbuf], cs.lnbuf) := rfl
    rw [hloc2] at hf2
    simp only [] at hf2
    obtain ⟨f1, f2, f3⟩ := loaded_fields cs2 cs.lnbuf 0
    refine ⟨s1, cs, _, e1, by rw [hprev, hf1], ?_, ?_, ?_, ?_, f3⟩
    · simp only [vln_history_loadnext, vln_history_load, hix', if_true, ec2,
        Nat.lt_irrefl, if_false]
      exact hf2
    · rw [f1, hlb']; exact getSize_overlay T _ _ (by omega)
    · simp only [payload, payloadOf]
      rw [f1, hlb', getSize_overlay T _ _ (by omega)]
      exact bytesAt_overlay T _ _ sz
    · rw [f2, hlb']
  | some r =>
    rw [hloc] at hf1
    simp only [] at hf1
    obtain ⟨g1, g2, g3⟩ := loaded_fields cs r.2 1
    have hinv3 := hinv.of_same (sameHist_loaded cs r.2 1)
    have hf3 := fetch_eq (loaded cs r.2 1) (2 ^ k) C O [T] recs hinv3 0
    rw [hloc0] at hf3
    simp only [] at hf3
    obtain ⟨f1, f2, f3⟩ := loaded_fields (loaded cs r.2 1) T 0
    refine ⟨s1, _, _, e1, by rw [hprev, hf1], ?_, ?_, ?_, ?_, f3⟩
    · simp only [vln_history_loadnext, vln_history_load, g3]
      simp only [Nat.one_ne_zero, if_false, Nat.lt_add_one, if_true, Nat.sub_self]
      exact hf3
    · rw [f1]; exact getSize_overlay T _ _ (by omega)
    · simp only [payload, payloadOf]
      rw [f1, getSize_overlay T _ _ (by omega)]
      exact bytesAt_overlay T _ _ sz
    · rw [f2]

/-- C3 at a concrete input: ring of 64 bytes, `one` committed, the live line `tw`
with the cursor at 1. -/
theorem C3_live_line_restore_witness :
    ∃ s1 s2 s3, runOps (vln_init blank init64) [HistOp.store (lineOf [111, 110, 101])] = some s1 ∧
      vln_history_loadprev { s1 with lnbuf := lineOf [116, 119], curoff := 1, hindex := 0 } =
        some s2 ∧
      vln_history_loadnext s2 = some s3 ∧
      getSize s3.lnbuf = getSize (lineOf [116, 119]) ∧ payload s3 = payloadOf (lineOf [116, 119]) ∧
      s3.curoff = getSize (lineOf [116, 119]) ∧ s3.hindex = 0 :=
  C3_live_line_restore blank init64 6 (by decide) (by decide) rfl
    [HistOp.store (lineOf [111, 110, 101])] (by decide) (lineOf [116, 119]) (by decide) 1

/-- C4. Eviction never corrupts: after committing any sequence of non empty
lines whose slots are each at most the capacity (a power of two from 4 to
32768), `vln_history_load(n)` with `n ≥ 1` on a fresh line returns, and it
either leaves the line buffer untouched or leaves in it the size and payload of
the `n`-th most recently committed line. -/
theorem C4_eviction_never_corrupts (s : vln_t) (init : vln_init_t) (k : Nat)
    (hk1 : 2 ≤ k) (hk2 : k ≤ 15) (hs : init.histsize = 2 ^ k)
    (lines : List Mem)
    (hl : ∀ m ∈ lines, 0 < getSize m ∧ getSize m < 65536 ∧ slot m ≤ 2 ^ k)
    (linebuff : Mem) (buffsize : Nat) (n : Nat) (hn : 1 ≤ n) :
    ∃ s1 s2, runOps (vln_init s init) (lines.map HistOp.store) = some s1 ∧
      vln_history_load (vln_begin s1 linebuff buffsize) n = some s2 ∧
      (s2.lnbuf = (vln_begin s1 linebuff buffsize).lnbuf ∨
        ∃ m, lines.reverse[n - 1]? = some m ∧ getSize s2.lnbuf = getSize m ∧
          payload s2 = payloadOf m) := by
  obtain ⟨p1, p2, p3, p4⟩ := pow_facts k hk1 hk2
  have hops : ∀ op ∈ lines.map HistOp.store, getSize op.buf + 4 ≤ 2 ^ k := by
    intro op hop
    obtain ⟨m, hm, rfl⟩ := List.mem_map.mp hop
    exact size_le_of_slot m _ (hl m hm).2.1 (hl m hm).2.2
  obtain ⟨s1, e1, ht⟩ := runOps_tracked (2 ^ k) _ _ [] [] (tracked_init s init k hk1 hk2 hs) hops
  rw [committed_stores lines [] (fun m hm => (hl m hm).1), List.append_nil] at ht
  have ht2 := tracked_same ht (sameHist_begin s1 linebuff buffsize)
  have hsz := getSize_begin s1 linebuff buffsize
  obtain ⟨s2, e2, h2⟩ := load_tracked _ (2 ^ k) _ _ ht2 rfl (by rw [hsz]; omega) n hn
  exact ⟨s1, s2, e1, e2, h2⟩

/-- C4 at a concrete input: ring of 16 bytes, two lines of slot 12 committed (the
second evicts the first), then `vln_history_load(2)` on a fresh line. -/
theorem C4_eviction_never_corrupts_witness :
    ∃ s1 s2,
      runOps (vln_init blank init16)
        ([lineOf [97, 98, 99, 100, 101], lineOf [102, 103, 104, 105, 106]].map HistOp.store) =
          some s1 ∧
      vln_history_load (vln_begin s1 zeros 32) 2 = some s2 ∧
      (s2.lnbuf = (vln_begin s1 zeros 32).lnbuf ∨
        ∃ m, [lineOf [97, 98, 99, 100, 101], lineOf [102, 103, 104, 105, 106]].reverse[2 - 1]? =
            some m ∧
          getSize s2.lnbuf = getSize m ∧ payload s2 = payloadOf m) :=
  C4_eviction_never_corrupts blank init16 4 (by decide) (by decide) rfl
    [lineOf [97, 98, 99, 100, 101], lineOf [102, 103, 104, 105, 106]] (by decide) zeros 32 2
    (by decide)

/-- Ring of 16 bytes after two commits of 5 byte lines: `in - out` and the sum of
the slots of the resident records. -/
theorem used_exceeds_resident_eval :
    (runOps (vln_init blank init16)
      [HistOp.store (lineOf [97, 98, 99, 100, 101]),
        HistOp.store (lineOf [102, 103, 104, 105, 106])]).map
      (fun s1 => (u16 ((s1.hin : Int) - s1.hout), residentSlots s1 s1.hsize)) = some (16, 12) := by
  decide!

/-- C5 (counterexample). Ring of 16 bytes, two lines of 5 bytes (slot 12 each)
committed: `in - out` is 16 while the slots of the resident records sum to 12,
because the second commit evicted 8 of the 12 bytes of the first record. -/
theorem C5_used_exceeds_resident :
    ∃ s1, runOps (vln_init blank init16)
        [HistOp.store (lineOf [97, 98, 99, 100, 101]),
          HistOp.store (lineOf [102, 103, 104, 105, 106])] = some s1 ∧
      u16 ((s1.hin : Int) - s1.hout) = 16 ∧ residentSlots s1 s1.hsize = 12 ∧
      u16 ((s1.hin : Int) - s1.hout) ≠ residentSlots s1 s1.hsize := by
  have h := used_exceeds_resident_eval
  cases hr : runOps (vln_init blank init16)
      [HistOp.store (lineOf [97, 98, 99, 100, 101]),
        HistOp.store (lineOf [102, 103, 104, 105, 106])] with
  | none => rw [hr] at h; exact absurd h (by simp)
  | some s1 =>
    rw [hr] at h
    simp only [Option.map_some', Option.some.injEq, Prod.mk.injEq] at h
    exact ⟨s1, rfl, h.1, h.2, by rw [h.1, h.2]; decide⟩

/-- C5 (amended). After any sequence of history operations (store, cache, load)
from `vln_init`, the wrapping difference `in - out` is at most the capacity and
equals the sum of the slots of the resident records (the newest stored lines,
the cached live line first) plus the bytes left of at most one partly evicted
line, which are fewer than the slot of that line; when no stored line is
missing from the resident records the difference equals the sum. -/
theorem C5_used_bytes (s : vln_t) (init : vln_init_t) (k : Nat)
    (hk1 : 2 ≤ k) (hk2 : k ≤ 15) (hs : init.histsize = 2 ^ k)
    (ops : List HistOp) (hops : ∀ op ∈ ops, getSize op.buf + 4 ≤ 2 ^ k) :
    ∃ s1 whole, runOps (vln_init s init) ops = some s1 ∧
      whole <+: cachedLive [] ops ++ committed [] ops ∧
      residentSlots s1 s1.hsize = slots whole ∧
      slots whole ≤ u16 ((s1.hin : Int) - s1.hout) ∧
      u16 ((s1.hin : Int) - s1.hout) ≤ 2 ^ k ∧
      (∀ r, (cachedLive [] ops ++ committed [] ops)[whole.length]? = some r →
        u16 ((s1.hin : Int) - s1.hout) - slots whole < slot r) ∧
      (whole = cachedLive [] ops ++ committed [] ops →
        u16 ((s1.hin : Int) - s1.hout) = slots whole) := by
  obtain ⟨p1, p2, p3, p4⟩ := pow_facts k hk1 hk2
  obtain ⟨s1, e1, ⟨C, O, recs, hinv, hpre, hC, hleft⟩⟩ :=
    runOps_tracked (2 ^ k) ops _ [] [] (tracked_init s init k hk1 hk2 hs) hops
  generalize 2 ^ k = cap at *
  generalize cachedLive [] ops = lv at *
  generalize committed [] ops = com at *
  have hle : O ≤ C + slots lv := by have := hinv.le; omega
  have hused : u16 ((s1.hin : Int) - s1.hout) = C + slots lv - O := by
    rw [hinv.hin, hinv.out, u16_used _ O cap hle hinv.fits p3]
  have hsl := histInv_slots_le hinv
  have hfits := hinv.fits
  have hcl := chain_length s1.hpbuf cap O p1 p3 _ _ hinv.chain
  refine ⟨s1, lv ++ recs, e1, (List.prefix_append_right_inj lv).mpr hpre, ?_, ?_, ?_, ?_, ?_⟩
  · rw [residentSlots_eq s1 cap C O lv recs hinv, List.take_of_length_le]
    rw [hinv.ring.size]
    omega
  · rw [hused, slots_append]; omega
  · rw [hused]; omega
  · intro r hr
    have hr2 : com[recs.length]? = some r := by
      rw [List.length_append, List.getElem?_append_right (by omega)] at hr
      simpa using hr
    have := hleft r hr2
    rw [hused, slots_append]
    omega
  · intro heq
    have hrc : recs = com := List.append_cancel_left heq
    rw [hused, slots_append, hrc]
    rw [hrc] at hsl
    omega

/-- C5 (amended) at a concrete input: ring of 16 bytes, two lines of slot 12 committed. -/
theorem C5_used_bytes_witness :
    ∃ s1 whole,
      runOps (vln_init blank init16)
        [HistOp.store (lineOf [97, 98, 99, 100, 101]),
          HistOp.store (lineOf [102, 103, 104, 105, 106])] = some s1 ∧
      whole <+: cachedLive [] [HistOp.store (lineOf [97, 98, 99, 100, 101]),
          HistOp.store (lineOf [102, 103, 104, 105, 106])] ++
        committed [] [HistOp.store (lineOf [97, 98, 99, 100, 101]),
          HistOp.store (lineOf [102, 103, 104, 105, 106])] ∧
      residentSlots s1 s1.hsize = slots whole ∧
      slots whole ≤ u16 ((s1.hin : Int) - s1.hout) ∧
      u16 ((s1.hin : Int) - s1.hout) ≤ 2 ^ 4 ∧
      (∀ r, (cachedLive [] [HistOp.store (lineOf [97, 98, 99, 100, 101]),
            HistOp.store (lineOf [102, 103, 104, 105, 106])] ++
          committed [] [HistOp.store (lineOf [97, 98, 99, 100, 101]),
            HistOp.store (lineOf [102, 103, 104, 105, 106])])[whole.length]? = some r →
        u16 ((s1.hin : Int) - s1.hout) - slots whole < slot r) ∧
      (whole = cachedLive [] [HistOp.store (lineOf [97, 98, 99, 100, 101]),
            HistOp.store (lineOf [102, 103, 104, 105, 106])] ++
          committed [] [HistOp.store (lineOf [97, 98, 99, 100, 101]),
            HistOp.store (lineOf [102, 103, 104, 105, 106])] →
        u16 ((s1.hin : Int) - s1.hout) = slots whole) :=
  C5_used_bytes blank init16 4 (by decide) (by decide) rfl
    [HistOp.store (lineOf [97, 98, 99, 100, 101]),
      HistOp.store (lineOf [102, 103, 104, 105, 106])] (by decide)

/-- C6. Cursor bounds: from a state with `curoff ≤ size ≤ lnmax` (`lnmax` a
`uint16_t`), every editor action ends in a state with `curoff ≤ size ≤ lnmax`. -/
theorem C6_cursor_bounds (s : vln_t) (a : EditAction)
    (h1 : s.curoff ≤ getSize s.lnbuf) (h2 : getSize s.lnbuf ≤ s.lnmax) (h3 : s.lnmax < 65536) :
    (applyEdit s a).curoff ≤ getSize (applyEdit s a).lnbuf ∧
      getSize (applyEdit s a).lnbuf ≤ (applyEdit s a).lnmax := by
  cases a with
  | insert c =>
    simp only [applyEdit, vln_edit_insert]
    by_cases hlt : getSize s.lnbuf < s.lnmax
    · rw [if_pos hlt]
      have hu1 : u16 ((s.curoff : Int) + 1) = s.curoff + 1 := by unfold u16; omega
      have hu2 : u16 ((getSize s.lnbuf : Int) + 1) = getSize s.lnbuf + 1 := by unfold u16; omega
      rw [hu1, hu2]
      have hsz : ∀ m : Mem, getSize (setSize m (getSize s.lnbuf + 1)) = getSize s.lnbuf + 1 := by
        intro m; rw [getSize_setSize]; omega
      split_ifs
      all_goals first
        | (obtain ⟨r1, r2, r3⟩ := refresh_bounds
            { s with
              lnbuf := setSize (wr _ (4 + s.curoff) c) (getSize s.lnbuf + 1)
              curoff := s.curoff + 1 }
           rw [r1, r2, r3]; simp only [hsz]; omega)
        | (simp only [vln_put, hsz]; omega)
    · rw [if_neg hlt]; exact ⟨h1, h2⟩
  | backspace =>
    simp only [applyEdit, vln_edit_backspace]
    split_ifs with hc
    · obtain ⟨r1, r2, r3⟩ := refresh_bounds
        { s with
          lnbuf := setSize (memmove s.lnbuf (4 + s.curoff - 1) (4 + s.curoff)
            (getSize s.lnbuf - s.curoff)) (u16 ((getSize s.lnbuf : Int) - 1))
          curoff := u16 ((s.curoff : Int) - 1) }
      rw [r1, r2, r3]
      simp only [getSize_setSize]
      unfold u16; omega
    · exact ⟨h1, h2⟩
  | delete =>
    simp only [applyEdit, vln_edit_delete]
    split_ifs with hc
    · obtain ⟨r1, r2, r3⟩ := refresh_bounds
        { s with lnbuf := setSize (memmove s.lnbuf (4 + s.curoff) (4 + s.curoff + 1)
            (getSize s.lnbuf - s.curoff - 1)) (u16 ((getSize s.lnbuf : Int) - 1)) }
      rw [r1, r2, r3]
      simp only [getSize_setSize]
      unfold u16; omega
    · exact ⟨h1, h2⟩
  | moveleft =>
    simp only [applyEdit, vln_edit_moveleft]
    split_ifs with hc
    · obtain ⟨r1, r2, r3⟩ := refresh_bounds { s with curoff := u16 ((s.curoff : Int) - 1) }
      rw [r1, r2, r3]
      simp only []
      unfold u16; omega
    · exact ⟨h1, h2⟩
  | moveright =>
    simp only [applyEdit, vln_edit_moveright]
    split_ifs with hc
    · obtain ⟨r1, r2, r3⟩ := refresh_bounds { s with curoff := u16 ((s.curoff : Int) + 1) }
      rw [r1, r2, r3]
      simp only []
      unfold u16; omega
    · exact ⟨h1, h2⟩
  | movehome =>
    obtain ⟨r1, r2, r3⟩ := refresh_bounds { s with curoff := 0 }
    simp only [applyEdit, vln_edit_movehome]
    rw [r1, r2, r3]
    simp only []
    omega
  | moveend =>
    obtain ⟨r1, r2, r3⟩ := refresh_bounds { s with curoff := getSize s.lnbuf }
    simp only [applyEdit, vln_edit_moveend]
    rw [r1, r2, r3]
    simp only []
    omega
  | delend =>
    obtain ⟨r1, r2, r3⟩ := refresh_bounds { s with lnbuf := setSize s.lnbuf s.curoff }
    simp only [applyEdit, vln_edit_delend]
    rw [r1, r2, r3]
    simp only [getSize_setSize]
    omega
  | delline =>
    obtain ⟨r1, r2, r3⟩ := refresh_bounds { s with lnbuf := setSize s.lnbuf 0, curoff := 0 }
    simp only [applyEdit, vln_edit_delline]
    rw [r1, r2, r3]
    simp only [getSize_setSize]
    omega
  | delword =>
    have hw := delword_word_le s.lnbuf (delword_spaces s.lnbuf s.curoff)
    have hsp := delword_spaces_le s.lnbuf s.curoff
    simp only [applyEdit, vln_edit_delword]
    generalize delword_word s.lnbuf (delword_spaces s.lnbuf s.curoff) = c2 at hw
    generalize delword_spaces s.lnbuf s.curoff = c1 at hw hsp
    obtain ⟨r1, r2, r3⟩ := refresh_bounds
      { s with
        lnbuf := setSize (memmove s.lnbuf (4 + c2) (4 + s.curoff)
          (getSize s.lnbuf - s.curoff + 1)) (u16 ((getSize s.lnbuf : Int) - ((s.curoff : Int) - c2)))
        curoff := c2 }
    rw [r1, r2, r3]
    simp only [getSize_setSize]
    unfold u16; omega

/-- C6 at a concrete input: delete word on the line `abc` with the cursor at 1. -/
theorem C6_cursor_bounds_witness :
    (applyEdit lineAbc EditAction.delword).curoff ≤
        getSize (applyEdit lineAbc EditAction.delword).lnbuf ∧
      getSize (applyEdit lineAbc EditAction.delword).lnbuf ≤
        (applyEdit lineAbc EditAction.delword).lnmax :=
  C6_cursor_bounds lineAbc EditAction.delword (by decide) (by decide) (by decide)

/-- C7. `vln_edit_insert(c)` with `curoff ≤ size` (`lnmax` a `uint16_t`): if
`size < lnmax` the new payload is `old[0..curoff) ++ [c] ++ old[curoff..size)`
and cursor and size grow by 1; if `size = lnmax` the state, transport included,
is unchanged. Scenario S2: `a b c Left Left X CR` returns `aXbc`, length 4,
with the cursor at 2. -/
theorem C7_insert (s : vln_t) (c : Nat) (h1 : s.curoff ≤ getSize s.lnbuf) (h3 : s.lnmax < 65536) :
    (getSize s.lnbuf < s.lnmax →
      payload (vln_edit_insert s c) =
          (payload s).take s.curoff ++ [c] ++ (payload s).drop s.curoff ∧
        (vln_edit_insert s c).curoff = s.curoff + 1 ∧
        getSize (vln_edit_insert s c).lnbuf = getSize s.lnbuf + 1) ∧
    (getSize s.lnbuf = s.lnmax → vln_edit_insert s c = s) ∧
    (vln (vln_init blank init64) zeros 32 zeros
        [97, 98, 99, 27, 91, 68, 27, 91, 68, 88, 13]).line = some ([97, 88, 98, 99], 4) ∧
    (vln (vln_init blank init64) zeros 32 zeros
        [97, 98, 99, 27, 91, 68, 27, 91, 68, 88, 13]).retCursor = some 2 := by
  refine ⟨fun hlt => insert_spec s c h1 hlt h3, fun heq => insert_full s c (by omega), ?_, ?_⟩
  · decide!
  · decide!

/-- C7 at a concrete input: insert `X` in the line `abc` with the cursor at 1. -/
theorem C7_insert_witness :
    (getSize lineAbc.lnbuf < lineAbc.lnmax →
      payload (vln_edit_insert lineAbc 88) =
          (payload lineAbc).take lineAbc.curoff ++ [88] ++ (payload lineAbc).drop lineAbc.curoff ∧
        (vln_edit_insert lineAbc 88).curoff = lineAbc.curoff + 1 ∧
        getSize (vln_edit_insert lineAbc 88).lnbuf = getSize lineAbc.lnbuf + 1) ∧
    (getSize lineAbc.lnbuf = lineAbc.lnmax → vln_edit_insert lineAbc 88 = lineAbc) ∧
    (vln (vln_init blank init64) zeros 32 zeros
        [97, 98, 99, 27, 91, 68, 27, 91, 68, 88, 13]).line = some ([97, 88, 98, 99], 4) ∧
    (vln (vln_init blank init64) zeros 32 zeros
        [97, 98, 99, 27, 91, 68, 27, 91, 68, 88, 13]).retCursor = some 2 :=
  C7_insert lineAbc 88 (by decide) (by decide)

/-- C8. Single character deletion with `curoff ≤ size` (`size` a `uint16_t`):
`vln_edit_backspace` with `curoff > 0` yields `old[0..curoff-1) ++ old[curoff..size)`
with cursor and size decremented; `vln_edit_delete` with `curoff < size` yields
`old[0..curoff) ++ old[curoff+1..size)` with size decremented and the cursor
unchanged; at the edge (`curoff = 0`, `curoff = size`) each leaves the state,
transport included, unchanged. -/
theorem C8_backspace_delete (s : vln_t) (h1 : s.curoff ≤ getSize s.lnbuf)
    (h2 : getSize s.lnbuf < 65536) :
    (0 < s.curoff →
      payload (vln_edit_backspace s) =
          (payload s).take (s.curoff - 1) ++ (payload s).drop s.curoff ∧
        (vln_edit_backspace s).curoff = s.curoff - 1 ∧
        getSize (vln_edit_backspace s).lnbuf = getSize s.lnbuf - 1) ∧
    (s.curoff = 0 → vln_edit_backspace s = s) ∧
    (s.curoff < getSize s.lnbuf →
      payload (vln_edit_delete s) =
          (payload s).take s.curoff ++ (payload s).drop (s.curoff + 1) ∧
        (vln_edit_delete s).curoff = s.curoff ∧
        getSize (vln_edit_delete s).lnbuf = getSize s.lnbuf - 1) ∧
    (s.curoff = getSize s.lnbuf → vln_edit_delete s = s) := by
  refine ⟨fun hpos => backspace_spec s h1 h2 hpos, ?_, fun hlt => delete_spec s h2 hlt, ?_⟩
  · intro h0
    have hc : ¬ (s.curoff > 0 ∧ getSize s.lnbuf > 0) := by omega
    simp only [vln_edit_backspace, if_neg hc]
  · intro heq
    have hc : ¬ (s.curoff < getSize s.lnbuf ∧ getSize s.lnbuf > 0) := by omega
    simp only [vln_edit_delete, if_neg hc]

/-- C8 at a concrete input: the line `abc` with the cursor at 1. -/
theorem C8_backspace_delete_witness :
    (0 < lineAbc.curoff →
      payload (vln_edit_backspace lineAbc) =
          (payload lineAbc).take (lineAbc.curoff - 1) ++ (payload lineAbc).drop lineAbc.curoff ∧
        (vln_edit_backspace lineAbc).curoff = lineAbc.curoff - 1 ∧
        getSize (vln_edit_backspace lineAbc).lnbuf = getSize lineAbc.lnbuf - 1) ∧
    (lineAbc.curoff = 0 → vln_edit_backspace lineAbc = lineAbc) ∧
    (lineAbc.curoff < getSize lineAbc.lnbuf →
      payload (vln_edit_delete lineAbc) =
          (payload lineAbc).take lineAbc.curoff ++ (payload lineAbc).drop (lineAbc.curoff + 1) ∧
        (vln_edit_delete lineAbc).curoff = lineAbc.curoff ∧
        getSize (vln_edit_delete lineAbc).lnbuf = getSize lineAbc.lnbuf - 1) ∧
    (lineAbc.curoff = getSize lineAbc.lnbuf → vln_edit_delete lineAbc = lineAbc) :=
  C8_backspace_delete lineAbc (by decide) (by decide)

/-- C9 (what the code does). Scenario S4: `foo bar`, Ctrl-W, CR returns the
payload `foo` of length 3, whether the bytes after the payload are zero or
spaces: the space in front of the word is removed with it. -/
theorem C9_delword_drops_space :
    (vln (vln_init blank init64) zeros 32 zeros
      [102, 111, 111, 32, 98, 97, 114, 23, 13]).line = some ([102, 111, 111], 3) ∧
    (vln (vln_init blank init64) (fun _ => 32) 32 zeros
      [102, 111, 111, 32, 98, 97, 114, 23, 13]).line = some ([102, 111, 111], 3) := by
  decide!

/-- C10 (counterexample). Scenario S5 does not return the word in every session.
After `vln_init` accepted a history ring of 2 bytes, the call that reads `abc`,
Ctrl-U, `xyz`, CR never returns: the copy of the commit does not terminate. With
a prompt of 65536 bytes `>` the loop of `vln_calculate_prompt` never meets the NUL
byte, so the call never reads a key. On a ring of 16 bytes the word of 29 bytes
`x`, which is at most `lnmax = 59`, is returned, but its slot of 36 bytes is more
than twice the ring: `vln_history_cache` stores the byte 29 at offset 16 of the
history array, behind the 16 bytes of the ring. -/
theorem C10_no_return_or_overrun :
    ((vln_init_checked true blank argsSize2).1 = 0 ∧
      (vln_init_checked true blank argsSize2).2.hsize = (vln_init blank init2).hsize ∧
      (vln (vln_init blank init2) zeros 32 zeros [97, 98, 99, 21, 120, 121, 122, 13]).hangs =
        true ∧
      (vln (vln_init blank init2) zeros 32 zeros [97, 98, 99, 21, 120, 121, 122, 13]).line =
        none) ∧
    vln (vln_init blank initLongPrompt) zeros 32 zeros [97, 98, 99, 21, 120, 121, 122, 13] =
      .noprompt ∧
    (commitOverRing.line = some (List.replicate 29 120, 29) ∧
      (vln_init blank init16).hsize = 16 ∧ (vln_init blank init16).hpbuf 16 = 0 ∧
      commitOverRing.state.hsize = 16 ∧ commitOverRing.state.hpbuf 16 = 29) :=
  ⟨by decide!, long_prompt_never_returns _ _ _ _, by decide!⟩

/-- C10 (amended). Scenario S5 generalised: `vln_edit_delline` sets `size = 0` and
`cursor = 0` from any state. In a session started by `vln_init` with a ring of
`2 ^ k` bytes (`2 ≤ k ≤ 15`) and a prompt shorter than 65536 bytes, after any
earlier history operations on lines whose size plus 4 is at most the ring, for
every printable word `w` with `|w| ≤ lnmax` and `|w| + 4` at most the ring:
in every state of the line over that history, Ctrl-U, `w` and CR end the loop of
`vln_inernal` with the payload `w` of size `|w|`; and the call of `vln` that
reads any keys that edit the line (`editKey`), then Ctrl-U, `w` and CR returns a
non null pointer with all the input read, the payload `w`, `*linesize = |w|` and
a NUL byte behind the payload. In both cases no byte of the history array at an
offset from the ring size on is written. -/
theorem C10_delline_then_type (s : vln_t) (init : vln_init_t) (k : Nat)
    (hk1 : 2 ≤ k) (hk2 : k ≤ 15) (hs : init.histsize = 2 ^ k)
    (hpr : init.prompt.length < 65536)
    (ops : List HistOp) (hops : ∀ op ∈ ops, getSize op.buf + 4 ≤ 2 ^ k)
    (linebuff : Mem) (buffsize : Nat) (pn : Mem) (pre w : List Nat)
    (hpre : ∀ c ∈ pre, editKey c = true) (hw : ∀ c ∈ w, 32 ≤ c ∧ c ≤ 126)
    (hlen : w.length ≤ u16 ((buffsize : Int) - 5)) (hfit : w.length + 4 ≤ 2 ^ k) :
    (∀ t : vln_t, getSize (vln_edit_delline t).lnbuf = 0 ∧ (vln_edit_delline t).curoff = 0) ∧
    ∃ s1, runOps (vln_init s init) ops = some s1 ∧
      (∀ (t : vln_t) (fuel : Nat), SameHist s1 t → t.lnmax < 65536 → w.length ≤ t.lnmax →
        ∃ t2, vln_inernal_loop (fuel + w.length + 2) t pn (21 :: (w ++ [13])) =
            .ret t2 true [] ∧
          payload t2 = w ∧ getSize t2.lnbuf = w.length ∧
          ∀ p, 2 ^ k ≤ p → t2.hpbuf p = s1.hpbuf p) ∧
      ∃ s2, vln s1 linebuff buffsize pn (pre ++ [21] ++ w ++ [13]) = .ret s2 true [] ∧
        payload s2 = w ∧ getSize s2.lnbuf = w.length ∧ s2.lnbuf (4 + w.length) = 0 ∧
        ∀ p, 2 ^ k ≤ p → s2.hpbuf p = s1.hpbuf p := by
  refine ⟨fun t => ⟨(delline_spec t).1, (delline_spec t).2.1⟩, ?_⟩
  obtain ⟨s1, e1, ht⟩ := runOps_tracked (2 ^ k) ops _ [] [] (tracked_init s init k hk1 hk2 hs) hops
  have hp1 : s1.prompt.length < 65536 := by
    rw [runOps_prompt ops _ s1 e1]
    exact hpr
  refine ⟨s1, e1, ?_, ?_⟩
  · intro t fuel hsame hmax hl
    obtain ⟨t2, c1, c2, c3, c4⟩ := loop_delline_type t (2 ^ k) _ _ (tracked_same ht hsame) pn w
      fuel hw hmax hl hfit
    exact ⟨t2, c1, c2, c3, fun p hp => by rw [c4 p hp, hsame.1]⟩
  -- the state at the start of the loop, and after the keys typed first
  obtain ⟨sa, hsame_a, hmax_a, _, _, _, hv⟩ := vln_enters s1 linebuff buffsize hp1
  obtain ⟨sb, eb, hsame_b, hmax_b⟩ := loop_editKeys_max pn pre sa (1 + w.length + 2)
    (21 :: (w ++ [13])) hpre
  have hsame : SameHist s1 sb := sameHist_trans hsame_a hsame_b
  obtain ⟨se, c1, c2, c3, c4⟩ := loop_delline_type sb (2 ^ k) _ _ (tracked_same ht hsame) pn w 1 hw
    (by rw [hmax_b, hmax_a]; exact u16_lt _) (by rw [hmax_b, hmax_a]; exact hlen) hfit
  have hloop : vln_inernal_loop ((pre ++ [21] ++ w ++ [13]).length + 1) sa pn
      (pre ++ [21] ++ w ++ [13]) = .ret se true [] := by
    have el : (pre ++ [21] ++ w ++ [13]).length + 1 = (1 + w.length + 2) + pre.length := by
      simp; omega
    have ea : pre ++ [21] ++ w ++ [13] = pre ++ (21 :: (w ++ [13])) := by simp
    rw [el, ea, eb, c1]
  obtain ⟨q1, q2⟩ := payloadOf_wr_end se.lnbuf 0
  refine ⟨{ vln_put se [13, 10] with
      lnbuf := wr se.lnbuf (4 + getSize se.lnbuf) 0, bound := false }, ?_, ?_, ?_, ?_, ?_⟩
  · rw [hv pn, hloop]
    rfl
  · show payloadOf (wr se.lnbuf (4 + getSize se.lnbuf) 0) = w
    rw [q1]
    exact c2
  · show getSize (wr se.lnbuf (4 + getSize se.lnbuf) 0) = w.length
    rw [q2]
    exact c3
  · show wr se.lnbuf (4 + getSize se.lnbuf) 0 (4 + w.length) = 0
    rw [c3]
    simp [wr]
  · intro p hp
    show se.hpbuf p = s1.hpbuf p
    rw [c4 p hp, hsame.1]

/-- C10 at a concrete input, scenario S5: a fresh session with a ring of 64 bytes,
`abc`, Ctrl-U, `xyz`, CR into a line buffer of 32 bytes. -/
theorem C10_delline_then_type_witness :
    (∀ t : vln_t, getSize (vln_edit_delline t).lnbuf = 0 ∧ (vln_edit_delline t).curoff = 0) ∧
    ∃ s1, runOps (vln_init blank init64) [] = some s1 ∧
      (∀ (t : vln_t) (fuel : Nat), SameHist s1 t → t.lnmax < 65536 →
          [120, 121, 122].length ≤ t.lnmax →
        ∃ t2, vln_inernal_loop (fuel + [120, 121, 122].length + 2) t zeros
            (21 :: ([120, 121, 122] ++ [13])) = .ret t2 true [] ∧
          payload t2 = [120, 121, 122] ∧ getSize t2.lnbuf = [120, 121, 122].length ∧
          ∀ p, 2 ^ 6 ≤ p → t2.hpbuf p = s1.hpbuf p) ∧
      ∃ s2, vln s1 zeros 32 zeros ([97, 98, 99] ++ [21] ++ [120, 121, 122] ++ [13]) =
          .ret s2 true [] ∧
        payload s2 = [120, 121, 122] ∧ getSize s2.lnbuf = [120, 121, 122].length ∧
        s2.lnbuf (4 + [120, 121, 122].length) = 0 ∧
        ∀ p, 2 ^ 6 ≤ p → s2.hpbuf p = s1.hpbuf p :=
  C10_delline_then_type blank init64 6 (by decide) (by decide) rfl (by decide) [] (by simp)
    zeros 32 zeros [97, 98, 99] [120, 121, 122] (by decide) (by decide) (by decide) (by decide)

/-- C11 (counterexample). A non empty word that adds no history record. On a
ring of 16 bytes the word of 16 bytes `a` and CR is returned with length 16, but
its slot of 20 bytes does not fit: afterwards the walk of `vln_history_load`
finds no record and prev on the next line leaves the line empty. With a line
buffer of 65541 bytes `lnmax` is 0: `a` CR returns the length `min(1, 0) = 0`
and the history is as it was, with no record of size 0. -/
theorem C11_no_record_added :
    commitWide.line = some (List.replicate 16 97, 16) ∧
    residentSlots commitWide.state 16 = 0 ∧
    (commitWide.next 32 zeros [27, 91, 65]).held = some [] ∧
    commitNoRoom.line = some ([], 0) ∧
    residentSlots commitNoRoom.state 64 = 0 ∧
    commitNoRoom.state.hin = 0 ∧ commitNoRoom.state.hcache = 0 ∧ commitNoRoom.state.hout = 0 := by
  decide!

/-- C11 (amended). Newline commit: in a session started by `vln_init` with a ring
of `2 ^ k` bytes (`2 ≤ k ≤ 15`) and a prompt shorter than 65536 bytes, after any
earlier history operations on lines whose size plus 4 is at most the ring, for
every word `w` of printable bytes followed by CR such that
`n = min(|w|, lnmax)` is 0 or `n + 4` is at most the ring, `vln` returns a non
null pointer to the payload with all the input read, `*linesize = n`, the payload
equal to the first `lnmax` bytes of `w` and a NUL byte behind it, and no byte of
the history array at an offset from the ring size on is written. When `n = 0`
the history is as it was. When `n > 0` exactly one record is added: the
committed lines are the earlier ones and the line of size `n` with that payload,
`in` is `cache` before the call plus the slot of the line, modulo `2 ^ 16`, and
`cache = in`; when moreover `n + 8` is at most the ring (room for the cached
live line), prev on the next line loads it. Scenario S1: `hello` CR returns
`hello` with length 5, the ring holds one record, of slot 12, and prev, also
pressed twice, holds `hello`. -/
theorem C11_newline_commit (s : vln_t) (init : vln_init_t) (k : Nat)
    (hk1 : 2 ≤ k) (hk2 : k ≤ 15) (hs : init.histsize = 2 ^ k)
    (hpr : init.prompt.length < 65536)
    (ops : List HistOp) (hops : ∀ op ∈ ops, getSize op.buf + 4 ≤ 2 ^ k)
    (linebuff : Mem) (buffsize : Nat) (pn : Mem) (w : List Nat)
    (hw : ∀ c ∈ w, 32 ≤ c ∧ c ≤ 126)
    (n : Nat) (hn : n = min w.length (u16 ((buffsize : Int) - 5)))
    (hfit : n = 0 ∨ n + 4 ≤ 2 ^ k) :
    (∃ s1 s2, runOps (vln_init s init) ops = some s1 ∧
      vln s1 linebuff buffsize pn (w ++ [13]) = .ret s2 true [] ∧
      getSize s2.lnbuf = n ∧ payload s2 = w.take (u16 ((buffsize : Int) - 5)) ∧
      s2.lnbuf (4 + n) = 0 ∧
      (∀ p, 2 ^ k ≤ p → s2.hpbuf p = s1.hpbuf p) ∧
      (n = 0 → SameHist s1 s2) ∧
      (0 < n →
        ∃ m, getSize m = n ∧ payloadOf m = w.take (u16 ((buffsize : Int) - 5)) ∧
          Tracked s2 (2 ^ k) [] (m :: committed [] ops) ∧
          s2.hin = (s1.hcache + slot m) % 65536 ∧ s2.hcache = s2.hin ∧
          (n + 8 ≤ 2 ^ k → ∀ (lb : Mem) (bs : Nat),
            ∃ s3, vln_history_loadprev (vln_begin s2 lb bs) = some s3 ∧ Holds s3 m ∧
              s3.hindex = 1))) ∧
    (commitHello.line = some ([104, 101, 108, 108, 111], 5) ∧
      residentSlots commitHello.state 64 = 12 ∧
      (commitHello.next 32 zeros [27, 91, 65]).held = some [104, 101, 108, 108, 111] ∧
      (commitHello.next 32 zeros [27, 91, 65, 27, 91, 65]).held =
        some [104, 101, 108, 108, 111]) := by
  refine ⟨?_, by decide!⟩
  obtain ⟨p1, p2, p3, p4⟩ := pow_facts k hk1 hk2
  obtain ⟨s1, e1, ht⟩ := runOps_tracked (2 ^ k) ops _ [] [] (tracked_init s init k hk1 hk2 hs) hops
  have hp1 : s1.prompt.length < 65536 := by
    rw [runOps_prompt ops _ s1 e1]
    exact hpr
  generalize 2 ^ k = cap at *
  -- the state at the start of the loop
  obtain ⟨sa, hsame_a, hmax_a, hsz_a, hcur_a, _, hv⟩ := vln_enters s1 linebuff buffsize hp1
  -- typing the word
  obtain ⟨t1, t2, t3⟩ := typeAll_trunc w sa (by rw [hcur_a, hsz_a]) (by rw [hsz_a]; omega)
    (by rw [hmax_a]; exact u16_lt _)
  have hsame_d : SameHist sa (typeAll sa w) := typeAll_same w sa
  generalize hsd : typeAll sa w = sd at t1 t2 t3 hsame_d
  have hpay_a : payload sa = [] := by
    simp only [payload, payloadOf, hsz_a, bytesAt]; rfl
  rw [hpay_a, List.nil_append, hsz_a, Nat.sub_zero, hmax_a] at t1
  rw [hsz_a, Nat.zero_add, Nat.sub_zero, hmax_a, ← hn] at t2
  -- the newline
  have hsame : SameHist s1 sd := sameHist_trans hsame_a hsame_d
  have htd : Tracked sd cap _ _ := tracked_same ht hsame
  obtain ⟨se, e5, e6⟩ := store_returns sd cap _ _ htd
  have hloop : vln_inernal_loop ((w ++ [13]).length + 1) sa pn (w ++ [13]) = .ret se true [] := by
    have el : (w ++ [13]).length + 1 = (1 + 1) + w.length := by simp; omega
    rw [el, loop_type pn w sa _ _ hw, hsd, loop_cr, e5]
  obtain ⟨q1, q2⟩ := payloadOf_wr_end se.lnbuf 0
  have hfin : SameHist se { vln_put se [13, 10] with
      lnbuf := wr se.lnbuf (4 + getSize se.lnbuf) 0, bound := false } :=
    ⟨rfl, rfl, rfl, rfl, rfl, rfl⟩
  refine ⟨s1, { vln_put se [13, 10] with
      lnbuf := wr se.lnbuf (4 + getSize se.lnbuf) 0, bound := false }, e1, ?_, ?_, ?_, ?_, ?_, ?_, ?_⟩
  · rw [hv pn, hloop]
    rfl
  · show getSize (wr se.lnbuf (4 + getSize se.lnbuf) 0) = n
    rw [q2, e6]
    exact t2
  · show payloadOf (wr se.lnbuf (4 + getSize se.lnbuf) 0) = _
    rw [q1, e6]
    exact t1
  · show wr se.lnbuf (4 + getSize se.lnbuf) 0 (4 + n) = 0
    rw [e6, t2]
    simp [wr]
  · intro p hp
    show se.hpbuf p = s1.hpbuf p
    rw [← hsame.1]
    rcases hfit with hz | hfit2
    · have hst : vln_history_store sd = some sd := by
        simp only [vln_history_store]
        rw [if_neg (by omega)]
      rw [hst] at e5
      simp only [Option.some.injEq] at e5
      subst e5
      rfl
    · exact runOp_ring_frame sd cap _ _ htd (HistOp.store sd.lnbuf)
        (by show getSize sd.lnbuf + 4 ≤ cap; omega) se e5 p hp
  · intro hz
    have hst : vln_history_store sd = some sd := by
      simp only [vln_history_store]
      rw [if_neg (by omega)]
    rw [hst] at e5
    simp only [Option.some.injEq] at e5
    subst e5
    exact sameHist_trans hsame hfin
  · intro hpos
    have hfit2 : n + 4 ≤ cap := by omega
    obtain ⟨C, O, recs, hinv, hpre, hC, hleft⟩ := htd
    have hm : getSize sd.lnbuf + 4 ≤ cap := by omega
    have hst := store_eq sd cap C O _ recs hinv hm (by omega)
    rw [hst] at e5
    simp only [Option.some.injEq] at e5
    obtain ⟨st, e7, ht2⟩ := tracked_store sd cap _ _ ⟨C, O, recs, hinv, hpre, hC, hleft⟩ hm (by omega)
    rw [hst] at e7
    simp only [Option.some.injEq] at e7
    obtain ⟨g1, g2⟩ := store_heads sd se (by rw [hst, e5]) (by omega)
    have hinv2 := store_inv sd cap C O _ recs hinv hm
    rw [e5] at hinv2
    obtain ⟨s4, sge, _, scap, slt⟩ := slot_facts sd.lnbuf cap p1 p3 hm
    refine ⟨sd.lnbuf, t2, t1, ?_, ?_, ?_, ?_⟩
    · rw [← e7, e5] at ht2
      exact tracked_same ht2 hfin
    · show se.hin = _
      rw [g1, ← hsame.2.2.2.2.2]
      have hsl : vln_align4 (getSize sd.lnbuf + 4) = slot sd.lnbuf := rfl
      rw [hsl, Nat.mod_eq_of_lt (by omega)]
      unfold u16
      omega
    · exact g2
    · intro hfit8 lb bs
      have hinvb := (hinv2.of_same hfin).of_same (sameHist_begin _ lb bs)
      exact loadprev_newest _ cap _ _ sd.lnbuf _ hinvb rfl (getSize_begin _ lb bs) (by omega)

/-- C11 at a concrete input, scenario S1: a fresh session with a ring of 64
bytes, `hello` CR into a line buffer of 32 bytes. -/
theorem C11_newline_commit_witness :
    (∃ s1 s2, runOps (vln_init blank init64) [] = some s1 ∧
      vln s1 zeros 32 zeros ([104, 101, 108, 108, 111] ++ [13]) = .ret s2 true [] ∧
      getSize s2.lnbuf = 5 ∧ payload s2 = [104, 101, 108, 108, 111].take (u16 ((32 : Nat) - 5 : Int)) ∧
      s2.lnbuf (4 + 5) = 0 ∧
      (∀ p, 2 ^ 6 ≤ p → s2.hpbuf p = s1.hpbuf p) ∧
      (5 = 0 → SameHist s1 s2) ∧
      (0 < 5 →
        ∃ m, getSize m = 5 ∧ payloadOf m = [104, 101, 108, 108, 111].take (u16 ((32 : Nat) - 5 : Int)) ∧
          Tracked s2 (2 ^ 6) [] (m :: committed [] []) ∧
          s2.hin = (s1.hcache + slot m) % 65536 ∧ s2.hcache = s2.hin ∧
          (5 + 8 ≤ 2 ^ 6 → ∀ (lb : Mem) (bs : Nat),
            ∃ s3, vln_history_loadprev (vln_begin s2 lb bs) = some s3 ∧ Holds s3 m ∧
              s3.hindex = 1))) ∧
    (commitHello.line = some ([104, 101, 108, 108, 111], 5) ∧
      residentSlots commitHello.state 64 = 12 ∧
      (commitHello.next 32 zeros [27, 91, 65]).held = some [104, 101, 108, 108, 111] ∧
      (commitHello.next 32 zeros [27, 91, 65, 27, 91, 65]).held =
        some [104, 101, 108, 108, 111]) :=
  C11_newline_commit blank init64 6 (by decide) (by decide) rfl (by decide) [] (by simp) zeros 32
    zeros [104, 101, 108, 108, 111] (by decide) 5 (by decide) (by decide)

/-- C13 (counterexample). On the line of 79 bytes after the prompt `"> "` on
80 columns (`pptoff + size = 81 ≥ cols`, cursor at the tail, `mask = 0`), the
insert of `b` writes the single byte `b`, not a refresh. -/
theorem C13_no_refresh_at_tail :
    wideLine.pptoff + getSize wideLine.lnbuf ≥ wideLine.col ∧
    wideLine.curoff = getSize wideLine.lnbuf ∧ getMask wideLine.lnbuf = 0 ∧
    (vln_edit_insert wideLine 98).tx = wideLine.tx ++ [98] ∧
    (vln_edit_insert wideLine 98).tx ≠
      (vln_edit_refresh { vln_edit_insert wideLine 98 with tx := wideLine.tx }).tx := by
  decide!

/-- C13 (amended). Echo equivalence: for every sequence `w` of inserts at the
tail of a line with `mask = 0` and room for them, each `vln_edit_insert` writes
exactly the inserted byte to the transport, whatever the prompt width, the size
and the number of columns are: the bytes written by the whole sequence are `w`,
and no refresh is written. -/
theorem C13_tail_insert_echo (s : vln_t) (w : List Nat) (h1 : s.curoff = getSize s.lnbuf)
    (h2 : getMask s.lnbuf = 0) (h3 : s.lnmax < 65536)
    (h4 : getSize s.lnbuf + w.length ≤ s.lnmax) :
    (typeAll s w).tx = s.tx ++ w ∧
    (∀ u c v, w = u ++ c :: v →
      (vln_edit_insert (typeAll s u) c).tx = (typeAll s u).tx ++ [c]) := by
  refine ⟨typeAll_tail_tx w s h1 h4 h3 h2, ?_⟩
  intro u c v hw
  have hl : w.length = u.length + v.length + 1 := by rw [hw]; simp; omega
  have h5 := typeAll_tail_tx (u ++ [c]) s h1 (by simp; omega) h3 h2
  have h6 := typeAll_tail_tx u s h1 (by omega) h3 h2
  have e : typeAll s (u ++ [c]) = vln_edit_insert (typeAll s u) c := by
    simp [typeAll]
  rw [← e, h5, h6]
  simp

/-- C13 at a concrete input: two more bytes typed on the 81 column line. -/
theorem C13_tail_insert_echo_witness :
    (typeAll wideLine [98, 99]).tx = wideLine.tx ++ [98, 99] ∧
    (∀ u c v, [98, 99] = u ++ c :: v →
      (vln_edit_insert (typeAll wideLine u) c).tx = (typeAll wideLine u).tx ++ [c]) :=
  C13_tail_insert_echo wideLine [98, 99] (by decide!) (by decide!) (by decide!) (by decide!)

/-- C14. Mask opacity: two line states with a non zero mask that agree on size,
cursor, capacity, prompt width, columns and the bytes written so far (`Alike`)
write the same bytes to the transport under `vln_edit_refresh`, under
`vln_edit_insert` of any two bytes, and under any two runs of editor actions
that differ only in the bytes inserted; the payload after an insert is the old
one with the inserted byte at the cursor. In a session with `vln_mask(1)` the
word `sec` and CR returns the payload `sec` while the transport gets the prompt,
three spaces and the newline. -/
theorem C14_mask_opacity (s t : vln_t) (as bs : List EditAction)
    (hk : sameKeys as bs = true) (h : Alike s t) (hm : getMask s.lnbuf ≠ 0) :
    (runEdits s as).tx = (runEdits t bs).tx ∧
    (vln_edit_refresh s).tx = (vln_edit_refresh t).tx ∧
    (∀ c d, (vln_edit_insert s c).tx = (vln_edit_insert t d).tx) ∧
    (∀ c, s.curoff ≤ getSize s.lnbuf → getSize s.lnbuf < s.lnmax → s.lnmax < 65536 →
      payload (vln_edit_insert s c) =
        (payload s).take s.curoff ++ [c] ++ (payload s).drop s.curoff) ∧
    (vln (vln_mask (vln_init blank init64) 1) zeros 32 zeros [115, 101, 99, 13]).line =
      some ([115, 101, 99], 3) ∧
    (vln (vln_mask (vln_init blank init64) 1) zeros 32 zeros [115, 101, 99, 13]).state.tx =
      [62, 32, 32, 32, 32, 13, 10] := by
  refine ⟨(runEdits_alike as bs s t hk h hm).2.2.2.2.2.2, (refresh_alike s t h hm).2.2.2.2.2.2,
    fun c d => (insert_alike s t c d h hm).2.2.2.2.2.2,
    fun c h1 h2 h3 => (insert_spec s c h1 h2 h3).1, by decide!, by decide!⟩

/-- C14 at a concrete input: the masked lines `abc` and `xyz`, an insert, a move
left, an insert and a backspace. -/
theorem C14_mask_opacity_witness :
    (runEdits maskedAbc [.insert 100, .moveleft, .insert 101, .backspace]).tx =
      (runEdits maskedXyz [.insert 119, .moveleft, .insert 118, .backspace]).tx ∧
    (vln_edit_refresh maskedAbc).tx = (vln_edit_refresh maskedXyz).tx ∧
    (∀ c d, (vln_edit_insert maskedAbc c).tx = (vln_edit_insert maskedXyz d).tx) ∧
    (∀ c, maskedAbc.curoff ≤ getSize maskedAbc.lnbuf → getSize maskedAbc.lnbuf < maskedAbc.lnmax →
      maskedAbc.lnmax < 65536 →
      payload (vln_edit_insert maskedAbc c) =
        (payload maskedAbc).take maskedAbc.curoff ++ [c] ++ (payload maskedAbc).drop maskedAbc.curoff) ∧
    (vln (vln_mask (vln_init blank init64) 1) zeros 32 zeros [115, 101, 99, 13]).line =
      some ([115, 101, 99], 3) ∧
    (vln (vln_mask (vln_init blank init64) 1) zeros 32 zeros [115, 101, 99, 13]).state.tx =
      [62, 32, 32, 32, 32, 13, 10] :=
  C14_mask_opacity maskedAbc maskedXyz [.insert 100, .moveleft, .insert 101, .backspace]
    [.insert 119, .moveleft, .insert 118, .backspace] (by decide)
    ⟨by decide, by decide, rfl, rfl, rfl, rfl, rfl⟩ (by decide)

/-- C16. Refresh output: for a line with `curoff ≤ size` and `pptoff < cols`,
`vln_edit_refresh` writes exactly `ESC [ dec(pptoff + 1) G`, then, only when
`mask = 0`, the `view_len` bytes of the payload from the offset of the view,
then `ESC [ 0 J ESC [ dec(pptoff + view_cur + 1) G`, where the view is the
window of the specification (`specWindow`): scrolled right by
`d = pptoff + cursor - cols + 1` when `pptoff + cursor ≥ cols`, then clamped to
`cols - pptoff` bytes. On the line of 79 bytes after a prompt of width 2 on 80
columns the output is `ESC [ 3 G`, 78 bytes, `ESC [ 0 J ESC [ 43 G` with the
cursor at 40, and `ESC [ 3 G`, 77 bytes, `ESC [ 0 J ESC [ 80 G` with the cursor
at the tail. -/
theorem C16_refresh_output (s : vln_t) (h1 : s.curoff ≤ getSize s.lnbuf) (h2 : s.pptoff < s.col)
    (h3 : s.col < 65536) (h4 : getSize s.lnbuf < 65536) :
    ((vln_edit_refresh s).tx =
      s.tx ++ ([27, 91] ++ dec (s.pptoff + 1) ++ [71]) ++
        (if getMask s.lnbuf = 0
          then ((payload s).drop (specWindow s.pptoff (getSize s.lnbuf) s.curoff s.col).1).take
            (specWindow s.pptoff (getSize s.lnbuf) s.curoff s.col).2.1
          else []) ++
        ([27, 91, 48, 74] ++
          ([27, 91] ++ dec (s.pptoff + (specWindow s.pptoff (getSize s.lnbuf) s.curoff s.col).2.2 + 1)
            ++ [71]))) ∧
    (vln_edit_refresh midLine).tx.drop midLine.tx.length =
      [27, 91, 51, 71] ++ List.replicate 78 97 ++ [27, 91, 48, 74, 27, 91, 52, 51, 71] ∧
    (vln_edit_refresh wideLine).tx.drop wideLine.tx.length =
      [27, 91, 51, 71] ++ List.replicate 77 97 ++ [27, 91, 48, 74, 27, 91, 56, 48, 71] := by
  refine ⟨?_, by decide!, by decide!⟩
  obtain ⟨b1, b2, b3, b4, b5, b6⟩ := specWindow_bounds s.pptoff (getSize s.lnbuf) s.curoff s.col h1 h2
  have hw := refresh_window_eq s h1 h2 h3 h4
  rw [refresh_tx, hw, dec_zero, bytesAt_window _ _ _ b3]
  have e1 : u16 ((s.pptoff : Int) + 1) = s.pptoff + 1 := by unfold u16; omega
  have e2 : u16 ((s.pptoff : Int) + (specWindow s.pptoff (getSize s.lnbuf) s.curoff s.col).2.2 + 1) =
      s.pptoff + (specWindow s.pptoff (getSize s.lnbuf) s.curoff s.col).2.2 + 1 := by
    unfold u16; omega
  rw [e1, e2]
  rfl

/-- C16 at a concrete input: the line of 79 bytes with the cursor at 40. -/
theorem C16_refresh_output_witness :
    ((vln_edit_refresh midLine).tx =
      midLine.tx ++ ([27, 91] ++ dec (midLine.pptoff + 1) ++ [71]) ++
        (if getMask midLine.lnbuf = 0
          then ((payload midLine).drop
              (specWindow midLine.pptoff (getSize midLine.lnbuf) midLine.curoff midLine.col).1).take
            (specWindow midLine.pptoff (getSize midLine.lnbuf) midLine.curoff midLine.col).2.1
          else []) ++
        ([27, 91, 48, 74] ++
          ([27, 91] ++ dec (midLine.pptoff +
            (specWindow midLine.pptoff (getSize midLine.lnbuf) midLine.curoff midLine.col).2.2 + 1)
            ++ [71]))) ∧
    (vln_edit_refresh midLine).tx.drop midLine.tx.length =
      [27, 91, 51, 71] ++ List.replicate 78 97 ++ [27, 91, 48, 74, 27, 91, 52, 51, 71] ∧
    (vln_edit_refresh wideLine).tx.drop wideLine.tx.length =
      [27, 91, 51, 71] ++ List.replicate 77 97 ++ [27, 91, 48, 74, 27, 91, 56, 48, 71] :=
  C16_refresh_output midLine (by decide!) (by decide!) (by decide!) (by decide!)

/-- C17. Refresh keeps the cursor on screen: for every state with
`curoff ≤ size` and `pptoff < cols`, the window `(view, len, cur)` that
`vln_edit_refresh` computes and writes satisfies: the column `n = pptoff + cur + 1`
of the final `ESC [ n G` lies in `pptoff + 1 .. cols`, at most `cols - pptoff`
payload bytes are written, `cur ≤ len`, and nothing wrapped: `view ≤ curoff`,
`cur + view = curoff` and `view + len ≤ size`. -/
theorem C17_refresh_on_screen (s : vln_t) (h1 : s.curoff ≤ getSize s.lnbuf)
    (h2 : s.pptoff < s.col) (h3 : s.col < 65536) (h4 : getSize s.lnbuf < 65536) :
    ∃ view len cur, refresh_window s = (view, len, cur) ∧
      (vln_edit_refresh s).tx =
        s.tx ++ ([27, 91] ++ dec (s.pptoff + 1) ++ [71]) ++
          (if getMask s.lnbuf = 0 then bytesAt s.lnbuf (4 + view) len else []) ++
          ([27, 91, 48, 74] ++ ([27, 91] ++ dec (s.pptoff + cur + 1) ++ [71])) ∧
      s.pptoff + 1 ≤ s.pptoff + cur + 1 ∧ s.pptoff + cur + 1 ≤ s.col ∧
      len ≤ s.col - s.pptoff ∧ cur ≤ len ∧
      view ≤ s.curoff ∧ cur + view = s.curoff ∧ view + len ≤ getSize s.lnbuf := by
  obtain ⟨b1, b2, b3, b4, b5, b6⟩ := specWindow_bounds s.pptoff (getSize s.lnbuf) s.curoff s.col h1 h2
  have hw := refresh_window_eq s h1 h2 h3 h4
  refine ⟨_, _, _, hw, ?_, by omega, b6, b5, b4, b1, b2, b3⟩
  rw [refresh_tx, hw, dec_zero]
  have e1 : u16 ((s.pptoff : Int) + 1) = s.pptoff + 1 := by unfold u16; omega
  have e2 : u16 ((s.pptoff : Int) + (specWindow s.pptoff (getSize s.lnbuf) s.curoff s.col).2.2 + 1) =
      s.pptoff + (specWindow s.pptoff (getSize s.lnbuf) s.curoff s.col).2.2 + 1 := by
    unfold u16; omega
  rw [e1, e2]
  rfl

/-- C17 at a concrete input: the line of 79 bytes with the cursor at the tail. -/
theorem C17_refresh_on_screen_witness :
    ∃ view len cur, refresh_window wideLine = (view, len, cur) ∧
      (vln_edit_refresh wideLine).tx =
        wideLine.tx ++ ([27, 91] ++ dec (wideLine.pptoff + 1) ++ [71]) ++
          (if getMask wideLine.lnbuf = 0 then bytesAt wideLine.lnbuf (4 + view) len else []) ++
          ([27, 91, 48, 74] ++ ([27, 91] ++ dec (wideLine.pptoff + cur + 1) ++ [71])) ∧
      wideLine.pptoff + 1 ≤ wideLine.pptoff + cur + 1 ∧ wideLine.pptoff + cur + 1 ≤ wideLine.col ∧
      len ≤ wideLine.col - wideLine.pptoff ∧ cur ≤ len ∧
      view ≤ wideLine.curoff ∧ cur + view = wideLine.curoff ∧ view + len ≤ getSize wideLine.lnbuf :=
  C17_refresh_on_screen wideLine (by decide!) (by decide!) (by decide!) (by decide!)

/-- C18. C0 bindings: `vln_dispatch_ctrl` maps Ctrl-A to MoveHome, B to
MoveLeft, C to AbortLine, D to Delete, E to MoveEnd, F to MoveRight, H to
Backspace, J to Newline, K to DeleteToEnd, L to ClearScreen, M to Newline, N to
HistoryNext, O to Newline, P to HistoryPrev, U to DeleteWholeLine, W to
DeleteWord, Z to AbortLine, 0x1E to SwitchNormalScreen and 0x1F to ShowHelp; and
the `switch` of `vln_inernal` runs the editor function of that name on them. -/
theorem C18_c0_bindings :
    vln_dispatch_ctrl 1 = VLN_EXEC_MVHM ∧ vln_dispatch_ctrl 2 = VLN_EXEC_MVLT ∧
    vln_dispatch_ctrl 3 = VLN_EXEC_ALN ∧ vln_dispatch_ctrl 4 = VLN_EXEC_DEL ∧
    vln_dispatch_ctrl 5 = VLN_EXEC_MVED ∧ vln_dispatch_ctrl 6 = VLN_EXEC_MVRT ∧
    vln_dispatch_ctrl 8 = VLN_EXEC_BS ∧ vln_dispatch_ctrl 10 = VLN_EXEC_NLN ∧
    vln_dispatch_ctrl 11 = VLN_EXEC_DELN ∧ vln_dispatch_ctrl 12 = VLN_EXEC_CLR ∧
    vln_dispatch_ctrl 13 = VLN_EXEC_NLN ∧ vln_dispatch_ctrl 14 = VLN_EXEC_NXTH ∧
    vln_dispatch_ctrl 15 = VLN_EXEC_NLN ∧ vln_dispatch_ctrl 16 = VLN_EXEC_PRVH ∧
    vln_dispatch_ctrl 21 = VLN_EXEC_DHLN ∧ vln_dispatch_ctrl 23 = VLN_EXEC_DLWD ∧
    vln_dispatch_ctrl 26 = VLN_EXEC_ALN ∧ vln_dispatch_ctrl 30 = VLN_EXEC_SWNM ∧
    vln_dispatch_ctrl 31 = VLN_EXEC_HELP ∧
    (∀ s : vln_t,
      vln_exec s (vln_dispatch_ctrl 1) = .next (vln_edit_movehome s) ∧
      vln_exec s (vln_dispatch_ctrl 2) = .next (vln_edit_moveleft s) ∧
      vln_exec s (vln_dispatch_ctrl 3) = .done { s with lnbuf := setSize s.lnbuf 0 } ∧
      vln_exec s (vln_dispatch_ctrl 4) = .next (vln_edit_delete s) ∧
      vln_exec s (vln_dispatch_ctrl 5) = .next (vln_edit_moveend s) ∧
      vln_exec s (vln_dispatch_ctrl 6) = .next (vln_edit_moveright s) ∧
      vln_exec s (vln_dispatch_ctrl 8) = .next (vln_edit_backspace s) ∧
      vln_exec s (vln_dispatch_ctrl 11) = .next (vln_edit_delend s) ∧
      vln_exec s (vln_dispatch_ctrl 12) = .next (vln_edit_clear s) ∧
      vln_exec s (vln_dispatch_ctrl 14) = ExecResult.ofOption (vln_history_loadnext s) ∧
      vln_exec s (vln_dispatch_ctrl 16) = ExecResult.ofOption (vln_history_loadprev s) ∧
      vln_exec s (vln_dispatch_ctrl 21) = .next (vln_edit_delline s) ∧
      vln_exec s (vln_dispatch_ctrl 23) = .next (vln_edit_delword s) ∧
      vln_exec s (vln_dispatch_ctrl 26) = .done { s with lnbuf := setSize s.lnbuf 0 } ∧
      vln_exec s (vln_dispatch_ctrl 30) = .next s) := by
  refine ⟨rfl, rfl, rfl, rfl, rfl, rfl, rfl, rfl, rfl, rfl, rfl, rfl, rfl, rfl, rfl, rfl, rfl, rfl,
    rfl, fun s => ⟨rfl, rfl, rfl, rfl, rfl, rfl, rfl, rfl, rfl, rfl, rfl, rfl, rfl, rfl, rfl⟩⟩

/-- C19 (counterexample). Ctrl-G (0x07, BEL) is not one of the nineteen bound
bytes, and `c0map` maps it to AbortLine, not to None. -/
theorem C19_bel_aborts :
    vln_dispatch_ctrl 7 = VLN_EXEC_ALN ∧ vln_dispatch_ctrl 7 ≠ VLN_EXEC_NUL ∧
      7 ∉ [1, 2, 3, 4, 5, 6, 8, 10, 11, 12, 13, 14, 15, 16, 21, 23, 26, 30, 31] := by
  decide

/-- C19 (amended). Every C0 byte in 0x00..0x1F other than the nineteen bound
ones and Ctrl-G (0x07) is mapped by the C0 table to the action None; Ctrl-G is
mapped to AbortLine. -/
theorem C19_unbound_c0 (c : Nat) (hc : c < 32)
    (hb : c ∉ [1, 2, 3, 4, 5, 6, 8, 10, 11, 12, 13, 14, 15, 16, 21, 23, 26, 30, 31]) :
    (c ≠ 7 → vln_dispatch_ctrl c = VLN_EXEC_NUL) ∧ (c = 7 → vln_dispatch_ctrl c = VLN_EXEC_ALN) := by
  interval_cases c <;> first | (exact absurd (by decide) hb) | decide

/-- C19 at a concrete input: the byte 0x09 (TAB). -/
theorem C19_unbound_c0_witness :
    (9 ≠ 7 → vln_dispatch_ctrl 9 = VLN_EXEC_NUL) ∧ (9 = 7 → vln_dispatch_ctrl 9 = VLN_EXEC_ALN) :=
  C19_unbound_c0 9 (by decide) (by decide)

/-- C20. CSI dispatch tables: for every final byte `f` other than `~` and `t`,
`vln_dispatch_csi` leaves the session as it is and returns HistoryPrev,
HistoryNext, MoveRight, MoveLeft, MoveEnd, MoveHome, F1..F4 for
`f = A, B, C, D, F, H, P..S` and None for every other byte value; for the final
byte `~` with first parameter `p` it returns MoveHome for `p ∈ {1, 7}`, Delete
for 3, MoveEnd for `{4, 8}`, F1..F5 for 11..15, F6..F10 for 17..21, F11 for 23,
F12 for 24 and None for every other `p`, every `p ≥ 25` included. -/
theorem C20_csi_dispatch (s : vln_t) (pns : Mem) (f : Nat) (hf : f < 256)
    (h1 : f ≠ 126) (h2 : f ≠ 116) :
    (vln_dispatch_csi s f pns).1 = s ∧
    (f = 65 → (vln_dispatch_csi s f pns).2.1 = VLN_EXEC_PRVH) ∧
    (f = 66 → (vln_dispatch_csi s f pns).2.1 = VLN_EXEC_NXTH) ∧
    (f = 67 → (vln_dispatch_csi s f pns).2.1 = VLN_EXEC_MVRT) ∧
    (f = 68 → (vln_dispatch_csi s f pns).2.1 = VLN_EXEC_MVLT) ∧
    (f = 70 → (vln_dispatch_csi s f pns).2.1 = VLN_EXEC_MVED) ∧
    (f = 72 → (vln_dispatch_csi s f pns).2.1 = VLN_EXEC_MVHM) ∧
    (f = 80 → (vln_dispatch_csi s f pns).2.1 = VLN_EXEC_F1) ∧
    (f = 81 → (vln_dispatch_csi s f pns).2.1 = VLN_EXEC_F2) ∧
    (f = 82 → (vln_dispatch_csi s f pns).2.1 = VLN_EXEC_F3) ∧
    (f = 83 → (vln_dispatch_csi s f pns).2.1 = VLN_EXEC_F4) ∧
    (f ∉ [65, 66, 67, 68, 70, 72, 80, 81, 82, 83] →
      (vln_dispatch_csi s f pns).2.1 = VLN_EXEC_NUL) ∧
    ((vln_dispatch_csi s 126 pns).1 = s) ∧
    (pns 0 = 1 ∨ pns 0 = 7 → (vln_dispatch_csi s 126 pns).2.1 = VLN_EXEC_MVHM) ∧
    (pns 0 = 3 → (vln_dispatch_csi s 126 pns).2.1 = VLN_EXEC_DEL) ∧
    (pns 0 = 4 ∨ pns 0 = 8 → (vln_dispatch_csi s 126 pns).2.1 = VLN_EXEC_MVED) ∧
    (11 ≤ pns 0 ∧ pns 0 ≤ 15 → (vln_dispatch_csi s 126 pns).2.1 = VLN_EXEC_F1 + (pns 0 - 11)) ∧
    (17 ≤ pns 0 ∧ pns 0 ≤ 21 → (vln_dispatch_csi s 126 pns).2.1 = VLN_EXEC_F6 + (pns 0 - 17)) ∧
    (pns 0 = 23 → (vln_dispatch_csi s 126 pns).2.1 = VLN_EXEC_F11) ∧
    (pns 0 = 24 → (vln_dispatch_csi s 126 pns).2.1 = VLN_EXEC_F12) ∧
    (pns 0 ∉ [1, 3, 4, 7, 8, 11, 12, 13, 14, 15, 17, 18, 19, 20, 21, 23, 24] →
      (vln_dispatch_csi s 126 pns).2.1 = VLN_EXEC_NUL) := by
  have hx : (vln_dispatch_csi s f pns).2.1 = xmap.getD (if 64 ≤ f ∧ f < 84 then f - 64 else 0) 0 := by
    rw [dispatch_csi_other s pns f h1 h2, xmap_index f hf]
  have hv : (vln_dispatch_csi s 126 pns).2.1 = vtmap.getD (if pns 0 ≥ 25 then 0 else pns 0) 0 := by
    simp only [vln_dispatch_csi, if_true]
    split_ifs <;> simp [wr]
  refine ⟨by rw [dispatch_csi_other s pns f h1 h2], ?_, ?_, ?_, ?_, ?_, ?_, ?_, ?_, ?_, ?_, ?_,
    by simp only [vln_dispatch_csi, if_true], ?_, ?_, ?_, ?_, ?_, ?_, ?_, ?_⟩
  iterate 10 (intro h; rw [hx, h]; rfl)
  · intro h
    rw [hx]
    by_cases hr : 64 ≤ f ∧ f < 84
    · rw [if_pos hr]
      obtain ⟨ha, hb⟩ := hr
      interval_cases f <;> first | (exact absurd (by decide) h) | rfl
    · rw [if_neg hr]; rfl
  · intro h; rw [hv]; rcases h with h | h <;> rw [h] <;> rfl
  · intro h; rw [hv, h]; rfl
  · intro h; rw [hv]; rcases h with h | h <;> rw [h] <;> rfl
  · intro ⟨ha, hb⟩; rw [hv]; interval_cases (pns 0) <;> rfl
  · intro ⟨ha, hb⟩; rw [hv]; interval_cases (pns 0) <;> rfl
  · intro h; rw [hv, h]; rfl
  · intro h; rw [hv, h]; rfl
  · intro h
    rw [hv]
    by_cases hr : pns 0 ≥ 25
    · rw [if_pos hr]; rfl
    · rw [if_neg hr]
      have hlt : pns 0 < 25 := by omega
      generalize pns 0 = p at h hlt
      interval_cases p <;> first | (exact absurd (by decide) h) | rfl

/-- C20 at a concrete input: the final byte `A` (Up). -/
theorem C20_csi_dispatch_witness :
    (vln_dispatch_csi blank 65 zeros).1 = blank ∧
    (65 = 65 → (vln_dispatch_csi blank 65 zeros).2.1 = VLN_EXEC_PRVH) ∧
    (65 = 66 → (vln_dispatch_csi blank 65 zeros).2.1 = VLN_EXEC_NXTH) ∧
    (65 = 67 → (vln_dispatch_csi blank 65 zeros).2.1 = VLN_EXEC_MVRT) ∧
    (65 = 68 → (vln_dispatch_csi blank 65 zeros).2.1 = VLN_EXEC_MVLT) ∧
    (65 = 70 → (vln_dispatch_csi blank 65 zeros).2.1 = VLN_EXEC_MVED) ∧
    (65 = 72 → (vln_dispatch_csi blank 65 zeros).2.1 = VLN_EXEC_MVHM) ∧
    (65 = 80 → (vln_dispatch_csi blank 65 zeros).2.1 = VLN_EXEC_F1) ∧
    (65 = 81 → (vln_dispatch_csi blank 65 zeros).2.1 = VLN_EXEC_F2) ∧
    (65 = 82 → (vln_dispatch_csi blank 65 zeros).2.1 = VLN_EXEC_F3) ∧
    (65 = 83 → (vln_dispatch_csi blank 65 zeros).2.1 = VLN_EXEC_F4) ∧
    (65 ∉ [65, 66, 67, 68, 70, 72, 80, 81, 82, 83] →
      (vln_dispatch_csi blank 65 zeros).2.1 = VLN_EXEC_NUL) ∧
    ((vln_dispatch_csi blank 126 zeros).1 = blank) ∧
    (zeros 0 = 1 ∨ zeros 0 = 7 → (vln_dispatch_csi blank 126 zeros).2.1 = VLN_EXEC_MVHM) ∧
    (zeros 0 = 3 → (vln_dispatch_csi blank 126 zeros).2.1 = VLN_EXEC_DEL) ∧
    (zeros 0 = 4 ∨ zeros 0 = 8 → (vln_dispatch_csi blank 126 zeros).2.1 = VLN_EXEC_MVED) ∧
    (11 ≤ zeros 0 ∧ zeros 0 ≤ 15 →
      (vln_dispatch_csi blank 126 zeros).2.1 = VLN_EXEC_F1 + (zeros 0 - 11)) ∧
    (17 ≤ zeros 0 ∧ zeros 0 ≤ 21 →
      (vln_dispatch_csi blank 126 zeros).2.1 = VLN_EXEC_F6 + (zeros 0 - 17)) ∧
    (zeros 0 = 23 → (vln_dispatch_csi blank 126 zeros).2.1 = VLN_EXEC_F11) ∧
    (zeros 0 = 24 → (vln_dispatch_csi blank 126 zeros).2.1 = VLN_EXEC_F12) ∧
    (zeros 0 ∉ [1, 3, 4, 7, 8, 11, 12, 13, 14, 15, 17, 18, 19, 20, 21, 23, 24] →
      (vln_dispatch_csi blank 126 zeros).2.1 = VLN_EXEC_NUL) :=
  C20_csi_dispatch blank zeros 65 (by decide) (by decide) (by decide)

/-- C21. CSI parameter parsing: for an input `p1 ; ... ; pn F` behind `ESC [` with
`1 ≤ n ≤ 4`, every `pi` a numeral of 1 to 5 decimal digits of value at most 65535
and `F` the byte `~` or an ASCII letter, `vln_seqexec_pcsi` returns 0 having read
exactly those bytes (the input behind `F` is left unread), with the final byte
`F`, no prefix byte, `n` parameters counted and `pns[i] = value(p(i+1))` for every
`i < n`; the entries of the vector from `n` on keep their values. -/
theorem C21_csi_parameters (pns : Mem) (ps : List (List Nat)) (F : Nat) (rest : List Nat)
    (hn1 : 1 ≤ ps.length) (hn4 : ps.length ≤ 4)
    (hp : ∀ p ∈ ps, 1 ≤ p.length ∧ p.length ≤ 5 ∧ (∀ d ∈ p, 48 ≤ d ∧ d ≤ 57) ∧
      numeralValue p ≤ 65535)
    (hF : csiFinal F) :
    ∃ pns2, vln_seqexec_pcsi pns (csiParams ps ++ F :: rest) = .ok F 0 pns2 ps.length rest ∧
      (∀ i (h : i < ps.length), pns2 i = numeralValue (ps.get ⟨i, h⟩)) ∧
      (∀ j, ps.length ≤ j → pns2 j = pns j) :=
  pcsi_parameters pns ps F rest hn1 hn4 hp hF

/-- C21 at a concrete input: `8 ; 24 ; 132 t` followed by `a`. -/
theorem C21_csi_parameters_witness :
    ∃ pns2, vln_seqexec_pcsi zeros (csiParams [[56], [50, 52], [49, 51, 50]] ++ 116 :: [97]) =
        .ok 116 0 pns2 [[56], [50, 52], [49, 51, 50]].length [97] ∧
      (∀ i (h : i < [[56], [50, 52], [49, 51, 50]].length),
        pns2 i = numeralValue ([[56], [50, 52], [49, 51, 50]].get ⟨i, h⟩)) ∧
      (∀ j, [[56], [50, 52], [49, 51, 50]].length ≤ j → pns2 j = zeros j) :=
  C21_csi_parameters zeros [[56], [50, 52], [49, 51, 50]] 116 [97] (by decide) (by decide)
    (by decide) (by unfold csiFinal; decide)

/-- C23 (what the code does). On `1 ; 2 ; 3 ; 4 ; 5 A` the parser `vln_seqexec_pcsi`
counts five parameters and stores the fifth at entry 4 of the parameter vector,
and on the nine digits `123456789` followed by `A` it stores bytes at the offsets
0 to 9 of its decimal buffer `csibuf`, which has 8 bytes. -/
theorem C23_fifth_parameter_stored :
    (vln_seqexec_pcsi zeros [49, 59, 50, 59, 51, 59, 52, 59, 53, 65]).stored =
      some (5, [1, 2, 3, 4, 5]) ∧
    vln_seqexec_pcsi_stores [49, 50, 51, 52, 53, 54, 55, 56, 57, 65] =
      [0, 1, 2, 3, 4, 5, 6, 7, 8, 9] := by
  decide!

/-- C24. Geometry report: `vln_dispatch_csi` on the final byte `t` with first
parameter 8 sets `term.row` and `term.col` to the second and third parameter and
`term.nsupt` to 0, appends `ESC [ ? 4 7 h`, `ESC [ 2 J`, `ESC [ 1 ; 1 H`, the help
text and `ESC [ ? 4 7 l` to the transport in that order, returns the action None
and changes no other field of the session, so the line payload, size and cursor
stay as they were; with a first parameter other than 8 it changes nothing and
returns None. Read through the parser, the bytes `[ 8 ; R ; C t` behind `ESC` set
`row = value(R)` and `col = value(C)`; and the call of `vln` given
`ESC [ 8 ; 24 ; 132 t a` ends with 24 rows, 132 columns, `nsupt = 0` and the line
`a`. -/
theorem C24_geometry_report (s : vln_t) (pns : Mem) (R C rest : List Nat)
    (hR : 1 ≤ R.length ∧ R.length ≤ 5 ∧ (∀ d ∈ R, 48 ≤ d ∧ d ≤ 57) ∧ numeralValue R ≤ 65535)
    (hC : 1 ≤ C.length ∧ C.length ≤ 5 ∧ (∀ d ∈ C, 48 ≤ d ∧ d ≤ 57) ∧ numeralValue C ≤ 65535) :
    (pns 0 = 8 → vln_dispatch_csi s 116 pns =
      ({ s with
          nsupt := 0
          row := pns 1
          col := pns 2
          tx := s.tx ++ [27, 91, 63, 52, 55, 104, 27, 91, 50, 74, 27, 91, 49, 59, 49, 72] ++
            CFG_VLN_HELP ++ [27, 91, 63, 52, 55, 108] }, VLN_EXEC_NUL, pns)) ∧
    (pns 0 ≠ 8 → vln_dispatch_csi s 116 pns = (s, VLN_EXEC_NUL, pns)) ∧
    (∃ pns2, vln_seqexec s pns (91 :: (csiParams [[56], R, C] ++ 116 :: rest)) =
      .ok { s with
          nsupt := 0
          row := numeralValue R
          col := numeralValue C
          tx := s.tx ++ [27, 91, 63, 52, 55, 104, 27, 91, 50, 74, 27, 91, 49, 59, 49, 72] ++
            CFG_VLN_HELP ++ [27, 91, 63, 52, 55, 108] } VLN_EXEC_NUL pns2 rest) ∧
    (geometryCall.state.row = 24 ∧ geometryCall.state.col = 132 ∧ geometryCall.state.nsupt = 0 ∧
      geometryCall.held = some [97]) := by
  refine ⟨dispatch_geometry s pns, dispatch_t_other s pns, ?_, by decide!⟩
  obtain ⟨pns2, e1, e2, _⟩ := pcsi_parameters pns [[56], R, C] 116 rest (by simp) (by simp)
    (by
      intro p hp
      simp only [List.mem_cons, List.mem_singleton, List.not_mem_nil, or_false] at hp
      rcases hp with h | h | h
      · subst h; exact ⟨by simp, by simp, by simp, by decide⟩
      · subst h; exact hR
      · subst h; exact hC)
    (by unfold csiFinal; decide)
  have h0 : pns2 0 = 8 := by
    have := e2 0 (by simp)
    simpa [numeralValue] using this
  have h1 : pns2 1 = numeralValue R := by
    have := e2 1 (by simp)
    simpa using this
  have h2 : pns2 2 = numeralValue C := by
    have := e2 2 (by simp)
    simpa using this
  refine ⟨pns2, ?_⟩
  have hd := dispatch_geometry s pns2 h0
  rw [seqexec_bracket]
  unfold vln_seqexec_csi
  rw [e1]
  simp only []
  rw [if_neg (by decide), hd, h1, h2]

/-- C24 at a concrete input: the parameters 8, 24 and 132. -/
theorem C24_geometry_report_witness :
    vln_dispatch_csi blank 116 (wrList zeros 0 [8, 24, 132]) =
      ({ blank with
          nsupt := 0
          row := wrList zeros 0 [8, 24, 132] 1
          col := wrList zeros 0 [8, 24, 132] 2
          tx := blank.tx ++ [27, 91, 63, 52, 55, 104, 27, 91, 50, 74, 27, 91, 49, 59, 49, 72] ++
            CFG_VLN_HELP ++ [27, 91, 63, 52, 55, 108] }, VLN_EXEC_NUL,
        wrList zeros 0 [8, 24, 132]) :=
  (C24_geometry_report blank (wrList zeros 0 [8, 24, 132]) [50, 52] [49, 51, 50] [97]
    (by decide) (by decide)).1 rfl

/-- C25. Byte classes of the driver loop. In every state `s` of the loop of
`vln_inernal`: after a byte from 0x80 to 0xFF the loop waits for the next key in
the state `s`, so no field and no transport byte has changed; after a byte from
0x20 to 0x7E it waits in the state `vln_edit_insert s c`; after the byte 0x7F it
waits in the state `vln_edit_backspace s`, and so it does after the byte 0x08
(Ctrl-H). For every sequence of bytes of these classes the loop goes through
the states that `byteClass` gives, byte after byte, and goes on from there with
the rest of the input. In a fresh session `a`, 0xC8, `b`, 0x7F leaves the line
`a` and the same transport bytes as `a`, `b`, 0x08, and three bytes with the
high bit set leave the empty line and the transport bytes of no input at all. -/
theorem C25_byte_classes (fuel : Nat) (s : vln_t) (pn : Mem) (hi pr : Nat) (w rest : List Nat)
    (hhi : 128 ≤ hi ∧ hi < 256) (hpr : 32 ≤ pr ∧ pr ≤ 126)
    (hw : ∀ c ∈ w, (128 ≤ c ∧ c < 256) ∨ (32 ≤ c ∧ c ≤ 127) ∨ c = 8) :
    vln_inernal_loop (fuel + 2) s pn [hi] = .blocked s ∧
    vln_inernal_loop (fuel + 2) s pn [pr] = .blocked (vln_edit_insert s pr) ∧
    vln_inernal_loop (fuel + 2) s pn [127] = .blocked (vln_edit_backspace s) ∧
    vln_inernal_loop (fuel + 2) s pn [8] = .blocked (vln_edit_backspace s) ∧
    vln_inernal_loop (fuel + 1 + w.length) s pn w = .blocked (w.foldl byteClass s) ∧
    vln_inernal_loop (fuel + w.length) s pn (w ++ rest) =
      vln_inernal_loop fuel (w.foldl byteClass s) pn rest ∧
    ((vln (vln_init blank init64) zeros 32 zeros [97, 200, 98, 127]).held = some [97] ∧
      (vln (vln_init blank init64) zeros 32 zeros [97, 200, 98, 127]).state.tx =
        (vln (vln_init blank init64) zeros 32 zeros [97, 98, 8]).state.tx ∧
      (vln (vln_init blank init64) zeros 32 zeros [200, 255, 128]).held = some [] ∧
      (vln (vln_init blank init64) zeros 32 zeros [200, 255, 128]).state.tx =
        (vln (vln_init blank init64) zeros 32 zeros []).state.tx) := by
  have h0 : hi &&& 128 ≠ 0 := by
    obtain ⟨a, b⟩ := hhi
    interval_cases hi
    all_goals decide
  refine ⟨?_, ?_, rfl, rfl, ?_, loop_byteClass pn w s fuel rest hw, by decide!⟩
  · simp only [vln_inernal_loop]
    rw [if_pos h0]
  · have e := loop_insert (fuel + 1) s pn pr [] hpr.1 hpr.2
    rw [e]
    rfl
  · have e := loop_byteClass pn w s (fuel + 1) [] hw
    rw [List.append_nil] at e
    rw [e]
    rfl

/-- C25 at concrete bytes: the high byte 0xC8, the printable byte `a` and the
sequence `a`, 0xC8, `b`, 0x7F. -/
theorem C25_byte_classes_witness :
    vln_inernal_loop (0 + 2) blank zeros [200] = .blocked blank ∧
    vln_inernal_loop (0 + 2) blank zeros [97] = .blocked (vln_edit_insert blank 97) ∧
    vln_inernal_loop (0 + 2) blank zeros [127] = .blocked (vln_edit_backspace blank) ∧
    vln_inernal_loop (0 + 2) blank zeros [8] = .blocked (vln_edit_backspace blank) ∧
    vln_inernal_loop (0 + 1 + [97, 200, 98, 127].length) blank zeros [97, 200, 98, 127] =
      .blocked ([97, 200, 98, 127].foldl byteClass blank) ∧
    vln_inernal_loop (0 + [97, 200, 98, 127].length) blank zeros ([97, 200, 98, 127] ++ [13]) =
      vln_inernal_loop 0 ([97, 200, 98, 127].foldl byteClass blank) zeros [13] ∧
    ((vln (vln_init blank init64) zeros 32 zeros [97, 200, 98, 127]).held = some [97] ∧
      (vln (vln_init blank init64) zeros 32 zeros [97, 200, 98, 127]).state.tx =
        (vln (vln_init blank init64) zeros 32 zeros [97, 98, 8]).state.tx ∧
      (vln (vln_init blank init64) zeros 32 zeros [200, 255, 128]).held = some [] ∧
      (vln (vln_init blank init64) zeros 32 zeros [200, 255, 128]).state.tx =
        (vln (vln_init blank init64) zeros 32 zeros []).state.tx) :=
  C25_byte_classes 0 blank zeros 200 97 [97, 200, 98, 127] [13] (by decide) (by decide)
    (by decide)

/-- C26. For every `v ≤ 65535`, `vln_print_integer` stores `dec v` at `buf[idx..]`,
advances `idx` by the number of digits and leaves every other byte of the buffer
(before `idx` and behind the digits) unchanged; `dec v` has 1 to 5 ASCII digits,
most significant first with the value `v`, and does not start with `0` unless
`v = 0`; and `vln_seqgen_csi1` stores `ESC [ dec(v) c` at `buf[idx..]`, advances
`idx` by that length and leaves the bytes before `idx` unchanged. -/
theorem C26_print_integer (buf : Mem) (idx v c : Nat) (hv : v < 65536) :
    (vln_print_integer buf idx v).2 = idx + (dec v).length ∧
    bytesAt (vln_print_integer buf idx v).1 idx (dec v).length = dec v ∧
    (∀ j, j < idx → (vln_print_integer buf idx v).1 j = buf j) ∧
    (∀ j, idx + (dec v).length ≤ j → (vln_print_integer buf idx v).1 j = buf j) ∧
    (1 ≤ (dec v).length ∧ (dec v).length ≤ 5 ∧ (∀ d ∈ dec v, 48 ≤ d ∧ d ≤ 57) ∧
      numeralValue (dec v) = v ∧ (v ≠ 0 → (dec v).head? ≠ some 48)) ∧
    ((vln_seqgen_csi1 buf idx c v).2 = idx + ((dec v).length + 3) ∧
      bytesAt (vln_seqgen_csi1 buf idx c v).1 idx ((dec v).length + 3) = [27, 91] ++ dec v ++ [c] ∧
      (∀ j, j < idx → (vln_seqgen_csi1 buf idx c v).1 j = buf j)) := by
  rw [print_integer_eq buf idx v hv, seqgen_csi1_eq buf idx c v hv]
  refine ⟨rfl, bytesAt_wrList _ _ _, fun j hj => wrList_below _ _ _ _ hj,
    fun j hj => wrList_above _ _ _ _ hj,
    ⟨(dec_length v hv).1, (dec_length v hv).2, dec_digits v, dec_value v, dec_leading v⟩,
    ?_, ?_, fun j hj => wrList_below _ _ _ _ hj⟩
  · simp only [List.length_append, List.length_cons, List.length_nil]
    omega
  · have h := bytesAt_wrList ([27, 91] ++ dec v ++ [c]) buf idx
    have e : ([27, 91] ++ dec v ++ [c]).length = (dec v).length + 3 := by
      simp only [List.length_append, List.length_cons, List.length_nil]
      omega
    rw [e] at h
    exact h

/-- C26 at a concrete input: the value 65535 at index 2, final byte `G`. -/
theorem C26_print_integer_witness :
    (vln_print_integer zeros 2 65535).2 = 2 + (dec 65535).length ∧
    bytesAt (vln_print_integer zeros 2 65535).1 2 (dec 65535).length = dec 65535 ∧
    (∀ j, j < 2 → (vln_print_integer zeros 2 65535).1 j = zeros j) ∧
    (∀ j, 2 + (dec 65535).length ≤ j → (vln_print_integer zeros 2 65535).1 j = zeros j) ∧
    (1 ≤ (dec 65535).length ∧ (dec 65535).length ≤ 5 ∧ (∀ d ∈ dec 65535, 48 ≤ d ∧ d ≤ 57) ∧
      numeralValue (dec 65535) = 65535 ∧ (65535 ≠ 0 → (dec 65535).head? ≠ some 48)) ∧
    ((vln_seqgen_csi1 zeros 2 71 65535).2 = 2 + ((dec 65535).length + 3) ∧
      bytesAt (vln_seqgen_csi1 zeros 2 71 65535).1 2 ((dec 65535).length + 3) =
        [27, 91] ++ dec 65535 ++ [71] ∧
      (∀ j, j < 2 → (vln_seqgen_csi1 zeros 2 71 65535).1 j = zeros j)) :=
  C26_print_integer zeros 2 65535 71 (by decide)

/-- C27 (what the code does). The call `vln_seqgen_cursor_position(1, 2)` stores
`ESC [ 1 ; 1 H`, `vln_seqgen_csi2` with the parameters 12 and 345 stores
`ESC [ 1 2 ; 1 2 H`, and `vln_seqgen_csi3` with the parameters 1, 2, 3 stores
`ESC [ 1 ; 1 ; 1 r`: the first parameter is printed in every position. -/
theorem C27_first_parameter_repeated :
    emitted (vln_seqgen_cursor_position zeros 0 1 2) = [27, 91, 49, 59, 49, 72] ∧
    emitted (vln_seqgen_csi2 zeros 0 72 12 345) = [27, 91, 49, 50, 59, 49, 50, 72] ∧
    emitted (vln_seqgen_csi3 zeros 0 114 1 2 3) = [27, 91, 49, 59, 49, 59, 49, 114] := by
  decide!

/-- C28. SGR composer: `vln_sgrset` with the word 0 stores `ESC [ m` and a NUL; with
a non zero word it stores `ESC [`, the codes of the set attributes in the order
bold, underline, blink, inverse, foreground, background joined by `;`, then `m`
and a NUL, and changes no other byte; in both cases `idx` is left on the NUL. A
foreground value `v` from 1 to 8 gives the code `dec (30 + (v - 1))`, a background
value `v` from 1 to 8 the code `dec (40 + (v - 1))`, the value 10 gives 39 and 49,
and for the value 0 no colour code is emitted. Bold, foreground 2 and background
10 together give `ESC [ 1 ; 3 1 ; 4 9 m`. -/
theorem C28_sgr_composer (buf : Mem) (idx raw : Nat) (hr : raw < 65536) :
    vln_sgrset buf idx 0 = (wrList buf idx [27, 91, 109, 0], idx + 3) ∧
    (raw ≠ 0 → vln_sgrset buf idx raw =
      (wrList buf idx ([27, 91] ++ csiParams (sgrCodes raw) ++ [109, 0]),
        idx + ([27, 91] ++ csiParams (sgrCodes raw) ++ [109]).length)) ∧
    (vln_sgrset buf idx raw).1 (vln_sgrset buf idx raw).2 = 0 ∧
    (∀ v, 1 ≤ v → v ≤ 8 →
      sgrCodes v = [dec (30 + (v - 1))] ∧ sgrCodes (256 * v) = [dec (40 + (v - 1))]) ∧
    (sgrCodes 10 = [dec 39] ∧ sgrCodes 2560 = [dec 49]) ∧
    (1 ≤ raw % 64 → raw % 64 ≤ 10 → dec (30 + (raw % 64 - 1)) ∈ sgrCodes raw) ∧
    (1 ≤ raw / 256 % 64 → raw / 256 % 64 ≤ 10 →
      dec (40 + (raw / 256 % 64 - 1)) ∈ sgrCodes raw) ∧
    (raw % 64 = 0 → ∀ c ∈ sgrCodes raw, c.head? ≠ some 51) ∧
    (raw / 256 % 64 = 0 → ∀ c ∈ sgrCodes raw, c.head? = some 52 → c = [52]) ∧
    emitted (vln_sgrset zeros 0 2626) = [27, 91, 49, 59, 51, 49, 59, 52, 57, 109] := by
  refine ⟨rfl, fun h0 => sgrset_codes buf idx raw h0 hr, ?_, ?_, ?_, ?_, ?_, ?_, ?_, by decide!⟩
  · by_cases h0 : raw = 0
    · subst h0
      simp [vln_sgrset, vln_seqgen_csi, wr]
    · rw [sgrset_codes buf idx raw h0 hr]
      have e := wrList_snoc_at buf idx ([27, 91] ++ csiParams (sgrCodes raw) ++ [109]) 0
      rw [List.append_assoc _ [109] [0]] at e
      exact e
  · intro v h1 h2
    rw [← colour_code 3 v h1 (by omega) (Or.inl rfl), ← colour_code 4 v h1 (by omega) (Or.inr rfl)]
    interval_cases v
    all_goals exact ⟨by decide, by decide⟩
  · rw [← colour_code 3 10 (by decide) (by decide) (Or.inl rfl),
      ← colour_code 4 10 (by decide) (by decide) (Or.inr rfl)]
    exact ⟨by decide, by decide⟩
  · intro h1 h2
    rw [← colour_code 3 _ h1 h2 (Or.inl rfl)]
    unfold sgrCodes
    rw [if_pos (show raw % 64 ≠ 0 by omega)]
    simp
  · intro h1 h2
    rw [← colour_code 4 _ h1 h2 (Or.inr rfl)]
    unfold sgrCodes
    rw [if_pos (show raw / 256 % 64 ≠ 0 by omega)]
    simp
  · intro h c hc
    unfold sgrCodes at hc
    rw [if_neg (show ¬ raw % 64 ≠ 0 by omega)] at hc
    simp only [List.mem_append, List.append_nil] at hc
    rcases hc with ((((hc | hc) | hc) | hc) | hc)
    all_goals split_ifs at hc
    all_goals simp at hc
    all_goals subst hc
    all_goals simp
  · intro h c hc hh
    unfold sgrCodes at hc
    rw [if_neg (show ¬ raw / 256 % 64 ≠ 0 by omega)] at hc
    simp only [List.mem_append, List.append_nil] at hc
    rcases hc with ((((hc | hc) | hc) | hc) | hc)
    all_goals split_ifs at hc
    all_goals simp at hc
    all_goals subst hc
    all_goals simp at hh ⊢

/-- C28 at the word with bold, foreground 2 and background 10. -/
theorem C28_sgr_composer_witness :
    vln_sgrset zeros 0 2626 =
      (wrList zeros 0 ([27, 91] ++ csiParams (sgrCodes 2626) ++ [109, 0]),
        0 + ([27, 91] ++ csiParams (sgrCodes 2626) ++ [109]).length) :=
  (C28_sgr_composer zeros 0 2626 (by decide)).2.1 (by decide)

/-- C29 (what the code does). With `CFG_VLN_DEBUG` off, as `vln.h` sets it,
`vln_init` with non null pointers and the history size 3, which is not a power
of two, returns 0 and installs the prompt, `hist.size = 3` and `hist.mask = 2`.
With the checks on, the history size `2 ^ 17` is accepted and `hist.mask` is
65535, not `histsize - 1`. -/
theorem C29_checks_compiled_out :
    (¬ validArgs argsSize3 ∧ (vln_init_checked false blank argsSize3).1 = 0 ∧
      (vln_init_checked false blank argsSize3).2.prompt = [62, 32] ∧
      (vln_init_checked false blank argsSize3).2.hsize = 3 ∧
      (vln_init_checked false blank argsSize3).2.hmask = 2 ∧
      (vln_init_checked false blank argsSize3).2.nsupt = 1) ∧
    (validArgs argsSize131072 ∧ (vln_init_checked true blank argsSize131072).1 = 0 ∧
      (vln_init_checked true blank argsSize131072).2.hmask = 65535 ∧
      (vln_init_checked true blank argsSize131072).2.hmask ≠ argsSize131072.histsize - 1) := by
  refine ⟨⟨?_, by decide, by decide, by decide, by decide, by decide⟩,
    ⟨⟨rfl, rfl, rfl, rfl, 17, by decide, by decide⟩, by decide, by decide, by decide⟩⟩
  intro h
  have h5 := (valid_iff_check 3 (by decide)).mp h.2.2.2.2
  exact h5 (by decide)

/-- C29 (amended). For a `histsize` below `2 ^ 32`: with `CFG_VLN_DEBUG` on,
`vln_init` returns -1 and leaves the session object as it was when `sget`, `sput`,
the prompt or the history buffer is null or `histsize` is not a power of two that
is at least 2. With valid arguments, and with `CFG_VLN_DEBUG` off for all
arguments, it returns 0 with `row = 20`, `col = 80`, `nsupt = 1`,
`in = out = cache = 0` and `hist.mask = (histsize - 1) mod 2 ^ 16`, which is
`histsize - 1` for `1 ≤ histsize ≤ 65536`. -/
theorem C29_init (debug : Bool) (s : vln_t) (a : vln_init_args)
    (hh : a.histsize < 4294967296) :
    (debug = true → ¬ validArgs a → vln_init_checked debug s a = (-1, s)) ∧
    (debug = false ∨ validArgs a →
      (vln_init_checked debug s a).1 = 0 ∧
      (vln_init_checked debug s a).2.row = 20 ∧
      (vln_init_checked debug s a).2.col = 80 ∧
      (vln_init_checked debug s a).2.nsupt = 1 ∧
      (vln_init_checked debug s a).2.hin = 0 ∧
      (vln_init_checked debug s a).2.hout = 0 ∧
      (vln_init_checked debug s a).2.hcache = 0 ∧
      (vln_init_checked debug s a).2.hmask = (a.histsize + 65535) % 65536 ∧
      (1 ≤ a.histsize → a.histsize ≤ 65536 →
        (vln_init_checked debug s a).2.hmask = a.histsize - 1)) := by
  refine ⟨?_, ?_⟩
  · intro hd hv
    subst hd
    unfold vln_init_checked
    by_cases h1 : a.sget = false
    · rw [if_pos ⟨rfl, h1⟩]
    rw [if_neg (fun h => h1 h.2)]
    by_cases h2 : a.sput = false
    · rw [if_pos ⟨rfl, h2⟩]
    rw [if_neg (fun h => h2 h.2)]
    by_cases h3 : a.prompt.isNone = true
    · rw [if_pos ⟨rfl, h3⟩]
    rw [if_neg (fun h => h3 h.2)]
    by_cases h4 : a.history.isNone = true
    · rw [if_pos ⟨rfl, h4⟩]
    rw [if_neg (fun h => h4 h.2)]
    have h5 : a.histsize < 2 ∨
        a.histsize &&& ((a.histsize + 4294967295) % 4294967296) ≠ 0 := by
      by_contra hc
      refine hv ⟨by simpa using h1, by simpa using h2, ?_, ?_, (valid_iff_check _ hh).mpr hc⟩
      · cases hp : a.prompt with
        | none => rw [hp] at h3; exact absurd rfl h3
        | some x => rfl
      · cases hp : a.history with
        | none => rw [hp] at h4; exact absurd rfl h4
        | some x => rfl
    rw [if_pos ⟨rfl, h5⟩]
  · intro h
    have e : vln_init_checked debug s a = (0, vln_init s
        { prompt := a.prompt.getD [], history := a.history.getD (fun _ => 0),
          histsize := a.histsize }) := by
      unfold vln_init_checked
      rcases h with h | h
      · subst h
        rw [if_neg (fun h => Bool.noConfusion h.1), if_neg (fun h => Bool.noConfusion h.1),
          if_neg (fun h => Bool.noConfusion h.1), if_neg (fun h => Bool.noConfusion h.1),
          if_neg (fun h => Bool.noConfusion h.1)]
      · obtain ⟨v1, v2, v3, v4, v5⟩ := h
        have c5 := (valid_iff_check _ hh).mp v5
        have c3 : ¬ a.prompt.isNone = true := by
          cases hp : a.prompt with
          | none => rw [hp] at v3; exact absurd v3 (by decide)
          | some x => simp
        have c4 : ¬ a.history.isNone = true := by
          cases hp : a.history with
          | none => rw [hp] at v4; exact absurd v4 (by decide)
          | some x => simp
        rw [if_neg (fun h => by rw [v1] at h; exact Bool.noConfusion h.2),
          if_neg (fun h => by rw [v2] at h; exact Bool.noConfusion h.2),
          if_neg (fun h => c3 h.2), if_neg (fun h => c4 h.2), if_neg (fun h => c5 h.2)]
    rw [e]
    have em : u16 ((a.histsize : Int) - 1) = (a.histsize + 65535) % 65536 := by
      unfold u16; omega
    refine ⟨rfl, rfl, rfl, rfl, rfl, rfl, rfl, em, ?_⟩
    intro g1 g2
    show u16 ((a.histsize : Int) - 1) = a.histsize - 1
    rw [em]
    omega

/-- C29 at concrete arguments: with the checks on a ring of 64 bytes is accepted and
a null `sput` is refused. -/
theorem C29_init_witness :
    (vln_init_checked true blank argsSize64).1 = 0 ∧
    (vln_init_checked true blank argsSize64).2.hmask = 63 ∧
    vln_init_checked true blank { argsSize64 with sput := false } = (-1, blank) :=
  ⟨((C29_init true blank argsSize64 (by decide)).2
      (Or.inr ⟨rfl, rfl, rfl, rfl, 6, by decide, by decide⟩)).1,
    ((C29_init true blank argsSize64 (by decide)).2
      (Or.inr ⟨rfl, rfl, rfl, rfl, 6, by decide, by decide⟩)).2.2.2.2.2.2.2.2
        (by decide) (by decide),
    (C29_init true blank { argsSize64 with sput := false } (by decide)).1 rfl
      (fun h => Bool.noConfusion h.2.1)⟩

/-- C30 (what the code does). When CR arrives after `ESC [ A a b` on a new session,
`in = 4` and `cache = 0` (the first HistoryPrev cached the empty live line) and
the line `ab` has the slot 8; `vln_history_store` then ends with
`in = cache = 8`, the old `cache` plus the slot, not the old `in` plus the slot
(12). -/
theorem C30_in_from_cache :
    liveCached.hin = 4 ∧ liveCached.hcache = 0 ∧ getSize liveCached.lnbuf = 2 ∧
    slot liveCached.lnbuf = 8 ∧
    (vln_history_store liveCached).map (fun t => (t.hin, t.hcache)) = some (8, 8) ∧
    (vln (vln_init blank init64) zeros 32 zeros [27, 91, 65, 97, 98, 13]).state.hin = 8 := by
  decide!

/-- C30 (amended). In every session state reached from `vln_init` by history
operations: `vln_history_store` with `size = 0` returns the state unchanged; with
`size > 0` and `size + 4` at most the capacity it returns a state with
`in = (old cache) + slot` modulo `2 ^ 16`, where `slot = align4(size + 4)`, and
`cache = in`; this is `(old in) + slot` when no live line is cached
(`in = cache` before the call). The 32 bit word at the ring offset
`((new in) - 4) & mask` is the header word of the line buffer, `size` in the low
and `mask` in the high 16 bits, and the line buffer is unchanged. -/
theorem C30_history_store (s : vln_t) (cap : Nat) (lv com : List Mem)
    (h : Tracked s cap lv com) :
    (getSize s.lnbuf = 0 → vln_history_store s = some s) ∧
    (0 < getSize s.lnbuf → getSize s.lnbuf + 4 ≤ cap →
      ∃ t, vln_history_store s = some t ∧
        t.hin = (s.hcache + slot s.lnbuf) % 65536 ∧
        t.hcache = t.hin ∧
        (s.hin = s.hcache → t.hin = (s.hin + slot s.lnbuf) % 65536) ∧
        rd32 t.hpbuf (u16 ((t.hin : Int) - 4) &&& t.hmask) = rd32 s.lnbuf 0 ∧
        rd32 s.lnbuf 0 = getSize s.lnbuf + 65536 * getMask s.lnbuf ∧
        t.lnbuf = s.lnbuf) := by
  obtain ⟨C, O, recs, hinv, _⟩ := h
  refine ⟨?_, ?_⟩
  · intro h0
    unfold vln_history_store
    rw [if_neg (by omega)]
  · intro hpos hm
    refine ⟨storeState s cap C O, store_eq s cap C O lv recs hinv hm hpos, ?_, rfl, ?_,
      store_header s cap C O lv recs hinv hm, ?_, rfl⟩
    · show (C + slot s.lnbuf) % 65536 = (s.hcache + slot s.lnbuf) % 65536
      rw [hinv.cache]
      omega
    · intro e
      show (C + slot s.lnbuf) % 65536 = (s.hin + slot s.lnbuf) % 65536
      rw [e, hinv.cache]
      omega
    · show s.lnbuf 0 + 256 * s.lnbuf 1 + 65536 * s.lnbuf 2 + 16777216 * s.lnbuf 3 =
        s.lnbuf 0 + 256 * s.lnbuf 1 + 65536 * (s.lnbuf 2 + 256 * s.lnbuf 3)
      omega

/-- C30 at a concrete input: the line `ab` committed on a new session with a ring of
64 bytes. -/
theorem C30_history_store_witness :
    ∃ t, vln_history_store (vln_init { blank with lnbuf := lineOf [97, 98] } init64) = some t ∧
      t.hin = ((vln_init { blank with lnbuf := lineOf [97, 98] } init64).hcache +
        slot (vln_init { blank with lnbuf := lineOf [97, 98] } init64).lnbuf) % 65536 ∧
      t.hcache = t.hin ∧
      ((vln_init { blank with lnbuf := lineOf [97, 98] } init64).hin =
          (vln_init { blank with lnbuf := lineOf [97, 98] } init64).hcache →
        t.hin = ((vln_init { blank with lnbuf := lineOf [97, 98] } init64).hin +
          slot (vln_init { blank with lnbuf := lineOf [97, 98] } init64).lnbuf) % 65536) ∧
      rd32 t.hpbuf (u16 ((t.hin : Int) - 4) &&& t.hmask) =
        rd32 (vln_init { blank with lnbuf := lineOf [97, 98] } init64).lnbuf 0 ∧
      rd32 (vln_init { blank with lnbuf := lineOf [97, 98] } init64).lnbuf 0 =
        getSize (vln_init { blank with lnbuf := lineOf [97, 98] } init64).lnbuf +
          65536 * getMask (vln_init { blank with lnbuf := lineOf [97, 98] } init64).lnbuf ∧
      t.lnbuf = (vln_init { blank with lnbuf := lineOf [97, 98] } init64).lnbuf :=
  (C30_history_store (vln_init { blank with lnbuf := lineOf [97, 98] } init64) (2 ^ 6) [] []
    (tracked_init _ init64 6 (by decide) (by decide) rfl)).2 (by decide) (by decide)

/-- C31. History load at an edge: in a state that satisfies the history invariant,
with the resident records `lv ++ recs` (newest first), `vln_history_load(k)` with
`hist.index ≠ 0` and `k` beyond the last resident record returns leaving the whole
session state as it is; with `hist.index = 0` it first caches the live line, and
for `k` beyond the records that are still resident after that (the live line and
`fit ... recs`, at most `1 + |recs|` records) it returns with the line buffer, the
cursor, `hist.index` and the transport unchanged. The chain ends where the ring
is empty or holds only a part of a record, so both cases are covered. In any
state, a walk that leaves through `return 0` makes the load return the state as
it is. -/
theorem C31_load_at_edge (s : vln_t) (cap C O : Nat) (lv recs : List Mem)
    (h : HistInv s cap C O lv recs) (k : Nat) :
    (s.hindex ≠ 0 → (lv ++ recs).length ≤ k → vln_history_load s k = some s) ∧
    (s.hindex = 0 → getSize s.lnbuf + 4 ≤ cap →
      1 + (fit (C - evictTo cap C O (slot s.lnbuf)) recs).length ≤ k →
      ∃ t, vln_history_load s k = some t ∧ t.lnbuf = s.lnbuf ∧ t.curoff = s.curoff ∧
        t.hindex = s.hindex ∧ t.tx = s.tx) ∧
    (s.hindex = 0 → getSize s.lnbuf + 4 ≤ cap → 1 + recs.length ≤ k →
      ∃ t, vln_history_load s k = some t ∧ t.lnbuf = s.lnbuf ∧ t.curoff = s.curoff ∧
        t.hindex = s.hindex ∧ t.tx = s.tx) ∧
    (∀ t : vln_t, vln_history_walk t k t.hin 0 (u16 ((t.hin : Int) - t.hout)) = none →
      vln_history_fetch t k = some t) := by
  have hb : s.hindex = 0 → getSize s.lnbuf + 4 ≤ cap →
      1 + (fit (C - evictTo cap C O (slot s.lnbuf)) recs).length ≤ k →
      ∃ t, vln_history_load s k = some t ∧ t.lnbuf = s.lnbuf ∧ t.curoff = s.curoff ∧
        t.hindex = s.hindex ∧ t.tx = s.tx := by
    intro h0 hm hk
    have hc := cache_inv s cap C O lv recs h hm
    refine ⟨cacheState s cap C O, ?_, rfl, rfl, rfl, rfl⟩
    unfold vln_history_load
    rw [if_pos h0, cache_eq s cap C O lv recs h hm]
    exact fetch_missing _ cap C _ [s.lnbuf] _ hc k (by simp only [List.length_append, List.length_cons, List.length_nil]; omega)
  refine ⟨?_, hb, ?_, ?_⟩
  · intro h0 hk
    unfold vln_history_load
    rw [if_neg h0]
    exact fetch_missing s cap C O lv recs h k hk
  · intro h0 hm hk
    have := fit_length_le recs (C - evictTo cap C O (slot s.lnbuf))
    exact hb h0 hm (by omega)
  · intro t ht
    unfold vln_history_fetch
    rw [ht]

/-- C31 at a concrete input: the first Up key on a new session with a ring of 64 bytes. -/
theorem C31_load_at_edge_witness :
    ∃ t, vln_history_load (vln_init blank init64) 1 = some t ∧
      t.lnbuf = (vln_init blank init64).lnbuf ∧ t.curoff = (vln_init blank init64).curoff ∧
      t.hindex = (vln_init blank init64).hindex ∧ t.tx = (vln_init blank init64).tx :=
  (C31_load_at_edge (vln_init blank init64) (2 ^ 6) 0 0 [] []
    (histInv_init blank init64 6 (by decide) (by decide) rfl) 1).2.2.1 rfl (by decide) (by decide)

/-- C33. The first loop of `vln_edit_delword` tests the byte at index `curoff`: two
line buffers with `size = 2`, the payload `a ` and the cursor at 2 that differ
only in the byte at index 2 (a space, `x`) give the empty payload and the
payload `a` after delete-word; the same happens in a call of `vln` that reads
`a`, space, Ctrl-W, CR into caller buffers that differ in that byte only. -/
theorem C33_delword_reads_behind_payload :
    (getSize (lineSpaceThen 32) = 2 ∧ getSize (lineSpaceThen 120) = 2 ∧
      payloadOf (lineSpaceThen 32) = [97, 32] ∧ payloadOf (lineSpaceThen 120) = [97, 32] ∧
      lineSpaceThen 32 = wr (lineSpaceThen 120) 6 32) ∧
    (payload (vln_edit_delword (atEndOf (lineSpaceThen 32))) = [] ∧
      payload (vln_edit_delword (atEndOf (lineSpaceThen 120))) = [97]) ∧
    ((vln (vln_init blank init64) (wr zeros 6 32) 32 zeros [97, 32, 23, 13]).line =
        some ([], 0) ∧
      (vln (vln_init blank init64) (wr zeros 6 120) 32 zeros [97, 32, 23, 13]).line =
        some ([97], 1)) ∧
    (∀ (m : Mem) (c : Nat), delword_spaces m (c + 1) =
      if m (4 + (c + 1)) = 32 then delword_spaces m c else c + 1) := by
  refine ⟨⟨by decide!, by decide!, by decide!, by decide!, ?_⟩, by decide!, by decide!,
    fun m c => rfl⟩
  unfold lineSpaceThen
  exact (wr_wr_same _ _ _ _).symm

/-- C34. For `5 ≤ buffsize ≤ 65540`, `vln` sets `lnmax = buffsize - 5`, and the slot
`align4(size + 4)` is at most `buffsize` for every `size ≤ lnmax` exactly when
`buffsize mod 4` is 0 or 1; for `buffsize mod 4` in {2, 3} the slot of a full line
exceeds `buffsize`. With `buffsize = 10` and `size = 5` the slot is 12: committing
the line copies the bytes at the offsets 10 and 11 of the line buffer into the
ring, and loading it back writes them to the offsets 10 and 11 of the line
buffer. -/
theorem C34_slot_vs_buffsize (s : vln_t) (linebuff : Mem) (buffsize : Nat)
    (h1 : 5 ≤ buffsize) (h2 : buffsize ≤ 65540) :
    (vln_begin s linebuff buffsize).lnmax = buffsize - 5 ∧
    ((∀ size, size ≤ (vln_begin s linebuff buffsize).lnmax → vln_align4 (size + 4) ≤ buffsize) ↔
      (buffsize % 4 = 0 ∨ buffsize % 4 = 1)) ∧
    (buffsize % 4 = 2 ∨ buffsize % 4 = 3 →
      buffsize < vln_align4 ((vln_begin s linebuff buffsize).lnmax + 4)) ∧
    ((vln_begin blank zeros 10).lnmax = 5 ∧ vln_align4 (5 + 4) = 12 ∧
      (vln_history_store { vln_init blank init64 with lnbuf := fullLine10 7 9 }).map
        (fun t => (t.hpbuf 2, t.hpbuf 3)) = some (7, 9) ∧
      ((vln_history_store { vln_init blank init64 with lnbuf := fullLine10 7 9 }).bind
        (fun t => vln_history_loadprev (vln_begin t zeros 10))).map
          (fun u => (getSize u.lnbuf, u.lnbuf 10, u.lnbuf 11)) = some (5, 7, 9)) := by
  have e : (vln_begin s linebuff buffsize).lnmax = buffsize - 5 := by
    show u16 ((buffsize : Int) - 5) = buffsize - 5
    unfold u16; omega
  rw [e]
  refine ⟨rfl, ⟨?_, ?_⟩, ?_, by decide!⟩
  · intro h
    have h3 := h (buffsize - 5) (le_refl _)
    unfold vln_align4 at h3
    split_ifs at h3 <;> omega
  · intro h size hs
    unfold vln_align4
    split_ifs <;> omega
  · intro h
    unfold vln_align4
    split_ifs <;> omega

/-- C34 at a concrete input: a line buffer of 10 bytes. -/
theorem C34_slot_vs_buffsize_witness :
    10 < vln_align4 ((vln_begin blank zeros 10).lnmax + 4) :=
  (C34_slot_vs_buffsize blank zeros 10 (by decide) (by decide)).2.2.1 (Or.inl (by decide))

/-- C35. The mask travels with the line: in a state that satisfies the history
invariant `vln_history_store` commits a non empty line whatever its mask, and the
header word of the record is `size + 65536 * mask`; a `vln_history_load` that
finds the record `m` leaves `buff->mask = m.mask` (with the size and payload of
`m`). A line `ab` committed with `mask = 0` and recalled by the Up key in a call
made after `vln_mask(1)` leaves `buff->mask = 0`, and the refresh writes `ab` to
the transport. -/
theorem C35_mask_travels (s : vln_t) (cap C O : Nat) (lv recs : List Mem)
    (h : HistInv s cap C O lv recs) :
    (0 < getSize s.lnbuf → getSize s.lnbuf + 4 ≤ cap →
      ∃ t, vln_history_store s = some t ∧
        rd32 t.hpbuf (u16 ((t.hin : Int) - 4) &&& t.hmask) =
          getSize s.lnbuf + 65536 * getMask s.lnbuf) ∧
    (s.hindex ≠ 0 → ∀ i m, (lv ++ recs)[i]? = some m →
      ∃ t, vln_history_load s i = some t ∧ getMask t.lnbuf = getMask m ∧
        getSize t.lnbuf = getSize m ∧ payload t = payloadOf m) ∧
    (s.hindex = 0 → getSize s.lnbuf + 4 ≤ cap →
      ∀ i m, (s.lnbuf :: fit (C - evictTo cap C O (slot s.lnbuf)) recs)[i]? = some m →
        ∃ t, vln_history_load s i = some t ∧ getMask t.lnbuf = getMask m ∧
          getSize t.lnbuf = getSize m ∧ payload t = payloadOf m) ∧
    (getMask (vln (vln_mask (vln (vln_init blank init64) zeros 32 zeros [97, 98, 13]).state 1)
        zeros 32 zeros []).state.lnbuf = 1 ∧
      getMask maskedRecall.state.lnbuf = 0 ∧ maskedRecall.state.lnmask = 1 ∧
      maskedRecall.held = some [97, 98] ∧
      maskedRecall.state.tx.drop
          (vln (vln_init blank init64) zeros 32 zeros [97, 98, 13]).state.tx.length =
        [62, 32, 27, 91, 51, 71, 97, 98, 27, 91, 48, 74, 27, 91, 53, 71]) := by
  refine ⟨?_, ?_, ?_, by decide!⟩
  · intro hpos hm
    refine ⟨storeState s cap C O, store_eq s cap C O lv recs h hm hpos, ?_⟩
    rw [store_header s cap C O lv recs h hm]
    show s.lnbuf 0 + 256 * s.lnbuf (0 + 1) + 65536 * s.lnbuf (0 + 2) +
        16777216 * s.lnbuf (0 + 3) =
      s.lnbuf 0 + 256 * s.lnbuf 1 + 65536 * (s.lnbuf 2 + 256 * s.lnbuf 3)
    simp only [Nat.zero_add]
    omega
  · intro h0 i m hg
    obtain ⟨e1, e2⟩ := fetch_found s cap C O lv recs h i m hg
    refine ⟨loaded s m i, ?_, loaded_line s m i cap h.ring.c4 h.ring.cle e2⟩
    unfold vln_history_load
    rw [if_neg h0]
    exact e1
  · intro h0 hm i m hg
    have hc := cache_inv s cap C O lv recs h hm
    obtain ⟨e1, e2⟩ := fetch_found _ cap C _ [s.lnbuf] _ hc i m (by simpa using hg)
    refine ⟨loaded (cacheState s cap C O) m i, ?_, loaded_line _ m i cap h.ring.c4 h.ring.cle e2⟩
    unfold vln_history_load
    rw [if_pos h0, cache_eq s cap C O lv recs h hm]
    exact e1

/-- C35 at a concrete input: the masked line `ab` committed on a new session. -/
theorem C35_mask_travels_witness :
    ∃ t, vln_history_store
        (vln_init { blank with lnbuf := setMask (lineOf [97, 98]) 1 } init64) = some t ∧
      rd32 t.hpbuf (u16 ((t.hin : Int) - 4) &&& t.hmask) =
        getSize (vln_init { blank with lnbuf := setMask (lineOf [97, 98]) 1 } init64).lnbuf +
          65536 *
            getMask (vln_init { blank with lnbuf := setMask (lineOf [97, 98]) 1 } init64).lnbuf :=
  (C35_mask_travels (vln_init { blank with lnbuf := setMask (lineOf [97, 98]) 1 } init64) (2 ^ 6)
    0 0 [] [] (histInv_init _ init64 6 (by decide) (by decide) rfl)).1 (by decide) (by decide)

/-- C36. The loop of `vln_history_load` reads the record header as a 32 bit
word and truncates `align4(word + 4)` to 16 bits. When the word that a turn of
the loop reads is `size + 65536 * mask` with `size ≤ 65528`, the truncated value
is `align4(size + 4)` whatever the mask, and when that slot is within the used
bytes `vln_history_walk` leaves the loop with it at count 0 and takes it into the
next turn at a larger count. And in a session with a ring of `2 ^ k` bytes
(`2 ≤ k ≤ 15`), after any history operations, `vln_history_store` of a line `m`
(of any mask, with `0 < size` and `size + 8` at most the ring) advances `in`
from `cache` by `align4(size + 4)` and leaves the word `size + 65536 * mask`
behind `in`; the walk of `vln_history_load` computes from that word the same
slot `align4(size + 4)`, and `vln_history_load` of index 1 on the next line,
which walks over this record, returns with the size and the payload of `m` in
the line buffer. -/
theorem C36_load_slot (s0 : vln_t) (init : vln_init_t) (k : Nat)
    (hk1 : 2 ≤ k) (hk2 : k ≤ 15) (hs : init.histsize = 2 ^ k)
    (ops : List HistOp) (hops : ∀ op ∈ ops, getSize op.buf + 4 ≤ 2 ^ k)
    (m : Mem) (hpos : 0 < getSize m) (hm : getSize m + 8 ≤ 2 ^ k)
    (t : vln_t) (count histin lnsize prevused size mask : Nat) (hsz : size ≤ 65528)
    (hword : rd32 t.hpbuf (u16 ((u16 ((histin : Int) - lnsize) : Int) - 4) &&& t.hmask) =
      size + 65536 * mask)
    (hused : u16 ((u16 ((histin : Int) - lnsize) : Int) - t.hout) ≠ 0)
    (hprev : u16 ((u16 ((histin : Int) - lnsize) : Int) - t.hout) ≤ prevused)
    (hfit : vln_align4 (size + 4) ≤ u16 ((u16 ((histin : Int) - lnsize) : Int) - t.hout)) :
    vln_align4 ((rd32 t.hpbuf (u16 ((u16 ((histin : Int) - lnsize) : Int) - 4) &&& t.hmask) + 4)
      % 4294967296) % 65536 = vln_align4 (size + 4) ∧
    vln_history_walk t 0 histin lnsize prevused =
      some (u16 ((histin : Int) - lnsize), vln_align4 (size + 4)) ∧
    vln_history_walk t (count + 1) histin lnsize prevused =
      vln_history_walk t count (u16 ((histin : Int) - lnsize)) (vln_align4 (size + 4))
        (u16 ((u16 ((histin : Int) - lnsize) : Int) - t.hout)) ∧
    ∃ s1 s2, runOps (vln_init s0 init) ops = some s1 ∧
      vln_history_store { s1 with lnbuf := m } = some s2 ∧
      s2.hin = u16 ((s1.hcache : Int) + (vln_align4 (getSize m + 4) : Nat)) ∧
      rd32 s2.hpbuf (u16 ((s2.hin : Int) - 4) &&& s2.hmask) = getSize m + 65536 * getMask m ∧
      vln_history_walk s2 0 s2.hin 0 (u16 ((s2.hin : Int) - s2.hout)) =
        some (s2.hin, vln_align4 (getSize m + 4)) ∧
      ∀ (lb : Mem) (bs : Nat),
        ∃ s3, vln_history_load (vln_begin s2 lb bs) 1 = some s3 ∧ Holds s3 m ∧ s3.hindex = 1 := by
  have el : vln_align4 ((size + 65536 * mask + 4) % 4294967296) % 65536 =
      vln_align4 (size + 4) := by
    unfold vln_align4
    split_ifs <;> omega
  refine ⟨by rw [hword, el], ?_, ?_, ?_⟩
  · rw [walk_step, hword, el, if_neg (by omega), if_neg (by omega)]
  · rw [walk_step, hword, el, if_neg (by omega), if_neg (by omega)]
  · obtain ⟨p1, p2, p3, p4⟩ := pow_facts k hk1 hk2
    obtain ⟨s1, e1, ht⟩ := runOps_tracked (2 ^ k) ops _ [] [] (tracked_init s0 init k hk1 hk2 hs) hops
    generalize 2 ^ k = cap at *
    obtain ⟨C, O, recs, hinv, _⟩ := ht
    have hinv1 : HistInv { s1 with lnbuf := m } cap C O _ recs :=
      hinv.of_same ⟨rfl, rfl, rfl, rfl, rfl, rfl⟩
    have hm4 : getSize m + 4 ≤ cap := by omega
    obtain ⟨s4, sge, _, scap, slt⟩ := slot_facts m cap p1 p3 hm4
    have hst := store_eq { s1 with lnbuf := m } cap C O _ recs hinv1 hm4 hpos
    have hinv2 := store_inv { s1 with lnbuf := m } cap C O _ recs hinv1 hm4
    have hhd := store_header { s1 with lnbuf := m } cap C O _ recs hinv1 hm4
    have hwk := walk_inv _ cap _ _ _ _ hinv2 0
    obtain ⟨g1, _⟩ := store_heads { s1 with lnbuf := m } _ hst hpos
    have hsl : vln_align4 (getSize m + 4) = slot m := rfl
    refine ⟨s1, storeState { s1 with lnbuf := m } cap C O, e1, hst, ?_, ?_, ?_, ?_⟩
    · rw [g1]
      show u16 ((s1.hcache : Int) + (vln_align4 (getSize m + 4) % 65536 : Nat)) = _
      rw [hsl, Nat.mod_eq_of_lt (by omega)]
    · rw [hhd]
      show m 0 + 256 * m (0 + 1) + 65536 * m (0 + 2) + 16777216 * m (0 + 3) =
        m 0 + 256 * m 1 + 65536 * (m 2 + 256 * m 3)
      simp only [Nat.zero_add]
      omega
    · rw [hwk]
      simp only [slots, Nat.add_zero, List.nil_append, locate, Option.map_some']
      rw [hsl, hinv2.hin]
      simp [slots]
    · intro lb bs
      have hinvb := hinv2.of_same (sameHist_begin _ lb bs)
      exact loadprev_newest _ cap _ _ m _ hinvb rfl (getSize_begin _ lb bs) (by omega)

/-- C36 at a concrete input: a ring that holds the header word of a record of
size 3 with mask 1, read by the turn of the loop that comes from position 12
with the slot 4, and the masked line `abc` stored in a fresh session. -/
theorem C36_load_slot_witness :
    vln_align4 ((rd32 headerRing.hpbuf (u16 ((u16 ((12 : Nat) - (4 : Nat) : Int) : Int) - 4) &&&
      headerRing.hmask) + 4) % 4294967296) % 65536 = vln_align4 (3 + 4) ∧
    vln_history_walk headerRing 0 12 4 8 =
      some (u16 ((12 : Nat) - (4 : Nat) : Int), vln_align4 (3 + 4)) ∧
    vln_history_walk headerRing (0 + 1) 12 4 8 =
      vln_history_walk headerRing 0 (u16 ((12 : Nat) - (4 : Nat) : Int)) (vln_align4 (3 + 4))
        (u16 ((u16 ((12 : Nat) - (4 : Nat) : Int) : Int) - headerRing.hout)) ∧
    ∃ s1 s2, runOps (vln_init blank init64) [] = some s1 ∧
      vln_history_store { s1 with lnbuf := setMask (lineOf [97, 98, 99]) 1 } = some s2 ∧
      s2.hin = u16 ((s1.hcache : Int) +
        (vln_align4 (getSize (setMask (lineOf [97, 98, 99]) 1) + 4) : Nat)) ∧
      rd32 s2.hpbuf (u16 ((s2.hin : Int) - 4) &&& s2.hmask) =
        getSize (setMask (lineOf [97, 98, 99]) 1) +
          65536 * getMask (setMask (lineOf [97, 98, 99]) 1) ∧
      vln_history_walk s2 0 s2.hin 0 (u16 ((s2.hin : Int) - s2.hout)) =
        some (s2.hin, vln_align4 (getSize (setMask (lineOf [97, 98, 99]) 1) + 4)) ∧
      ∀ (lb : Mem) (bs : Nat),
        ∃ s3, vln_history_load (vln_begin s2 lb bs) 1 = some s3 ∧
          Holds s3 (setMask (lineOf [97, 98, 99]) 1) ∧ s3.hindex = 1 :=
  C36_load_slot blank init64 6 (by decide) (by decide) rfl [] (by simp)
    (setMask (lineOf [97, 98, 99]) 1) (by decide) (by decide)
    headerRing 0 12 4 8 3 1 (by decide) (by decide) (by decide) (by decide) (by decide)

/-- C37. For a history size `2 ^ k` with `k ≥ 2`, every sequence of history
operations returns, and after it `in`, `out` and `cache` are multiples of 4 and
the byte counts of the calls of `vln_rvsememcpy4` in `vln_history_cache` and
`vln_history_load` are multiples of 4. A call of `vln_rvsememcpy4` with count `n`
returns, after `n / 4` word copies, exactly when `n` is a multiple of 4; for any
other count the loop does not return for any number of steps. The history size 2
passes the checks of `vln_init`; the first commit then calls `vln_rvsememcpy4`
with the count 2 and does not return. -/
theorem C37_copy_alignment (s0 : vln_t) (init : vln_init_t) (k : Nat) (hk : 2 ≤ k)
    (hs : init.histsize = 2 ^ k) (ops : List HistOp) :
    (∃ t, runOps (vln_init s0 init) ops = some t ∧
      t.hin % 4 = 0 ∧ t.hout % 4 = 0 ∧ t.hcache % 4 = 0 ∧
      (∀ m : Mem, (vln_history_cache_counts { t with lnbuf := m }).1 % 4 = 0 ∧
        (vln_history_cache_counts { t with lnbuf := m }).2 % 4 = 0) ∧
      (∀ (m : Mem) (i : Nat) (c : Nat × Nat),
        vln_history_fetch_counts { t with lnbuf := m } i = some c → c.1 % 4 = 0 ∧ c.2 % 4 = 0)) ∧
    (∀ (dst : Mem) (d : Nat) (src : Mem) (p n : Nat), n < 4294967296 →
      ((∃ r, vln_rvsememcpy4 dst d src p n = some r) ↔ n % 4 = 0)) ∧
    (∀ (fuel : Nat) (dst : Mem) (pout : Nat) (src : Mem) (pin n : Nat), n < 4294967296 →
      n % 4 ≠ 0 → vln_rvsememcpy4_loop fuel dst pout src pin n = none) ∧
    (validArgs argsSize2 ∧ (vln_init_checked true blank argsSize2).1 = 0 ∧
      vln_history_cache_counts { vln_init blank init2 with lnbuf := lineOf [97] } = (2, 6) ∧
      (vln_history_store { vln_init blank init2 with lnbuf := lineOf [97] }).isSome = false ∧
      (vln (vln_init blank init2) zeros 32 zeros [97, 13]).hangs = true) := by
  refine ⟨?_, ?_, ?_, ⟨⟨rfl, rfl, rfl, rfl, 1, by decide, by decide⟩, by decide, by decide!,
    by decide!, by decide!⟩⟩
  · obtain ⟨t, e, a⟩ := runOps_aligned ops _ (aligned_init s0 init k hk hs)
    refine ⟨t, e, a.hin, a.hout, a.hcache, ?_, ?_⟩
    · intro m
      exact cache_counts_aligned { t with lnbuf := m } ⟨a.hin, a.hout, a.hcache, a.hsize, a.mask⟩
    · intro m i c hc
      exact fetch_counts_aligned { t with lnbuf := m } ⟨a.hin, a.hout, a.hcache, a.hsize, a.mask⟩
        i c hc
  · intro dst d src p n hn
    constructor
    · rintro ⟨r, hr⟩
      by_contra h4
      unfold vln_rvsememcpy4 at hr
      rw [rvsememcpy4_loop_diverges src _ dst d _ n h4 hn] at hr
      exact absurd hr (by simp)
    · intro h4
      exact rvsememcpy4_returns dst d src p n h4 hn
  · intro fuel dst pout src pin n hn h4
    exact rvsememcpy4_loop_diverges src fuel dst pout pin n h4 hn

/-- C37 at a concrete input: a ring of 64 bytes, the line `ab` committed and recalled. -/
theorem C37_copy_alignment_witness :
    ∃ t, runOps (vln_init blank init64)
        [HistOp.store (lineOf [97, 98]), HistOp.load (lineOf []) 0 1] = some t ∧
      t.hin % 4 = 0 ∧ t.hout % 4 = 0 ∧ t.hcache % 4 = 0 ∧
      (∀ m : Mem, (vln_history_cache_counts { t with lnbuf := m }).1 % 4 = 0 ∧
        (vln_history_cache_counts { t with lnbuf := m }).2 % 4 = 0) ∧
      (∀ (m : Mem) (i : Nat) (c : Nat × Nat),
        vln_history_fetch_counts { t with lnbuf := m } i = some c → c.1 % 4 = 0 ∧ c.2 % 4 = 0) :=
  (C37_copy_alignment blank init64 6 (by decide) rfl
    [HistOp.store (lineOf [97, 98]), HistOp.load (lineOf []) 0 1]).1

/-- C38. Ring occupancy: on a ring of `2 ^ k` bytes (`2 ≤ k ≤ 15`), after every
prefix of a sequence of history operations on lines whose slots are at most the
capacity, `(cache - out) mod 2 ^ 16` and `(in - out) mod 2 ^ 16` are at most the
capacity, the ring is unchanged at every offset from the capacity on, and the two
destination ranges of the next `vln_history_cache`, from `cache & mask` and from
0, end at or before the capacity. -/
theorem C38_ring_occupancy (s0 : vln_t) (init : vln_init_t) (k : Nat)
    (hk1 : 2 ≤ k) (hk2 : k ≤ 15) (hs : init.histsize = 2 ^ k) (ops : List HistOp)
    (hops : ∀ op ∈ ops, getSize op.buf < 65536 ∧ slot op.buf ≤ 2 ^ k) (n : Nat) :
    ∃ t, runOps (vln_init s0 init) (ops.take n) = some t ∧
      u16 ((t.hcache : Int) - t.hout) ≤ 2 ^ k ∧ u16 ((t.hin : Int) - t.hout) ≤ 2 ^ k ∧
      (∀ p, 2 ^ k ≤ p → t.hpbuf p = init.history p) ∧
      (∀ m : Mem, getSize m < 65536 → slot m ≤ 2 ^ k →
        (t.hcache &&& t.hmask) + (vln_history_cache_counts { t with lnbuf := m }).1 ≤ 2 ^ k ∧
        (t.hcache &&& t.hmask) < 2 ^ k ∧
        (vln_history_cache_counts { t with lnbuf := m }).2 ≤ 2 ^ k) := by
  have hops2 : ∀ op ∈ ops.take n, getSize op.buf + 4 ≤ 2 ^ k := by
    intro op hop
    obtain ⟨a, b⟩ := hops op (List.mem_of_mem_take hop)
    exact size_le_of_slot _ _ a b
  obtain ⟨t, e, ht, hf⟩ := runOps_ring_frame (2 ^ k) (ops.take n) (vln_init s0 init) [] []
    (tracked_init s0 init k hk1 hk2 hs) hops2
  obtain ⟨o1, o2, o3⟩ := tracked_occupancy t (2 ^ k) _ _ ht
  exact ⟨t, e, o1, o2, hf, o3⟩

/-- C38 at a concrete input: three lines committed to a ring of 16 bytes. -/
theorem C38_ring_occupancy_witness :
    ∃ t, runOps (vln_init blank init16)
        ([HistOp.store (lineOf [97, 98]), HistOp.store (lineOf [99, 100, 101, 102, 103]),
          HistOp.store (lineOf [104])].take 3) = some t ∧
      u16 ((t.hcache : Int) - t.hout) ≤ 2 ^ 4 ∧ u16 ((t.hin : Int) - t.hout) ≤ 2 ^ 4 ∧
      (∀ p, 2 ^ 4 ≤ p → t.hpbuf p = init16.history p) ∧
      (∀ m : Mem, getSize m < 65536 → slot m ≤ 2 ^ 4 →
        (t.hcache &&& t.hmask) + (vln_history_cache_counts { t with lnbuf := m }).1 ≤ 2 ^ 4 ∧
        (t.hcache &&& t.hmask) < 2 ^ 4 ∧
        (vln_history_cache_counts { t with lnbuf := m }).2 ≤ 2 ^ 4) :=
  C38_ring_occupancy blank init16 4 (by decide) (by decide) rfl
    [HistOp.store (lineOf [97, 98]), HistOp.store (lineOf [99, 100, 101, 102, 103]),
      HistOp.store (lineOf [104])] (by decide) 3

/-- C39. After a successful `vln_init` with a `histsize` below `2 ^ 32` that is a
power of two, `hist.size = histsize mod 2 ^ 16` and
`hist.mask = (histsize - 1) mod 2 ^ 16`, so `hist.size = histsize` exactly when
`histsize ≤ 32768`; for `histsize = 65536` the fields are `hist.size = 0` and
`hist.mask = 65535`. -/
theorem C39_init_truncates (debug : Bool) (s : vln_t) (a : vln_init_args)
    (hh : a.histsize < 4294967296) (hv : validArgs a) :
    (vln_init_checked debug s a).1 = 0 ∧
    (vln_init_checked debug s a).2.hsize = a.histsize % 65536 ∧
    (vln_init_checked debug s a).2.hmask = (a.histsize - 1) % 65536 ∧
    ((vln_init_checked debug s a).2.hsize = a.histsize ↔ a.histsize ≤ 32768) ∧
    ((vln_init_checked true blank argsSize65536).1 = 0 ∧
      (vln_init_checked true blank argsSize65536).2.hsize = 0 ∧
      (vln_init_checked true blank argsSize65536).2.hmask = 65535 ∧
      (vln_init blank { init64 with histsize := 65536 }).hsize = 0 ∧
      (vln_init blank { init64 with histsize := 65536 }).hmask = 65535) := by
  rw [init_checked_ok debug s a hh hv]
  obtain ⟨_, _, _, _, k, k1, k2⟩ := hv
  have hge : 2 ≤ a.histsize := by
    rw [k2]
    calc 2 = 2 ^ 1 := rfl
      _ ≤ 2 ^ k := Nat.pow_le_pow_right (by decide) k1
  have es : u16 (a.histsize : Int) = a.histsize % 65536 := by unfold u16; omega
  have em : u16 ((a.histsize : Int) - 1) = (a.histsize - 1) % 65536 := by unfold u16; omega
  refine ⟨rfl, es, em, ?_, by decide⟩
  show u16 (a.histsize : Int) = a.histsize ↔ a.histsize ≤ 32768
  rw [es]
  have hp := pow_lt_iff_le k
  rw [← k2] at hp
  constructor
  · intro h
    exact hp.mp (by omega)
  · intro h
    omega

/-- C39 at concrete arguments: the history size `2 ^ 16`. -/
theorem C39_init_truncates_witness :
    (vln_init_checked false blank argsSize65536).2.hsize = 65536 % 65536 ∧
    (vln_init_checked false blank argsSize65536).2.hmask = (65536 - 1) % 65536 :=
  ⟨(C39_init_truncates false blank argsSize65536 (by decide)
      ⟨rfl, rfl, rfl, rfl, 16, by decide, by decide⟩).2.1,
    (C39_init_truncates false blank argsSize65536 (by decide)
      ⟨rfl, rfl, rfl, rfl, 16, by decide, by decide⟩).2.2.1⟩

/-- C40. `vln_sgrset` stores `ESC [ 1 m` for the bold bit alone, `ESC [ 4 m` for
underline, `ESC [ 5 m` for blink and `ESC [ 8 m` for inverse; for a foreground
value `v` from 11 to 63 it stores `ESC [ 3`, the byte `'0' + (v - 1)` and `m`, for
such a background value `ESC [ 4`, the same byte and `m`, and this byte lies
above `9`, so it is no decimal digit; the same colour code is part of the output
for every word with that foreground or background value. -/
theorem C40_sgr_codes (buf : Mem) (idx v : Nat) (h1 : 11 ≤ v) (h2 : v ≤ 63) :
    (emitted (vln_sgrset zeros 0 64) = [27, 91, 49, 109] ∧
      emitted (vln_sgrset zeros 0 128) = [27, 91, 52, 109] ∧
      emitted (vln_sgrset zeros 0 16384) = [27, 91, 53, 109] ∧
      emitted (vln_sgrset zeros 0 32768) = [27, 91, 56, 109]) ∧
    vln_sgrset buf idx v = (wrList buf idx [27, 91, 51, 48 + (v - 1), 109, 0], idx + 5) ∧
    vln_sgrset buf idx (256 * v) =
      (wrList buf idx [27, 91, 52, 48 + (v - 1), 109, 0], idx + 5) ∧
    (57 < 48 + (v - 1) ∧ 48 + (v - 1) < 128) ∧
    (∀ raw, raw % 64 = v → [51, 48 + (v - 1)] ∈ sgrCodes raw) ∧
    (∀ raw, raw / 256 % 64 = v → [52, 48 + (v - 1)] ∈ sgrCodes raw) := by
  refine ⟨by decide!, ?_, ?_, by omega, ?_, ?_⟩
  · rw [sgrset_codes buf idx v (by omega) (by omega), sgrCodes_fg v (by omega) h2]
    rfl
  · rw [sgrset_codes buf idx (256 * v) (by omega) (by omega), sgrCodes_bg v (by omega) h2]
    rfl
  · intro raw hr
    unfold sgrCodes
    rw [hr, if_pos (show v ≠ 0 by omega)]
    simp
  · intro raw hr
    unfold sgrCodes
    rw [hr, if_pos (show v ≠ 0 by omega)]
    simp

/-- C40 at a concrete input: the foreground value 11. -/
theorem C40_sgr_codes_witness :
    vln_sgrset zeros 0 11 = (wrList zeros 0 [27, 91, 51, 48 + (11 - 1), 109, 0], 0 + 5) :=
  (C40_sgr_codes zeros 0 11 (by decide) (by decide)).2.1

end Vln
